import Mathlib

/-!
# The floating-point to bit-vector encoder of ESBMC (`solvers/smt/fp/fp_conv.cpp`)

The encoder builds solver terms; a term built from concrete operands denotes one
bit-vector.  The embedding below gives every term its denotation: a term is a
pair of a sort (data width, and the fraction width of a floating-point sort)
and an unsigned value, and every constructor of the SMT interface is the
function that the SMT-LIB theory of fixed-size bit-vectors assigns to it.
Boolean-sorted terms are `Bool`.  `dbg_decouple` is empty unless DEBUG is set
and is left out.  Sizes (`unsigned`, `std::size_t`) are natural numbers.
Applications are read by value: the result takes the sort the source passes, and
the width of a shift amount or of a compared operand does not enter the
denotation.

The later sections embed the accessors of a floatbv type (`util/std_types.h`),
the goto-state snapshot of the symbolic executor
(`goto-symex/goto_symex_state.h`), the linker of the built-in C library
(`ansi-c/cprover_library.cpp`), and the arithmetic sorts and the model
read-back `get_bv` of the Yices adapter (`solvers/yices/yices_conv.cpp`), whose
`int64_t` accumulator is a 64-bit pattern held as a natural number modulo 2^64.
-/

namespace esbmc

/-! ## Sorts and terms -/

/-- A sort as `yices_convt::mk_bv_sort` / `mk_bv_fp_sort` build it: the data
width, and the secondary width (fraction bits of a floating-point sort, 0 for a
plain bit-vector). -/
structure smt_sort where
  data_width : Nat
  secondary_width : Nat
deriving DecidableEq, Repr

/-- A term evaluated at concrete operands: its sort and its unsigned value. -/
structure smt_ast where
  sort : smt_sort
  val : Nat
deriving DecidableEq, Repr

/-- Accessor `smt_sort::get_data_width`. -/
def smt_sort.get_data_width (s : smt_sort) : Nat := s.data_width

/-- Modelled from the spec: `smt_sort::get_significand_width` (declared in
smt_conv.h, which is not among the sources).  A value of format (e, s) is stored
in 1 + e + (s - 1) bits and `mk_bv_fp_sort ew sw` receives the fraction width
s - 1, so the significand width is the stored secondary width plus one. -/
def smt_sort.get_significand_width (s : smt_sort) : Nat := s.secondary_width + 1

/-- Modelled from the spec: `smt_sort::get_exponent_width` (declared in
smt_conv.h, which is not among the sources): the bits between the sign bit and
the trailing significand. -/
def smt_sort.get_exponent_width (s : smt_sort) : Nat :=
  (s.get_data_width - 2) - (s.get_significand_width - 2)

/-- Sort constructor `yices_convt::mk_bv_sort`. -/
def mk_bv_sort (width : Nat) : smt_sort := ⟨width, 0⟩

/-- Sort constructor `yices_convt::mk_bv_fp_sort`. -/
def mk_bv_fp_sort (ew sw : Nat) : smt_sort := ⟨ew + sw + 1, sw⟩

/-- Sort constructor `fp_convt::mk_fpbv_sort`. -/
def mk_fpbv_sort (ew sw : Nat) : smt_sort := mk_bv_fp_sort ew sw

/-- A term is well formed when its value fits its data width. -/
def smt_ast.wf (a : smt_ast) : Prop := a.val < 2 ^ a.sort.data_width

instance (a : smt_ast) : Decidable a.wf := by unfold smt_ast.wf; infer_instance

/-! ## The SMT construction interface (spec §4.H), by denotation -/

/-- The constant `ULONG_LONG_MAX` of `<climits>`. -/
def ULONG_LONG_MAX : Int := 2 ^ 64 - 1

/-- Bit-vector constant `mk_smt_bv(sort, big_int)`: the integer modulo 2^width. -/
def mk_smt_bv (theint : Int) (w : Nat) : smt_ast :=
  ⟨mk_bv_sort w, (theint % (2 : Int) ^ w).toNat⟩

/-- Slice `mk_extract(a, high, low)`: bits high..low of a. -/
def mk_extract (a : smt_ast) (high low : Nat) : smt_ast :=
  ⟨mk_bv_sort (high - low + 1), a.val / 2 ^ low % 2 ^ (high - low + 1)⟩

/-- Concatenation `mk_concat(a, b)`: a above b. -/
def mk_concat (a b : smt_ast) : smt_ast :=
  ⟨mk_bv_sort (a.sort.data_width + b.sort.data_width),
    a.val * 2 ^ b.sort.data_width + b.val⟩

/-- Zero extension `mk_zero_ext(a, topwidth)`. -/
def mk_zero_ext (a : smt_ast) (topwidth : Nat) : smt_ast :=
  ⟨mk_bv_sort (a.sort.data_width + topwidth), a.val⟩

/-- Sign extension `mk_sign_ext(a, topwidth)`: the top bit of a is replicated. -/
def mk_sign_ext (a : smt_ast) (topwidth : Nat) : smt_ast :=
  ⟨mk_bv_sort (a.sort.data_width + topwidth),
    if a.val / 2 ^ (a.sort.data_width - 1) % 2 = 1
    then a.val + (2 ^ topwidth - 1) * 2 ^ a.sort.data_width
    else a.val⟩

/-- Reduction `mk_bvredor(a)`: the one-bit or of all bits. -/
def mk_bvredor (a : smt_ast) : smt_ast :=
  ⟨mk_bv_sort 1, if a.val = 0 then 0 else 1⟩

/-- Reduction `mk_bvredand(a)`: the one-bit and of all bits. -/
def mk_bvredand (a : smt_ast) : smt_ast :=
  ⟨mk_bv_sort 1, if a.val = 2 ^ a.sort.data_width - 1 then 1 else 0⟩

/-- If-then-else `mk_ite(c, t, e)`. -/
def mk_ite {α : Type} (c : Bool) (t e : α) : α := if c then t else e

/-- Application `mk_func_app(boolean_sort, SMT_FUNC_EQ, a, b)` on bit-vectors. -/
def mk_eq (a b : smt_ast) : Bool := decide (a.val = b.val)

/-- Application `mk_func_app(boolean_sort, SMT_FUNC_NOTEQ, a, b)` on bit-vectors. -/
def mk_noteq (a b : smt_ast) : Bool := !decide (a.val = b.val)

/-- Application `mk_func_app(s, SMT_FUNC_BVADD, a, b)`. -/
def mk_bvadd (s : smt_sort) (a b : smt_ast) : smt_ast :=
  ⟨s, (a.val + b.val) % 2 ^ s.data_width⟩

/-- Application `mk_func_app(s, SMT_FUNC_BVSUB, a, b)`. -/
def mk_bvsub (s : smt_sort) (a b : smt_ast) : smt_ast :=
  ⟨s, (a.val + (2 ^ s.data_width - b.val % 2 ^ s.data_width)) % 2 ^ s.data_width⟩

/-- Application `mk_func_app(s, SMT_FUNC_BVNEG, a)`. -/
def mk_bvneg (s : smt_sort) (a : smt_ast) : smt_ast :=
  ⟨s, (2 ^ s.data_width - a.val % 2 ^ s.data_width) % 2 ^ s.data_width⟩

/-- Application `mk_func_app(s, SMT_FUNC_BVNOT, a)`. -/
def mk_bvnot (s : smt_sort) (a : smt_ast) : smt_ast :=
  ⟨s, 2 ^ s.data_width - 1 - a.val % 2 ^ s.data_width⟩

/-- Application `mk_func_app(s, SMT_FUNC_BVOR, a, b)`. -/
def mk_bvor (s : smt_sort) (a b : smt_ast) : smt_ast :=
  ⟨s, (a.val ||| b.val) % 2 ^ s.data_width⟩

/-- Application `mk_func_app(s, SMT_FUNC_BVSHL, a, b)`. -/
def mk_bvshl (s : smt_sort) (a b : smt_ast) : smt_ast :=
  ⟨s, (a.val * 2 ^ b.val) % 2 ^ s.data_width⟩

/-- Application `mk_func_app(s, SMT_FUNC_BVLSHR, a, b)`. -/
def mk_bvlshr (s : smt_sort) (a b : smt_ast) : smt_ast :=
  ⟨s, (a.val / 2 ^ b.val) % 2 ^ s.data_width⟩

/-- Application `mk_func_app(boolean_sort, SMT_FUNC_BVULT, a, b)`. -/
def mk_bvult (a b : smt_ast) : Bool := decide (a.val < b.val)

/-- Application `mk_func_app(boolean_sort, SMT_FUNC_BVULTE, a, b)`. -/
def mk_bvulte (a b : smt_ast) : Bool := decide (a.val ≤ b.val)

/-- The two's-complement reading of a term. -/
def smt_ast.to_signed (a : smt_ast) : Int :=
  if a.val < 2 ^ (a.sort.data_width - 1) then (a.val : Int)
  else (a.val : Int) - 2 ^ a.sort.data_width

/-- Application `mk_func_app(boolean_sort, SMT_FUNC_BVSLTE, a, b)`. -/
def mk_bvslte (a b : smt_ast) : Bool := decide (a.to_signed ≤ b.to_signed)

/-- Sort change `fp_convt::mk_from_bv_to_fp`: the term keeps its bits. -/
def mk_from_bv_to_fp (op : smt_ast) (to_sort : smt_sort) : smt_ast := ⟨to_sort, op.val⟩

/-! ## Constants of the encoder -/

/-- Modelled from the spec: `power2m1(n, negated)` of the big-integer helpers,
which are not among the sources: 2^n - 1 (the all-ones pattern 1…1 of n bits,
the bias for n = ebits - 1), negated on request. -/
def power2m1 (n : Nat) (negated : Bool) : Int :=
  if negated then -((2 : Int) ^ n - 1) else (2 : Int) ^ n - 1

/-- Modelled from the spec: `ieee_floatt::rounding_modet` (ieee_float.h is not
among the sources), with the fixed encoding 0 = RNE, 1 = RTA, 2 = RTP, 3 = RTN,
4 = RTZ. -/
inductive rounding_modet where
  | ROUND_TO_EVEN
  | ROUND_TO_AWAY
  | ROUND_TO_PLUS_INF
  | ROUND_TO_MINUS_INF
  | ROUND_TO_ZERO
deriving DecidableEq, Repr

/-- Numeric value of a rounding mode (the enumerator's integer). -/
def rounding_modet.to_int : rounding_modet → Int
  | .ROUND_TO_EVEN => 0
  | .ROUND_TO_AWAY => 1
  | .ROUND_TO_PLUS_INF => 2
  | .ROUND_TO_MINUS_INF => 3
  | .ROUND_TO_ZERO => 4

/-- Constant `fp_convt::mk_smt_fpbv_rm`. -/
def mk_smt_fpbv_rm (rm : rounding_modet) : smt_ast := mk_smt_bv rm.to_int 3

/-- Test `fp_convt::mk_is_rm`: all five enumerators take the EQ branch. -/
def mk_is_rm (rme : smt_ast) (rm : rounding_modet) : Bool :=
  let rm_num := mk_smt_bv rm.to_int 3
  mk_eq rme rm_num

/-- Constant `fp_convt::mk_min_exp`. -/
def mk_min_exp (ebits : Nat) : smt_ast :=
  let z := power2m1 (ebits - 1) true + 1
  mk_smt_bv z ebits

/-- Constant `fp_convt::mk_max_exp`. -/
def mk_max_exp (ebits : Nat) : smt_ast :=
  let z := power2m1 (ebits - 1) false
  mk_smt_bv z ebits

/-- Constant `fp_convt::mk_top_exp`. -/
def mk_top_exp (sz : Nat) : smt_ast := mk_smt_bv (power2m1 sz false) sz

/-- Constant `fp_convt::mk_bot_exp`. -/
def mk_bot_exp (sz : Nat) : smt_ast := mk_smt_bv 0 sz

/-- Function `fp_convt::mk_bias`. -/
def mk_bias (e : smt_ast) : smt_ast :=
  let ebits := e.sort.get_data_width
  let bias := mk_smt_bv (power2m1 (ebits - 1) false) ebits
  mk_bvadd e.sort e bias

/-- Function `fp_convt::mk_unbias`. -/
def mk_unbias (src : smt_ast) : smt_ast :=
  let ebits := src.sort.get_data_width
  let e_plus_one := mk_bvadd src.sort src (mk_smt_bv 1 ebits)
  let leading := mk_extract e_plus_one (ebits - 1) (ebits - 1)
  let n_leading := mk_bvnot leading.sort leading
  let rest := mk_extract e_plus_one (ebits - 2) 0
  mk_concat n_leading rest

/-! ## Field extraction and classification -/

/-- Static helper `extract_exponent`. -/
def extract_exponent (fp : smt_ast) : smt_ast :=
  let exp_top := fp.sort.get_data_width - 2
  let exp_bot := fp.sort.get_significand_width - 2
  mk_extract fp exp_top (exp_bot + 1)

/-- Static helper `extract_significand`. -/
def extract_significand (fp : smt_ast) : smt_ast :=
  mk_extract fp (fp.sort.get_significand_width - 2) 0

/-- Static helper `extract_signbit`. -/
def extract_signbit (fp : smt_ast) : smt_ast :=
  mk_extract fp (fp.sort.get_data_width - 1) (fp.sort.get_data_width - 1)

/-- Static helper `extract_exp_sig`. -/
def extract_exp_sig (fp : smt_ast) : smt_ast :=
  mk_extract fp (fp.sort.get_data_width - 2) 0

/-- Classifier `fp_convt::mk_smt_fpbv_is_nan`. -/
def mk_smt_fpbv_is_nan (op : smt_ast) : Bool :=
  let exp := extract_exponent op
  let sig := extract_significand op
  let top_exp := mk_top_exp exp.sort.get_data_width
  let zero := mk_smt_bv 0 sig.sort.get_data_width
  let sig_is_zero := mk_eq sig zero
  let sig_is_not_zero := !sig_is_zero
  let exp_is_top := mk_eq exp top_exp
  exp_is_top && sig_is_not_zero

/-- Classifier `fp_convt::mk_smt_fpbv_is_inf`. -/
def mk_smt_fpbv_is_inf (op : smt_ast) : Bool :=
  let exp := extract_exponent op
  let sig := extract_significand op
  let top_exp := mk_top_exp exp.sort.get_data_width
  let zero := mk_smt_bv 0 sig.sort.get_data_width
  let sig_is_zero := mk_eq sig zero
  let exp_is_top := mk_eq exp top_exp
  exp_is_top && sig_is_zero

/-- Classifier `fp_convt::mk_smt_fpbv_is_zero`. -/
def mk_smt_fpbv_is_zero (op : smt_ast) : Bool :=
  let zero := mk_smt_bv 0 (op.sort.get_data_width - 1)
  let ew_sw := extract_exp_sig op
  mk_eq ew_sw zero

/-- Classifier `fp_convt::mk_is_denormal`. -/
def mk_is_denormal (op : smt_ast) : Bool :=
  let exp := extract_exponent op
  let zero := mk_smt_bv 0 exp.sort.get_data_width
  let zexp := mk_eq exp zero
  let is_zero := mk_smt_fpbv_is_zero op
  let n_is_zero := !is_zero
  n_is_zero && zexp

/-- Classifier `fp_convt::mk_smt_fpbv_is_normal`. -/
def mk_smt_fpbv_is_normal (op : smt_ast) : Bool :=
  let exp := extract_exponent op
  let is_denormal := mk_is_denormal op
  let is_zero := mk_smt_fpbv_is_zero op
  let ebits := exp.sort.get_data_width
  let p := mk_smt_bv (power2m1 ebits false) ebits
  let is_special := mk_eq exp p
  let or_ex := is_special || is_denormal
  let or_ex := is_zero || or_ex
  !or_ex

/-- Classifier `fp_convt::mk_smt_fpbv_is_negative`. -/
def mk_smt_fpbv_is_negative (op : smt_ast) : Bool :=
  let zero := mk_smt_bv 0 1
  let sign := extract_signbit op
  mk_noteq sign zero

/-- Classifier `fp_convt::mk_smt_fpbv_is_positive`. -/
def mk_smt_fpbv_is_positive (op : smt_ast) : Bool :=
  let zero := mk_smt_bv 0 1
  let sign := extract_signbit op
  mk_eq sign zero

/-! ## Comparisons -/

/-- Comparison `fp_convt::mk_smt_fpbv_eq`. -/
def mk_smt_fpbv_eq (lhs rhs : smt_ast) : Bool :=
  let lhs_is_nan := mk_smt_fpbv_is_nan lhs
  let rhs_is_nan := mk_smt_fpbv_is_nan rhs
  let either_is_nan := lhs_is_nan || rhs_is_nan
  let lhs_is_zero := mk_smt_fpbv_is_zero lhs
  let rhs_is_zero := mk_smt_fpbv_is_zero rhs
  let both_zero := lhs_is_zero && rhs_is_zero
  let are_equal := mk_eq lhs rhs
  let either_zero_or_equal := both_zero || are_equal
  let not_nan := !either_is_nan
  either_zero_or_equal && not_nan

/-- Comparison `fp_convt::mk_smt_fpbv_lt`.  The source reads the sign of the
right operand from `lhs` (line 1227); the embedding keeps that. -/
def mk_smt_fpbv_lt (lhs rhs : smt_ast) : Bool :=
  let lhs_is_nan := mk_smt_fpbv_is_nan lhs
  let rhs_is_nan := mk_smt_fpbv_is_nan rhs
  let either_is_nan := lhs_is_nan || rhs_is_nan
  let not_nan := !either_is_nan
  let lhs_is_zero := mk_smt_fpbv_is_zero lhs
  let rhs_is_zero := mk_smt_fpbv_is_zero rhs
  let both_zero := lhs_is_zero && rhs_is_zero
  let not_zero := !both_zero
  let lhs_exp_sig := extract_exp_sig lhs
  let lhs_sign := extract_signbit lhs
  let rhs_exp_sig := extract_exp_sig rhs
  let rhs_sign := extract_signbit lhs
  let signs_equal := mk_eq lhs_sign rhs_sign
  let ult := mk_bvult lhs_exp_sig rhs_exp_sig
  let lhs_sign_eq_1 := mk_eq lhs_sign (mk_smt_bv 1 1)
  let comp := mk_ite signs_equal ult lhs_sign_eq_1
  let not_zeros_not_nan := not_zero && not_nan
  not_zeros_not_nan && comp

/-! ## Rounding decision -/

/-- Function `fp_convt::mk_rounding_decision`. -/
def mk_rounding_decision (rm sgn last round sticky : smt_ast) : smt_ast :=
  let last_or_sticky := mk_bvor last.sort last sticky
  let round_or_sticky := mk_bvor round.sort round sticky
  let not_round := mk_bvnot round.sort round
  let not_lors := mk_bvnot last_or_sticky.sort last_or_sticky
  let not_rors := mk_bvnot round_or_sticky.sort round_or_sticky
  let not_sgn := mk_bvnot sgn.sort sgn
  let inc_teven := mk_bvnot not_round.sort (mk_bvor last.sort not_round not_lors)
  let inc_taway := round
  let inc_pos := mk_bvnot sgn.sort (mk_bvor sgn.sort sgn not_rors)
  let inc_neg := mk_bvnot not_sgn.sort (mk_bvor not_sgn.sort not_sgn not_rors)
  let nil_1 := mk_smt_bv 0 1
  let rm_is_to_neg := mk_is_rm rm .ROUND_TO_MINUS_INF
  let rm_is_to_pos := mk_is_rm rm .ROUND_TO_PLUS_INF
  let rm_is_away := mk_is_rm rm .ROUND_TO_AWAY
  let rm_is_even := mk_is_rm rm .ROUND_TO_EVEN
  let inc_c4 := mk_ite rm_is_to_neg inc_neg nil_1
  let inc_c3 := mk_ite rm_is_to_pos inc_pos inc_c4
  let inc_c2 := mk_ite rm_is_away inc_taway inc_c3
  mk_ite rm_is_even inc_teven inc_c2

/-! ## Unpacking -/

/-- Function `fp_convt::mk_leading_zeros`, with the recursion depth made
explicit: `fuel` bounds the number of nested halvings. -/
def mk_leading_zeros_fuel : Nat → smt_ast → Nat → smt_ast
  | 0, _, max_bits => mk_smt_bv 0 max_bits
  | fuel + 1, src, max_bits =>
    let bv_sz := src.sort.get_data_width
    if bv_sz = 0 then mk_smt_bv 0 max_bits
    else if bv_sz = 1 then
      let nil_1 := mk_smt_bv 0 1
      let one_m := mk_smt_bv 1 max_bits
      let nil_m := mk_smt_bv 0 max_bits
      let eq := mk_eq src nil_1
      mk_ite eq one_m nil_m
    else
      let H := mk_extract src (bv_sz - 1) (bv_sz / 2)
      let L := mk_extract src (bv_sz / 2 - 1) 0
      let H_size := H.sort.get_data_width
      let lzH := mk_leading_zeros_fuel fuel H max_bits
      let lzL := mk_leading_zeros_fuel fuel L max_bits
      let nil_h := mk_smt_bv 0 H_size
      let H_is_zero := mk_eq H nil_h
      let h_m := mk_smt_bv H_size max_bits
      let sum := mk_bvadd lzL.sort h_m lzL
      mk_ite H_is_zero sum lzH

/-- Function `fp_convt::mk_leading_zeros`: every halving shortens the operand,
so a depth equal to the operand width is never exhausted. -/
def mk_leading_zeros (src : smt_ast) (max_bits : Nat) : smt_ast :=
  mk_leading_zeros_fuel src.sort.get_data_width src max_bits

/-- The four outputs of `fp_convt::unpack`. -/
structure unpacked where
  sgn : smt_ast
  sig : smt_ast
  exp : smt_ast
  lz : smt_ast
deriving DecidableEq, Repr

/-- Function `fp_convt::unpack` (its reference parameters sgn, sig, exp, lz are
the fields of the result). -/
def unpack (src : smt_ast) (normalize : Bool) : unpacked :=
  let sbits := src.sort.get_significand_width
  let ebits := src.sort.get_exponent_width
  let sgn := extract_signbit src
  let exp := extract_exponent src
  let sig := extract_significand src
  let is_normal := mk_smt_fpbv_is_normal src
  let normal_sig := mk_concat (mk_smt_bv 1 1) sig
  let normal_exp := mk_unbias exp
  let denormal_sig := mk_zero_ext sig 1
  let denormal_exp := mk_smt_bv 1 ebits
  let denormal_exp := mk_unbias denormal_exp
  let zero_e := mk_smt_bv 0 ebits
  let lz_and_denormal_sig : smt_ast × smt_ast :=
    if normalize then
      let zero_s := mk_smt_bv 0 sbits
      let is_sig_zero := mk_eq zero_s denormal_sig
      let lz_d := mk_leading_zeros denormal_sig ebits
      let norm_or_zero := is_normal || is_sig_zero
      let lz := mk_ite norm_or_zero zero_e lz_d
      let shift := mk_ite is_sig_zero zero_e lz
      if ebits ≤ sbits then
        let q := mk_zero_ext shift (sbits - ebits)
        (lz, mk_bvshl denormal_sig.sort denormal_sig q)
      else
        let zero_ems := mk_smt_bv 0 (ebits - sbits)
        let sbits_s := mk_smt_bv sbits sbits
        let sh := mk_extract shift (ebits - 1) sbits
        let is_sh_zero := mk_eq zero_ems sh
        let short_shift := mk_extract shift (sbits - 1) 0
        let sl := mk_ite is_sh_zero short_shift sbits_s
        (lz, mk_bvshl denormal_sig.sort denormal_sig sl)
    else
      (zero_e, denormal_sig)
  let lz := lz_and_denormal_sig.1
  let denormal_sig := lz_and_denormal_sig.2
  let sig := mk_ite is_normal normal_sig denormal_sig
  let exp := mk_ite is_normal normal_exp denormal_exp
  ⟨sgn, sig, exp, lz⟩

/-- The conditions that `fp_convt::unpack` asserts on its way (lines 1416-1418,
1452 and 1484-1486): true when none of the assertions fails. -/
def unpack_asserts (src : smt_ast) (normalize : Bool) : Bool :=
  let sbits := src.sort.get_significand_width
  let ebits := src.sort.get_exponent_width
  let sgn := extract_signbit src
  let exp := extract_exponent src
  let sig := extract_significand src
  let is_normal := mk_smt_fpbv_is_normal src
  let denormal_sig := mk_zero_ext sig 1
  let zero_e := mk_smt_bv 0 ebits
  let zero_s := mk_smt_bv 0 sbits
  let is_sig_zero := mk_eq zero_s denormal_sig
  let lz_d := mk_leading_zeros denormal_sig ebits
  let norm_or_zero := is_normal || is_sig_zero
  let lz := mk_ite norm_or_zero zero_e lz_d
  let shift := mk_ite is_sig_zero zero_e lz
  let r := unpack src normalize
  decide (sgn.sort.get_data_width = 1)
    && decide (exp.sort.get_data_width = ebits)
    && decide (sig.sort.get_data_width = sbits - 1)
    && (!normalize || decide (shift.sort.get_data_width = ebits))
    && decide (r.sgn.sort.get_data_width = 1)
    && decide (r.sig.sort.get_data_width = sbits)
    && decide (r.exp.sort.get_data_width = ebits)

/-! ## Rounding -/

/-- The overflow test OVF1 of `fp_convt::round` (lines 1551-1575). -/
def round_OVF1 (sig exp : smt_ast) (ebits sbits : Nat) : Bool :=
  let e_max := mk_max_exp ebits
  let one_1 := mk_smt_bv 1 1
  let h_exp := mk_extract exp (ebits + 1) (ebits + 1)
  let sh_exp := mk_extract exp ebits ebits
  let th_exp := mk_extract exp (ebits - 1) (ebits - 1)
  let e3 := mk_eq h_exp one_1
  let e2 := mk_eq sh_exp one_1
  let e1 := mk_eq th_exp one_1
  let e21 := e2 || e1
  let ne3 := !e3
  let e_top_three := ne3 && e21
  let ext_emax := mk_zero_ext e_max 2
  let t_sig := mk_extract sig (sbits + 3) (sbits + 3)
  let e_eq_emax := mk_eq ext_emax exp
  let sigm1 := mk_eq t_sig one_1
  let e_eq_emax_and_sigm1 := e_eq_emax && sigm1
  e_top_three || e_eq_emax_and_sigm1

/-- The test TINY of `fp_convt::round` (lines 1578-1592). -/
def round_TINY (sig exp : smt_ast) (ebits : Nat) : Bool :=
  let e_min := mk_min_exp ebits
  let lz := mk_leading_zeros sig (ebits + 2)
  let t := mk_bvadd exp.sort exp (mk_smt_bv 1 (ebits + 2))
  let t := mk_bvsub exp.sort t lz
  let t := mk_bvsub exp.sort t (mk_sign_ext e_min 2)
  mk_bvslte t (mk_smt_bv ULONG_LONG_MAX (ebits + 2))

/-- The exponent beta of `fp_convt::round` (lines 1594-1598). -/
def round_beta (sig exp : smt_ast) (ebits : Nat) : smt_ast :=
  let lz := mk_leading_zeros sig (ebits + 2)
  mk_bvadd exp.sort (mk_bvsub exp.sort exp lz) (mk_smt_bv 1 (ebits + 2))

/-- The shift amount sigma of `fp_convt::round` (lines 1600-1607). -/
def round_sigma (sig exp : smt_ast) (ebits : Nat) : smt_ast :=
  let e_min := mk_min_exp ebits
  let lz := mk_leading_zeros sig (ebits + 2)
  let TINY := round_TINY sig exp ebits
  let sigma_add := mk_bvsub exp.sort exp (mk_sign_ext e_min 2)
  let sigma_add := mk_bvadd sigma_add.sort sigma_add (mk_smt_bv 1 (ebits + 2))
  mk_ite TINY sigma_add lz

/-- The normalization shift of `fp_convt::round` (lines 1609-1636): the
significand, doubled in width, shifted by sigma. -/
def round_big_sh_sig (sig sigma : smt_ast) (ebits sbits : Nat) : smt_ast :=
  let sig_size := sig.sort.get_data_width
  let sigma_size := ebits + 2
  let sigma_neg := mk_bvneg sigma.sort sigma
  let sigma_cap := mk_smt_bv (sbits + 2 : Nat) sigma_size
  let sigma_le_cap := mk_bvulte sigma_neg sigma_cap
  let sigma_neg_capped := mk_ite sigma_le_cap sigma_neg sigma_cap
  let sigma_lt_zero := mk_bvslte sigma (mk_smt_bv ULONG_LONG_MAX sigma_size)
  let sig_ext := mk_concat sig (mk_smt_bv 0 sig_size)
  let rs_sig := mk_bvlshr sig_ext.sort sig_ext
    (mk_zero_ext sigma_neg_capped (2 * sig_size - sigma_size))
  let ls_sig := mk_bvshl sig_ext.sort sig_ext
    (mk_zero_ext sigma (2 * sig_size - sigma_size))
  mk_ite sigma_lt_zero rs_sig ls_sig

/-- The shifted significand of `fp_convt::round` with its sticky bit or-ed in
(lines 1638-1646); `sig_size` is the width of the incoming significand. -/
def round_sig_sticky (big_sh_sig : smt_ast) (sig_size sbits : Nat) : smt_ast :=
  let sig_extract_low_bit := (2 * sig_size - 1) - (sbits + 2) + 1
  let sig := mk_extract big_sh_sig (2 * sig_size - 1) sig_extract_low_bit
  let sticky := mk_bvredor (mk_extract big_sh_sig (sig_extract_low_bit - 1) 0)
  let ext_sticky := mk_zero_ext sticky (sbits + 1)
  mk_bvor sig.sort sig ext_sticky

/-- Significand rounding of `fp_convt::round` (lines 1651-1664): the
significand plus the rounding decision, one bit wider. -/
def round_sig_inc (rm sgn sig : smt_ast) (sbits : Nat) : smt_ast :=
  let sticky := mk_extract sig 0 0
  let round := mk_extract sig 1 1
  let last := mk_extract sig 2 2
  let sig := mk_extract sig (sbits + 1) 2
  let inc := mk_rounding_decision rm sgn last round sticky
  mk_bvadd (mk_bv_sort (sig.sort.get_data_width + 1))
    (mk_zero_ext sig 1) (mk_zero_ext inc sbits)

/-- Exponent adjustment, overflow selection and packing of `fp_convt::round`
(lines 1666-1740): `sig` is the incremented significand, `exp` the exponent
chosen by TINY. -/
def round_finish (rm sgn sig exp : smt_ast) (OVF1 : Bool) (ebits sbits : Nat) :
    smt_ast :=
  let one_1 := mk_smt_bv 1 1
  let t_sig := mk_extract sig sbits sbits
  let SIGovf := mk_eq t_sig one_1
  let hallbut1_sig := mk_extract sig sbits 1
  let lallbut1_sig := mk_extract sig (sbits - 1) 0
  let sig := mk_ite SIGovf hallbut1_sig lallbut1_sig
  let exp_p1 := mk_bvadd exp.sort exp (mk_smt_bv 1 (ebits + 2))
  let exp := mk_ite SIGovf exp_p1 exp
  let biased_exp := mk_bias (mk_extract exp (ebits - 1) 0)
  let exp_redand := mk_bvredand biased_exp
  let preOVF2 := mk_eq exp_redand one_1
  let OVF2 := SIGovf && preOVF2
  let pem2m1 := mk_smt_bv (power2m1 (ebits - 2) false) ebits
  let biased_exp := mk_ite OVF2 pem2m1 biased_exp
  let OVF := OVF1 || OVF2
  let top_exp := mk_top_exp ebits
  let bot_exp := mk_bot_exp ebits
  let nil_1 := mk_smt_bv 0 1
  let rm_is_to_zero := mk_is_rm rm .ROUND_TO_ZERO
  let rm_is_to_neg := mk_is_rm rm .ROUND_TO_MINUS_INF
  let rm_is_to_pos := mk_is_rm rm .ROUND_TO_PLUS_INF
  let rm_zero_or_neg := rm_is_to_zero || rm_is_to_neg
  let rm_zero_or_pos := rm_is_to_zero || rm_is_to_pos
  let zero1 := mk_smt_bv 0 1
  let sgn_is_zero := mk_eq sgn zero1
  let max_sig := mk_smt_bv (power2m1 (sbits - 1) false) (sbits - 1)
  let max_exp := mk_concat
    (mk_smt_bv (power2m1 (ebits - 1) false) (ebits - 1)) (mk_smt_bv 0 1)
  let inf_sig := mk_smt_bv 0 (sbits - 1)
  let inf_exp := top_exp
  let max_inf_exp_neg := mk_ite rm_zero_or_pos max_exp inf_exp
  let max_inf_exp_pos := mk_ite rm_zero_or_neg max_exp inf_exp
  let ovfl_exp := mk_ite sgn_is_zero max_inf_exp_pos max_inf_exp_neg
  let t_sig := mk_extract sig (sbits - 1) (sbits - 1)
  let n_d_check := mk_eq t_sig nil_1
  let n_d_exp := mk_ite n_d_check bot_exp biased_exp
  let exp := mk_ite OVF ovfl_exp n_d_exp
  let max_inf_sig_neg := mk_ite rm_zero_or_pos max_sig inf_sig
  let max_inf_sig_pos := mk_ite rm_zero_or_neg max_sig inf_sig
  let ovfl_sig := mk_ite sgn_is_zero max_inf_sig_pos max_inf_sig_neg
  let rest_sig := mk_extract sig (sbits - 2) 0
  let sig := mk_ite OVF ovfl_sig rest_sig
  mk_from_bv_to_fp (mk_concat sgn (mk_concat exp sig)) (mk_fpbv_sort ebits (sbits - 1))

/-- Function `fp_convt::round` (its reference parameter `result` is the value
returned), assembled from the stages above in source order. -/
def round (rm sgn sig exp : smt_ast) (ebits sbits : Nat) : smt_ast :=
  let e_min := mk_min_exp ebits
  let OVF1 := round_OVF1 sig exp ebits sbits
  let TINY := round_TINY sig exp ebits
  let beta := round_beta sig exp ebits
  let sigma := round_sigma sig exp ebits
  let sig_size := sig.sort.get_data_width
  let big_sh_sig := round_big_sh_sig sig sigma ebits sbits
  let sig := round_sig_sticky big_sh_sig sig_size sbits
  let ext_emin := mk_zero_ext e_min 2
  let exp := mk_ite TINY ext_emin beta
  let sig := round_sig_inc rm sgn sig sbits
  round_finish rm sgn sig exp OVF1 ebits sbits

/-- The packing step of `fp_convt::round` on a path without overflow (lines
1682, 1725-1728 and 1735-1740): sign bit, exponent field (0 when the top
significand bit is 0, the biased exponent otherwise) and trailing significand. -/
def pack (sgn sig exp : smt_ast) (ebits sbits : Nat) : smt_ast :=
  let biased_exp := mk_bias (mk_extract exp (ebits - 1) 0)
  let bot_exp := mk_bot_exp ebits
  let nil_1 := mk_smt_bv 0 1
  let t_sig := mk_extract sig (sbits - 1) (sbits - 1)
  let n_d_check := mk_eq t_sig nil_1
  let n_d_exp := mk_ite n_d_check bot_exp biased_exp
  let rest_sig := mk_extract sig (sbits - 2) 0
  mk_from_bv_to_fp (mk_concat sgn (mk_concat n_d_exp rest_sig))
    (mk_fpbv_sort ebits (sbits - 1))

/-! ## Values used to state the properties -/

/-- A floating-point term of format (ebits, sbits) with the given bits. -/
def fp_val (ebits sbits : Nat) (v : Nat) : smt_ast := ⟨mk_fpbv_sort ebits (sbits - 1), v⟩

/-- The packed term with sign s, exponent field E and trailing significand T. -/
def fp_of_fields (ebits sbits : Nat) (s E T : Nat) : smt_ast :=
  fp_val ebits sbits (s * 2 ^ (ebits + (sbits - 1)) + E * 2 ^ (sbits - 1) + T)

/-- The values a packed bit-vector can denote: an extended real, or NaN. -/
inductive fp_value where
  | nan
  | inf (negative : Bool)
  | finite (q : ℚ)
deriving DecidableEq

/-- The IEEE-754 reading of a packed term (spec §3, "IEEE-754 packed
bit-vector"): top bit sign, then the biased exponent, then the trailing
significand, with bias 2^(ebits-1) - 1; an all-ones exponent is an infinity
(trailing significand 0) or a NaN, a zero exponent a denormal or a zero. -/
def fp_denote (x : smt_ast) : fp_value :=
  let ebits := x.sort.get_exponent_width
  let sbits := x.sort.get_significand_width
  let s := x.val / 2 ^ (ebits + (sbits - 1)) % 2
  let E := x.val / 2 ^ (sbits - 1) % 2 ^ ebits
  let T := x.val % 2 ^ (sbits - 1)
  let bias : Int := 2 ^ (ebits - 1) - 1
  if E = 2 ^ ebits - 1 then
    if T = 0 then .inf (decide (s = 1)) else .nan
  else if E = 0 then
    .finite ((-1) ^ s * (T : ℚ) * (2 : ℚ) ^ ((1 : Int) - bias - ((sbits : Int) - 1)))
  else
    .finite ((-1) ^ s * ((2 : ℚ) ^ (sbits - 1) + (T : ℚ))
      * (2 : ℚ) ^ ((E : Int) - bias - ((sbits : Int) - 1)))

/-- Magnitude of a finite packed value with exponent field E and trailing
significand T (fraction width f), in units of the smallest denormal. -/
def mag (f E T : Nat) : Nat := if E = 0 then T else (2 ^ f + T) * 2 ^ (E - 1)

/-- A one-bit term holding the given bit. -/
def bit1 (b : Bool) : smt_ast := mk_smt_bv (if b then 1 else 0) 1

/-! ## Further applications of the SMT interface -/

/-- Application `mk_func_app(s, SMT_FUNC_BVMUL, a, b)`. -/
def mk_bvmul (s : smt_sort) (a b : smt_ast) : smt_ast :=
  ⟨s, (a.val * b.val) % 2 ^ s.data_width⟩

/-- Application `mk_func_app(s, SMT_FUNC_BVUDIV, a, b)`: the quotient, and the
all-ones vector for a zero divisor. -/
def mk_bvudiv (s : smt_sort) (a b : smt_ast) : smt_ast :=
  ⟨s, if b.val = 0 then 2 ^ s.data_width - 1 else (a.val / b.val) % 2 ^ s.data_width⟩

/-- Application `mk_func_app(s, SMT_FUNC_BVXOR, a, b)`. -/
def mk_bvxor (s : smt_sort) (a b : smt_ast) : smt_ast :=
  ⟨s, (a.val ^^^ b.val) % 2 ^ s.data_width⟩

/-- Application `mk_func_app(s, SMT_FUNC_SUB, a, b)`: the arithmetic difference
of the operands.  `mk_smt_fpbv_div` applies it to bit-vectors (line 1131); the
difference is kept in the sort passed, modulo 2^width. -/
def mk_sub (s : smt_sort) (a b : smt_ast) : smt_ast :=
  ⟨s, (((a.val : Int) - (b.val : Int)) % (2 : Int) ^ s.data_width).toNat⟩

/-- Application `mk_func_app(boolean_sort, SMT_FUNC_XOR, a, b)`. -/
def mk_xor (a b : Bool) : Bool := Bool.xor a b

/-- Modelled from the spec: `power2(n, negated)` of the big-integer helpers,
which are not among the sources: 2^n, negated on request. -/
def power2 (n : Nat) (negated : Bool) : Int :=
  if negated then -((2 : Int) ^ n) else (2 : Int) ^ n

/-! ## Special values -/

/-- Constant `fp_convt::mk_smt_fpbv_nan`: the one NaN the encoder creates. -/
def mk_smt_fpbv_nan (ew sw : Nat) : smt_ast :=
  let top_exp := mk_top_exp ew
  mk_from_bv_to_fp
    (mk_concat (mk_smt_bv 0 1) (mk_concat top_exp (mk_smt_bv 1 (sw - 1))))
    (mk_fpbv_sort ew (sw - 1))

/-- Constant `fp_convt::mk_smt_fpbv_inf`. -/
def mk_smt_fpbv_inf (sgn : Bool) (ew sw : Nat) : smt_ast :=
  let top_exp := mk_top_exp ew
  mk_from_bv_to_fp
    (mk_concat (mk_smt_bv (if sgn then 1 else 0) 1)
      (mk_concat top_exp (mk_smt_bv 0 (sw - 1))))
    (mk_fpbv_sort ew (sw - 1))

/-- Constant `fp_convt::mk_pzero`. -/
def mk_pzero (ew sw : Nat) : smt_ast :=
  let bot_exp := mk_bot_exp ew
  mk_from_bv_to_fp
    (mk_concat (mk_smt_bv 0 1) (mk_concat bot_exp (mk_smt_bv 0 (sw - 1))))
    (mk_fpbv_sort ew (sw - 1))

/-- Constant `fp_convt::mk_nzero`. -/
def mk_nzero (ew sw : Nat) : smt_ast :=
  let bot_exp := mk_bot_exp ew
  mk_from_bv_to_fp
    (mk_concat (mk_smt_bv 1 1) (mk_concat bot_exp (mk_smt_bv 0 (sw - 1))))
    (mk_fpbv_sort ew (sw - 1))

/-- Constant `fp_convt::mk_pinf`. -/
def mk_pinf (ew sw : Nat) : smt_ast :=
  let top_exp := mk_top_exp ew
  mk_from_bv_to_fp
    (mk_concat (mk_smt_bv 0 1) (mk_concat top_exp (mk_smt_bv 0 (sw - 1))))
    (mk_fpbv_sort ew (sw - 1))

/-- Constant `fp_convt::mk_ninf`. -/
def mk_ninf (ew sw : Nat) : smt_ast :=
  let top_exp := mk_top_exp ew
  mk_from_bv_to_fp
    (mk_concat (mk_smt_bv 1 1) (mk_concat top_exp (mk_smt_bv 0 (sw - 1))))
    (mk_fpbv_sort ew (sw - 1))

/-- Test `fp_convt::mk_is_pzero`. -/
def mk_is_pzero (op : smt_ast) : Bool :=
  mk_smt_fpbv_is_zero op && mk_smt_fpbv_is_positive op

/-- Test `fp_convt::mk_is_nzero`. -/
def mk_is_nzero (op : smt_ast) : Bool :=
  mk_smt_fpbv_is_zero op && mk_smt_fpbv_is_negative op

/-- Test `fp_convt::mk_is_pinf`. -/
def mk_is_pinf (op : smt_ast) : Bool :=
  mk_smt_fpbv_is_inf op && mk_smt_fpbv_is_positive op

/-- Test `fp_convt::mk_is_ninf`. -/
def mk_is_ninf (op : smt_ast) : Bool :=
  mk_smt_fpbv_is_inf op && mk_smt_fpbv_is_negative op

/-! ## Sign operations -/

/-- Function `fp_convt::mk_smt_fpbv_abs`. -/
def mk_smt_fpbv_abs (op : smt_ast) : smt_ast :=
  let ew_sw := extract_exp_sig op
  let zero := mk_smt_bv 0 1
  mk_from_bv_to_fp (mk_concat zero ew_sw) op.sort

/-- Function `fp_convt::mk_smt_fpbv_neg`. -/
def mk_smt_fpbv_neg (op : smt_ast) : smt_ast :=
  let ew_sw := extract_exp_sig op
  let sgn := extract_signbit op
  let c := mk_smt_fpbv_is_nan op
  let nsgn := mk_bvnot sgn.sort sgn
  let r_sgn := mk_ite c sgn nsgn
  mk_from_bv_to_fp (mk_concat r_sgn ew_sw) op.sort

/-! ## Overflow inside round -/

/-- The overflow test OVF2 of `fp_convt::round` (lines 1666-1690), on the
incremented significand and the exponent chosen by TINY: the significand
carried out and the biased exponent after the carry is all ones. -/
def round_OVF2 (sig exp : smt_ast) (ebits sbits : Nat) : Bool :=
  let one_1 := mk_smt_bv 1 1
  let t_sig := mk_extract sig sbits sbits
  let SIGovf := mk_eq t_sig one_1
  let exp_p1 := mk_bvadd exp.sort exp (mk_smt_bv 1 (ebits + 2))
  let exp := mk_ite SIGovf exp_p1 exp
  let biased_exp := mk_bias (mk_extract exp (ebits - 1) 0)
  let exp_redand := mk_bvredand biased_exp
  let preOVF2 := mk_eq exp_redand one_1
  SIGovf && preOVF2

/-- The flag OVF of `fp_convt::round` (line 1692) as a function of the
arguments of `round`: OVF1 or OVF2. -/
def round_OVF (rm sgn sig exp : smt_ast) (ebits sbits : Nat) : Bool :=
  let e_min := mk_min_exp ebits
  let OVF1 := round_OVF1 sig exp ebits sbits
  let TINY := round_TINY sig exp ebits
  let beta := round_beta sig exp ebits
  let sigma := round_sigma sig exp ebits
  let sig_size := sig.sort.get_data_width
  let big_sh_sig := round_big_sh_sig sig sigma ebits sbits
  let sig := round_sig_sticky big_sh_sig sig_size sbits
  let ext_emin := mk_zero_ext e_min 2
  let exp := mk_ite TINY ext_emin beta
  let sig := round_sig_inc rm sgn sig sbits
  let OVF2 := round_OVF2 sig exp ebits sbits
  OVF1 || OVF2

/-! ## Multiplication -/

/-- The generic path of `fp_convt::mk_smt_fpbv_mul` (lines 949-1007): the
value v7, computed from the unpacked operands and handed to `round`. -/
def mk_smt_fpbv_mul_generic (x y rm : smt_ast) : smt_ast :=
  let ebits := x.sort.get_exponent_width
  let sbits := x.sort.get_significand_width
  let a := unpack x true
  let b := unpack y true
  let a_lz_ext := mk_zero_ext a.lz 2
  let b_lz_ext := mk_zero_ext b.lz 2
  let a_sig_ext := mk_zero_ext a.sig sbits
  let b_sig_ext := mk_zero_ext b.sig sbits
  let a_exp_ext := mk_zero_ext a.exp 2
  let b_exp_ext := mk_zero_ext b.exp 2
  let res_sgn := mk_bvxor a.sgn.sort a.sgn b.sgn
  let res_exp := mk_bvadd a_exp_ext.sort
    (mk_bvsub a_exp_ext.sort a_exp_ext a_lz_ext)
    (mk_bvsub b_exp_ext.sort b_exp_ext b_lz_ext)
  let product := mk_bvmul a_sig_ext.sort a_sig_ext b_sig_ext
  let h_p := mk_extract product (2 * sbits - 1) sbits
  let l_p := mk_extract product (sbits - 1) 0
  let rbits :=
    if sbits ≥ 4 then
      let sticky := mk_bvredor (mk_extract product (sbits - 4) 0)
      mk_concat (mk_extract product (sbits - 1) (sbits - 3)) sticky
    else
      mk_concat l_p (mk_smt_bv 0 (4 - sbits))
  let res_sig := mk_concat h_p rbits
  round rm res_sgn res_sig res_exp ebits sbits

/-- Function `fp_convt::mk_smt_fpbv_mul`: the special cases (lines 889-947) and
the cascade that selects among them and the generic value (lines 1009-1016). -/
def mk_smt_fpbv_mul (x y rm : smt_ast) : smt_ast :=
  let ebits := x.sort.get_exponent_width
  let sbits := x.sort.get_significand_width
  let nan := mk_smt_fpbv_nan ebits sbits
  let nzero := mk_nzero ebits sbits
  let pzero := mk_pzero ebits sbits
  let ninf := mk_ninf ebits sbits
  let pinf := mk_pinf ebits sbits
  let x_is_nan := mk_smt_fpbv_is_nan x
  let x_is_zero := mk_smt_fpbv_is_zero x
  let x_is_pos := mk_smt_fpbv_is_positive x
  let y_is_nan := mk_smt_fpbv_is_nan y
  let y_is_zero := mk_smt_fpbv_is_zero y
  let y_is_pos := mk_smt_fpbv_is_positive y
  let c1 := x_is_nan || y_is_nan
  let v1 := nan
  let c2 := mk_is_pinf x
  let y_sgn_inf := mk_ite y_is_pos pinf ninf
  let v2 := mk_ite y_is_zero nan y_sgn_inf
  let c3 := mk_is_pinf y
  let x_sgn_inf := mk_ite x_is_pos pinf ninf
  let v3 := mk_ite x_is_zero nan x_sgn_inf
  let c4 := mk_is_ninf x
  let neg_y_sgn_inf := mk_ite y_is_pos ninf pinf
  let v4 := mk_ite y_is_zero nan neg_y_sgn_inf
  let c5 := mk_is_ninf y
  let neg_x_sgn_inf := mk_ite x_is_pos ninf pinf
  let v5 := mk_ite x_is_zero nan neg_x_sgn_inf
  let c6 := x_is_zero || y_is_zero
  let sign_xor := mk_xor x_is_pos y_is_pos
  let v6 := mk_ite sign_xor nzero pzero
  let v7 := mk_smt_fpbv_mul_generic x y rm
  let result := mk_ite c6 v6 v7
  let result := mk_ite c5 v5 result
  let result := mk_ite c4 v4 result
  let result := mk_ite c3 v3 result
  let result := mk_ite c2 v2 result
  let result := mk_ite c1 v1 result
  result

/-- The conditions that `fp_convt::mk_smt_fpbv_mul` asserts on its way (lines
891-892, 987 and 1003, and those of its two calls of `unpack`): true when none
of the assertions fails. -/
def mk_smt_fpbv_mul_asserts (x y : smt_ast) : Bool :=
  let sbits := x.sort.get_significand_width
  let a := unpack x true
  let b := unpack y true
  let a_sig_ext := mk_zero_ext a.sig sbits
  let b_sig_ext := mk_zero_ext b.sig sbits
  let product := mk_bvmul a_sig_ext.sort a_sig_ext b_sig_ext
  let l_p := mk_extract product (sbits - 1) 0
  let rbits :=
    if sbits ≥ 4 then
      let sticky := mk_bvredor (mk_extract product (sbits - 4) 0)
      mk_concat (mk_extract product (sbits - 1) (sbits - 3)) sticky
    else
      mk_concat l_p (mk_smt_bv 0 (4 - sbits))
  decide (x.sort.get_data_width = y.sort.get_data_width)
    && decide (x.sort.get_exponent_width = y.sort.get_exponent_width)
    && unpack_asserts x true
    && unpack_asserts y true
    && decide (product.sort.get_data_width = 2 * sbits)
    && decide (rbits.sort.get_data_width = 4)

/-! ## Division -/

/-- The generic path of `fp_convt::mk_smt_fpbv_div` (lines 1087-1153): the
value v8, computed from the unpacked operands and handed to `round`. -/
def mk_smt_fpbv_div_generic (x y rm : smt_ast) : smt_ast :=
  let ebits := x.sort.get_exponent_width
  let sbits := x.sort.get_significand_width
  let a := unpack x true
  let b := unpack y true
  let extra_bits := sbits + 2
  let a_sig_ext := mk_concat a.sig (mk_smt_bv 0 (sbits + extra_bits))
  let b_sig_ext := mk_zero_ext b.sig (sbits + extra_bits)
  let a_exp_ext := mk_sign_ext a.exp 2
  let b_exp_ext := mk_sign_ext b.exp 2
  let res_sgn := mk_bvxor a.sgn.sort a.sgn b.sgn
  let a_lz_ext := mk_zero_ext a.lz 2
  let b_lz_ext := mk_zero_ext b.lz 2
  let res_exp := mk_bvsub a_exp_ext.sort
    (mk_bvsub a_exp_ext.sort a_exp_ext a_lz_ext)
    (mk_bvsub a_exp_ext.sort b_exp_ext b_lz_ext)
  let quotient := mk_bvudiv a_sig_ext.sort a_sig_ext b_sig_ext
  let sticky := mk_bvredor (mk_extract quotient (extra_bits - 2) 0)
  let res_sig := mk_concat
    (mk_extract quotient (extra_bits + sbits + 1) (extra_bits - 1)) sticky
  let res_sig_lz := mk_leading_zeros res_sig (sbits + 4)
  let res_sig_shift_amount := mk_sub res_sig_lz.sort res_sig_lz (mk_smt_bv 1 (sbits + 4))
  let shift_cond := mk_bvulte res_sig_lz (mk_smt_bv 1 (sbits + 4))
  let res_sig_shifted := mk_bvshl res_sig.sort res_sig res_sig_shift_amount
  let res_exp_shifted := mk_bvsub res_exp.sort res_exp
    (mk_extract res_sig_shift_amount (ebits + 1) 0)
  let res_sig := mk_ite shift_cond res_sig res_sig_shifted
  let res_exp := mk_ite shift_cond res_exp res_exp_shifted
  round rm res_sgn res_sig res_exp ebits sbits

/-- Function `fp_convt::mk_smt_fpbv_div`: the special cases (lines 1019-1085)
and the cascade that selects among them and the generic value (lines
1155-1162). -/
def mk_smt_fpbv_div (x y rm : smt_ast) : smt_ast :=
  let ebits := x.sort.get_exponent_width
  let sbits := x.sort.get_significand_width
  let nan := mk_smt_fpbv_nan ebits sbits
  let nzero := mk_nzero ebits sbits
  let pzero := mk_pzero ebits sbits
  let ninf := mk_ninf ebits sbits
  let pinf := mk_pinf ebits sbits
  let x_is_nan := mk_smt_fpbv_is_nan x
  let x_is_zero := mk_smt_fpbv_is_zero x
  let x_is_pos := mk_smt_fpbv_is_positive x
  let x_is_inf := mk_smt_fpbv_is_inf x
  let y_is_nan := mk_smt_fpbv_is_nan y
  let y_is_zero := mk_smt_fpbv_is_zero y
  let y_is_pos := mk_smt_fpbv_is_positive y
  let y_is_inf := mk_smt_fpbv_is_inf y
  let c1 := x_is_nan || y_is_nan
  let v1 := nan
  let c2 := mk_is_pinf x
  let y_sgn_inf := mk_ite y_is_pos pinf ninf
  let v2 := mk_ite y_is_inf nan y_sgn_inf
  let c3 := mk_is_pinf y
  let signs_xor := mk_xor x_is_pos y_is_pos
  let xy_zero := mk_ite signs_xor nzero pzero
  let v3 := mk_ite x_is_inf nan xy_zero
  let c4 := mk_is_ninf x
  let neg_y_sgn_inf := mk_ite y_is_pos ninf pinf
  let v4 := mk_ite y_is_inf nan neg_y_sgn_inf
  let c5 := mk_is_ninf y
  let v5 := mk_ite x_is_inf nan xy_zero
  let c6 := y_is_zero
  let sgn_inf := mk_ite signs_xor ninf pinf
  let v6 := mk_ite x_is_zero nan sgn_inf
  let c7 := x_is_zero
  let v7 := mk_ite signs_xor nzero pzero
  let v8 := mk_smt_fpbv_div_generic x y rm
  let result := mk_ite c7 v7 v8
  let result := mk_ite c6 v6 result
  let result := mk_ite c5 v5 result
  let result := mk_ite c4 v4 result
  let result := mk_ite c3 v3 result
  let result := mk_ite c2 v2 result
  mk_ite c1 v1 result

/-- The conditions that `fp_convt::mk_smt_fpbv_div` asserts on its way (lines
1021-1022, 1088, 1120 and 1127, and those of its two calls of `unpack`): true
when none of the assertions fails. -/
def mk_smt_fpbv_div_asserts (x y : smt_ast) : Bool :=
  let ebits := x.sort.get_exponent_width
  let sbits := x.sort.get_significand_width
  let a := unpack x true
  let b := unpack y true
  let extra_bits := sbits + 2
  let a_sig_ext := mk_concat a.sig (mk_smt_bv 0 (sbits + extra_bits))
  let b_sig_ext := mk_zero_ext b.sig (sbits + extra_bits)
  let quotient := mk_bvudiv a_sig_ext.sort a_sig_ext b_sig_ext
  let sticky := mk_bvredor (mk_extract quotient (extra_bits - 2) 0)
  let res_sig := mk_concat
    (mk_extract quotient (extra_bits + sbits + 1) (extra_bits - 1)) sticky
  decide (x.sort.get_data_width = y.sort.get_data_width)
    && decide (x.sort.get_exponent_width = y.sort.get_exponent_width)
    && decide (ebits ≤ sbits)
    && unpack_asserts x true
    && unpack_asserts y true
    && decide (quotient.sort.get_data_width = sbits + sbits + extra_bits)
    && decide (res_sig.sort.get_data_width = sbits + 4)

/-! ## Square root -/

/-- The variables Q, R, S that the loop of `fp_convt::mk_smt_fpbv_sqrt` updates. -/
structure sqrt_state where
  Q : smt_ast
  R : smt_ast
  S : smt_ast
deriving DecidableEq, Repr

/-- One pass through the body of the loop of `fp_convt::mk_smt_fpbv_sqrt`
(lines 182-212). -/
def sqrt_step (sbits : Nat) (st : sqrt_state) : sqrt_state :=
  let zero1 := mk_smt_bv 0 1
  let one1 := mk_smt_bv 1 1
  let Q := st.Q
  let R := st.R
  let S := st.S
  let S := mk_concat zero1 (mk_extract S (sbits + 4) 1)
  let twoQ_plus_S := mk_bvadd
    (mk_bv_sort (S.sort.get_data_width + zero1.sort.get_data_width))
    (mk_concat Q zero1) (mk_concat zero1 S)
  let T := mk_bvsub twoQ_plus_S.sort (mk_concat R zero1) twoQ_plus_S
  let T_lsds5 := mk_extract T (sbits + 5) (sbits + 5)
  let t_lt_0 := mk_eq T_lsds5 one1
  let Q_or_S := mk_bvor Q.sort Q S
  let Q1 := mk_ite t_lt_0 Q Q_or_S
  let R_shftd := mk_concat (mk_extract R (sbits + 3) 0) zero1
  let T_lsds4 := mk_extract T (sbits + 4) 0
  let R1 := mk_ite t_lt_0 R_shftd T_lsds4
  ⟨Q1, R1, S⟩

/-- The loop of `fp_convt::mk_smt_fpbv_sqrt` (line 180) run for n passes. -/
def sqrt_loop (sbits : Nat) : Nat → sqrt_state → sqrt_state
  | 0, st => st
  | n + 1, st => sqrt_loop sbits n (sqrt_step sbits st)

/-- The state of the digit recurrence of `fp_convt::mk_smt_fpbv_sqrt` after its
loop (lines 170-213), from the significand prepared for it. -/
def sqrt_recurrence (sig_prime : smt_ast) (sbits : Nat) : sqrt_state :=
  let p2 := power2 (sbits + 3) false
  let Q := mk_smt_bv p2 (sbits + 5)
  let R := mk_bvsub Q.sort (mk_concat sig_prime (mk_smt_bv 0 4)) Q
  let S := Q
  sqrt_loop sbits (sbits + 3) ⟨Q, R, S⟩

/-- The test `is_exact` of `fp_convt::mk_smt_fpbv_sqrt` (lines 215-217). -/
def sqrt_is_exact (st : sqrt_state) (sbits : Nat) : Bool :=
  let zero_sbits5 := mk_smt_bv 0 (sbits + 5)
  mk_eq st.R zero_sbits5

/-- The significand prepared for the recurrence by
`fp_convt::mk_smt_fpbv_sqrt` (lines 139-166). -/
def sqrt_sig_prime (x : smt_ast) : smt_ast :=
  let zero1 := mk_smt_bv 0 1
  let one1 := mk_smt_bv 1 1
  let a := unpack x true
  let real_exp := mk_bvsub (mk_bv_sort (a.exp.sort.get_data_width + 1))
    (mk_sign_ext a.exp 1) (mk_zero_ext a.lz 1)
  let e_is_odd := mk_eq (mk_extract real_exp 0 0) one1
  let a_z := mk_concat a.sig zero1
  let z_a := mk_concat zero1 a.sig
  mk_ite e_is_odd a_z z_a

/-- The generic path of `fp_convt::mk_smt_fpbv_sqrt` (lines 137-235): the
value v5, from the unpacked operand through the recurrence to `round`. -/
def mk_smt_fpbv_sqrt_generic (x rm : smt_ast) : smt_ast :=
  let ebits := x.sort.get_exponent_width
  let sbits := x.sort.get_significand_width
  let zero1 := mk_smt_bv 0 1
  let a := unpack x true
  let res_sgn := zero1
  let real_exp := mk_bvsub (mk_bv_sort (a.exp.sort.get_data_width + 1))
    (mk_sign_ext a.exp 1) (mk_zero_ext a.lz 1)
  let res_exp := mk_sign_ext (mk_extract real_exp ebits 1) 2
  let sig_prime := sqrt_sig_prime x
  let st := sqrt_recurrence sig_prime sbits
  let Q := st.Q
  let is_exact := sqrt_is_exact st sbits
  let last := mk_extract Q 0 0
  let rest := mk_extract Q (sbits + 3) 1
  let rest_ext := mk_zero_ext rest 1
  let last_ext := mk_zero_ext last (sbits + 3)
  let one_sbits4 := mk_smt_bv 1 (sbits + 4)
  let sticky := mk_ite is_exact last_ext one_sbits4
  let res_sig := mk_bvor rest_ext.sort rest_ext sticky
  round rm res_sgn res_sig res_exp ebits sbits

/-- Function `fp_convt::mk_smt_fpbv_sqrt`: the special cases (lines 109-135)
and the cascade that selects among them and the generic value (lines
237-241). -/
def mk_smt_fpbv_sqrt (x rm : smt_ast) : smt_ast :=
  let ebits := x.sort.get_exponent_width
  let sbits := x.sort.get_significand_width
  let nan := mk_smt_fpbv_nan ebits sbits
  let x_is_nan := mk_smt_fpbv_is_nan x
  let c1 := x_is_nan
  let v1 := x
  let c2 := mk_is_pinf x
  let v2 := x
  let c3 := mk_smt_fpbv_is_zero x
  let v3 := x
  let c4 := mk_smt_fpbv_is_negative x
  let v4 := nan
  let v5 := mk_smt_fpbv_sqrt_generic x rm
  let result := mk_ite c4 v4 v5
  let result := mk_ite c3 v3 result
  let result := mk_ite c2 v2 result
  mk_ite c1 v1 result

/-- The conditions that the loop body of `fp_convt::mk_smt_fpbv_sqrt` asserts
(lines 199-202), on the state a pass starts from. -/
def sqrt_step_asserts (sbits : Nat) (st : sqrt_state) : Bool :=
  let zero1 := mk_smt_bv 0 1
  let S := mk_concat zero1 (mk_extract st.S (sbits + 4) 1)
  let twoQ_plus_S := mk_bvadd
    (mk_bv_sort (S.sort.get_data_width + zero1.sort.get_data_width))
    (mk_concat st.Q zero1) (mk_concat zero1 S)
  let T := mk_bvsub twoQ_plus_S.sort (mk_concat st.R zero1) twoQ_plus_S
  decide (st.Q.sort.get_data_width = sbits + 5)
    && decide (st.R.sort.get_data_width = sbits + 5)
    && decide (S.sort.get_data_width = sbits + 5)
    && decide (T.sort.get_data_width = sbits + 6)

/-- The assertions of n passes of the loop, from the given state. -/
def sqrt_loop_asserts (sbits : Nat) : Nat → sqrt_state → Bool
  | 0, _ => true
  | n + 1, st => sqrt_step_asserts sbits st && sqrt_loop_asserts sbits n (sqrt_step sbits st)

/-- The conditions that `fp_convt::mk_smt_fpbv_sqrt` asserts on its way (lines
145-146, 166, 199-202 and 231, and those of its call of `unpack`): true when
none of the assertions fails. -/
def mk_smt_fpbv_sqrt_asserts (x : smt_ast) : Bool :=
  let ebits := x.sort.get_exponent_width
  let sbits := x.sort.get_significand_width
  let a := unpack x true
  let sig_prime := sqrt_sig_prime x
  let p2 := power2 (sbits + 3) false
  let Q := mk_smt_bv p2 (sbits + 5)
  let R := mk_bvsub Q.sort (mk_concat sig_prime (mk_smt_bv 0 4)) Q
  let st := sqrt_recurrence sig_prime sbits
  let is_exact := sqrt_is_exact st sbits
  let last := mk_extract st.Q 0 0
  let rest := mk_extract st.Q (sbits + 3) 1
  let rest_ext := mk_zero_ext rest 1
  let last_ext := mk_zero_ext last (sbits + 3)
  let one_sbits4 := mk_smt_bv 1 (sbits + 4)
  let sticky := mk_ite is_exact last_ext one_sbits4
  let res_sig := mk_bvor rest_ext.sort rest_ext sticky
  unpack_asserts x true
    && decide (a.sig.sort.get_data_width = sbits)
    && decide (a.exp.sort.get_data_width = ebits)
    && decide (sig_prime.sort.get_data_width = sbits + 1)
    && sqrt_loop_asserts sbits (sbits + 3) ⟨Q, R, Q⟩
    && decide (res_sig.sort.get_data_width = sbits + 4)

/-! ## Conversion of a signed integer -/

/-- The base-2 logarithm of n, truncated, with the recursion depth made
explicit. -/
def floor_log2_fuel : Nat → Nat → Nat
  | 0, _ => 0
  | fuel + 1, n => if n < 2 then 0 else floor_log2_fuel fuel (n / 2) + 1

/-- The expression `log((double)n) / log((double)2)` converted to `unsigned`
(lines 687 and 822), read as the base-2 logarithm of n, truncated. -/
def floor_log2 (n : Nat) : Nat := floor_log2_fuel n n

/-- Function `fp_convt::mk_smt_typecast_sbv_to_fpbv`. -/
def mk_smt_typecast_sbv_to_fpbv (x : smt_ast) (to_sort : smt_sort) (rm : smt_ast) :
    smt_ast :=
  let ebits := to_sort.get_exponent_width
  let sbits := to_sort.get_significand_width
  let bv_sz := x.sort.get_data_width
  let bv0_1 := mk_smt_bv 0 1
  let bv1_1 := mk_smt_bv 1 1
  let bv0_sz := mk_smt_bv 0 bv_sz
  let is_zero := mk_eq x bv0_sz
  let pzero := mk_pzero ebits sbits
  let c1 := is_zero
  let v1 := pzero
  let is_neg_bit := mk_extract x (bv_sz - 1) (bv_sz - 1)
  let is_neg := mk_eq is_neg_bit bv1_1
  let neg_x := mk_bvneg x.sort x
  let x_abs := mk_ite is_neg neg_x x
  let lz := mk_leading_zeros x_abs bv_sz
  let shifted_sig := mk_bvshl x.sort x_abs lz
  let sig_sz := sbits + 4
  let sig_lz_sz : smt_ast × smt_ast × Nat :=
    if sig_sz ≤ bv_sz then
      let sig_4 := mk_extract shifted_sig (bv_sz - 1) (bv_sz - sig_sz + 1)
      let sig_rest := mk_extract shifted_sig (bv_sz - sig_sz) 0
      let sticky := mk_bvredor sig_rest
      let sig_4 := mk_concat sig_4 sticky
      (sig_4, lz, bv_sz)
    else
      let extra_bits := sig_sz - bv_sz
      let extra_zeros := mk_smt_bv 0 extra_bits
      let sig_4 := mk_concat shifted_sig extra_zeros
      let lz := mk_bvadd (mk_bv_sort sig_sz) (mk_concat extra_zeros lz)
        (mk_smt_bv (extra_bits : Nat) sig_sz)
      (sig_4, lz, bv_sz + extra_bits)
  let sig_4 := sig_lz_sz.1
  let lz := sig_lz_sz.2.1
  let bv_sz := sig_lz_sz.2.2
  let s_exp := mk_bvsub lz.sort (mk_smt_bv ((bv_sz - 2 : Nat) : Int) bv_sz) lz
  let exp_sz := ebits + 2
  let exp_2 := mk_extract s_exp (exp_sz - 1) 0
  let exp_worst_case_sz := floor_log2 bv_sz + 1
  let sig_exp : smt_ast × smt_ast :=
    if exp_sz < exp_worst_case_sz then
      let max_exp := mk_max_exp exp_sz
      let max_exp_bvsz := mk_zero_ext max_exp (bv_sz - exp_sz)
      let exp_too_large := mk_bvulte
        (mk_bvadd max_exp_bvsz.sort max_exp_bvsz (mk_smt_bv 1 bv_sz)) s_exp
      let zero_sig_sz := mk_smt_bv 0 sig_sz
      (mk_ite exp_too_large zero_sig_sz sig_4, mk_ite exp_too_large max_exp exp_2)
    else
      (sig_4, exp_2)
  let sgn := bv0_1
  let sig := sig_exp.1
  let exp := sig_exp.2
  let v2 := round rm sgn sig exp ebits sbits
  mk_ite c1 v1 v2

/-- The conditions that `fp_convt::mk_smt_typecast_sbv_to_fpbv` asserts on its
way (lines 773, 802, 811, 856 and 857): true when none of the assertions
fails. -/
def mk_smt_typecast_sbv_to_fpbv_asserts (x : smt_ast) (to_sort : smt_sort) : Bool :=
  let ebits := to_sort.get_exponent_width
  let sbits := to_sort.get_significand_width
  let bv_sz := x.sort.get_data_width
  let bv1_1 := mk_smt_bv 1 1
  let is_neg_bit := mk_extract x (bv_sz - 1) (bv_sz - 1)
  let is_neg := mk_eq is_neg_bit bv1_1
  let neg_x := mk_bvneg x.sort x
  let x_abs := mk_ite is_neg neg_x x
  let lz := mk_leading_zeros x_abs bv_sz
  let e_bv_sz := mk_smt_bv (bv_sz : Nat) bv_sz
  let shifted_sig := mk_bvshl x.sort x_abs lz
  let sig_sz := sbits + 4
  let sig_lz_sz : smt_ast × smt_ast × Nat :=
    if sig_sz ≤ bv_sz then
      let sig_4 := mk_extract shifted_sig (bv_sz - 1) (bv_sz - sig_sz + 1)
      let sig_rest := mk_extract shifted_sig (bv_sz - sig_sz) 0
      let sticky := mk_bvredor sig_rest
      let sig_4 := mk_concat sig_4 sticky
      (sig_4, lz, bv_sz)
    else
      let extra_bits := sig_sz - bv_sz
      let extra_zeros := mk_smt_bv 0 extra_bits
      let sig_4 := mk_concat shifted_sig extra_zeros
      let lz1 := mk_bvadd (mk_bv_sort sig_sz) (mk_concat extra_zeros lz)
        (mk_smt_bv (extra_bits : Nat) sig_sz)
      (sig_4, lz1, bv_sz + extra_bits)
  let sig_4 := sig_lz_sz.1
  let lz1 := sig_lz_sz.2.1
  let bv_sz1 := sig_lz_sz.2.2
  let s_exp := mk_bvsub lz1.sort (mk_smt_bv ((bv_sz1 - 2 : Nat) : Int) bv_sz1) lz1
  let exp_sz := ebits + 2
  let exp_2 := mk_extract s_exp (exp_sz - 1) 0
  let exp_worst_case_sz := floor_log2 bv_sz1 + 1
  let sig_exp : smt_ast × smt_ast :=
    if exp_sz < exp_worst_case_sz then
      let max_exp := mk_max_exp exp_sz
      let max_exp_bvsz := mk_zero_ext max_exp (bv_sz1 - exp_sz)
      let exp_too_large := mk_bvulte
        (mk_bvadd max_exp_bvsz.sort max_exp_bvsz (mk_smt_bv 1 bv_sz1)) s_exp
      let zero_sig_sz := mk_smt_bv 0 sig_sz
      (mk_ite exp_too_large zero_sig_sz sig_4, mk_ite exp_too_large max_exp exp_2)
    else
      (sig_4, exp_2)
  decide (lz.sort.get_data_width = e_bv_sz.sort.get_data_width)
    && decide (sig_4.sort.get_data_width = sig_sz)
    && decide (s_exp.sort.get_data_width = bv_sz1)
    && decide (sig_exp.1.sort.get_data_width = sbits + 4)
    && decide (sig_exp.2.sort.get_data_width = ebits + 2)

/-! ## The normalized reading of a finite value -/

/-- The significand of the finite nonzero value with exponent field E and
trailing significand T, scaled into [2^(sbits-1), 2^sbits): the hidden bit
joined to T for a normal value, T shifted up to the top bit for a denormal. -/
def norm_sig (sbits E T : Nat) : Nat :=
  if E = 0 then T * 2 ^ (sbits - Nat.size T) else 2 ^ (sbits - 1) + T

/-- The exponent that goes with `norm_sig`, counted from the exponent of the
smallest denormal: the value is norm_sig · 2^norm_exp in units of
2^(1 - bias - 2·(sbits - 1)). -/
def norm_exp (sbits E T : Nat) : Nat :=
  if E = 0 then Nat.size T - 1 else E - 1 + (sbits - 1)

/-! ## Symbols -/

/-- Symbol `mk_smt_symbol(name, sort)`: a term of the given sort whose value is
the one the assignment `σ` gives to the name, kept within the width of the
sort. -/
def mk_smt_symbol (σ : String → Nat) (name : String) (s : smt_sort) : smt_ast :=
  ⟨s, σ name % 2 ^ s.data_width⟩

/-! ## Conversion to an integer -/

/-- The shift of `fp_convt::mk_to_bv` (lines 319-352): whether the exponent
`exp_m_lz` is at most 0, and its magnitude brought to the width of `big_sig`
and capped at `bv_sz + 2`. -/
def to_bv_shift (exp_m_lz : smt_ast) (ebits big_sig_sz bv_sz : Nat) : Bool × smt_ast :=
  let is_neg_shift := mk_bvslte exp_m_lz (mk_smt_bv 0 (ebits + 2))
  let shift := mk_ite is_neg_shift (mk_bvneg exp_m_lz.sort exp_m_lz) exp_m_lz
  let shift :=
    if ebits + 2 < big_sig_sz then
      mk_zero_ext shift (big_sig_sz - ebits - 2)
    else if ebits + 2 > big_sig_sz then
      let upper := mk_extract shift big_sig_sz (ebits + 2)
      let shift := mk_extract shift (ebits + 1) 0
      mk_ite (mk_eq upper (mk_smt_bv 0 upper.sort.get_data_width)) shift
        (mk_smt_bv ((big_sig_sz - 1 : Nat) : Int) (ebits + 2))
    else shift
  let shift_limit := mk_smt_bv ((bv_sz + 2 : Nat) : Int) shift.sort.get_data_width
  let shift := mk_ite (mk_bvulte shift shift_limit) shift shift_limit
  (is_neg_shift, shift)

/-- The integer part of `fp_convt::mk_to_bv`, rounded and signed (lines
361-391): `pre_rounded` after the negation for a negative operand. -/
def to_bv_pre_rounded (rm sgn big_sig_shifted : smt_ast) (x_is_neg : Bool)
    (big_sig_sz bv_sz : Nat) : smt_ast :=
  let int_part := mk_extract big_sig_shifted (big_sig_sz - 1) (big_sig_sz - (bv_sz + 3))
  let last := mk_extract big_sig_shifted (big_sig_sz - (bv_sz + 3)) (big_sig_sz - (bv_sz + 3))
  let round := mk_extract big_sig_shifted (big_sig_sz - (bv_sz + 4)) (big_sig_sz - (bv_sz + 4))
  let stickies := mk_extract big_sig_shifted (big_sig_sz - (bv_sz + 5)) 0
  let sticky := mk_bvredor stickies
  let rounding_decision := mk_rounding_decision rm sgn last round sticky
  let inc := mk_zero_ext rounding_decision (bv_sz + 2)
  let pre_rounded := mk_bvadd inc.sort int_part inc
  mk_ite x_is_neg (mk_bvneg pre_rounded.sort pre_rounded) pre_rounded

/-- The range check of `fp_convt::mk_to_bv` and the value it selects (lines
393-421), before the special cases. -/
def to_bv_result (unspec_v pre_rounded : smt_ast) (is_signed : Bool) (bv_sz : Nat) : smt_ast :=
  let bv1 := mk_smt_bv 1 1
  let ll_ul : smt_ast × smt_ast :=
    if !is_signed then
      (mk_smt_bv 0 (bv_sz + 3), mk_zero_ext (mk_smt_bv ULONG_LONG_MAX bv_sz) 3)
    else
      (mk_sign_ext (mk_concat bv1 (mk_smt_bv 0 (bv_sz - 1))) 3,
        mk_zero_ext (mk_smt_bv ULONG_LONG_MAX (bv_sz - 1)) 4)
  let ll := ll_ul.1
  let ul := ll_ul.2
  let in_range := mk_bvslte ll pre_rounded && mk_bvslte pre_rounded ul
  let rounded := mk_extract pre_rounded (bv_sz - 1) 0
  mk_ite (!in_range) unspec_v rounded

/-- Function `fp_convt::mk_to_bv` (lines 256-424), assembled from the stages
above in source order; `σ` gives the value of the symbol "Unspecified_FP".
The sizes are `unsigned`: the difference `bv_sz - sig_sz + 3` is taken in the
branch `sig_sz < bv_sz + 3`, where the wrapped result is the integer one. -/
def mk_to_bv (σ : String → Nat) (x : smt_ast) (is_signed : Bool) (width : Nat) : smt_ast :=
  let rm := mk_smt_fpbv_rm .ROUND_TO_ZERO
  let xs := x.sort
  let ebits := xs.get_exponent_width
  let sbits := xs.get_significand_width
  let bv_sz := width
  let bv0 := mk_smt_bv 0 1
  let x_is_nan := mk_smt_fpbv_is_nan x
  let x_is_inf := mk_smt_fpbv_is_inf x
  let x_is_zero := mk_smt_fpbv_is_zero x
  let x_is_neg := mk_smt_fpbv_is_negative x
  let c1 := x_is_nan || x_is_inf
  let unspec_v := mk_smt_symbol σ "Unspecified_FP" x.sort
  let v1 := unspec_v
  let c2 := x_is_zero
  let v2 := mk_smt_bv 0 width
  let a := unpack x true
  let sgn := a.sgn
  let sig := a.sig
  let exp := a.exp
  let lz := a.lz
  let sig_sz := sbits
  let sig :=
    if sig_sz < bv_sz + 3 then
      mk_concat sig (mk_smt_bv 0 ((bv_sz : Int) - sig_sz + 3).toNat)
    else sig
  let sig_sz := sig.sort.get_data_width
  let exp_m_lz := mk_bvsub (mk_bv_sort (lz.sort.get_data_width + 2))
    (mk_sign_ext exp 2) (mk_zero_ext lz 2)
  let big_sig := mk_concat (mk_zero_ext sig (bv_sz + 2)) bv0
  let big_sig_sz := sig_sz + 1 + bv_sz + 2
  let sh := to_bv_shift exp_m_lz ebits big_sig_sz bv_sz
  let is_neg_shift := sh.1
  let shift := sh.2
  let big_sig_shifted := mk_ite is_neg_shift
    (mk_bvlshr big_sig.sort big_sig shift) (mk_bvshl big_sig.sort big_sig shift)
  let pre_rounded := to_bv_pre_rounded rm sgn big_sig_shifted x_is_neg big_sig_sz bv_sz
  let result := to_bv_result unspec_v pre_rounded is_signed bv_sz
  let result := mk_ite c2 v2 result
  mk_ite c1 v1 result

/-- The conditions that `fp_convt::mk_to_bv` asserts on its way (lines
295-298, 305, 317, 344, 363 and 379) and those of `unpack`: true when none of
the assertions fails. -/
def mk_to_bv_asserts (x : smt_ast) (width : Nat) : Bool :=
  let rm := mk_smt_fpbv_rm .ROUND_TO_ZERO
  let ebits := x.sort.get_exponent_width
  let sbits := x.sort.get_significand_width
  let bv_sz := width
  let bv0 := mk_smt_bv 0 1
  let a := unpack x true
  let sig_sz := sbits
  let sig :=
    if sig_sz < bv_sz + 3 then
      mk_concat a.sig (mk_smt_bv 0 ((bv_sz : Int) - sig_sz + 3).toNat)
    else a.sig
  let sig_sz := sig.sort.get_data_width
  let exp_m_lz := mk_bvsub (mk_bv_sort (a.lz.sort.get_data_width + 2))
    (mk_sign_ext a.exp 2) (mk_zero_ext a.lz 2)
  let big_sig := mk_concat (mk_zero_ext sig (bv_sz + 2)) bv0
  let big_sig_sz := sig_sz + 1 + bv_sz + 2
  let sh := to_bv_shift exp_m_lz ebits big_sig_sz bv_sz
  let big_sig_shifted := mk_ite sh.1
    (mk_bvlshr big_sig.sort big_sig sh.2) (mk_bvshl big_sig.sort big_sig sh.2)
  let int_part := mk_extract big_sig_shifted (big_sig_sz - 1) (big_sig_sz - (bv_sz + 3))
  let last := mk_extract big_sig_shifted (big_sig_sz - (bv_sz + 3)) (big_sig_sz - (bv_sz + 3))
  let round := mk_extract big_sig_shifted (big_sig_sz - (bv_sz + 4)) (big_sig_sz - (bv_sz + 4))
  let sticky := mk_bvredor (mk_extract big_sig_shifted (big_sig_sz - (bv_sz + 5)) 0)
  let rounding_decision := mk_rounding_decision rm a.sgn last round sticky
  decide (a.sgn.sort.get_data_width = 1)
    && decide (a.sig.sort.get_data_width = sbits)
    && decide (a.exp.sort.get_data_width = ebits)
    && decide (a.lz.sort.get_data_width = ebits)
    && decide (bv_sz + 3 ≤ sig_sz)
    && decide (big_sig.sort.get_data_width = big_sig_sz)
    && decide (sh.2.sort.get_data_width = big_sig.sort.get_data_width)
    && decide (int_part.sort.get_data_width = bv_sz + 3)
    && decide (rounding_decision.sort.get_data_width = 1)
    && unpack_asserts x true

/-- Function `fp_convt::mk_smt_typecast_from_fpbv_to_ubv`. -/
def mk_smt_typecast_from_fpbv_to_ubv (σ : String → Nat) (from_ : smt_ast) (width : Nat) :
    smt_ast :=
  mk_to_bv σ from_ false width

/-- Function `fp_convt::mk_smt_typecast_from_fpbv_to_sbv`. -/
def mk_smt_typecast_from_fpbv_to_sbv (σ : String → Nat) (from_ : smt_ast) (width : Nat) :
    smt_ast :=
  mk_to_bv σ from_ true width

/-! ## Conversion between formats -/

/-- Function `fp_convt::mk_smt_typecast_from_fpbv_to_fpbv` (lines 438-600).
The sizes are `unsigned`: `to_ebits - from_ebits + 2` is taken in the branch
`from_ebits < to_ebits + 2`, where the wrapped result is the integer one. -/
def mk_smt_typecast_from_fpbv_to_fpbv (x : smt_ast) (to_sort : smt_sort) (rm : smt_ast) :
    smt_ast :=
  let from_sbits := x.sort.get_significand_width
  let from_ebits := x.sort.get_exponent_width
  let to_sbits := to_sort.get_significand_width
  let to_ebits := to_sort.get_exponent_width
  if from_sbits = to_sbits ∧ from_ebits = to_ebits then x
  else
    let one1 := mk_smt_bv 1 1
    let pinf := mk_pinf to_ebits to_sbits
    let ninf := mk_ninf to_ebits to_sbits
    let c1 := mk_smt_fpbv_is_nan x
    let v1 := mk_smt_fpbv_nan to_ebits to_sbits
    let c2 := mk_is_pzero x
    let v2 := mk_pzero to_ebits to_sbits
    let c3 := mk_is_nzero x
    let v3 := mk_nzero to_ebits to_sbits
    let c4 := mk_is_pinf x
    let v4 := pinf
    let c5 := mk_is_ninf x
    let v5 := ninf
    let a := unpack x true
    let sgn := a.sgn
    let sig := a.sig
    let exp := a.exp
    let lz := a.lz
    let res_sgn := sgn
    let res_sig :=
      if from_sbits < to_sbits + 3 then
        mk_concat sig (mk_smt_bv 0 (to_sbits + 3 - from_sbits))
      else if from_sbits > to_sbits + 3 then
        let high := mk_extract sig (from_sbits - 1) (from_sbits - to_sbits - 2)
        let low := mk_extract sig (from_sbits - to_sbits - 3) 0
        let sticky := mk_bvredor low
        mk_concat high sticky
      else sig
    let res_sig := mk_zero_ext res_sig 1
    let exponent_overflow := false
    let res_exp :=
      if from_ebits < to_ebits + 2 then
        let res_exp := mk_sign_ext exp ((to_ebits : Int) - from_ebits + 2).toNat
        let lz_ext := mk_zero_ext lz ((to_ebits : Int) - from_ebits + 2).toNat
        mk_bvsub res_exp.sort res_exp lz_ext
      else if from_ebits > to_ebits + 2 then
        let ebits_diff := from_ebits - (to_ebits + 2)
        let exp_sub_lz := mk_bvsub (mk_bv_sort (lz.sort.get_data_width + 2))
          (mk_sign_ext exp 2) (mk_sign_ext lz 2)
        let z := power2 (to_ebits + 1) true
        let max_exp := mk_concat (mk_smt_bv (power2m1 to_ebits false) (to_ebits + 1))
          (mk_smt_bv 0 1)
        let min_exp := mk_smt_bv (z + 2) (to_ebits + 2)
        let ovft := power2m1 (to_ebits + 1) false
        let first_ovf_exp := mk_smt_bv ovft (from_ebits + 2)
        let first_udf_exp := mk_concat (mk_smt_bv (-1) (ebits_diff + 3))
          (mk_smt_bv 1 (to_ebits + 1))
        let exp_in_range := mk_extract exp_sub_lz (to_ebits + 1) 0
        let ovf_cond := mk_bvslte first_ovf_exp exp_sub_lz
        let udf_cond := mk_bvslte exp_sub_lz first_udf_exp
        let res_exp := exp_in_range
        let res_exp := mk_ite ovf_cond max_exp res_exp
        mk_ite udf_cond min_exp res_exp
      else
        mk_bvsub exp.sort exp lz
    let rounded := round rm res_sgn res_sig res_exp to_ebits to_sbits
    let is_neg := mk_eq sgn one1
    let sig_inf := mk_ite is_neg ninf pinf
    let v6 := mk_ite exponent_overflow sig_inf rounded
    let result := mk_ite c5 v5 v6
    let result := mk_ite c4 v4 result
    let result := mk_ite c3 v3 result
    let result := mk_ite c2 v2 result
    mk_ite c1 v1 result

/-- The conditions that `fp_convt::mk_smt_typecast_from_fpbv_to_fpbv` asserts
on its way (lines 486-489, 503, 506, 509, 516, 562 and 581): true when none of
the assertions fails, and when the function returns before the first one. -/
def mk_smt_typecast_from_fpbv_to_fpbv_asserts (x : smt_ast) (to_sort : smt_sort) : Bool :=
  let from_sbits := x.sort.get_significand_width
  let from_ebits := x.sort.get_exponent_width
  let to_sbits := to_sort.get_significand_width
  let to_ebits := to_sort.get_exponent_width
  if from_sbits = to_sbits ∧ from_ebits = to_ebits then true
  else
    let a := unpack x true
    let sig := a.sig
    let exp := a.exp
    let lz := a.lz
    let sig_asserts : smt_ast × Bool :=
      if from_sbits < to_sbits + 3 then
        (mk_concat sig (mk_smt_bv 0 (to_sbits + 3 - from_sbits)), true)
      else if from_sbits > to_sbits + 3 then
        let high := mk_extract sig (from_sbits - 1) (from_sbits - to_sbits - 2)
        let low := mk_extract sig (from_sbits - to_sbits - 3) 0
        let sticky := mk_bvredor low
        let res_sig := mk_concat high sticky
        (res_sig, decide (high.sort.get_data_width = to_sbits + 2)
          && decide (sticky.sort.get_data_width = 1)
          && decide (res_sig.sort.get_data_width = to_sbits + 3))
      else (sig, true)
    let res_sig := mk_zero_ext sig_asserts.1 1
    let exp_asserts : smt_ast × Bool :=
      if from_ebits < to_ebits + 2 then
        let res_exp := mk_sign_ext exp ((to_ebits : Int) - from_ebits + 2).toNat
        let lz_ext := mk_zero_ext lz ((to_ebits : Int) - from_ebits + 2).toNat
        (mk_bvsub res_exp.sort res_exp lz_ext, true)
      else if from_ebits > to_ebits + 2 then
        let ebits_diff := from_ebits - (to_ebits + 2)
        let exp_sub_lz := mk_bvsub (mk_bv_sort (lz.sort.get_data_width + 2))
          (mk_sign_ext exp 2) (mk_sign_ext lz 2)
        let z := power2 (to_ebits + 1) true
        let max_exp := mk_concat (mk_smt_bv (power2m1 to_ebits false) (to_ebits + 1))
          (mk_smt_bv 0 1)
        let min_exp := mk_smt_bv (z + 2) (to_ebits + 2)
        let ovft := power2m1 (to_ebits + 1) false
        let first_ovf_exp := mk_smt_bv ovft (from_ebits + 2)
        let first_udf_exp := mk_concat (mk_smt_bv (-1) (ebits_diff + 3))
          (mk_smt_bv 1 (to_ebits + 1))
        let exp_in_range := mk_extract exp_sub_lz (to_ebits + 1) 0
        let ovf_cond := mk_bvslte first_ovf_exp exp_sub_lz
        let udf_cond := mk_bvslte exp_sub_lz first_udf_exp
        let res_exp := exp_in_range
        let res_exp := mk_ite ovf_cond max_exp res_exp
        (mk_ite udf_cond min_exp res_exp,
          decide (exp_in_range.sort.get_data_width = to_ebits + 2))
      else
        (mk_bvsub exp.sort exp lz, true)
    decide (a.sgn.sort.get_data_width = 1)
      && decide (sig.sort.get_data_width = from_sbits)
      && decide (exp.sort.get_data_width = from_ebits)
      && decide (lz.sort.get_data_width = from_ebits)
      && sig_asserts.2
      && decide (res_sig.sort.get_data_width = to_sbits + 4)
      && exp_asserts.2
      && decide (exp_asserts.1.sort.get_data_width = to_ebits + 2)
      && unpack_asserts x true

/-! ## Conversion of an unsigned integer -/

/-- Function `fp_convt::mk_smt_typecast_ubv_to_fpbv` (lines 602-728). -/
def mk_smt_typecast_ubv_to_fpbv (x : smt_ast) (to_sort : smt_sort) (rm : smt_ast) :
    smt_ast :=
  let ebits := to_sort.get_exponent_width
  let sbits := to_sort.get_significand_width
  let bv_sz := x.sort.get_data_width
  let bv0_1 := mk_smt_bv 0 1
  let bv0_sz := mk_smt_bv 0 bv_sz
  let is_zero := mk_eq x bv0_sz
  let pzero := mk_pzero ebits sbits
  let c1 := is_zero
  let v1 := pzero
  let lz := mk_leading_zeros x bv_sz
  let shifted_sig := mk_bvshl x.sort x lz
  let sig_sz := sbits + 4
  let sig_lz_sz : smt_ast × smt_ast × Nat :=
    if sig_sz ≤ bv_sz then
      let sig_4 := mk_extract shifted_sig (bv_sz - 1) (bv_sz - sig_sz + 1)
      let sig_rest := mk_extract shifted_sig (bv_sz - sig_sz) 0
      let sticky := mk_bvredor sig_rest
      let sig_4 := mk_concat sig_4 sticky
      (sig_4, lz, bv_sz)
    else
      let extra_bits := sig_sz - bv_sz
      let extra_zeros := mk_smt_bv 0 extra_bits
      let sig_4 := mk_concat shifted_sig extra_zeros
      let lz := mk_bvadd (mk_bv_sort sig_sz) (mk_concat extra_zeros lz)
        (mk_smt_bv (extra_bits : Nat) sig_sz)
      (sig_4, lz, bv_sz + extra_bits)
  let sig_4 := sig_lz_sz.1
  let lz := sig_lz_sz.2.1
  let bv_sz := sig_lz_sz.2.2
  let s_exp := mk_bvsub lz.sort (mk_smt_bv ((bv_sz - 2 : Nat) : Int) bv_sz) lz
  let exp_sz := ebits + 2
  let exp_2 := mk_extract s_exp (exp_sz - 1) 0
  let exp_worst_case_sz := floor_log2 bv_sz + 1
  let sig_exp : smt_ast × smt_ast :=
    if exp_sz < exp_worst_case_sz then
      let max_exp := mk_max_exp exp_sz
      let max_exp_bvsz := mk_zero_ext max_exp (bv_sz - exp_sz)
      let exp_too_large := mk_bvulte
        (mk_bvadd max_exp_bvsz.sort max_exp_bvsz (mk_smt_bv 1 bv_sz)) s_exp
      let zero_sig_sz := mk_smt_bv 0 sig_sz
      (mk_ite exp_too_large zero_sig_sz sig_4, mk_ite exp_too_large max_exp exp_2)
    else
      (sig_4, exp_2)
  let sgn := bv0_1
  let sig := sig_exp.1
  let exp := sig_exp.2
  let v2 := round rm sgn sig exp ebits sbits
  mk_ite c1 v1 v2

/-- The conditions that `fp_convt::mk_smt_typecast_ubv_to_fpbv` asserts on its
way (lines 638, 667, 676, 721 and 722): true when none of the assertions
fails. -/
def mk_smt_typecast_ubv_to_fpbv_asserts (x : smt_ast) (to_sort : smt_sort) : Bool :=
  let ebits := to_sort.get_exponent_width
  let sbits := to_sort.get_significand_width
  let bv_sz := x.sort.get_data_width
  let lz := mk_leading_zeros x bv_sz
  let e_bv_sz := mk_smt_bv (bv_sz : Nat) bv_sz
  let shifted_sig := mk_bvshl x.sort x lz
  let sig_sz := sbits + 4
  let sig_lz_sz : smt_ast × smt_ast × Nat :=
    if sig_sz ≤ bv_sz then
      let sig_4 := mk_extract shifted_sig (bv_sz - 1) (bv_sz - sig_sz + 1)
      let sig_rest := mk_extract shifted_sig (bv_sz - sig_sz) 0
      let sticky := mk_bvredor sig_rest
      let sig_4 := mk_concat sig_4 sticky
      (sig_4, lz, bv_sz)
    else
      let extra_bits := sig_sz - bv_sz
      let extra_zeros := mk_smt_bv 0 extra_bits
      let sig_4 := mk_concat shifted_sig extra_zeros
      let lz1 := mk_bvadd (mk_bv_sort sig_sz) (mk_concat extra_zeros lz)
        (mk_smt_bv (extra_bits : Nat) sig_sz)
      (sig_4, lz1, bv_sz + extra_bits)
  let sig_4 := sig_lz_sz.1
  let lz1 := sig_lz_sz.2.1
  let bv_sz1 := sig_lz_sz.2.2
  let s_exp := mk_bvsub lz1.sort (mk_smt_bv ((bv_sz1 - 2 : Nat) : Int) bv_sz1) lz1
  let exp_sz := ebits + 2
  let exp_2 := mk_extract s_exp (exp_sz - 1) 0
  let exp_worst_case_sz := floor_log2 bv_sz1 + 1
  let sig_exp : smt_ast × smt_ast :=
    if exp_sz < exp_worst_case_sz then
      let max_exp := mk_max_exp exp_sz
      let max_exp_bvsz := mk_zero_ext max_exp (bv_sz1 - exp_sz)
      let exp_too_large := mk_bvulte
        (mk_bvadd max_exp_bvsz.sort max_exp_bvsz (mk_smt_bv 1 bv_sz1)) s_exp
      let zero_sig_sz := mk_smt_bv 0 sig_sz
      (mk_ite exp_too_large zero_sig_sz sig_4, mk_ite exp_too_large max_exp exp_2)
    else
      (sig_4, exp_2)
  decide (lz.sort.get_data_width = e_bv_sz.sort.get_data_width)
    && decide (sig_4.sort.get_data_width = sig_sz)
    && decide (s_exp.sort.get_data_width = bv_sz1)
    && decide (sig_exp.1.sort.get_data_width = sbits + 4)
    && decide (sig_exp.2.sort.get_data_width = ebits + 2)

/-! ## Addition and subtraction -/

/-- Function `fp_convt::mk_smt_fpbv_add` (lines 875-881): the body discards its
operands and calls `abort()`; no term is returned, for any operands. -/
def mk_smt_fpbv_add (_lhs _rhs _rm : smt_ast) : Option smt_ast := none

/-- Function `fp_convt::mk_smt_fpbv_sub` (lines 883-887). -/
def mk_smt_fpbv_sub (lhs rhs rm : smt_ast) : Option smt_ast :=
  let t := mk_smt_fpbv_neg rhs
  mk_smt_fpbv_add lhs t rm

/-! ## The rounding-mode sort of the solver adapter -/

/-- Sort constructor `yices_convt::mk_bv_fp_rm_sort` (yices_conv.cpp lines
701-705): a bit-vector type and a data width of 2. -/
def mk_bv_fp_rm_sort : smt_sort := ⟨2, 0⟩

/-! ## Floating-point types of the type system (`util/std_types.h`) -/

/-- A `floatbv_typet`, by the two attributes its accessors read: "width" (set
by `set_width`) and "f" (set by `set_f`). -/
structure floatbv_typet where
  width : Nat
  f : Nat
deriving DecidableEq, Repr

/-- Modelled from the spec: `bv_typet::get_width` (defined in std_types.cpp,
which is not among the sources): the "width" attribute, as an `unsigned`. -/
def floatbv_typet.get_width (t : floatbv_typet) : Nat := t.width % 2 ^ 32

/-- Modelled from the spec: `floatbv_typet::get_f` (defined in std_types.cpp,
which is not among the sources): the "f" attribute, the number of fraction
bits, as an `unsigned`. -/
def floatbv_typet.get_f (t : floatbv_typet) : Nat := t.f % 2 ^ 32

/-- Accessor `floatbv_typet::get_e` (std_types.h lines 428-431):
`get_width()-get_f()` in `unsigned` arithmetic. -/
def floatbv_typet.get_e (t : floatbv_typet) : Nat :=
  (t.get_width + 2 ^ 32 - t.get_f) % 2 ^ 32

/-! ## Detached goto-states (`goto-symex/goto_symex_state.h`) -/

/-- Modelled from the spec: `renaming::level2t` (renaming.h is not among the
sources): the L2 table, the current SSA version of every L1 name. -/
structure level2t where
  current_names : List (String × Nat)
deriving DecidableEq, Repr

/-- Modelled from the spec: `guardt` (guard.h is not among the sources): a
conjunction of atoms. -/
structure guardt where
  atoms : List String
deriving DecidableEq, Repr

/-- Modelled from the spec: `value_sett` (value_set.h is not among the
sources): for every pointer variable its set of abstract targets. -/
structure value_sett where
  values : List (String × List String)
deriving DecidableEq, Repr

/-- The objects of type `renaming::level2t` that exist, by address: the
members `level2_ptr` and the references `level2` name a cell of this store. -/
structure l2_store where
  cells : List level2t
deriving DecidableEq, Repr

/-- The table held at an address. -/
def l2_store.read (h : l2_store) (p : Nat) : Option level2t := h.cells.get? p

/-- An update of the table held at an address, as an assignment through the
reference `level2` performs it. -/
def l2_store.write (h : l2_store) (p : Nat) (t : level2t) : l2_store := ⟨h.cells.set p t⟩

/-- Modelled from the spec: `renaming::level2t::clone` ("L2 tables must
deep-copy"): a new object with the contents of the one at `p`; the result is
the store with the new object, and its address. -/
def level2t_clone (h : l2_store) (p : Nat) : l2_store × Nat :=
  (⟨h.cells ++ [(h.cells.get? p).getD ⟨[]⟩]⟩, h.cells.length)

/-- The member `source` of a thread state, by the field read here. -/
structure sourcet where
  thread_nr : Nat
deriving DecidableEq, Repr

/-- The members of `goto_symex_statet` that the constructor of `goto_statet`
reads: `level2` is a reference, held as the address of the table. -/
structure goto_symex_statet where
  depth : Nat
  level2 : Nat
  value_set : value_sett
  guard : guardt
  source : sourcet
deriving DecidableEq, Repr

/-- Class `goto_symex_statet::goto_statet` (lines 94-102): `level2` is the
reference `*level2_ptr` and has no cell of its own. -/
structure goto_statet where
  depth : Nat
  level2_ptr : Nat
  value_set : value_sett
  guard : guardt
  thread_id : Nat
deriving DecidableEq, Repr

/-- Constructor `goto_statet(const goto_symex_statet &s)` (lines 104-113). -/
def goto_statet.of_state (h : l2_store) (s : goto_symex_statet) : l2_store × goto_statet :=
  let c := level2t_clone h s.level2
  (c.1, ⟨s.depth, c.2, s.value_set, s.guard, s.source.thread_nr⟩)

/-- Copy constructor `goto_statet(const goto_statet &s)` (lines 115-121). -/
def goto_statet.copy (h : l2_store) (s : goto_statet) : l2_store × goto_statet :=
  let c := level2t_clone h s.level2_ptr
  (c.1, ⟨s.depth, c.2, s.value_set, s.guard, s.thread_id⟩)

/-! ## Linking the C library model (`ansi-c/cprover_library.cpp`) -/

mutual
/-- Modelled from the spec: `irept` (irep.h is not among the sources), a tree
node with an identifier `id()`, positional sub-trees `get_sub()`, named
sub-trees `get_named_sub()` and comments (named sub-trees whose name starts
with '#'). -/
inductive irept where
  | mk (id : String) (sub : irep_list) (named_sub : named_irep_list)
      (comments : named_irep_list) : irept
/-- The positional sub-trees of a node, in order. -/
inductive irep_list where
  | nil : irep_list
  | cons (head : irept) (tail : irep_list) : irep_list
/-- Named sub-trees, in the order of iteration. -/
inductive named_irep_list where
  | nil : named_irep_list
  | cons (name : String) (head : irept) (tail : named_irep_list) : named_irep_list
end

/-- Accessor `irept::id`. -/
def irept.id : irept → String
  | .mk id _ _ _ => id

/-- Accessor `irept::get_sub`. -/
def irept.get_sub : irept → irep_list
  | .mk _ sub _ _ => sub

/-- Accessor `irept::get_named_sub`. -/
def irept.get_named_sub : irept → named_irep_list
  | .mk _ _ named_sub _ => named_sub

/-- Accessor `irept::get_comments`. -/
def irept.get_comments : irept → named_irep_list
  | .mk _ _ _ comments => comments

/-- The identifier of the first sub-tree filed under a name, the empty string
when there is none. -/
def named_irep_list.find_id : named_irep_list → String → String
  | .nil, _ => ""
  | .cons n h t, name => if n = name then h.id else t.find_id name

/-- Modelled from the spec: `irept::get(name)`: the identifier of the sub-tree
filed under the name, among the comments for a name that starts with '#' and
among the named sub-trees otherwise. -/
def irept.get (i : irept) (name : String) : String :=
  if name.front = '#' then i.get_comments.find_id name else i.get_named_sub.find_id name

/-- Modelled from the spec: `irept::is_nil`: the identifier is "nil". -/
def irept.is_nil (i : irept) : Bool := decide (i.id = "nil")

/-- Function `is_in_list` (lines 41-51). -/
def is_in_list : List String → String → Bool
  | [], _ => false
  | x :: xs, item => if x = item then true else is_in_list xs item

/-- The two lists `names` and `moved` that `fetch_list_of_contained_symbols`
extends. -/
structure fetch_lists where
  names : List String
  moved : List String
deriving DecidableEq, Repr

/-- The guarded pair of `push_back` calls of
`fetch_list_of_contained_symbols` (lines 60-63, 65-68, 76-79, 81-84). -/
def fetch_push (ident : String) (l : fetch_lists) : fetch_lists :=
  if !is_in_list l.moved ident then ⟨l.names ++ [ident], l.moved ++ [ident]⟩ else l

mutual
/-- The body of either loop of `fetch_list_of_contained_symbols` for one
sub-tree `*irep_it` (lines 59-71 and 75-87): a "symbol" or "argument" node
gives its identifier, any other node is searched in turn. -/
def fetch_node : irept → fetch_lists → fetch_lists
  | .mk id sub named_sub comments, l =>
    if id = "symbol" then
      fetch_push ((irept.mk id sub named_sub comments).get "identifier") l
    else if id = "argument" then
      fetch_push ((irept.mk id sub named_sub comments).get "#identifier") l
    else fetch_named named_sub (fetch_sub sub l)
/-- The loop `forall_irep` of `fetch_list_of_contained_symbols` (line 58). -/
def fetch_sub : irep_list → fetch_lists → fetch_lists
  | .nil, l => l
  | .cons h t, l => fetch_sub t (fetch_node h l)
/-- The loop `forall_named_irep` of `fetch_list_of_contained_symbols`
(line 74). -/
def fetch_named : named_irep_list → fetch_lists → fetch_lists
  | .nil, l => l
  | .cons _ h t, l => fetch_named t (fetch_node h l)
end

/-- Function `fetch_list_of_contained_symbols` (lines 53-91): the positional
sub-trees of the node, then the named ones; the node itself is not inspected. -/
def fetch_list_of_contained_symbols (irep : irept) (l : fetch_lists) : fetch_lists :=
  fetch_named irep.get_named_sub (fetch_sub irep.get_sub l)

/-- The members of `symbolt` that the linker reads. -/
structure symbolt where
  name : String
  value : irept
  type : irept

/-- A `contextt`: its symbols in the order of iteration, found by name. -/
structure contextt where
  symbols : List symbolt

/-- Lookup `context.symbols.find(name)`. -/
def contextt.find (c : contextt) (name : String) : Option symbolt :=
  c.symbols.find? (fun s => decide (s.name = name))

/-- Modelled from the spec: `contextt::add`: the symbol is entered unless one
of its name is present. -/
def contextt.add (c : contextt) (s : symbolt) : contextt :=
  if (c.find s.name).isSome then c else ⟨c.symbols ++ [s]⟩

/-- What `add_cprover_library` has built when it reaches `merge_context`. -/
structure link_state where
  names : List String
  moved : List String
  store_ctx : contextt

/-- The first loop of `add_cprover_library` (lines 148-157) over the symbols
of the library: a symbol that the user context holds with a nil value is
moved to `store_ctx`.  (`remain_ctx` is never read and is left out.) -/
def first_pass (context : contextt) : List symbolt → List String × contextt →
    List String × contextt
  | [], acc => acc
  | it :: rest, acc =>
    match context.find it.name with
    | some used_sym =>
      if used_sym.value.is_nil then
        first_pass context rest (acc.1 ++ [it.name], acc.2.add it)
      else first_pass context rest acc
    | none => first_pass context rest acc

/-- The second loop of `add_cprover_library` (lines 159-162) over the symbols
of `store_ctx`. -/
def second_pass : List symbolt → fetch_lists → fetch_lists
  | [], l => l
  | it :: rest, l =>
    second_pass rest
      (fetch_list_of_contained_symbols it.type (fetch_list_of_contained_symbols it.value l))

/-- The third loop of `add_cprover_library` (lines 164-174): the iterator
`nameit` is the position `i` in `names`, which grows while the loop runs;
`fuel` bounds the number of passes. -/
def third_pass (new_ctx : contextt) : Nat → Nat → link_state → Option link_state
  | 0, _, _ => none
  | fuel + 1, i, st =>
    match st.names.get? i with
    | none => some st
    | some nameit =>
      match new_ctx.find nameit with
      | some used_sym =>
        let moved := st.moved ++ [used_sym.name]
        let l := fetch_list_of_contained_symbols used_sym.value ⟨st.names, moved⟩
        let l := fetch_list_of_contained_symbols used_sym.type l
        third_pass new_ctx fuel (i + 1) ⟨l.names, l.moved, st.store_ctx.add used_sym⟩
      | none => third_pass new_ctx fuel (i + 1) st

mutual
/-- Number of nodes of a tree. -/
def irept.size : irept → Nat
  | .mk _ sub named_sub comments => 1 + sub.size + named_sub.size + comments.size
/-- Number of nodes of a list of trees. -/
def irep_list.size : irep_list → Nat
  | .nil => 0
  | .cons h t => h.size + t.size
/-- Number of nodes of a list of named trees. -/
def named_irep_list.size : named_irep_list → Nat
  | .nil => 0
  | .cons _ h t => h.size + t.size
end

/-- Number of nodes in the values and types of the symbols of a list. -/
def symbols_size : List symbolt → Nat
  | [] => 0
  | s :: rest => s.value.size + s.type.size + symbols_size rest

/-- Function `add_cprover_library` (lines 93-180) from the point where the
library has been read into `new_ctx`: the context `store_ctx` handed to
`merge_context`.  The third loop makes one pass for every element of `names`,
and no more elements are added than the library has nodes. -/
def add_cprover_library (context new_ctx : contextt) : Option link_state :=
  let p := first_pass context new_ctx.symbols ([], ⟨[]⟩)
  let moved := p.1
  let store_ctx := p.2
  let l := second_pass store_ctx.symbols ⟨[], moved⟩
  third_pass new_ctx (symbols_size new_ctx.symbols + 1) 0 ⟨l.names, l.moved, store_ctx⟩

mutual
/-- The identifiers that `fetch_node` reads in a sub-tree: that of a "symbol"
or "argument" node, and for any other node those read below it. -/
def refs_node : irept → List String
  | .mk id sub named_sub comments =>
    if id = "symbol" then [(irept.mk id sub named_sub comments).get "identifier"]
    else if id = "argument" then [(irept.mk id sub named_sub comments).get "#identifier"]
    else refs_sub sub ++ refs_named named_sub
/-- The identifiers that `fetch_sub` reads. -/
def refs_sub : irep_list → List String
  | .nil => []
  | .cons h t => refs_node h ++ refs_sub t
/-- The identifiers that `fetch_named` reads. -/
def refs_named : named_irep_list → List String
  | .nil => []
  | .cons _ h t => refs_node h ++ refs_named t
end

/-- The identifiers that `fetch_list_of_contained_symbols` reads in a tree:
those of the "symbol" and "argument" nodes below the root that are not below
another such node. -/
def irept.refs (i : irept) : List String := refs_sub i.get_sub ++ refs_named i.get_named_sub

mutual
/-- The identifiers of all "symbol" and "argument" nodes of a tree, at any
depth, in positional and named sub-trees, the root included. -/
def irept.all_refs : irept → List String
  | .mk id sub named_sub comments =>
    (if id = "symbol" then [(irept.mk id sub named_sub comments).get "identifier"]
      else if id = "argument" then [(irept.mk id sub named_sub comments).get "#identifier"]
      else [])
    ++ sub.all_refs ++ named_sub.all_refs
/-- The identifiers of all "symbol" and "argument" nodes of a list of trees. -/
def irep_list.all_refs : irep_list → List String
  | .nil => []
  | .cons h t => h.all_refs ++ t.all_refs
/-- The identifiers of all "symbol" and "argument" nodes of a list of named
trees. -/
def named_irep_list.all_refs : named_irep_list → List String
  | .nil => []
  | .cons _ h t => h.all_refs ++ t.all_refs
end

/-- The user context holds a symbol of this name with a nil value (a
declaration without a body). -/
def declared_bodyless (context : contextt) (name : String) : Bool :=
  match context.find name with
  | some used_sym => used_sym.value.is_nil
  | none => false

/-- The names reached from the library symbols that the user context declares
without a body: such a symbol's name, and every identifier read by
`fetch_list_of_contained_symbols` in the value or the type of a library symbol
whose name is reached. -/
inductive lib_reach (context new_ctx : contextt) : String → Prop where
  | base (s : symbolt) : s ∈ new_ctx.symbols → declared_bodyless context s.name = true →
      lib_reach context new_ctx s.name
  | step (s : symbolt) (n : String) : s ∈ new_ctx.symbols → lib_reach context new_ctx s.name →
      (n ∈ s.value.refs ∨ n ∈ s.type.refs) → lib_reach context new_ctx n

/-- The effect of a search on the two lists: the same identifiers `a` are
appended to both; they are among the identifiers `R` read, were not in `moved`,
are pairwise distinct and at most `sz` in number, and every identifier read is
in `moved` afterwards. -/
def fetch_eff (R : List String) (sz : Nat) (l l1 : fetch_lists) : Prop :=
  ∃ a : List String, l1 = ⟨l.names ++ a, l.moved ++ a⟩ ∧ (∀ n ∈ a, n ∈ R ∧ n ∉ l.moved)
    ∧ a.Nodup ∧ (∀ n ∈ R, n ∈ l.moved ∨ n ∈ a) ∧ a.length ≤ sz

/-- The nodes of the library symbols that `store_ctx` does not hold yet. -/
def unfetched (store_ctx : contextt) : List symbolt → Nat
  | [] => 0
  | s :: rest =>
    (if (store_ctx.find s.name).isSome then 0 else s.value.size + s.type.size)
      + unfetched store_ctx rest

/-- What holds of the lists and of `store_ctx` each time the third loop of
`add_cprover_library` is at position `i` of `names`. -/
def link_inv (context new_ctx : contextt) (i : Nat) (st : link_state) : Prop :=
  st.names.Nodup
  ∧ (∀ n ∈ st.names, n ∈ st.moved)
  ∧ (∀ s ∈ st.store_ctx.symbols, s.name ∈ st.moved)
  ∧ (∀ n ∈ st.names.drop i, st.store_ctx.find n = none)
  ∧ (∀ s ∈ st.store_ctx.symbols, s ∈ new_ctx.symbols ∧ lib_reach context new_ctx s.name)
  ∧ (∀ n ∈ st.names, lib_reach context new_ctx n)
  ∧ (∀ s ∈ st.store_ctx.symbols, ∀ n, (n ∈ s.value.refs ∨ n ∈ s.type.refs) → n ∈ st.moved)
  ∧ (∀ n ∈ st.moved, n ∈ st.names ∨ (st.store_ctx.find n).isSome = true)
  ∧ (∀ n ∈ st.names.take i, (new_ctx.find n).isSome = true →
      (st.store_ctx.find n).isSome = true)

/-- A tree node without sub-trees. -/
def irept.leaf (id : String) : irept := .mk id .nil .nil .nil

/-- A "symbol" node with the given identifier and type. -/
def irept.symbol (identifier : String) (type : irept) : irept :=
  .mk "symbol" .nil (.cons "identifier" (irept.leaf identifier) (.cons "type" type .nil)) .nil

/-- A node with the given identifier and one positional sub-tree. -/
def irept.unary (id : String) (op : irept) : irept := .mk id (.cons op .nil) .nil .nil

/-- The truncation toward zero of a rational number (spec: "trunc"): the
integer part, the fraction dropped. -/
def trunc (q : ℚ) : Int := if 0 ≤ q then ⌊q⌋ else -⌊-q⌋

/-! ## Further comparisons -/

/-- Comparison `fp_convt::mk_smt_fpbv_gt` (lines 1195-1199): less-than with the
operands exchanged. -/
def mk_smt_fpbv_gt (lhs rhs : smt_ast) : Bool := mk_smt_fpbv_lt rhs lhs

/-- Comparison `fp_convt::mk_smt_fpbv_gte` (lines 1253-1258): the negation of
less-than. -/
def mk_smt_fpbv_gte (lhs rhs : smt_ast) : Bool :=
  let a := mk_smt_fpbv_lt lhs rhs
  !a

/-- Comparison `fp_convt::mk_smt_fpbv_lte` (lines 1260-1265). -/
def mk_smt_fpbv_lte (lhs rhs : smt_ast) : Bool :=
  let lt := mk_smt_fpbv_lt lhs rhs
  let eq := mk_smt_fpbv_eq lhs rhs
  lt || eq

/-! ## The Yices adapter (`solvers/yices/yices_conv.cpp`) -/

/-- The kinds of sort that the sort constructors of the adapter pass to
`solver_smt_sort` (the enumerators named in yices_conv.cpp lines 665-705). -/
inductive smt_sort_kind where
  | SMT_SORT_BOOL
  | SMT_SORT_REAL
  | SMT_SORT_INT
  | SMT_SORT_ARRAY
  | SMT_SORT_FAKE_FLOATBV
  | SMT_SORT_FAKE_FLOATBV_RM
deriving DecidableEq, Repr

/-- The solver types the adapter asks Yices for, named after the API call that
creates each (`yices_bool_type()`, `yices_int_type()`, `yices_real_type()`,
`yices_bv_type(n)`). -/
inductive type_t where
  | yices_bool_type
  | yices_int_type
  | yices_real_type
  | yices_bv_type (size : Nat)
deriving DecidableEq, Repr

/-- A `solver_smt_sort<type_t>`: the kind of the sort and the solver type
behind it. -/
structure solver_smt_sort where
  id : smt_sort_kind
  s : type_t
deriving DecidableEq, Repr

/-- Sort constructor `yices_convt::mk_bool_sort` (lines 665-668). -/
def mk_bool_sort : solver_smt_sort := ⟨.SMT_SORT_BOOL, .yices_bool_type⟩

/-- Sort constructor `yices_convt::mk_real_sort` (lines 670-673). -/
def mk_real_sort : solver_smt_sort := ⟨.SMT_SORT_REAL, .yices_int_type⟩

/-- Sort constructor `yices_convt::mk_int_sort` (lines 675-678). -/
def mk_int_sort : solver_smt_sort := ⟨.SMT_SORT_INT, .yices_real_type⟩

/-- The loop of `yices_convt::get_bv` (lines 404-408): for i from the count
minus one down to 0, `val <<= 1; val |= data[i]`.  `val` is an `int64_t`, held
here as its 64-bit pattern; `data i` is the bit that `yices_get_bv_value`
stored at index i (0 or 1, index 0 the least significant). -/
def get_bv_loop (data : Nat → Bool) : Nat → Nat → Nat
  | 0, val => val
  | i + 1, val => get_bv_loop data i (((val * 2) % 2 ^ 64) ||| (if data i then 1 else 0))

/-- The value of an `int64_t` with the given 64-bit pattern. -/
def int64_of_bits (u : Nat) : Int := if u < 2 ^ 63 then (u : Int) else (u : Int) - 2 ^ 64

/-- Function `yices_convt::get_bv` (lines 386-411) in bit-vector mode
(`int_encoding` false), on a term of the given width whose model value has
the bits `data`; `none` when the assertion `width <= 64` fails. -/
def get_bv (width : Nat) (data : Nat → Bool) : Option Int :=
  if width ≤ 64 then some (int64_of_bits (get_bv_loop data width 0)) else none

/-- The unsigned integer with the bits b[0..w-1], b[0] least significant: the
sum of b[i] * 2^i. -/
def bits_value (data : Nat → Bool) : Nat → Nat
  | 0 => 0
  | w + 1 => bits_value data w + (if data w then 2 ^ w else 0)

/-- The number of leading zero bits of the n-bit vector with value v: the zero
bits above the highest bit that is 1, n when no bit is 1. -/
def leading_zero_bits : Nat → Nat → Nat
  | 0, _ => 0
  | n + 1, v => if v / 2 ^ n % 2 = 1 then 0 else leading_zero_bits n v + 1

/-! # Theorems -/

/-! ## Arithmetic of bit fields -/

theorem two_pow_pos (n : Nat) : 0 < 2 ^ n := Nat.pos_pow_of_pos n (by decide)

theorem mod_eq_of_decomp (n m k r : Nat) (h : n = k * m + r) (hr : r < m) : n % m = r := by
  subst h
  rw [Nat.add_comm, Nat.add_mul_mod_self_right, Nat.mod_eq_of_lt hr]

theorem div_eq_of_decomp (n m k r : Nat) (h : n = k * m + r) (hr : r < m) : n / m = k := by
  subst h
  have hm : 0 < m := by omega
  rw [Nat.add_comm, Nat.add_mul_div_right _ _ hm, Nat.div_eq_of_lt hr, Nat.zero_add]

theorem pow_succ_two (n : Nat) : 2 ^ (n + 1) = 2 * 2 ^ n := by
  rw [Nat.pow_succ, Nat.mul_comm]

theorem pow_pred_two (n : Nat) (h : 1 ≤ n) : 2 ^ n = 2 * 2 ^ (n - 1) := by
  obtain ⟨k, rfl⟩ : ∃ k, n = k + 1 := ⟨n - 1, by omega⟩
  simp [pow_succ_two]

/-! ## Denotation of the interface constants -/

@[simp] theorem mk_smt_bv_natCast (n w : Nat) :
    mk_smt_bv (n : Int) w = ⟨mk_bv_sort w, n % 2 ^ w⟩ := by
  unfold mk_smt_bv
  congr 1
  have : ((n : Int) % (2 : Int) ^ w) = ((n % 2 ^ w : Nat) : Int) := by
    simp [Int.natCast_mod]
  rw [this, Int.toNat_natCast]

@[simp] theorem mk_smt_bv_zero (w : Nat) : mk_smt_bv 0 w = ⟨mk_bv_sort w, 0⟩ := by
  have := mk_smt_bv_natCast 0 w
  simpa using this

@[simp] theorem mk_smt_bv_one (w : Nat) : mk_smt_bv 1 w = ⟨mk_bv_sort w, 1 % 2 ^ w⟩ := by
  have := mk_smt_bv_natCast 1 w
  simpa using this

theorem power2m1_false (n : Nat) : power2m1 n false = ((2 ^ n - 1 : Nat) : Int) := by
  have := two_pow_pos n
  simp [power2m1]

/-! ## The fields of a packed value -/

theorem fields_lt (ebits f s E T : Nat) (hs : s < 2) (hE : E < 2 ^ ebits) (hT : T < 2 ^ f) :
    s * 2 ^ (ebits + f) + E * 2 ^ f + T < 2 ^ (ebits + f + 1) := by
  have h1 : 2 ^ (ebits + f) = 2 ^ ebits * 2 ^ f := Nat.pow_add 2 ebits f
  have h2 : 2 ^ (ebits + f + 1) = 2 * (2 ^ ebits * 2 ^ f) := by rw [pow_succ_two, h1]
  have h3 : E * 2 ^ f + T < 2 ^ ebits * 2 ^ f := by
    have : (E + 1) * 2 ^ f ≤ 2 ^ ebits * 2 ^ f := Nat.mul_le_mul_right _ hE
    rw [Nat.add_mul] at this
    omega
  rw [h1, h2]
  have : s * (2 ^ ebits * 2 ^ f) ≤ 1 * (2 ^ ebits * 2 ^ f) := Nat.mul_le_mul_right _ (by omega)
  omega

theorem expsig_lt (ebits f E T : Nat) (hE : E < 2 ^ ebits) (hT : T < 2 ^ f) :
    E * 2 ^ f + T < 2 ^ (ebits + f) := by
  have h1 : 2 ^ (ebits + f) = 2 ^ ebits * 2 ^ f := Nat.pow_add 2 ebits f
  have : (E + 1) * 2 ^ f ≤ 2 ^ ebits * 2 ^ f := Nat.mul_le_mul_right _ hE
  rw [Nat.add_mul] at this
  omega

theorem fields_mod_f (ebits f s E T : Nat) (hT : T < 2 ^ f) :
    (s * 2 ^ (ebits + f) + E * 2 ^ f + T) % 2 ^ f = T := by
  apply mod_eq_of_decomp _ _ (s * 2 ^ ebits + E) _ _ hT
  rw [Nat.pow_add]; ring

theorem fields_div_f (ebits f s E T : Nat) (hT : T < 2 ^ f) :
    (s * 2 ^ (ebits + f) + E * 2 ^ f + T) / 2 ^ f = s * 2 ^ ebits + E := by
  apply div_eq_of_decomp _ _ (s * 2 ^ ebits + E) _ _ hT
  rw [Nat.pow_add]; ring

theorem fields_div_ef (ebits f s E T : Nat) (hE : E < 2 ^ ebits) (hT : T < 2 ^ f) :
    (s * 2 ^ (ebits + f) + E * 2 ^ f + T) / 2 ^ (ebits + f) = s := by
  apply div_eq_of_decomp _ _ s (E * 2 ^ f + T) (by ring) (expsig_lt ebits f E T hE hT)

theorem fields_mod_ef (ebits f s E T : Nat) (hE : E < 2 ^ ebits) (hT : T < 2 ^ f) :
    (s * 2 ^ (ebits + f) + E * 2 ^ f + T) % 2 ^ (ebits + f) = E * 2 ^ f + T := by
  apply mod_eq_of_decomp _ _ s (E * 2 ^ f + T) (by ring) (expsig_lt ebits f E T hE hT)

/-- Every well-formed packed value is the packing of its three fields. -/
theorem fp_val_eq_fields (ebits sbits v : Nat) (hs : 1 ≤ sbits) (hv : v < 2 ^ (ebits + sbits)) :
    fp_val ebits sbits v =
        fp_of_fields ebits sbits (v / 2 ^ (ebits + (sbits - 1)))
          (v / 2 ^ (sbits - 1) % 2 ^ ebits) (v % 2 ^ (sbits - 1))
      ∧ v / 2 ^ (ebits + (sbits - 1)) < 2
      ∧ v / 2 ^ (sbits - 1) % 2 ^ ebits < 2 ^ ebits
      ∧ v % 2 ^ (sbits - 1) < 2 ^ (sbits - 1) := by
  obtain ⟨f, rfl⟩ : ∃ f, sbits = f + 1 := ⟨sbits - 1, by omega⟩
  simp only [Nat.add_sub_cancel]
  refine ⟨?_, ?_, Nat.mod_lt _ (two_pow_pos _), Nat.mod_lt _ (two_pow_pos _)⟩
  · unfold fp_of_fields fp_val
    simp only [Nat.add_sub_cancel]
    congr 1
    have h1 := Nat.div_add_mod v (2 ^ (ebits + f))
    have h2 := Nat.div_add_mod (v % 2 ^ (ebits + f)) (2 ^ f)
    have h3 : v % 2 ^ (ebits + f) / 2 ^ f = v / 2 ^ f % 2 ^ ebits := by
      rw [Nat.add_comm ebits f, Nat.pow_add, Nat.mod_mul_right_div_self]
    have h4 : v % 2 ^ (ebits + f) % 2 ^ f = v % 2 ^ f := by
      rw [Nat.add_comm ebits f, Nat.pow_add]
      exact Nat.mod_mul_right_mod _ _ _
    rw [h3, h4] at h2
    rw [Nat.mul_comm (2 ^ (ebits + f)), Nat.mul_comm (2 ^ f)] at *
    omega
  · rw [Nat.div_lt_iff_lt_mul (two_pow_pos _)]
    have : 2 ^ (ebits + (f + 1)) = 2 * 2 ^ (ebits + f) := by
      rw [← Nat.add_assoc, pow_succ_two]
    omega

section fields
variable (ebits sbits s E T : Nat)

theorem sort_of_fields : (fp_of_fields ebits sbits s E T).sort = mk_fpbv_sort ebits (sbits - 1) := rfl

theorem extract_significand_fields (hsb : 2 ≤ sbits) (hT : T < 2 ^ (sbits - 1)) :
    extract_significand (fp_of_fields ebits sbits s E T) = ⟨mk_bv_sort (sbits - 1), T⟩ := by
  obtain ⟨f, rfl⟩ : ∃ f, sbits = f + 2 := ⟨sbits - 2, by omega⟩
  simp only [extract_significand, fp_of_fields, fp_val, mk_extract, mk_fpbv_sort, mk_bv_fp_sort,
    smt_sort.get_significand_width, Nat.add_sub_cancel, Nat.pow_zero, Nat.div_one, Nat.sub_zero]
  have e1 : f + 2 - 1 = f + 1 := by omega
  have e2 : f + 1 + 1 - 2 + 1 = f + 1 := by omega
  rw [e1] at hT
  rw [e1, e2, fields_mod_f _ _ _ _ _ hT]

theorem extract_exponent_fields (he : 1 ≤ ebits) (hsb : 2 ≤ sbits) (hE : E < 2 ^ ebits)
    (hT : T < 2 ^ (sbits - 1)) :
    extract_exponent (fp_of_fields ebits sbits s E T) = ⟨mk_bv_sort ebits, E⟩ := by
  obtain ⟨f, rfl⟩ : ∃ f, sbits = f + 2 := ⟨sbits - 2, by omega⟩
  simp only [extract_exponent, fp_of_fields, fp_val, mk_extract, mk_fpbv_sort, mk_bv_fp_sort,
    smt_sort.get_significand_width, smt_sort.get_data_width]
  have e1 : f + 2 - 1 = f + 1 := by omega
  have e2 : f + 1 + 1 - 2 + 1 = f + 1 := by omega
  have e3 : ebits + (f + 1) + 1 - 2 - (f + 1) + 1 = ebits := by omega
  rw [e1] at hT
  rw [e1, e2, e3, fields_div_f _ _ _ _ _ hT]
  congr 1
  exact mod_eq_of_decomp _ _ s E (by ring) hE

theorem extract_signbit_fields (hs : s < 2) (hE : E < 2 ^ ebits)
    (hT : T < 2 ^ (sbits - 1)) :
    extract_signbit (fp_of_fields ebits sbits s E T) = ⟨mk_bv_sort 1, s⟩ := by
  simp only [extract_signbit, fp_of_fields, fp_val, mk_extract, mk_fpbv_sort, mk_bv_fp_sort,
    smt_sort.get_data_width, Nat.add_sub_cancel, Nat.sub_self, Nat.zero_add]
  rw [fields_div_ef _ _ _ _ _ hE hT]
  congr 1
  exact Nat.mod_eq_of_lt hs

theorem extract_exp_sig_fields (he : 1 ≤ ebits) (hE : E < 2 ^ ebits)
    (hT : T < 2 ^ (sbits - 1)) :
    extract_exp_sig (fp_of_fields ebits sbits s E T)
      = ⟨mk_bv_sort (ebits + (sbits - 1)), E * 2 ^ (sbits - 1) + T⟩ := by
  simp only [extract_exp_sig, fp_of_fields, fp_val, mk_extract, mk_fpbv_sort, mk_bv_fp_sort,
    smt_sort.get_data_width, Nat.pow_zero, Nat.div_one, Nat.sub_zero]
  have e1 : ebits + (sbits - 1) + 1 - 2 + 1 = ebits + (sbits - 1) := by omega
  rw [e1, fields_mod_ef _ _ _ _ _ hE hT]

end fields

/-! ## Classifiers in terms of the fields -/

theorem mk_top_exp_eq (w : Nat) : mk_top_exp w = ⟨mk_bv_sort w, 2 ^ w - 1⟩ := by
  unfold mk_top_exp
  rw [power2m1_false, mk_smt_bv_natCast]
  congr 1
  exact Nat.mod_eq_of_lt (by have := two_pow_pos w; omega)

theorem expsig_eq_zero_iff (f E T : Nat) : E * 2 ^ f + T = 0 ↔ E = 0 ∧ T = 0 := by
  have := two_pow_pos f
  constructor
  · intro h
    have h1 : E * 2 ^ f = 0 := by omega
    have h2 : T = 0 := by omega
    rcases Nat.mul_eq_zero.mp h1 with h | h
    · exact ⟨h, h2⟩
    · omega
  · rintro ⟨rfl, rfl⟩
    simp

section classify
variable (ebits sbits s E T : Nat)

theorem is_nan_fields (he : 1 ≤ ebits) (hsb : 2 ≤ sbits) (hE : E < 2 ^ ebits)
    (hT : T < 2 ^ (sbits - 1)) :
    mk_smt_fpbv_is_nan (fp_of_fields ebits sbits s E T)
      = (decide (E = 2 ^ ebits - 1) && !decide (T = 0)) := by
  simp only [mk_smt_fpbv_is_nan, extract_exponent_fields ebits sbits s E T he hsb hE hT,
    extract_significand_fields ebits sbits s E T hsb hT, mk_top_exp_eq, mk_smt_bv_zero, mk_eq,
    smt_sort.get_data_width, mk_bv_sort]

theorem is_inf_fields (he : 1 ≤ ebits) (hsb : 2 ≤ sbits) (hE : E < 2 ^ ebits)
    (hT : T < 2 ^ (sbits - 1)) :
    mk_smt_fpbv_is_inf (fp_of_fields ebits sbits s E T)
      = (decide (E = 2 ^ ebits - 1) && decide (T = 0)) := by
  simp only [mk_smt_fpbv_is_inf, extract_exponent_fields ebits sbits s E T he hsb hE hT,
    extract_significand_fields ebits sbits s E T hsb hT, mk_top_exp_eq, mk_smt_bv_zero, mk_eq,
    smt_sort.get_data_width, mk_bv_sort]

theorem is_zero_fields (he : 1 ≤ ebits) (hE : E < 2 ^ ebits)
    (hT : T < 2 ^ (sbits - 1)) :
    mk_smt_fpbv_is_zero (fp_of_fields ebits sbits s E T)
      = (decide (E = 0) && decide (T = 0)) := by
  simp only [mk_smt_fpbv_is_zero, extract_exp_sig_fields ebits sbits s E T he hE hT,
    mk_smt_bv_zero, mk_eq, expsig_eq_zero_iff, Bool.decide_and]

theorem is_denormal_fields (he : 1 ≤ ebits) (hsb : 2 ≤ sbits) (hE : E < 2 ^ ebits)
    (hT : T < 2 ^ (sbits - 1)) :
    mk_is_denormal (fp_of_fields ebits sbits s E T)
      = (decide (E = 0) && !decide (T = 0)) := by
  simp only [mk_is_denormal, is_zero_fields ebits sbits s E T he hE hT,
    extract_exponent_fields ebits sbits s E T he hsb hE hT, mk_smt_bv_zero, mk_eq]
  by_cases h1 : E = 0 <;> by_cases h2 : T = 0 <;> simp [h1, h2]

theorem is_normal_fields (he : 1 ≤ ebits) (hsb : 2 ≤ sbits) (hE : E < 2 ^ ebits)
    (hT : T < 2 ^ (sbits - 1)) :
    mk_smt_fpbv_is_normal (fp_of_fields ebits sbits s E T)
      = (!decide (E = 0) && !decide (E = 2 ^ ebits - 1)) := by
  simp only [mk_smt_fpbv_is_normal, is_zero_fields ebits sbits s E T he hE hT,
    is_denormal_fields ebits sbits s E T he hsb hE hT,
    extract_exponent_fields ebits sbits s E T he hsb hE hT, mk_eq, smt_sort.get_data_width,
    mk_bv_sort]
  have := mk_top_exp_eq ebits
  unfold mk_top_exp at this
  rw [this]
  by_cases h1 : E = 0 <;> by_cases h2 : T = 0 <;> by_cases h3 : E = 2 ^ ebits - 1 <;>
    simp [h1, h2, h3]

end classify

/-! ## C1: the rounding decision -/

/-- C1: for each of the five rounding modes and all one-bit operands,
`mk_rounding_decision` returns the one-bit value
RNE: round ∧ (last ∨ sticky); RTA: round; RTP: ¬sgn ∧ (round ∨ sticky);
RTN: sgn ∧ (round ∨ sticky); RTZ: 0. -/
theorem C1_rounding_decision (rm : rounding_modet) (sgn last round sticky : Bool) :
    mk_rounding_decision (mk_smt_fpbv_rm rm) (bit1 sgn) (bit1 last) (bit1 round) (bit1 sticky)
      = bit1 (match rm with
        | .ROUND_TO_EVEN => round && (last || sticky)
        | .ROUND_TO_AWAY => round
        | .ROUND_TO_PLUS_INF => !sgn && (round || sticky)
        | .ROUND_TO_MINUS_INF => sgn && (round || sticky)
        | .ROUND_TO_ZERO => false) := by
  cases rm <;> cases sgn <;> cases last <;> cases round <;> cases sticky <;> decide

/-! ## C4: classifiers -/

/-- C4: with E the exponent field and T the trailing significand of a packed
value x, is_nan x iff E is all ones and T ≠ 0; is_inf x iff E is all ones and
T = 0; is_zero x iff E = 0 and T = 0; mk_is_denormal x iff E = 0 and T ≠ 0;
is_normal x iff none of is_zero, is_denormal, (E all ones) holds; and the five
classifiers give the same answer on every value with the same E and T, whatever
its sign bit. -/
theorem C4_classifiers (ebits sbits v : Nat) (he : 1 ≤ ebits) (hsb : 2 ≤ sbits)
    (hv : v < 2 ^ (ebits + sbits)) :
    (mk_smt_fpbv_is_nan (fp_val ebits sbits v) = true ↔
        v / 2 ^ (sbits - 1) % 2 ^ ebits = 2 ^ ebits - 1 ∧ v % 2 ^ (sbits - 1) ≠ 0)
    ∧ (mk_smt_fpbv_is_inf (fp_val ebits sbits v) = true ↔
        v / 2 ^ (sbits - 1) % 2 ^ ebits = 2 ^ ebits - 1 ∧ v % 2 ^ (sbits - 1) = 0)
    ∧ (mk_smt_fpbv_is_zero (fp_val ebits sbits v) = true ↔
        v / 2 ^ (sbits - 1) % 2 ^ ebits = 0 ∧ v % 2 ^ (sbits - 1) = 0)
    ∧ (mk_is_denormal (fp_val ebits sbits v) = true ↔
        v / 2 ^ (sbits - 1) % 2 ^ ebits = 0 ∧ v % 2 ^ (sbits - 1) ≠ 0)
    ∧ (mk_smt_fpbv_is_normal (fp_val ebits sbits v) = true ↔
        ¬ mk_smt_fpbv_is_zero (fp_val ebits sbits v) = true
        ∧ ¬ mk_is_denormal (fp_val ebits sbits v) = true
        ∧ ¬ v / 2 ^ (sbits - 1) % 2 ^ ebits = 2 ^ ebits - 1)
    ∧ (∀ s, s < 2 →
        let y := fp_of_fields ebits sbits s (v / 2 ^ (sbits - 1) % 2 ^ ebits)
          (v % 2 ^ (sbits - 1))
        mk_smt_fpbv_is_nan y = mk_smt_fpbv_is_nan (fp_val ebits sbits v)
        ∧ mk_smt_fpbv_is_inf y = mk_smt_fpbv_is_inf (fp_val ebits sbits v)
        ∧ mk_smt_fpbv_is_zero y = mk_smt_fpbv_is_zero (fp_val ebits sbits v)
        ∧ mk_is_denormal y = mk_is_denormal (fp_val ebits sbits v)
        ∧ mk_smt_fpbv_is_normal y = mk_smt_fpbv_is_normal (fp_val ebits sbits v)) := by
  obtain ⟨hx, -, hE, hT⟩ := fp_val_eq_fields ebits sbits v (by omega) hv
  rw [hx]
  generalize v / 2 ^ (ebits + (sbits - 1)) = s0 at *
  generalize v / 2 ^ (sbits - 1) % 2 ^ ebits = E at *
  generalize v % 2 ^ (sbits - 1) = T at *
  simp only [is_nan_fields _ _ _ _ _ he hsb hE hT, is_inf_fields _ _ _ _ _ he hsb hE hT,
    is_zero_fields _ _ _ _ _ he hE hT, is_denormal_fields _ _ _ _ _ he hsb hE hT,
    is_normal_fields _ _ _ _ _ he hsb hE hT]
  refine ⟨by simp, by simp, by simp, by simp, ?_, ?_⟩
  · by_cases h1 : E = 0 <;> by_cases h2 : T = 0 <;> simp [h1, h2]
  · intro s _
    simp

/-- Witness for C4: the single-precision value 1.0 is classified normal. -/
theorem C4_classifiers_witness :
    (1 ≤ 8 ∧ 2 ≤ 24 ∧ 0x3f800000 < 2 ^ (8 + 24))
    ∧ (mk_smt_fpbv_is_normal (fp_val 8 24 0x3f800000) = true ↔
        ¬ mk_smt_fpbv_is_zero (fp_val 8 24 0x3f800000) = true
        ∧ ¬ mk_is_denormal (fp_val 8 24 0x3f800000) = true
        ∧ ¬ 0x3f800000 / 2 ^ (24 - 1) % 2 ^ 8 = 2 ^ 8 - 1) :=
  ⟨by decide, (C4_classifiers 8 24 0x3f800000 (by decide) (by decide) (by decide)).2.2.2.2.1⟩

/-! ## C3: less-than -/

/-- C3 (evaluation at the failing input): for lhs = -1.0 and rhs = 1.0 in single
precision neither operand is NaN, they are not both zero, the sign bits differ
and the sign bit of lhs is 1, yet `mk_smt_fpbv_lt` is false: the sign of the
right operand is read from lhs, so the signs always compare equal and the
unsigned comparison of the two equal exponent-significand slices decides. -/
theorem C3_lt_differing_signs :
    mk_smt_fpbv_lt (fp_val 8 24 0xbf800000) (fp_val 8 24 0x3f800000) = false
    ∧ mk_smt_fpbv_is_nan (fp_val 8 24 0xbf800000) = false
    ∧ mk_smt_fpbv_is_nan (fp_val 8 24 0x3f800000) = false
    ∧ mk_smt_fpbv_is_zero (fp_val 8 24 0xbf800000) = false
    ∧ extract_signbit (fp_val 8 24 0xbf800000) = bit1 true
    ∧ extract_signbit (fp_val 8 24 0x3f800000) = bit1 false := by
  decide

/-! ## C2: equality -/

theorem mag_lt_of_zero (f T : Nat) (hT : T < 2 ^ f) : mag f 0 T < 2 ^ f := by
  simp [mag, hT]

theorem mag_bounds (f E T : Nat) (hE : 1 ≤ E) (hT : T < 2 ^ f) :
    2 ^ f * 2 ^ (E - 1) ≤ mag f E T ∧ mag f E T < 2 ^ f * 2 ^ E := by
  have hE0 : E ≠ 0 := by omega
  simp only [mag, hE0, if_false]
  constructor
  · exact Nat.mul_le_mul_right _ (by omega)
  · have h1 : 2 ^ E = 2 * 2 ^ (E - 1) := pow_pred_two E hE
    rw [h1, ← Nat.mul_assoc]
    exact Nat.mul_lt_mul_of_pos_right (by omega) (two_pow_pos _)

theorem mag_eq_zero_iff (f E T : Nat) : mag f E T = 0 ↔ E = 0 ∧ T = 0 := by
  unfold mag
  by_cases h : E = 0
  · simp [h]
  · have h1 := two_pow_pos f
    have h2 := two_pow_pos (E - 1)
    simp only [h, if_false, false_and, iff_false]
    exact Nat.ne_of_gt (Nat.mul_pos (by omega) h2)

theorem mag_inj (f E1 T1 E2 T2 : Nat) (hT1 : T1 < 2 ^ f) (hT2 : T2 < 2 ^ f)
    (h : mag f E1 T1 = mag f E2 T2) : E1 = E2 ∧ T1 = T2 := by
  have key : ∀ a b Ta Tb, Ta < 2 ^ f → Tb < 2 ^ f → a < b → mag f a Ta ≠ mag f b Tb := by
    intro a b Ta Tb hTa hTb hab
    have hb := mag_bounds f b Tb (by omega) hTb
    have hmono : 2 ^ a ≤ 2 ^ (b - 1) := Nat.pow_le_pow_right (by decide) (by omega)
    have hmono2 : 2 ^ f * 2 ^ a ≤ 2 ^ f * 2 ^ (b - 1) := Nat.mul_le_mul_left _ hmono
    have hlow : 2 ^ f * 2 ^ a ≤ mag f b Tb := Nat.le_trans hmono2 hb.1
    by_cases ha : a = 0
    · subst ha
      have := mag_lt_of_zero f Ta hTa
      rw [Nat.pow_zero, Nat.mul_one] at hlow
      omega
    · have := mag_bounds f a Ta (by omega) hTa
      omega
  rcases Nat.lt_trichotomy E1 E2 with hlt | heq | hgt
  · exact absurd h (key _ _ _ _ hT1 hT2 hlt)
  · subst heq
    refine ⟨rfl, ?_⟩
    unfold mag at h
    by_cases h0 : E1 = 0
    · simpa [h0] using h
    · simp only [h0, if_false] at h
      have := Nat.eq_of_mul_eq_mul_right (two_pow_pos _) h
      omega
  · exact absurd h.symm (key _ _ _ _ hT2 hT1 hgt)

theorem fields_inj (ebits f s1 E1 T1 s2 E2 T2 : Nat) (hE1 : E1 < 2 ^ ebits)
    (hT1 : T1 < 2 ^ f) (hE2 : E2 < 2 ^ ebits) (hT2 : T2 < 2 ^ f)
    (h : s1 * 2 ^ (ebits + f) + E1 * 2 ^ f + T1 = s2 * 2 ^ (ebits + f) + E2 * 2 ^ f + T2) :
    s1 = s2 ∧ E1 = E2 ∧ T1 = T2 := by
  have hs := congrArg (fun n => n / 2 ^ (ebits + f)) h
  have hT := congrArg (fun n => n % 2 ^ f) h
  simp only [fields_div_ef _ _ _ _ _ hE1 hT1, fields_div_ef _ _ _ _ _ hE2 hT2,
    fields_mod_f _ _ _ _ _ hT1, fields_mod_f _ _ _ _ _ hT2] at hs hT
  subst hs hT
  refine ⟨rfl, ?_, rfl⟩
  have := Nat.eq_of_mul_eq_mul_right (two_pow_pos f) (by omega : E1 * 2 ^ f = E2 * 2 ^ f)
  exact this

theorem signed_mag_eq (s1 s2 m1 m2 : Nat) (hs1 : s1 < 2) (hs2 : s2 < 2) (c : ℚ) (hc : c ≠ 0) :
    ((-1 : ℚ) ^ s1 * (m1 : ℚ) * c = (-1) ^ s2 * (m2 : ℚ) * c)
      ↔ (m1 = 0 ∧ m2 = 0) ∨ (s1 = s2 ∧ m1 = m2) := by
  have h1 : (0 : ℚ) ≤ m1 := Nat.cast_nonneg _
  have h2 : (0 : ℚ) ≤ m2 := Nat.cast_nonneg _
  constructor
  · intro h
    have h' := mul_right_cancel₀ hc h
    interval_cases s1 <;> interval_cases s2 <;> simp at h'
    · right; exact ⟨rfl, by exact_mod_cast h'⟩
    · left
      have e1 : (m1 : ℚ) = 0 := by linarith
      have e2 : (m2 : ℚ) = 0 := by linarith
      exact ⟨by exact_mod_cast e1, by exact_mod_cast e2⟩
    · left
      have e1 : (m1 : ℚ) = 0 := by linarith
      have e2 : (m2 : ℚ) = 0 := by linarith
      exact ⟨by exact_mod_cast e1, by exact_mod_cast e2⟩
    · right; exact ⟨rfl, by exact_mod_cast h'⟩
  · rintro (⟨rfl, rfl⟩ | ⟨rfl, rfl⟩)
    · simp
    · rfl

theorem fp_denote_fields (ebits sbits s E T : Nat) (he : 1 ≤ ebits) (hsb : 2 ≤ sbits)
    (hs : s < 2) (hE : E < 2 ^ ebits) (hT : T < 2 ^ (sbits - 1)) :
    fp_denote (fp_of_fields ebits sbits s E T) =
      if E = 2 ^ ebits - 1 then (if T = 0 then .inf (decide (s = 1)) else .nan)
      else .finite ((-1) ^ s * (mag (sbits - 1) E T : ℚ)
        * (2 : ℚ) ^ ((1 : Int) - (2 ^ (ebits - 1) - 1) - ((sbits : Int) - 1))) := by
  have hw : (fp_of_fields ebits sbits s E T).sort.get_exponent_width = ebits := by
    simp only [fp_of_fields, fp_val, mk_fpbv_sort, mk_bv_fp_sort, smt_sort.get_exponent_width,
      smt_sort.get_data_width, smt_sort.get_significand_width]
    omega
  have hsw : (fp_of_fields ebits sbits s E T).sort.get_significand_width = sbits := by
    simp only [fp_of_fields, fp_val, mk_fpbv_sort, mk_bv_fp_sort,
      smt_sort.get_significand_width]
    omega
  unfold fp_denote
  simp only [hw, hsw]
  have hval : (fp_of_fields ebits sbits s E T).val
      = s * 2 ^ (ebits + (sbits - 1)) + E * 2 ^ (sbits - 1) + T := rfl
  rw [hval, fields_div_ef _ _ _ _ _ hE hT, fields_div_f _ _ _ _ _ hT,
    fields_mod_f _ _ _ _ _ hT, Nat.mod_eq_of_lt hs,
    mod_eq_of_decomp (s * 2 ^ ebits + E) (2 ^ ebits) s E (by ring) hE]
  by_cases h1 : E = 2 ^ ebits - 1
  · simp only [h1, if_true]
  · simp only [h1, if_false]
    by_cases h0 : E = 0
    · simp only [h0, if_true, mag]
    · simp only [h0, if_false, mag]
      congr 1
      have hsplit : ((E : Int) - (2 ^ (ebits - 1) - 1) - ((sbits : Int) - 1))
          = ((E - 1 : Nat) : Int) + ((1 : Int) - (2 ^ (ebits - 1) - 1) - ((sbits : Int) - 1)) := by
        have : ((E - 1 : Nat) : Int) = (E : Int) - 1 := by omega
        rw [this]; ring
      rw [hsplit, zpow_add₀ (by norm_num : (2 : ℚ) ≠ 0), zpow_natCast]
      push_cast
      ring

/-- C2: for packed values x, y of one format, `mk_smt_fpbv_eq x y` is true iff
neither is NaN and (both are zero, ignoring sign, or x and y are bitwise equal);
equivalently, iff neither denotes NaN and both denote the same extended real
(+0 and -0 both denote 0). -/
theorem C2_eq (ebits sbits vx vy : Nat) (he : 1 ≤ ebits) (hsb : 2 ≤ sbits)
    (hx : vx < 2 ^ (ebits + sbits)) (hy : vy < 2 ^ (ebits + sbits)) :
    (mk_smt_fpbv_eq (fp_val ebits sbits vx) (fp_val ebits sbits vy) = true ↔
      mk_smt_fpbv_is_nan (fp_val ebits sbits vx) = false
      ∧ mk_smt_fpbv_is_nan (fp_val ebits sbits vy) = false
      ∧ ((mk_smt_fpbv_is_zero (fp_val ebits sbits vx) = true
            ∧ mk_smt_fpbv_is_zero (fp_val ebits sbits vy) = true)
          ∨ vx = vy))
    ∧ (mk_smt_fpbv_eq (fp_val ebits sbits vx) (fp_val ebits sbits vy) = true ↔
      fp_denote (fp_val ebits sbits vx) ≠ .nan
      ∧ fp_denote (fp_val ebits sbits vy) ≠ .nan
      ∧ fp_denote (fp_val ebits sbits vx) = fp_denote (fp_val ebits sbits vy)) := by
  have hfirst : mk_smt_fpbv_eq (fp_val ebits sbits vx) (fp_val ebits sbits vy) = true ↔
      mk_smt_fpbv_is_nan (fp_val ebits sbits vx) = false
      ∧ mk_smt_fpbv_is_nan (fp_val ebits sbits vy) = false
      ∧ ((mk_smt_fpbv_is_zero (fp_val ebits sbits vx) = true
            ∧ mk_smt_fpbv_is_zero (fp_val ebits sbits vy) = true)
          ∨ vx = vy) := by
    simp only [mk_smt_fpbv_eq, mk_eq, fp_val, Bool.and_eq_true, Bool.or_eq_true,
      Bool.not_eq_true', Bool.or_eq_false_iff, decide_eq_true_eq]
    tauto
  refine ⟨hfirst, ?_⟩
  rw [hfirst]
  obtain ⟨ex, hs1, hE1, hT1⟩ := fp_val_eq_fields ebits sbits vx (by omega) hx
  obtain ⟨ey, hs2, hE2, hT2⟩ := fp_val_eq_fields ebits sbits vy (by omega) hy
  have hveq : (vx = vy) = ((fp_val ebits sbits vx).val = (fp_val ebits sbits vy).val) := rfl
  rw [hveq, ex, ey]
  generalize vx / 2 ^ (ebits + (sbits - 1)) = s1 at *
  generalize vx / 2 ^ (sbits - 1) % 2 ^ ebits = E1 at *
  generalize vx % 2 ^ (sbits - 1) = T1 at *
  generalize vy / 2 ^ (ebits + (sbits - 1)) = s2 at *
  generalize vy / 2 ^ (sbits - 1) % 2 ^ ebits = E2 at *
  generalize vy % 2 ^ (sbits - 1) = T2 at *
  have hval : ∀ s E T, (fp_of_fields ebits sbits s E T).val
      = s * 2 ^ (ebits + (sbits - 1)) + E * 2 ^ (sbits - 1) + T := fun _ _ _ => rfl
  have hinj : (fp_of_fields ebits sbits s1 E1 T1).val = (fp_of_fields ebits sbits s2 E2 T2).val
      ↔ s1 = s2 ∧ E1 = E2 ∧ T1 = T2 := by
    constructor
    · intro h
      rw [hval, hval] at h
      exact fields_inj _ _ _ _ _ _ _ _ hE1 hT1 hE2 hT2 h
    · rintro ⟨rfl, rfl, rfl⟩
      rfl
  have htop : 1 ≤ 2 ^ ebits - 1 := by
    have := pow_pred_two ebits he
    have := two_pow_pos (ebits - 1)
    omega
  have hc : (2 : ℚ) ^ ((1 : Int) - (2 ^ (ebits - 1) - 1) - ((sbits : Int) - 1)) ≠ 0 :=
    zpow_ne_zero _ (by norm_num)
  rw [hinj, fp_denote_fields _ _ _ _ _ he hsb hs1 hE1 hT1,
    fp_denote_fields _ _ _ _ _ he hsb hs2 hE2 hT2,
    is_nan_fields _ _ _ _ _ he hsb hE1 hT1, is_nan_fields _ _ _ _ _ he hsb hE2 hT2,
    is_zero_fields _ _ _ _ _ he hE1 hT1, is_zero_fields _ _ _ _ _ he hE2 hT2]
  have hsd : (decide (s1 = 1) = decide (s2 = 1)) ↔ s1 = s2 := by
    constructor
    · intro h
      have := decide_eq_decide.mp h
      omega
    · rintro rfl; rfl
  by_cases a1 : E1 = 2 ^ ebits - 1
  · have z1 : E1 ≠ 0 := by omega
    by_cases b1 : T1 = 0
    · by_cases a2 : E2 = 2 ^ ebits - 1
      · by_cases b2 : T2 = 0
        · simp [a1, a2, b1, b2, hsd]
          omega
        · simp [a1, a2, b1, b2]
      · have : ¬ (2 ^ ebits - 1 = E2) := fun h => a2 h.symm
        simp [a1, a2, b1, z1, this]
        omega
    · simp [a1, b1]
  · by_cases a2 : E2 = 2 ^ ebits - 1
    · have z2 : E2 ≠ 0 := by omega
      by_cases b2 : T2 = 0
      · simp [a1, a2, b2, z2]
        omega
      · simp [a1, a2, b2]
    · simp only [a1, a2, if_false, decide_False, Bool.false_and, ne_eq, reduceCtorEq,
        not_false_eq_true, true_and, fp_value.finite.injEq, signed_mag_eq _ _ _ _ hs1 hs2 _ hc,
        mag_eq_zero_iff, Bool.and_eq_true, decide_eq_true_eq]
      constructor
      · rintro (⟨⟨h1, h2⟩, h3, h4⟩ | ⟨h1, h2, h3⟩)
        · left; exact ⟨⟨h1, h2⟩, h3, h4⟩
        · subst h1 h2 h3
          right; exact ⟨rfl, rfl⟩
      · rintro (⟨⟨h1, h2⟩, h3, h4⟩ | ⟨h1, h2⟩)
        · left; exact ⟨⟨h1, h2⟩, h3, h4⟩
        · have := mag_inj _ _ _ _ _ hT1 hT2 h2
          right; exact ⟨h1, this.1, this.2⟩

/-- Witness for C2: +0 and -0 of single precision. -/
theorem C2_eq_witness :
    (1 ≤ 8 ∧ 2 ≤ 24 ∧ 0 < 2 ^ (8 + 24) ∧ 0x80000000 < 2 ^ (8 + 24))
    ∧ (mk_smt_fpbv_eq (fp_val 8 24 0) (fp_val 8 24 0x80000000) = true ↔
      fp_denote (fp_val 8 24 0) ≠ .nan
      ∧ fp_denote (fp_val 8 24 0x80000000) ≠ .nan
      ∧ fp_denote (fp_val 8 24 0) = fp_denote (fp_val 8 24 0x80000000)) :=
  ⟨by decide, (C2_eq 8 24 0 0x80000000 (by decide) (by decide) (by decide) (by decide)).2⟩

/-! ## Exponent bias arithmetic -/

theorem mk_unbias_eq (ebits E : Nat) (he : 2 ≤ ebits) (hE : E < 2 ^ ebits) :
    mk_unbias ⟨mk_bv_sort ebits, E⟩
      = ⟨mk_bv_sort ebits, (E + 1 + 2 ^ (ebits - 1)) % 2 ^ ebits⟩ := by
  obtain ⟨k, rfl⟩ : ∃ k, ebits = k + 2 := ⟨ebits - 2, by omega⟩
  have hB : 2 ^ (k + 2) = 2 * 2 ^ (k + 1) := pow_succ_two (k + 1)
  have hBpos := two_pow_pos (k + 1)
  simp only [mk_unbias, mk_bvadd, mk_smt_bv_one, mk_extract, mk_bvnot, mk_concat, mk_bv_sort,
    smt_sort.get_data_width, Nat.add_sub_cancel, Nat.sub_self, Nat.zero_add, Nat.pow_zero,
    Nat.div_one, Nat.sub_zero, Nat.pow_one]
  have e1 : k + 2 - 1 = k + 1 := by omega
  have e2 : 1 + (k + 1) = k + 2 := by omega
  have h1 : 1 % 2 ^ (k + 2) = 1 := Nat.mod_eq_of_lt (by omega)
  rw [e1, e2, h1]
  congr 1
  generalize hy : (E + 1) % 2 ^ (k + 2) = y
  have hylt : y < 2 ^ (k + 2) := by rw [← hy]; exact Nat.mod_lt _ (two_pow_pos _)
  rw [hB] at hE hylt hy ⊢
  generalize 2 ^ (k + 1) = B at *
  by_cases hc : E + 1 < 2 * B
  · have hy' : y = E + 1 := by rw [← hy]; exact Nat.mod_eq_of_lt hc
    by_cases hlow : y < B
    · have d1 : y / B = 0 := Nat.div_eq_of_lt hlow
      have d2 : y % B = y := Nat.mod_eq_of_lt hlow
      rw [d1, d2]
      have : (E + 1 + B) % (2 * B) = E + 1 + B := Nat.mod_eq_of_lt (by omega)
      rw [this]
      simp
      omega
    · have d1 : y / B = 1 := div_eq_of_decomp y B 1 (y - B) (by omega) (by omega)
      have d2 : y % B = y - B := mod_eq_of_decomp y B 1 (y - B) (by omega) (by omega)
      rw [d1, d2]
      have : (E + 1 + B) % (2 * B) = E + 1 - B :=
        mod_eq_of_decomp _ _ 1 (E + 1 - B) (by omega) (by omega)
      rw [this]
      simp
      omega
  · have hE2 : E + 1 = 2 * B := by omega
    have hy' : y = 0 := by rw [← hy, hE2]; exact Nat.mod_self _
    have : (E + 1 + B) % (2 * B) = B :=
      mod_eq_of_decomp _ _ 1 B (by omega) (by omega)
    rw [this, hy']
    simp [Nat.zero_div]

theorem mk_bias_eq (ebits e : Nat) (he : 2 ≤ ebits) :
    mk_bias ⟨mk_bv_sort ebits, e⟩
      = ⟨mk_bv_sort ebits, (e + (2 ^ (ebits - 1) - 1)) % 2 ^ ebits⟩ := by
  have hB : 2 ^ ebits = 2 * 2 ^ (ebits - 1) := pow_pred_two ebits (by omega)
  have hBpos := two_pow_pos (ebits - 1)
  simp only [mk_bias, power2m1_false, mk_smt_bv_natCast, mk_bvadd, mk_bv_sort,
    smt_sort.get_data_width]
  have h1 : (2 ^ (ebits - 1) - 1) % 2 ^ ebits = 2 ^ (ebits - 1) - 1 :=
    Nat.mod_eq_of_lt (by omega)
  rw [h1]

theorem bias_unbias (ebits E : Nat) (he : 2 ≤ ebits) (hE : E < 2 ^ ebits) :
    ((E + 1 + 2 ^ (ebits - 1)) % 2 ^ ebits + (2 ^ (ebits - 1) - 1)) % 2 ^ ebits = E := by
  have hB : 2 ^ ebits = 2 * 2 ^ (ebits - 1) := pow_pred_two ebits (by omega)
  have hBpos := two_pow_pos (ebits - 1)
  rw [hB] at hE ⊢
  generalize 2 ^ (ebits - 1) = B at *
  by_cases h : E + 1 + B < 2 * B
  · rw [Nat.mod_eq_of_lt h]
    exact mod_eq_of_decomp _ _ 1 E (by omega) hE
  · have : (E + 1 + B) % (2 * B) = E + 1 - B :=
      mod_eq_of_decomp _ _ 1 _ (by omega) (by omega)
    rw [this]
    exact mod_eq_of_decomp _ _ 0 E (by omega) hE

/-! ## Unpacking in terms of the fields -/

@[simp] theorem mk_bv_sort_data_width (w : Nat) : (mk_bv_sort w).data_width = w := rfl

section unpack_fields
variable (ebits sbits s E T : Nat)

theorem exponent_width_fields (hsb : 2 ≤ sbits) :
    (fp_of_fields ebits sbits s E T).sort.get_exponent_width = ebits := by
  simp only [fp_of_fields, fp_val, mk_fpbv_sort, mk_bv_fp_sort, smt_sort.get_exponent_width,
    smt_sort.get_data_width, smt_sort.get_significand_width]
  omega

theorem significand_width_fields (hsb : 2 ≤ sbits) :
    (fp_of_fields ebits sbits s E T).sort.get_significand_width = sbits := by
  simp only [fp_of_fields, fp_val, mk_fpbv_sort, mk_bv_fp_sort,
    smt_sort.get_significand_width]
  omega

theorem normal_sig_eq (hsb : 2 ≤ sbits) :
    mk_concat (mk_smt_bv 1 1) ⟨mk_bv_sort (sbits - 1), T⟩
      = ⟨mk_bv_sort sbits, 2 ^ (sbits - 1) + T⟩ := by
  simp only [mk_concat, mk_smt_bv_one, mk_bv_sort]
  have e1 : 1 + (sbits - 1) = sbits := by omega
  rw [e1]
  simp

theorem unpack_fields_normal (normalize : Bool) (he : 2 ≤ ebits) (hsb : 2 ≤ sbits)
    (hs : s < 2) (hE : E < 2 ^ ebits) (hT : T < 2 ^ (sbits - 1))
    (hn0 : E ≠ 0) (hntop : E ≠ 2 ^ ebits - 1) :
    unpack (fp_of_fields ebits sbits s E T) normalize
      = ⟨⟨mk_bv_sort 1, s⟩, ⟨mk_bv_sort sbits, 2 ^ (sbits - 1) + T⟩,
          ⟨mk_bv_sort ebits, (E + 1 + 2 ^ (ebits - 1)) % 2 ^ ebits⟩,
          ⟨mk_bv_sort ebits, 0⟩⟩ := by
  have hnorm : mk_smt_fpbv_is_normal (fp_of_fields ebits sbits s E T) = true := by
    rw [is_normal_fields _ _ _ _ _ (by omega) hsb hE hT]
    simp [hn0, hntop]
  simp only [unpack, exponent_width_fields _ _ _ _ _ hsb, significand_width_fields _ _ _ _ _ hsb,
    extract_signbit_fields _ _ _ _ _ hs hE hT,
    extract_exponent_fields _ _ _ _ _ (by omega) hsb hE hT,
    extract_significand_fields _ _ _ _ _ hsb hT, hnorm, mk_ite, if_true, Bool.true_or,
    normal_sig_eq _ _ hsb, mk_unbias_eq _ _ he hE, mk_smt_bv_zero]
  cases normalize
  · simp
  · by_cases h : ebits ≤ sbits <;> simp [h]

theorem unpack_fields_other (he : 2 ≤ ebits) (hsb : 2 ≤ sbits)
    (hs : s < 2) (hE : E < 2 ^ ebits) (hT : T < 2 ^ (sbits - 1))
    (hn : E = 0 ∨ E = 2 ^ ebits - 1) :
    unpack (fp_of_fields ebits sbits s E T) false
      = ⟨⟨mk_bv_sort 1, s⟩, ⟨mk_bv_sort sbits, T⟩,
          ⟨mk_bv_sort ebits, (2 + 2 ^ (ebits - 1)) % 2 ^ ebits⟩,
          ⟨mk_bv_sort ebits, 0⟩⟩ := by
  have hnorm : mk_smt_fpbv_is_normal (fp_of_fields ebits sbits s E T) = false := by
    rw [is_normal_fields _ _ _ _ _ (by omega) hsb hE hT]
    rcases hn with h | h <;> simp [h]
  have h1 : 1 % 2 ^ ebits = 1 := Nat.mod_eq_of_lt (by
    have := pow_pred_two ebits (by omega)
    have := two_pow_pos (ebits - 1)
    omega)
  have hone : (1 : Nat) < 2 ^ ebits := by
    have := pow_pred_two ebits (by omega)
    have := two_pow_pos (ebits - 1)
    omega
  have e1 : sbits - 1 + 1 = sbits := by omega
  simp only [unpack, exponent_width_fields _ _ _ _ _ hsb, significand_width_fields _ _ _ _ _ hsb,
    extract_signbit_fields _ _ _ _ _ hs hE hT,
    extract_exponent_fields _ _ _ _ _ (by omega) hsb hE hT,
    extract_significand_fields _ _ _ _ _ hsb hT, hnorm, mk_ite, mk_smt_bv_zero, mk_smt_bv_one,
    h1, mk_unbias_eq _ _ he hone, mk_zero_ext, mk_bv_sort_data_width, e1]
  simp

end unpack_fields

/-- A format with fewer than two exponent bits has no normal value: the only
exponent fields are all-zero and all-one. -/
theorem two_le_ebits_of_normal (ebits sbits v : Nat) (hsb : 2 ≤ sbits)
    (hv : v < 2 ^ (ebits + sbits))
    (hn : mk_smt_fpbv_is_normal (fp_val ebits sbits v) = true) : 2 ≤ ebits := by
  by_contra hlt
  have h01 : ebits = 0 ∨ ebits = 1 := by omega
  rcases h01 with rfl | rfl
  · have e1 : 0 + (sbits - 1) + 1 - 2 - (sbits - 1 + 1 - 2 + 1) + 1 = 1 := by omega
    have e2 : 0 + (sbits - 1) + 1 - 2 + 1 = sbits - 1 := by omega
    have e3 : sbits - 1 + 1 - 2 + 1 = sbits - 1 := by omega
    have e4 : 0 + (sbits - 1) + 1 - 1 = sbits - 1 := by omega
    have hp : power2m1 1 false = ((1 : Nat) : Int) := by simp [power2m1]
    simp only [mk_smt_fpbv_is_normal, mk_is_denormal, mk_smt_fpbv_is_zero, extract_exponent,
      extract_exp_sig, mk_extract, fp_val, mk_fpbv_sort, mk_bv_fp_sort, smt_sort.get_data_width,
      smt_sort.get_significand_width, mk_bv_sort_data_width, e1, e2, e3, e4, mk_eq,
      mk_smt_bv_zero, hp, mk_smt_bv_natCast, Nat.pow_one, Nat.pow_zero, Nat.div_one] at hn
    have hb : v / 2 ^ (sbits - 1) % 2 = 0 ∨ v / 2 ^ (sbits - 1) % 2 = 1 := by omega
    rcases hb with h | h
    · simp [h] at hn
      exact hn.1 hn.2.2
    · simp [h] at hn
      exact hn.2 (by decide)
  · obtain ⟨hx, hs, hE, hT⟩ := fp_val_eq_fields 1 sbits v (by omega) hv
    rw [hx, is_normal_fields _ _ _ _ _ (by omega) hsb hE hT] at hn
    have hb : v / 2 ^ (sbits - 1) % 2 ^ 1 = 0 ∨ v / 2 ^ (sbits - 1) % 2 ^ 1 = 1 := by omega
    rcases hb with h | h <;> simp [h] at hn <;> omega

/-! ## C6, C7: unpacking and packing -/

theorem pack_eq (ebits sbits s S w e : Nat) (he : 2 ≤ ebits) (hsb : 2 ≤ sbits)
    (hS : S < 2 ^ sbits) :
    pack ⟨mk_bv_sort 1, s⟩ ⟨mk_bv_sort sbits, S⟩ ⟨mk_bv_sort w, e⟩ ebits sbits
      = fp_of_fields ebits sbits s
          (if S / 2 ^ (sbits - 1) = 0 then 0
            else (e % 2 ^ ebits + (2 ^ (ebits - 1) - 1)) % 2 ^ ebits)
          (S % 2 ^ (sbits - 1)) := by
  have e1 : ebits - 1 - 0 + 1 = ebits := by omega
  have e2 : sbits - 1 - (sbits - 1) + 1 = 1 := by omega
  have e3 : sbits - 2 - 0 + 1 = sbits - 1 := by omega
  have hpow : 2 ^ sbits = 2 * 2 ^ (sbits - 1) := pow_pred_two sbits (by omega)
  have hdiv : S / 2 ^ (sbits - 1) < 2 := by
    rw [Nat.div_lt_iff_lt_mul (two_pow_pos _)]
    omega
  have hmk : mk_extract ⟨mk_bv_sort w, e⟩ (ebits - 1) 0 = ⟨mk_bv_sort ebits, e % 2 ^ ebits⟩ := by
    simp only [mk_extract, e1, Nat.pow_zero, Nat.div_one]
  simp only [pack, hmk, mk_bias_eq _ _ he, mk_bot_exp, mk_smt_bv_zero]
  simp only [mk_extract, e2, e3, mk_eq, mk_ite, mk_concat, mk_from_bv_to_fp, fp_of_fields, fp_val,
    Nat.pow_zero, Nat.div_one, Nat.pow_one, Nat.mod_eq_of_lt hdiv, mk_bv_sort_data_width]
  by_cases h : S / 2 ^ (sbits - 1) = 0 <;> simp [h, Nat.add_assoc]

/-- C6 (counterexample): +infinity of single precision is not NaN, yet packing
its unpacked fields gives +0: `unpack` treats every value that is not normal as
a denormal, so an infinity comes back with an all-zero exponent field. -/
theorem C6_pack_unpack_inf_counterexample :
    mk_smt_fpbv_is_nan (fp_val 8 24 0x7f800000) = false
    ∧ mk_smt_fpbv_is_inf (fp_val 8 24 0x7f800000) = true
    ∧ pack (unpack (fp_val 8 24 0x7f800000) false).sgn (unpack (fp_val 8 24 0x7f800000) false).sig
        (unpack (fp_val 8 24 0x7f800000) false).exp 8 24 = fp_val 8 24 0
    ∧ fp_val 8 24 0 ≠ fp_val 8 24 0x7f800000 := by
  decide

/-- C6 (amended): for every finite packed value x (normal, denormal or zero:
neither NaN nor an infinity), packing the result of `unpack x false` with the
packing step of `round` gives back x bit for bit. -/
theorem C6_pack_unpack_finite (ebits sbits v : Nat) (he : 2 ≤ ebits) (hsb : 2 ≤ sbits)
    (hv : v < 2 ^ (ebits + sbits))
    (hnan : mk_smt_fpbv_is_nan (fp_val ebits sbits v) = false)
    (hinf : mk_smt_fpbv_is_inf (fp_val ebits sbits v) = false) :
    pack (unpack (fp_val ebits sbits v) false).sgn (unpack (fp_val ebits sbits v) false).sig
        (unpack (fp_val ebits sbits v) false).exp ebits sbits
      = fp_val ebits sbits v := by
  obtain ⟨hx, hs, hE, hT⟩ := fp_val_eq_fields ebits sbits v (by omega) hv
  rw [hx] at hnan hinf ⊢
  generalize v / 2 ^ (ebits + (sbits - 1)) = s at *
  generalize v / 2 ^ (sbits - 1) % 2 ^ ebits = E at *
  generalize v % 2 ^ (sbits - 1) = T at *
  rw [is_nan_fields _ _ _ _ _ (by omega) hsb hE hT] at hnan
  rw [is_inf_fields _ _ _ _ _ (by omega) hsb hE hT] at hinf
  have hntop : E ≠ 2 ^ ebits - 1 := by
    intro h
    by_cases h2 : T = 0 <;> simp [h, h2] at hnan hinf
  have hpow : 2 ^ sbits = 2 * 2 ^ (sbits - 1) := pow_pred_two sbits (by omega)
  have hB : 2 ^ ebits = 2 * 2 ^ (ebits - 1) := pow_pred_two ebits (by omega)
  have hBpos := two_pow_pos (ebits - 1)
  by_cases h0 : E = 0
  · rw [unpack_fields_other _ _ _ _ _ he hsb hs hE hT (Or.inl h0)]
    simp only []
    rw [pack_eq _ _ _ _ _ _ he hsb (by omega)]
    rw [Nat.div_eq_of_lt hT, Nat.mod_eq_of_lt hT, h0]
    simp
  · rw [unpack_fields_normal _ _ _ _ _ false he hsb hs hE hT h0 hntop]
    simp only []
    rw [pack_eq _ _ _ _ _ _ he hsb (by omega)]
    have d1 : (2 ^ (sbits - 1) + T) / 2 ^ (sbits - 1) = 1 :=
      div_eq_of_decomp _ _ 1 T (by omega) hT
    have d2 : (2 ^ (sbits - 1) + T) % 2 ^ (sbits - 1) = T :=
      mod_eq_of_decomp _ _ 1 T (by omega) hT
    rw [d1, d2, Nat.mod_mod, bias_unbias _ _ he hE]
    simp

/-- Witness for C6 (amended): the single-precision value 1.0. -/
theorem C6_pack_unpack_finite_witness :
    (2 ≤ 8 ∧ 2 ≤ 24 ∧ 0x3f800000 < 2 ^ (8 + 24)
      ∧ mk_smt_fpbv_is_nan (fp_val 8 24 0x3f800000) = false
      ∧ mk_smt_fpbv_is_inf (fp_val 8 24 0x3f800000) = false)
    ∧ pack (unpack (fp_val 8 24 0x3f800000) false).sgn (unpack (fp_val 8 24 0x3f800000) false).sig
        (unpack (fp_val 8 24 0x3f800000) false).exp 8 24
      = fp_val 8 24 0x3f800000 :=
  ⟨by decide, C6_pack_unpack_finite 8 24 0x3f800000 (by decide) (by decide) (by decide)
    (by decide) (by decide)⟩

/-- C7: for every normal x and either value of normalize, `unpack` returns the
sign bit of x, the significand 1·T (the bit 1 followed by the trailing
significand, sbits bits), the exponent E - bias with bias = 2^(ebits-1) - 1 as an
ebits-bit two's-complement value, and lz = 0. -/
theorem C7_unpack_normal (ebits sbits v : Nat) (normalize : Bool)
    (hsb : 2 ≤ sbits) (hv : v < 2 ^ (ebits + sbits))
    (hn : mk_smt_fpbv_is_normal (fp_val ebits sbits v) = true) :
    (unpack (fp_val ebits sbits v) normalize).sgn
        = ⟨mk_bv_sort 1, v / 2 ^ (ebits + (sbits - 1))⟩
    ∧ (unpack (fp_val ebits sbits v) normalize).sig
        = ⟨mk_bv_sort sbits, 2 ^ (sbits - 1) + v % 2 ^ (sbits - 1)⟩
    ∧ (unpack (fp_val ebits sbits v) normalize).exp.sort = mk_bv_sort ebits
    ∧ (unpack (fp_val ebits sbits v) normalize).exp.wf
    ∧ (unpack (fp_val ebits sbits v) normalize).exp.to_signed
        = ((v / 2 ^ (sbits - 1) % 2 ^ ebits : Nat) : Int) - (2 ^ (ebits - 1) - 1)
    ∧ (unpack (fp_val ebits sbits v) normalize).lz = ⟨mk_bv_sort ebits, 0⟩ := by
  have he : 2 ≤ ebits := two_le_ebits_of_normal ebits sbits v hsb hv hn
  obtain ⟨hx, hs, hE, hT⟩ := fp_val_eq_fields ebits sbits v (by omega) hv
  rw [hx] at hn ⊢
  generalize v / 2 ^ (ebits + (sbits - 1)) = s at *
  generalize v / 2 ^ (sbits - 1) % 2 ^ ebits = E at *
  generalize v % 2 ^ (sbits - 1) = T at *
  rw [is_normal_fields _ _ _ _ _ (by omega) hsb hE hT] at hn
  have h0 : E ≠ 0 := by intro h; simp [h] at hn
  have htop : E ≠ 2 ^ ebits - 1 := by intro h; simp [h] at hn
  rw [unpack_fields_normal _ _ _ _ _ normalize he hsb hs hE hT h0 htop]
  refine ⟨rfl, rfl, rfl, ?_, ?_, rfl⟩
  · exact Nat.mod_lt _ (two_pow_pos _)
  · have hB : 2 ^ ebits = 2 * 2 ^ (ebits - 1) := pow_pred_two ebits (by omega)
    have hBpos := two_pow_pos (ebits - 1)
    simp only [smt_ast.to_signed, mk_bv_sort_data_width]
    have hcast : ((2 : Int) ^ ebits) = 2 * ((2 ^ (ebits - 1) : Nat) : Int) := by
      have := congrArg (fun n : Nat => (n : Int)) hB
      simpa using this
    have hcast2 : ((2 : Int) ^ (ebits - 1)) = ((2 ^ (ebits - 1) : Nat) : Int) := by simp
    rw [hcast, hcast2, hB]
    rw [hB] at hE htop
    generalize 2 ^ (ebits - 1) = B at *
    by_cases h : E + 1 + B < 2 * B
    · rw [Nat.mod_eq_of_lt h]
      have : ¬ (E + 1 + B < B) := by omega
      rw [if_neg this]
      push_cast
      omega
    · have hm : (E + 1 + B) % (2 * B) = E + 1 - B :=
        mod_eq_of_decomp _ _ 1 _ (by omega) (by omega)
      rw [hm]
      have : E + 1 - B < B := by omega
      rw [if_pos this]
      omega

/-- Witness for C7: the single-precision value 1.0, unpacked with normalize. -/
theorem C7_unpack_normal_witness :
    (2 ≤ 24 ∧ 0x3f800000 < 2 ^ (8 + 24)
      ∧ mk_smt_fpbv_is_normal (fp_val 8 24 0x3f800000) = true)
    ∧ ((unpack (fp_val 8 24 0x3f800000) true).sgn
        = ⟨mk_bv_sort 1, 0x3f800000 / 2 ^ (8 + (24 - 1))⟩
      ∧ (unpack (fp_val 8 24 0x3f800000) true).sig
        = ⟨mk_bv_sort 24, 2 ^ (24 - 1) + 0x3f800000 % 2 ^ (24 - 1)⟩
      ∧ (unpack (fp_val 8 24 0x3f800000) true).exp.sort = mk_bv_sort 8
      ∧ (unpack (fp_val 8 24 0x3f800000) true).exp.wf
      ∧ (unpack (fp_val 8 24 0x3f800000) true).exp.to_signed
        = ((0x3f800000 / 2 ^ (24 - 1) % 2 ^ 8 : Nat) : Int) - (2 ^ (8 - 1) - 1)
      ∧ (unpack (fp_val 8 24 0x3f800000) true).lz = ⟨mk_bv_sort 8, 0⟩) :=
  ⟨by decide, C7_unpack_normal 8 24 0x3f800000 true (by decide) (by decide) (by decide)⟩

/-! ## C9: the width contract of unpack -/

theorem mk_smt_bv_sort (z : Int) (w : Nat) : (mk_smt_bv z w).sort = mk_bv_sort w := rfl

theorem mk_leading_zeros_fuel_sort (fuel : Nat) :
    ∀ (src : smt_ast) (max_bits : Nat),
      (mk_leading_zeros_fuel fuel src max_bits).sort = mk_bv_sort max_bits := by
  induction fuel with
  | zero => intro src m; rfl
  | succ n ih =>
    intro src m
    simp only [mk_leading_zeros_fuel, mk_ite]
    split
    · rfl
    · split
      · split <;> rfl
      · split
        · simp only [mk_bvadd, ih]
        · exact ih _ _

theorem mk_leading_zeros_sort (src : smt_ast) (max_bits : Nat) :
    (mk_leading_zeros src max_bits).sort = mk_bv_sort max_bits :=
  mk_leading_zeros_fuel_sort _ _ _

/-- C9: for every format with ebits ≥ 2 and sbits ≥ 2, every packed value and
both values of normalize, the outputs of `unpack` have widths exactly
(sgn: 1, sig: sbits, exp: ebits, lz: ebits), and every width assertion inside
`unpack` holds; the assertions of its callers (sqrt, mk_to_bv, the
float-to-float cast) are these four width equalities. -/
theorem C9_unpack_widths (ebits sbits v : Nat) (normalize : Bool) (he : 2 ≤ ebits)
    (hsb : 2 ≤ sbits) :
    (unpack (fp_val ebits sbits v) normalize).sgn.sort.get_data_width = 1
    ∧ (unpack (fp_val ebits sbits v) normalize).sig.sort.get_data_width = sbits
    ∧ (unpack (fp_val ebits sbits v) normalize).exp.sort.get_data_width = ebits
    ∧ (unpack (fp_val ebits sbits v) normalize).lz.sort.get_data_width = ebits
    ∧ unpack_asserts (fp_val ebits sbits v) normalize = true := by
  have hw : (fp_val ebits sbits v).sort.get_exponent_width = ebits :=
    exponent_width_fields ebits sbits 0 0 v hsb
  have hsw : (fp_val ebits sbits v).sort.get_significand_width = sbits :=
    significand_width_fields ebits sbits 0 0 v hsb
  have hdw : (fp_val ebits sbits v).sort.get_data_width = ebits + (sbits - 1) + 1 := rfl
  have e1 : ebits + (sbits - 1) + 1 - 1 - (ebits + (sbits - 1) + 1 - 1) + 1 = 1 := by omega
  have e2 : ebits + (sbits - 1) + 1 - 2 - (sbits - 2 + 1) + 1 = ebits := by omega
  have e3 : sbits - 2 - 0 + 1 + 1 = sbits := by omega
  have e4 : 1 + (sbits - 2 - 0 + 1) = sbits := by omega
  have e5 : 1 + (ebits - 2 - 0 + 1) = ebits := by omega
  have e6 : sbits - 2 - 0 + 1 = sbits - 1 := by omega
  have hsgn : (extract_signbit (fp_val ebits sbits v)).sort = mk_bv_sort 1 := by
    simp only [extract_signbit, mk_extract, hdw, e1]
  have hexp : (extract_exponent (fp_val ebits sbits v)).sort = mk_bv_sort ebits := by
    simp only [extract_exponent, mk_extract, hdw, hsw, e2]
  have hsig : (extract_significand (fp_val ebits sbits v)).sort = mk_bv_sort (sbits - 1) := by
    simp only [extract_significand, mk_extract, hsw, e6]
  have hunb : ∀ a : smt_ast, a.sort = mk_bv_sort ebits → (mk_unbias a).sort = mk_bv_sort ebits := by
    intro a ha
    simp only [mk_unbias, mk_concat, mk_bvnot, mk_extract, mk_bvadd, ha, smt_sort.get_data_width,
      mk_bv_sort_data_width, Nat.sub_self, Nat.zero_add, e5]
  have key : (unpack (fp_val ebits sbits v) normalize).sgn.sort = mk_bv_sort 1
      ∧ (unpack (fp_val ebits sbits v) normalize).sig.sort = mk_bv_sort sbits
      ∧ (unpack (fp_val ebits sbits v) normalize).exp.sort = mk_bv_sort ebits
      ∧ (unpack (fp_val ebits sbits v) normalize).lz.sort = mk_bv_sort ebits := by
    simp only [unpack, hw, hsw, mk_ite]
    refine ⟨hsgn, ?_, ?_, ?_⟩
    · split
      · simp only [mk_concat, mk_smt_bv_sort, hsig, mk_bv_sort_data_width]
        congr 1; omega
      · cases normalize
        · simp only [Bool.false_eq_true, if_false, mk_zero_ext, hsig, mk_bv_sort_data_width]
          congr 1
        · simp only [if_true]
          split <;>
          · simp only [mk_bvshl, mk_zero_ext, hsig, mk_bv_sort_data_width]
            congr 1
    · split
      · exact hunb _ hexp
      · exact hunb _ (mk_smt_bv_sort _ _)
    · cases normalize
      · simp only [Bool.false_eq_true, if_false, mk_smt_bv_sort]
      · simp only [if_true]
        split <;>
        · simp only []
          split
          · exact mk_smt_bv_sort _ _
          · exact mk_leading_zeros_sort _ _
  obtain ⟨k1, k2, k3, k4⟩ := key
  refine ⟨by rw [k1]; rfl, by rw [k2]; rfl, by rw [k3]; rfl, by rw [k4]; rfl, ?_⟩
  simp only [unpack_asserts, hw, hsw, k1, k2, k3, hsgn, hexp, hsig, smt_sort.get_data_width,
    mk_bv_sort_data_width, decide_True, Bool.and_true, Bool.true_and, Bool.or_eq_true,
    Bool.not_eq_true', decide_eq_true_eq, mk_ite]
  right
  split
  · rfl
  · split
    · rfl
    · rw [mk_leading_zeros_sort]; rfl

/-- Witness for C9: the smallest single-precision denormal, unpacked with
normalize. -/
theorem C9_unpack_widths_witness :
    (2 ≤ 8 ∧ 2 ≤ 24)
    ∧ ((unpack (fp_val 8 24 1) true).sgn.sort.get_data_width = 1
      ∧ (unpack (fp_val 8 24 1) true).sig.sort.get_data_width = 24
      ∧ (unpack (fp_val 8 24 1) true).exp.sort.get_data_width = 8
      ∧ (unpack (fp_val 8 24 1) true).lz.sort.get_data_width = 8
      ∧ unpack_asserts (fp_val 8 24 1) true = true) :=
  ⟨by decide, C9_unpack_widths 8 24 1 true (by decide) (by decide)⟩

/-! ## Leading zeros -/

theorem size_div_two_pow (v h : Nat) (hv : 2 ^ h ≤ v) : Nat.size (v / 2 ^ h) + h = Nat.size v := by
  have key : ∀ k, Nat.size (v / 2 ^ h) ≤ k ↔ Nat.size v ≤ k + h := by
    intro k
    rw [Nat.size_le, Nat.size_le, Nat.div_lt_iff_lt_mul (two_pow_pos h), Nat.pow_add]
  have h1 := (key (Nat.size (v / 2 ^ h))).mp (Nat.le_refl _)
  have h2 : h < Nat.size v := Nat.lt_size.mpr hv
  have h3 := (key (Nat.size v - h)).mpr (by omega)
  omega

theorem mk_leading_zeros_fuel_eq (fuel : Nat) :
    ∀ (w v m : Nat), w ≤ fuel → v < 2 ^ w →
      mk_leading_zeros_fuel fuel ⟨mk_bv_sort w, v⟩ m
        = ⟨mk_bv_sort m, (w - Nat.size v) % 2 ^ m⟩ := by
  induction fuel with
  | zero =>
    intro w v m hw hv
    have : w = 0 := by omega
    subst this
    simp [mk_leading_zeros_fuel]
  | succ n ih =>
    intro w v m hw hv
    simp only [mk_leading_zeros_fuel, smt_sort.get_data_width, mk_bv_sort_data_width]
    by_cases h0 : w = 0
    · subst h0
      simp
    · rw [if_neg h0]
      by_cases h1 : w = 1
      · subst h1
        rw [if_pos rfl]
        have hv2 : v = 0 ∨ v = 1 := by
          have : v < 2 := by simpa using hv
          omega
        rcases hv2 with rfl | rfl
        · simp [mk_eq, mk_ite]
        · simp [mk_eq, mk_ite, Nat.size_one]
      · rw [if_neg h1]
        have hh : 1 ≤ w / 2 := by omega
        have hlt : w / 2 < w := by omega
        have eH : w - 1 - w / 2 + 1 = w - w / 2 := by omega
        have eL : w / 2 - 1 - 0 + 1 = w / 2 := by omega
        have hsplit : 2 ^ w = 2 ^ (w / 2) * 2 ^ (w - w / 2) := by
          rw [← Nat.pow_add]; congr 1; omega
        have hvH : v / 2 ^ (w / 2) < 2 ^ (w - w / 2) := by
          rw [Nat.div_lt_iff_lt_mul (two_pow_pos _), Nat.mul_comm, ← hsplit]; exact hv
        have hH : mk_extract ⟨mk_bv_sort w, v⟩ (w - 1) (w / 2)
            = ⟨mk_bv_sort (w - w / 2), v / 2 ^ (w / 2)⟩ := by
          simp only [mk_extract, eH, Nat.mod_eq_of_lt hvH]
        have hL : mk_extract ⟨mk_bv_sort w, v⟩ (w / 2 - 1) 0
            = ⟨mk_bv_sort (w / 2), v % 2 ^ (w / 2)⟩ := by
          simp only [mk_extract, eL, Nat.pow_zero, Nat.div_one]
        rw [hH, hL, ih _ _ _ (by omega) hvH, ih _ _ _ (by omega) (Nat.mod_lt _ (two_pow_pos _))]
        simp only [mk_eq, mk_ite, mk_smt_bv_zero, mk_smt_bv_natCast, mk_bvadd,
          mk_bv_sort_data_width, decide_eq_true_eq]
        have hsz : Nat.size v ≤ w := Nat.size_le.mpr hv
        by_cases hz : v / 2 ^ (w / 2) = 0
        · rw [if_pos hz]
          have hvl : v < 2 ^ (w / 2) := by
            rcases Nat.div_eq_zero_iff (two_pow_pos (w / 2)) |>.mp hz with h
            exact h
          have hsz2 : Nat.size v ≤ w / 2 := Nat.size_le.mpr hvl
          rw [Nat.mod_eq_of_lt hvl, ← Nat.add_mod]
          congr 2
          omega
        · rw [if_neg hz]
          have hge : 2 ^ (w / 2) ≤ v := by
            by_contra hcon
            exact hz (Nat.div_eq_of_lt (by omega))
          have := size_div_two_pow v (w / 2) hge
          congr 2
          omega

theorem mk_leading_zeros_eq (w v m : Nat) (hv : v < 2 ^ w) :
    mk_leading_zeros ⟨mk_bv_sort w, v⟩ m = ⟨mk_bv_sort m, (w - Nat.size v) % 2 ^ m⟩ :=
  mk_leading_zeros_fuel_eq w w v m (Nat.le_refl _) hv

/-! ## C8: unpacking a denormal with normalization -/

theorem mul_pow_size_bounds (sbits T : Nat) (hT0 : T ≠ 0) (hT : T < 2 ^ (sbits - 1))
    (hsb : 2 ≤ sbits) :
    Nat.size T ≤ sbits - 1
    ∧ 2 ^ (sbits - 1) ≤ T * 2 ^ (sbits - Nat.size T)
    ∧ T * 2 ^ (sbits - Nat.size T) < 2 ^ sbits := by
  have h1 : Nat.size T ≤ sbits - 1 := Nat.size_le.mpr hT
  have h2 : T < 2 ^ Nat.size T := Nat.lt_size_self T
  have h3 : 0 < Nat.size T := Nat.size_pos.mpr (Nat.pos_of_ne_zero hT0)
  have h4 : 2 ^ (Nat.size T - 1) ≤ T := Nat.lt_size.mp (by omega)
  refine ⟨h1, ?_, ?_⟩
  · have : 2 ^ (sbits - 1) = 2 ^ (Nat.size T - 1) * 2 ^ (sbits - Nat.size T) := by
      rw [← Nat.pow_add]; congr 1; omega
    rw [this]
    exact Nat.mul_le_mul_right _ h4
  · have : 2 ^ sbits = 2 ^ Nat.size T * 2 ^ (sbits - Nat.size T) := by
      rw [← Nat.pow_add]; congr 1; omega
    rw [this]
    exact Nat.mul_lt_mul_of_pos_right h2 (two_pow_pos _)

theorem lt_two_pow_self (n : Nat) : n < 2 ^ n := Nat.lt_two_pow n

theorem unpack_fields_denormal (ebits sbits s T : Nat) (he : 2 ≤ ebits) (hsb : 2 ≤ sbits)
    (hfmt : sbits < 2 ^ ebits) (hs : s < 2) (hT : T < 2 ^ (sbits - 1)) (hT0 : T ≠ 0) :
    unpack (fp_of_fields ebits sbits s 0 T) true
      = ⟨⟨mk_bv_sort 1, s⟩, ⟨mk_bv_sort sbits, T * 2 ^ (sbits - Nat.size T)⟩,
          ⟨mk_bv_sort ebits, (2 + 2 ^ (ebits - 1)) % 2 ^ ebits⟩,
          ⟨mk_bv_sort ebits, sbits - Nat.size T⟩⟩ := by
  have hE : 0 < 2 ^ ebits := two_pow_pos _
  have hnorm : mk_smt_fpbv_is_normal (fp_of_fields ebits sbits s 0 T) = false := by
    rw [is_normal_fields _ _ _ _ _ (by omega) hsb hE hT]
    simp
  have hone : (1 : Nat) < 2 ^ ebits := by omega
  have h1 : 1 % 2 ^ ebits = 1 := Nat.mod_eq_of_lt hone
  have e1 : sbits - 1 + 1 = sbits := by omega
  obtain ⟨b1, b2, b3⟩ := mul_pow_size_bounds sbits T hT0 hT hsb
  have hTs : T < 2 ^ sbits := by
    have := pow_pred_two sbits (by omega)
    omega
  have hL : (sbits - Nat.size T) % 2 ^ ebits = sbits - Nat.size T :=
    Nat.mod_eq_of_lt (by omega)
  have hT0' : ¬ (0 = T) := fun h => hT0 h.symm
  have hLs : sbits - Nat.size T < 2 ^ sbits := by
    have := lt_two_pow_self sbits
    omega
  simp only [unpack, exponent_width_fields _ _ _ _ _ hsb, significand_width_fields _ _ _ _ _ hsb,
    extract_signbit_fields _ _ _ _ _ hs hE hT,
    extract_exponent_fields _ _ _ _ _ (by omega) hsb hE hT,
    extract_significand_fields _ _ _ _ _ hsb hT, hnorm, mk_ite, mk_smt_bv_zero, mk_smt_bv_one,
    h1, mk_unbias_eq _ _ he hone, mk_zero_ext, mk_bv_sort_data_width, e1, mk_eq, hT0',
    decide_False, Bool.false_or, Bool.false_eq_true, if_false, if_true,
    mk_leading_zeros_eq _ _ _ hTs, hL, mk_bvshl, mk_extract]
  have hsh : (sbits - Nat.size T) / 2 ^ sbits = 0 := Nat.div_eq_of_lt hLs
  by_cases hc : ebits ≤ sbits
  · simp only [hc, if_true, Nat.mod_eq_of_lt b3]
  · have e2 : sbits - 1 - 0 + 1 = sbits := by omega
    simp only [hc, if_false, hsh, Nat.zero_mod, decide_True, if_true, Nat.pow_zero, Nat.div_one,
      e2, Nat.mod_eq_of_lt hLs, Nat.mod_eq_of_lt b3]

theorem unpack_fields_zero (ebits sbits s : Nat) (he : 2 ≤ ebits) (hsb : 2 ≤ sbits)
    (hs : s < 2) :
    unpack (fp_of_fields ebits sbits s 0 0) true
      = ⟨⟨mk_bv_sort 1, s⟩, ⟨mk_bv_sort sbits, 0⟩,
          ⟨mk_bv_sort ebits, (2 + 2 ^ (ebits - 1)) % 2 ^ ebits⟩,
          ⟨mk_bv_sort ebits, 0⟩⟩ := by
  have hE : 0 < 2 ^ ebits := two_pow_pos _
  have hT : 0 < 2 ^ (sbits - 1) := two_pow_pos _
  have hnorm : mk_smt_fpbv_is_normal (fp_of_fields ebits sbits s 0 0) = false := by
    rw [is_normal_fields _ _ _ _ _ (by omega) hsb hE hT]
    simp
  have hone : (1 : Nat) < 2 ^ ebits := by
    have := pow_pred_two ebits (by omega)
    have := two_pow_pos (ebits - 1)
    omega
  have h1 : 1 % 2 ^ ebits = 1 := Nat.mod_eq_of_lt hone
  have e1 : sbits - 1 + 1 = sbits := by omega
  simp only [unpack, exponent_width_fields _ _ _ _ _ hsb, significand_width_fields _ _ _ _ _ hsb,
    extract_signbit_fields _ _ _ _ _ hs hE hT,
    extract_exponent_fields _ _ _ _ _ (by omega) hsb hE hT,
    extract_significand_fields _ _ _ _ _ hsb hT, hnorm, mk_ite, mk_smt_bv_zero, mk_smt_bv_one,
    h1, mk_unbias_eq _ _ he hone, mk_zero_ext, mk_bv_sort_data_width, e1, mk_eq,
    decide_True, Bool.or_true, if_true, mk_bvshl, mk_extract]
  by_cases hc : ebits ≤ sbits
  · simp [hc]
  · simp [hc]

theorem to_signed_min_exp (ebits : Nat) (he : 2 ≤ ebits) :
    smt_ast.to_signed ⟨mk_bv_sort ebits, (2 + 2 ^ (ebits - 1)) % 2 ^ ebits⟩
      = 1 - (2 ^ (ebits - 1) - 1) := by
  obtain ⟨k, rfl⟩ : ∃ k, ebits = k + 2 := ⟨ebits - 2, by omega⟩
  have e1 : k + 2 - 1 = k + 1 := by omega
  have hB : 2 ^ (k + 2) = 2 * 2 ^ (k + 1) := pow_succ_two (k + 1)
  have hB2 : 2 ^ (k + 1) = 2 * 2 ^ k := pow_succ_two k
  have hk := two_pow_pos k
  simp only [smt_ast.to_signed, mk_bv_sort_data_width, e1]
  have c1 : ((2 : Int) ^ (k + 2)) = ((2 ^ (k + 2) : Nat) : Int) := by simp
  have c2 : ((2 : Int) ^ (k + 1)) = ((2 ^ (k + 1) : Nat) : Int) := by simp
  rw [c1, c2, hB, hB2]
  generalize 2 ^ k = C at *
  by_cases h : C = 1
  · subst h
    simp
  · have hm : (2 + 2 * C) % (2 * (2 * C)) = 2 + 2 * C := Nat.mod_eq_of_lt (by omega)
    rw [hm]
    have : ¬ (2 + 2 * C < 2 * C) := by omega
    rw [if_neg this]
    push_cast
    omega

/-- C8 (counterexample): for the smallest single-precision denormal,
`unpack x true` returns lz = 23 and exp = 1 - bias = -126; the exponent is not
1 - bias - lz = -149. -/
theorem C8_unpack_denormal_exp_counterexample :
    mk_is_denormal (fp_val 8 24 1) = true
    ∧ (unpack (fp_val 8 24 1) true).lz = ⟨mk_bv_sort 8, 23⟩
    ∧ (unpack (fp_val 8 24 1) true).exp.to_signed = -126
    ∧ (unpack (fp_val 8 24 1) true).exp.to_signed ≠ 1 - (2 ^ (8 - 1) - 1) - 23 := by
  decide

/-- C8 (amended): for every denormal x of a format with sbits < 2^ebits,
`unpack x true` returns lz = the number of leading zeros of the sbits-bit
significand 0·T, sig = that significand shifted left by lz (so its top bit is
set), and exp = 1 - bias; lz is returned beside exp and is not subtracted
from it. -/
theorem C8_unpack_denormal (ebits sbits v : Nat) (he : 2 ≤ ebits) (hsb : 2 ≤ sbits)
    (hfmt : sbits < 2 ^ ebits) (hv : v < 2 ^ (ebits + sbits))
    (hd : mk_is_denormal (fp_val ebits sbits v) = true) :
    (unpack (fp_val ebits sbits v) true).lz
        = ⟨mk_bv_sort ebits, sbits - Nat.size (v % 2 ^ (sbits - 1))⟩
    ∧ (unpack (fp_val ebits sbits v) true).sig
        = ⟨mk_bv_sort sbits, v % 2 ^ (sbits - 1) * 2 ^ (unpack (fp_val ebits sbits v) true).lz.val⟩
    ∧ 2 ^ (sbits - 1) ≤ (unpack (fp_val ebits sbits v) true).sig.val
    ∧ (unpack (fp_val ebits sbits v) true).sig.val < 2 ^ sbits
    ∧ (unpack (fp_val ebits sbits v) true).exp.sort = mk_bv_sort ebits
    ∧ (unpack (fp_val ebits sbits v) true).exp.wf
    ∧ (unpack (fp_val ebits sbits v) true).exp.to_signed = 1 - (2 ^ (ebits - 1) - 1) := by
  obtain ⟨hx, hs, hE, hT⟩ := fp_val_eq_fields ebits sbits v (by omega) hv
  rw [hx] at hd ⊢
  generalize v / 2 ^ (ebits + (sbits - 1)) = s at *
  generalize v / 2 ^ (sbits - 1) % 2 ^ ebits = E at *
  generalize v % 2 ^ (sbits - 1) = T at *
  rw [is_denormal_fields _ _ _ _ _ (by omega) hsb hE hT] at hd
  have h0 : E = 0 := by
    by_contra h
    simp [h] at hd
  have hT0 : T ≠ 0 := by
    intro h
    simp [h] at hd
  subst h0
  rw [unpack_fields_denormal _ _ _ _ he hsb hfmt hs hT hT0]
  obtain ⟨b1, b2, b3⟩ := mul_pow_size_bounds sbits T hT0 hT hsb
  refine ⟨rfl, rfl, b2, b3, rfl, ?_, to_signed_min_exp ebits he⟩
  exact Nat.mod_lt _ (two_pow_pos _)

/-- Witness for C8 (amended): the smallest single-precision denormal. -/
theorem C8_unpack_denormal_witness :
    (2 ≤ 8 ∧ 2 ≤ 24 ∧ 24 < 2 ^ 8 ∧ 1 < 2 ^ (8 + 24) ∧ mk_is_denormal (fp_val 8 24 1) = true)
    ∧ ((unpack (fp_val 8 24 1) true).lz = ⟨mk_bv_sort 8, 24 - Nat.size (1 % 2 ^ (24 - 1))⟩
      ∧ (unpack (fp_val 8 24 1) true).sig
        = ⟨mk_bv_sort 24, 1 % 2 ^ (24 - 1) * 2 ^ (unpack (fp_val 8 24 1) true).lz.val⟩
      ∧ 2 ^ (24 - 1) ≤ (unpack (fp_val 8 24 1) true).sig.val
      ∧ (unpack (fp_val 8 24 1) true).sig.val < 2 ^ 24
      ∧ (unpack (fp_val 8 24 1) true).exp.sort = mk_bv_sort 8
      ∧ (unpack (fp_val 8 24 1) true).exp.wf
      ∧ (unpack (fp_val 8 24 1) true).exp.to_signed = 1 - (2 ^ (8 - 1) - 1)) :=
  ⟨by decide, C8_unpack_denormal 8 24 1 (by decide) (by decide) (by decide) (by decide)
    (by decide)⟩

/-! ## Rounding: the stages on an exactly representable significand -/

theorem ullmax_eq (w : Nat) (hw : w ≤ 64) :
    mk_smt_bv ULONG_LONG_MAX w = ⟨mk_bv_sort w, 2 ^ w - 1⟩ := by
  have h : ULONG_LONG_MAX = ((2 ^ 64 - 1 : Nat) : Int) := by
    unfold ULONG_LONG_MAX
    norm_num
  rw [h, mk_smt_bv_natCast]
  congr 1
  obtain ⟨k, hk⟩ : ∃ k, 64 = w + k := ⟨64 - w, by omega⟩
  have hsplit : 2 ^ 64 = 2 ^ k * 2 ^ w := by rw [hk, Nat.pow_add, Nat.mul_comm]
  have hk1 := two_pow_pos k
  have hw1 := two_pow_pos w
  obtain ⟨j, hj⟩ : ∃ j, 2 ^ k = j + 1 := ⟨2 ^ k - 1, by omega⟩
  apply mod_eq_of_decomp _ _ j (2 ^ w - 1) _ (by omega)
  rw [hsplit, hj, Nat.add_mul]
  omega

theorem slte_all_ones (w v : Nat) (hw : 1 ≤ w) (hv : v < 2 ^ w) :
    mk_bvslte ⟨mk_bv_sort w, v⟩ ⟨mk_bv_sort w, 2 ^ w - 1⟩ = decide (2 ^ (w - 1) ≤ v) := by
  have hB : 2 ^ w = 2 * 2 ^ (w - 1) := pow_pred_two w hw
  have hpos := two_pow_pos (w - 1)
  simp only [mk_bvslte, smt_ast.to_signed, mk_bv_sort_data_width]
  have c1 : ((2 : Int) ^ w) = ((2 ^ w : Nat) : Int) := by simp
  rw [c1, hB]
  rw [hB] at hv
  generalize 2 ^ (w - 1) = B at *
  have h1 : ¬ (2 * B - 1 < B) := by omega
  rw [if_neg h1]
  by_cases h : v < B
  · rw [if_pos h]
    have : ¬ (B ≤ v) := by omega
    simp only [this, decide_False, decide_eq_false_iff_not]
    push_cast
    omega
  · rw [if_neg h]
    have : B ≤ v := by omega
    simp only [this, decide_True, decide_eq_true_eq]
    push_cast
    omega

theorem rounding_decision_zero (rm : smt_ast) (s l : Nat) (hs : s < 2) (hl : l < 2) :
    mk_rounding_decision rm ⟨mk_bv_sort 1, s⟩ ⟨mk_bv_sort 1, l⟩ ⟨mk_bv_sort 1, 0⟩
      ⟨mk_bv_sort 1, 0⟩ = ⟨mk_bv_sort 1, 0⟩ := by
  have hs' : s = 0 ∨ s = 1 := by omega
  have hl' : l = 0 ∨ l = 1 := by omega
  simp only [mk_rounding_decision, mk_ite, mk_bvor, mk_bvnot, mk_smt_bv_zero,
    mk_bv_sort_data_width]
  rcases hs' with rfl | rfl <;> rcases hl' with rfl | rfl <;>
    (split <;> [rfl; (split <;> [rfl; (split <;> [rfl; (split <;> rfl)])])])

theorem round_sig_sticky_exact (sbits R : Nat) (hR : R < 2 ^ sbits) :
    round_sig_sticky ⟨mk_bv_sort (2 * (sbits + 4)), R * 2 ^ (sbits + 8)⟩ (sbits + 4) sbits
      = ⟨mk_bv_sort (sbits + 2), 4 * R⟩ := by
  have e1 : 2 * (sbits + 4) - 1 - (sbits + 2) + 1 = sbits + 6 := by omega
  have e2 : 2 * (sbits + 4) - 1 - (sbits + 6) + 1 = sbits + 2 := by omega
  have e3 : sbits + 6 - 1 - 0 + 1 = sbits + 6 := by omega
  have p1 : 2 ^ (sbits + 8) = 4 * 2 ^ (sbits + 6) := by
    rw [show sbits + 8 = sbits + 6 + 2 from rfl, Nat.pow_add]; ring
  have p2 : 2 ^ (sbits + 2) = 4 * 2 ^ sbits := by rw [Nat.pow_add]; ring
  have d1 : R * 2 ^ (sbits + 8) / 2 ^ (sbits + 6) = 4 * R :=
    div_eq_of_decomp _ _ (4 * R) 0 (by rw [p1]; ring) (two_pow_pos _)
  have d2 : R * 2 ^ (sbits + 8) % 2 ^ (sbits + 6) = 0 :=
    mod_eq_of_decomp _ _ (4 * R) 0 (by rw [p1]; ring) (two_pow_pos _)
  have d3 : 4 * R % 2 ^ (sbits + 2) = 4 * R := Nat.mod_eq_of_lt (by omega)
  simp only [round_sig_sticky, e1, mk_extract, e2, e3, d1, d2, d3, Nat.pow_zero, Nat.div_one,
    mk_bvredor, if_true, mk_zero_ext, mk_bvor, Nat.or_zero, mk_bv_sort_data_width]

theorem round_sig_inc_exact (rm : smt_ast) (sbits s R : Nat) (hsb : 2 ≤ sbits) (hs : s < 2)
    (hR : R < 2 ^ sbits) :
    round_sig_inc rm ⟨mk_bv_sort 1, s⟩ ⟨mk_bv_sort (sbits + 2), 4 * R⟩ sbits
      = ⟨mk_bv_sort (sbits + 1), R⟩ := by
  have a0 : 4 * R % 2 = 0 := by omega
  have a1 : 4 * R / 2 % 2 = 0 := by omega
  have a2 : 4 * R / 4 = R := Nat.mul_div_cancel_left R (by decide)
  have e1 : sbits + 1 - 2 + 1 = sbits := by omega
  have hl : R % 2 < 2 := Nat.mod_lt _ (by decide)
  have hRm : R % 2 ^ sbits = R := Nat.mod_eq_of_lt hR
  have hR1 : R % 2 ^ (sbits + 1) = R := Nat.mod_eq_of_lt (by rw [pow_succ_two]; omega)
  simp only [round_sig_inc, mk_extract, Nat.sub_self, Nat.zero_add, Nat.pow_zero, Nat.div_one,
    Nat.pow_one, a0, a1, a2, e1, hRm, rounding_decision_zero rm s (R % 2) hs hl, mk_zero_ext,
    mk_bvadd, mk_bv_sort_data_width, smt_sort.get_data_width, Nat.add_zero, hR1,
    show (2 : Nat) ^ 2 = 4 from rfl]

theorem round_finish_exact (rm : smt_ast) (ebits sbits s R Xe : Nat) (he : 2 ≤ ebits)
    (hsb : 2 ≤ sbits) (hR : R < 2 ^ sbits) :
    round_finish rm ⟨mk_bv_sort 1, s⟩ ⟨mk_bv_sort (sbits + 1), R⟩ ⟨mk_bv_sort (ebits + 2), Xe⟩
        false ebits sbits
      = fp_of_fields ebits sbits s
          (if R / 2 ^ (sbits - 1) = 0 then 0
            else (Xe % 2 ^ ebits + (2 ^ (ebits - 1) - 1)) % 2 ^ ebits)
          (R % 2 ^ (sbits - 1)) := by
  have e1 : ebits - 1 - 0 + 1 = ebits := by omega
  have e2 : sbits - 1 - (sbits - 1) + 1 = 1 := by omega
  have e3 : sbits - 2 - 0 + 1 = sbits - 1 := by omega
  have e4 : sbits - 1 - 0 + 1 = sbits := by omega
  have hpow : 2 ^ sbits = 2 * 2 ^ (sbits - 1) := pow_pred_two sbits (by omega)
  have hdiv : R / 2 ^ (sbits - 1) < 2 := by
    rw [Nat.div_lt_iff_lt_mul (two_pow_pos _)]
    omega
  have hovf : R / 2 ^ sbits = 0 := Nat.div_eq_of_lt hR
  have hmk : mk_extract ⟨mk_bv_sort (ebits + 2), Xe⟩ (ebits - 1) 0
      = ⟨mk_bv_sort ebits, Xe % 2 ^ ebits⟩ := by
    simp only [mk_extract, e1, Nat.pow_zero, Nat.div_one]
  have hsig : mk_extract ⟨mk_bv_sort (sbits + 1), R⟩ (sbits - 1) 0 = ⟨mk_bv_sort sbits, R⟩ := by
    simp only [mk_extract, e4, Nat.pow_zero, Nat.div_one, Nat.mod_eq_of_lt hR]
  have hso : mk_eq (mk_extract ⟨mk_bv_sort (sbits + 1), R⟩ sbits sbits) (mk_smt_bv 1 1)
      = false := by
    simp [mk_eq, mk_extract, hovf]
  simp only [round_finish, hso, mk_ite, Bool.false_eq_true, if_false, Bool.false_and,
    Bool.or_self, hmk, hsig, mk_bias_eq _ _ he, mk_bot_exp, mk_smt_bv_zero]
  simp only [mk_extract, e2, e3, mk_eq, mk_concat, mk_from_bv_to_fp, fp_of_fields, fp_val,
    Nat.pow_zero, Nat.div_one, Nat.pow_one, Nat.mod_eq_of_lt hdiv, mk_bv_sort_data_width]
  by_cases h : R / 2 ^ (sbits - 1) = 0 <;> simp [h, Nat.add_assoc]

theorem round_tail_exact (rm : smt_ast) (ebits sbits s R Xe : Nat) (he : 2 ≤ ebits)
    (hsb : 2 ≤ sbits) (hs : s < 2) (hR : R < 2 ^ sbits) :
    round_finish rm ⟨mk_bv_sort 1, s⟩
        (round_sig_inc rm ⟨mk_bv_sort 1, s⟩
          (round_sig_sticky ⟨mk_bv_sort (2 * (sbits + 4)), R * 2 ^ (sbits + 8)⟩ (sbits + 4) sbits)
          sbits)
        ⟨mk_bv_sort (ebits + 2), Xe⟩ false ebits sbits
      = fp_of_fields ebits sbits s
          (if R / 2 ^ (sbits - 1) = 0 then 0
            else (Xe % 2 ^ ebits + (2 ^ (ebits - 1) - 1)) % 2 ^ ebits)
          (R % 2 ^ (sbits - 1)) := by
  rw [round_sig_sticky_exact sbits R hR, round_sig_inc_exact rm sbits s R hsb hs hR,
    round_finish_exact rm ebits sbits s R Xe he hsb hR]

/-- On a path without overflow the last stage of `round` is `pack`: with OVF1
false and an incremented significand that did not carry into bit sbits,
`round_finish` packs the sign, the exponent and the significand as `pack` does. -/
theorem round_finish_eq_pack (rm : smt_ast) (ebits sbits s R Xe : Nat) (he : 2 ≤ ebits)
    (hsb : 2 ≤ sbits) (hR : R < 2 ^ sbits) :
    round_finish rm ⟨mk_bv_sort 1, s⟩ ⟨mk_bv_sort (sbits + 1), R⟩ ⟨mk_bv_sort (ebits + 2), Xe⟩
        false ebits sbits
      = pack ⟨mk_bv_sort 1, s⟩ ⟨mk_bv_sort sbits, R⟩ ⟨mk_bv_sort (ebits + 2), Xe⟩ ebits sbits := by
  rw [round_finish_exact rm ebits sbits s R Xe he hsb hR, pack_eq ebits sbits s R _ Xe he hsb hR]

theorem mod_two_cases (n m : Nat) (h : n < 2 * m) :
    (n % m = n ∧ n < m) ∨ (n % m + m = n ∧ m ≤ n) := by
  by_cases hlt : n < m
  · left; exact ⟨Nat.mod_eq_of_lt hlt, hlt⟩
  · right
    have : n % m = n - m := mod_eq_of_decomp n m 1 (n - m) (by omega) (by omega)
    omega

theorem mk_min_exp_eq (ebits : Nat) (he : 2 ≤ ebits) :
    mk_min_exp ebits = ⟨mk_bv_sort ebits, (2 + 2 ^ (ebits - 1)) % 2 ^ ebits⟩ := by
  have hB : 2 ^ ebits = 2 * 2 ^ (ebits - 1) := pow_pred_two ebits (by omega)
  unfold mk_min_exp mk_smt_bv
  simp only [power2m1, if_true]
  have c1 : ((2 : Int) ^ ebits) = ((2 ^ ebits : Nat) : Int) := by simp
  have c2 : ((2 : Int) ^ (ebits - 1)) = ((2 ^ (ebits - 1) : Nat) : Int) := by simp
  have key : (-((2 : Int) ^ (ebits - 1) - 1) + 1) % (2 : Int) ^ ebits
      = (((2 + 2 ^ (ebits - 1)) % 2 ^ ebits : Nat) : Int) := by
    rw [Int.natCast_mod, ← Int.add_mul_emod_self (b := 1), c1, c2, hB]
    congr 1
    push_cast
    ring
  rw [key, Int.toNat_natCast]

theorem sign_ext_min_exp (ebits : Nat) (he : 2 ≤ ebits) :
    mk_sign_ext (mk_min_exp ebits) 2
      = ⟨mk_bv_sort (ebits + 2), (2 + 7 * 2 ^ (ebits - 1)) % 2 ^ (ebits + 2)⟩ := by
  obtain ⟨k, rfl⟩ : ∃ k, ebits = k + 2 := ⟨ebits - 2, by omega⟩
  have e1 : k + 2 - 1 = k + 1 := by omega
  have hB : 2 ^ (k + 2) = 2 * 2 ^ (k + 1) := pow_succ_two (k + 1)
  have hB2 : 2 ^ (k + 1) = 2 * 2 ^ k := pow_succ_two k
  have hB4 : 2 ^ (k + 2 + 2) = 8 * 2 ^ (k + 1) := by
    rw [show k + 2 + 2 = k + 1 + 3 from rfl, Nat.pow_add]; ring
  have hk := two_pow_pos k
  rw [mk_min_exp_eq _ he]
  simp only [mk_sign_ext, mk_bv_sort_data_width, e1, hB4, hB, hB2,
    show (2 : Nat) ^ 2 = 4 from rfl]
  generalize 2 ^ k = C at *
  congr 1
  by_cases h : C = 1
  · subst h
    simp
  · have hm : (2 + 2 * C) % (2 * (2 * C)) = 2 + 2 * C := Nat.mod_eq_of_lt (by omega)
    have hd : (2 + 2 * C) / (2 * C) = 1 := div_eq_of_decomp _ _ 1 2 (by omega) (by omega)
    have hm2 : (2 + 7 * (2 * C)) % (8 * (2 * C)) = 2 + 7 * (2 * C) :=
      Nat.mod_eq_of_lt (by omega)
    rw [hm, hd, hm2]
    simp
    omega

theorem round_input_sig (sbits S : Nat) :
    mk_concat (mk_smt_bv 0 1) (mk_concat ⟨mk_bv_sort sbits, S⟩ (mk_smt_bv 0 3))
      = ⟨mk_bv_sort (sbits + 4), 8 * S⟩ := by
  simp only [mk_concat, mk_smt_bv_zero, mk_bv_sort_data_width]
  have e : 1 + (sbits + 3) = sbits + 4 := by omega
  rw [e]
  congr 1
  norm_num
  ring

theorem size_normalized (sbits S : Nat) (hsb : 1 ≤ sbits) (hS1 : 2 ^ (sbits - 1) ≤ S)
    (hS2 : S < 2 ^ sbits) : Nat.size (8 * S) = sbits + 3 := by
  have p1 : 2 ^ (sbits + 3) = 8 * 2 ^ sbits := by rw [Nat.pow_add]; ring
  have p2 : 2 ^ (sbits + 2) = 8 * 2 ^ (sbits - 1) := by
    rw [show sbits + 2 = (sbits - 1) + 3 by omega, Nat.pow_add]; ring
  have h1 : Nat.size (8 * S) ≤ sbits + 3 := Nat.size_le.mpr (by omega)
  have h2 : sbits + 2 < Nat.size (8 * S) := Nat.lt_size.mpr (by omega)
  omega

theorem round_lz_normalized (ebits sbits S : Nat) (hsb : 1 ≤ sbits)
    (hS1 : 2 ^ (sbits - 1) ≤ S) (hS2 : S < 2 ^ sbits) :
    mk_leading_zeros ⟨mk_bv_sort (sbits + 4), 8 * S⟩ (ebits + 2)
      = ⟨mk_bv_sort (ebits + 2), 1⟩ := by
  have p1 : 2 ^ (sbits + 4) = 16 * 2 ^ sbits := by rw [Nat.pow_add]; ring
  rw [mk_leading_zeros_eq _ _ _ (by omega), size_normalized sbits S hsb hS1 hS2]
  congr 1
  have : sbits + 4 - (sbits + 3) = 1 := by omega
  rw [this]
  apply Nat.mod_eq_of_lt
  have : 2 ^ (ebits + 2) = 4 * 2 ^ ebits := by rw [Nat.pow_add]; ring
  have := two_pow_pos ebits
  omega

theorem round_OVF1_false (ebits sbits V X : Nat) (he : 2 ≤ ebits) (hV : V < 2 ^ (sbits + 3))
    (hX : X < 2 ^ (ebits + 2)) (hX2 : X < 2 ^ (ebits - 1) ∨ 2 ^ (ebits + 1) ≤ X) :
    round_OVF1 ⟨mk_bv_sort (sbits + 4), V⟩ ⟨mk_bv_sort (ebits + 2), X⟩ ebits sbits = false := by
  have hB : 2 ^ ebits = 2 * 2 ^ (ebits - 1) := pow_pred_two ebits (by omega)
  have hB2 : 2 ^ (ebits + 1) = 4 * 2 ^ (ebits - 1) := by rw [pow_succ_two, hB]; ring
  have hB4 : 2 ^ (ebits + 2) = 8 * 2 ^ (ebits - 1) := by
    rw [show ebits + 2 = ebits + 1 + 1 from rfl, pow_succ_two, hB2]; ring
  have hpos := two_pow_pos (ebits - 1)
  have hsig : V / 2 ^ (sbits + 3) = 0 := Nat.div_eq_of_lt hV
  simp only [round_OVF1, mk_extract, Nat.sub_self, Nat.zero_add, Nat.pow_one, mk_eq,
    mk_smt_bv_one, hsig, Nat.zero_mod, show (1 : Nat) % 2 = 1 from rfl,
    show ((0 : Nat) = 1) = False from by simp, decide_False, Bool.and_false, Bool.or_false]
  rw [hB2, hB]
  rw [hB4] at hX
  rw [hB2] at hX2
  generalize 2 ^ (ebits - 1) = B at *
  rcases hX2 with h | h
  · have d1 : X / (2 * B) = 0 := Nat.div_eq_of_lt (by omega)
    have d2 : X / B = 0 := Nat.div_eq_of_lt h
    simp [d1, d2]
  · have d1 : X / (4 * B) = 1 := div_eq_of_decomp _ _ 1 (X - 4 * B) (by omega) (by omega)
    simp [d1]

theorem pow_facts (ebits : Nat) (he : 2 ≤ ebits) :
    2 ^ ebits = 2 * 2 ^ (ebits - 1) ∧ 2 ^ (ebits + 1) = 4 * 2 ^ (ebits - 1)
    ∧ 2 ^ (ebits + 2) = 8 * 2 ^ (ebits - 1) ∧ 2 ≤ 2 ^ (ebits - 1) := by
  have hB : 2 ^ ebits = 2 * 2 ^ (ebits - 1) := pow_pred_two ebits (by omega)
  have hB2 : 2 ^ (ebits + 1) = 4 * 2 ^ (ebits - 1) := by rw [pow_succ_two, hB]; ring
  have hB4 : 2 ^ (ebits + 2) = 8 * 2 ^ (ebits - 1) := by
    rw [show ebits + 2 = ebits + 1 + 1 from rfl, pow_succ_two, hB2]; ring
  have hB0 : 2 ^ (ebits - 1) = 2 * 2 ^ (ebits - 2) := by
    rw [show ebits - 1 = (ebits - 2) + 1 by omega, pow_succ_two]
  have := two_pow_pos (ebits - 2)
  exact ⟨hB, hB2, hB4, by omega⟩

/-- The exponent arithmetic of `round` on a normal operand: with the exponent
E - bias held in ebits + 2 bits and lz = 1, the TINY test value is E - 1 and
beta is the exponent itself. -/
theorem arith_N (B E : Nat) (hB0 : 2 ≤ B) (hE1 : 1 ≤ E) (hE2 : E + 2 ≤ 2 * B) :
    ((((E + 1 + 7 * B) % (8 * B) + 1) % (8 * B) + (8 * B - 1)) % (8 * B)
        + (8 * B - (2 + 7 * B) % (8 * B) % (8 * B))) % (8 * B) = E - 1
    ∧ (((E + 1 + 7 * B) % (8 * B) + (8 * B - 1)) % (8 * B) + 1) % (8 * B)
        = (E + 1 + 7 * B) % (8 * B)
    ∧ ((E + 1 + 7 * B) % (8 * B) < B ∨ 4 * B ≤ (E + 1 + 7 * B) % (8 * B))
    ∧ ((E + 1 + 7 * B) % (8 * B) % (2 * B) + (B - 1)) % (2 * B) = E := by
  by_cases hB : B = 2
  · subst hB
    refine ⟨by omega, by omega, by omega, by omega⟩
  · have h0 : (2 + 7 * B) % (8 * B) = 2 + 7 * B := Nat.mod_eq_of_lt (by omega)
    have F1 := mod_two_cases (E + 1 + 7 * B) (8 * B) (by omega)
    refine ⟨?_, ?_, ?_, ?_⟩
    · simp only [h0, Nat.mod_mod, Nat.mod_add_mod]
      refine mod_eq_of_decomp _ _ 2 _ ?_ ?_ <;> omega
    · simp only [Nat.mod_mod, Nat.mod_add_mod]
      have : E + 1 + 7 * B + (8 * B - 1) + 1 = E + 1 + 7 * B + 8 * B := by omega
      rw [this, Nat.add_mod_right]
    · generalize (E + 1 + 7 * B) % (8 * B) = x1 at *
      omega
    · rw [Nat.mod_mod_of_dvd _ (⟨4, by ring⟩ : 2 * B ∣ 8 * B), Nat.mod_add_mod]
      refine mod_eq_of_decomp _ _ 4 _ ?_ ?_ <;> omega

theorem round_TINY_N (ebits sbits V X E : Nat) (he : 2 ≤ ebits) (he64 : ebits ≤ 62)
    (hlz : mk_leading_zeros ⟨mk_bv_sort (sbits + 4), V⟩ (ebits + 2)
      = ⟨mk_bv_sort (ebits + 2), 1⟩)
    (hE1 : 1 ≤ E) (hE2 : E + 2 ≤ 2 ^ ebits)
    (hX : X = (E + 1 + 7 * 2 ^ (ebits - 1)) % 2 ^ (ebits + 2)) :
    round_TINY ⟨mk_bv_sort (sbits + 4), V⟩ ⟨mk_bv_sort (ebits + 2), X⟩ ebits = false := by
  obtain ⟨hB, hB2, hB4, hB0⟩ := pow_facts ebits he
  simp only [round_TINY, hlz, sign_ext_min_exp _ he, mk_bvadd, mk_bvsub, mk_smt_bv_one,
    ullmax_eq _ (by omega : ebits + 2 ≤ 64), mk_bv_sort_data_width]
  rw [slte_all_ones _ _ (by omega) (Nat.mod_lt _ (two_pow_pos _))]
  simp only [decide_eq_false_iff_not, show ebits + 2 - 1 = ebits + 1 from rfl, hB2, hB4,
    Nat.not_le]
  rw [hB4] at hX
  rw [hB] at hE2
  generalize 2 ^ (ebits - 1) = B at *
  subst hX
  have h1 : 1 % (8 * B) = 1 := Nat.mod_eq_of_lt (by omega)
  rw [h1, (arith_N B E hB0 hE1 hE2).1]
  omega

theorem round_beta_N (ebits sbits V X E : Nat) (he : 2 ≤ ebits)
    (hlz : mk_leading_zeros ⟨mk_bv_sort (sbits + 4), V⟩ (ebits + 2)
      = ⟨mk_bv_sort (ebits + 2), 1⟩)
    (hE1 : 1 ≤ E) (hE2 : E + 2 ≤ 2 ^ ebits)
    (hX : X = (E + 1 + 7 * 2 ^ (ebits - 1)) % 2 ^ (ebits + 2)) :
    round_beta ⟨mk_bv_sort (sbits + 4), V⟩ ⟨mk_bv_sort (ebits + 2), X⟩ ebits
      = ⟨mk_bv_sort (ebits + 2), X⟩ := by
  obtain ⟨hB, hB2, hB4, hB0⟩ := pow_facts ebits he
  simp only [round_beta, hlz, mk_bvadd, mk_bvsub, mk_smt_bv_one, mk_bv_sort_data_width]
  congr 1
  rw [hB4] at hX ⊢
  rw [hB] at hE2
  generalize 2 ^ (ebits - 1) = B at *
  subst hX
  have h1 : 1 % (8 * B) = 1 := Nat.mod_eq_of_lt (by omega)
  rw [h1, (arith_N B E hB0 hE1 hE2).2.1]

theorem round_big_sh_sig_left (ebits sbits V σ : Nat) (he : 2 ≤ ebits) (he64 : ebits ≤ 62)
    (hσ : σ < 2 ^ (ebits + 1)) (hfit : V * 2 ^ σ < 2 ^ (sbits + 4)) :
    round_big_sh_sig ⟨mk_bv_sort (sbits + 4), V⟩ ⟨mk_bv_sort (ebits + 2), σ⟩ ebits sbits
      = ⟨mk_bv_sort (2 * (sbits + 4)), V * 2 ^ σ * 2 ^ (sbits + 4)⟩ := by
  obtain ⟨hB, hB2, hB4, hB0⟩ := pow_facts ebits he
  have hσ8 : σ < 2 ^ (ebits + 2) := by omega
  have hneg : ¬ (2 ^ (ebits + 2 - 1) ≤ σ) := by
    rw [show ebits + 2 - 1 = ebits + 1 from rfl]; omega
  have e1 : sbits + 4 + (sbits + 4) = 2 * (sbits + 4) := by omega
  have hfit2 : V * 2 ^ σ * 2 ^ (sbits + 4) < 2 ^ (2 * (sbits + 4)) := by
    have hsplit : 2 ^ (2 * (sbits + 4)) = 2 ^ (sbits + 4) * 2 ^ (sbits + 4) := by
      rw [← Nat.pow_add]; congr 1; omega
    rw [hsplit]
    exact Nat.mul_lt_mul_of_pos_right hfit (two_pow_pos _)
  simp only [round_big_sh_sig, ullmax_eq _ (by omega : ebits + 2 ≤ 64),
    slte_all_ones _ _ (by omega : 1 ≤ ebits + 2) hσ8, hneg, decide_False, mk_ite,
    Bool.false_eq_true, if_false, mk_bvshl, mk_concat, mk_smt_bv_zero, mk_zero_ext,
    mk_bv_sort_data_width, smt_sort.get_data_width, Nat.add_zero, e1]
  congr 1
  rw [show V * 2 ^ (sbits + 4) * 2 ^ σ = V * 2 ^ σ * 2 ^ (sbits + 4) by ring]
  exact Nat.mod_eq_of_lt hfit2

theorem sign_ext_unbiased (ebits E : Nat) (he : 2 ≤ ebits) (hE2 : E + 2 ≤ 2 ^ ebits) :
    mk_sign_ext ⟨mk_bv_sort ebits, (E + 1 + 2 ^ (ebits - 1)) % 2 ^ ebits⟩ 2
      = ⟨mk_bv_sort (ebits + 2), (E + 1 + 7 * 2 ^ (ebits - 1)) % 2 ^ (ebits + 2)⟩ := by
  obtain ⟨hB, hB2, hB4, hB0⟩ := pow_facts ebits he
  simp only [mk_sign_ext, mk_bv_sort_data_width, hB4, hB, show (2 : Nat) ^ 2 = 4 from rfl]
  rw [hB] at hE2
  generalize 2 ^ (ebits - 1) = B at *
  congr 1
  by_cases h : E + 1 < B
  · have hm : (E + 1 + B) % (2 * B) = E + 1 + B := Nat.mod_eq_of_lt (by omega)
    have hd : (E + 1 + B) / B = 1 := div_eq_of_decomp _ _ 1 (E + 1) (by omega) h
    have hm2 : (E + 1 + 7 * B) % (8 * B) = E + 1 + 7 * B := Nat.mod_eq_of_lt (by omega)
    rw [hm, hd, hm2]
    simp
    omega
  · have hm : (E + 1 + B) % (2 * B) = E + 1 - B :=
      mod_eq_of_decomp _ _ 1 _ (by omega) (by omega)
    have hd : (E + 1 - B) / B = 0 := Nat.div_eq_of_lt (by omega)
    have hm2 : (E + 1 + 7 * B) % (8 * B) = E + 1 - B :=
      mod_eq_of_decomp _ _ 1 _ (by omega) (by omega)
    rw [hm, hd, hm2]
    simp

/-- Rounding a normalized significand S (top bit set, no guard, round or
sticky bits) with an exponent inside the normal range gives the packed value
with the same fields. -/
theorem round_exact_normal (rm : smt_ast) (ebits sbits s E T : Nat) (he : 2 ≤ ebits)
    (he64 : ebits ≤ 62) (hsb : 2 ≤ sbits) (hs : s < 2) (hT : T < 2 ^ (sbits - 1))
    (hE1 : 1 ≤ E) (hE2 : E + 2 ≤ 2 ^ ebits) :
    round rm ⟨mk_bv_sort 1, s⟩ ⟨mk_bv_sort (sbits + 4), 8 * (2 ^ (sbits - 1) + T)⟩
        ⟨mk_bv_sort (ebits + 2), (E + 1 + 7 * 2 ^ (ebits - 1)) % 2 ^ (ebits + 2)⟩ ebits sbits
      = fp_of_fields ebits sbits s E T := by
  obtain ⟨hB, hB2, hB4, hB0⟩ := pow_facts ebits he
  have hpow : 2 ^ sbits = 2 * 2 ^ (sbits - 1) := pow_pred_two sbits (by omega)
  have hS1 : 2 ^ (sbits - 1) ≤ 2 ^ (sbits - 1) + T := by omega
  have hS2 : 2 ^ (sbits - 1) + T < 2 ^ sbits := by omega
  have hlz := round_lz_normalized ebits sbits _ (by omega) hS1 hS2
  have p4 : 2 ^ (sbits + 4) = 16 * 2 ^ sbits := by rw [Nat.pow_add]; ring
  have p3 : 2 ^ (sbits + 3) = 8 * 2 ^ sbits := by rw [Nat.pow_add]; ring
  have hXlt : (E + 1 + 7 * 2 ^ (ebits - 1)) % 2 ^ (ebits + 2) < 2 ^ (ebits + 2) :=
    Nat.mod_lt _ (two_pow_pos _)
  have hA := arith_N (2 ^ (ebits - 1)) E hB0 hE1 (by omega)
  rw [← hB4, ← hB] at hA
  have hovf := round_OVF1_false ebits sbits (8 * (2 ^ (sbits - 1) + T))
    ((E + 1 + 7 * 2 ^ (ebits - 1)) % 2 ^ (ebits + 2)) he (by omega) hXlt
    (by rw [hB2]; exact hA.2.2.1)
  have htiny := round_TINY_N ebits sbits _ _ E he he64 hlz hE1 hE2 rfl
  have hbeta := round_beta_N ebits sbits _ _ E he hlz hE1 hE2 rfl
  have hsigma : round_sigma ⟨mk_bv_sort (sbits + 4), 8 * (2 ^ (sbits - 1) + T)⟩
      ⟨mk_bv_sort (ebits + 2), (E + 1 + 7 * 2 ^ (ebits - 1)) % 2 ^ (ebits + 2)⟩ ebits
      = ⟨mk_bv_sort (ebits + 2), 1⟩ := by
    simp only [round_sigma, htiny, mk_ite, Bool.false_eq_true, if_false, hlz]
  have hbig := round_big_sh_sig_left ebits sbits (8 * (2 ^ (sbits - 1) + T)) 1 he he64
    (by omega) (by omega)
  have hval : 8 * (2 ^ (sbits - 1) + T) * 2 ^ 1 * 2 ^ (sbits + 4)
      = (2 ^ (sbits - 1) + T) * 2 ^ (sbits + 8) := by
    rw [show sbits + 8 = (sbits + 4) + 4 from rfl, Nat.pow_add]; ring
  rw [hval] at hbig
  simp only [round, hovf, htiny, hbeta, hsigma, hbig, mk_ite, Bool.false_eq_true, if_false,
    smt_sort.get_data_width, mk_bv_sort_data_width]
  rw [round_tail_exact rm ebits sbits s _ _ he hsb hs hS2]
  have d1 : (2 ^ (sbits - 1) + T) / 2 ^ (sbits - 1) = 1 :=
    div_eq_of_decomp _ _ 1 T (by omega) hT
  have d2 : (2 ^ (sbits - 1) + T) % 2 ^ (sbits - 1) = T :=
    mod_eq_of_decomp _ _ 1 T (by omega) hT
  rw [d1, d2, hA.2.2.2]
  simp

/-- C5: for every rounding mode and every normal value x, feeding the unpacked
fields of x back to `round` returns x bit for bit: with (sgn, sig, exp, lz) =
unpack(x), round(rm, sgn, 0 ++ sig ++ 000, sign_extend(exp, 2), ebits, sbits) = x.
The format is one whose exponent constants fit the 64-bit literal the source
compares against (ebits + 2 ≤ 64). -/
theorem C5_round_unpack_normal (ebits sbits v : Nat) (rm : rounding_modet) (normalize : Bool)
    (he64 : ebits + 2 ≤ 64) (hsb : 2 ≤ sbits) (hv : v < 2 ^ (ebits + sbits))
    (hn : mk_smt_fpbv_is_normal (fp_val ebits sbits v) = true) :
    round (mk_smt_fpbv_rm rm) (unpack (fp_val ebits sbits v) normalize).sgn
        (mk_concat (mk_smt_bv 0 1)
          (mk_concat (unpack (fp_val ebits sbits v) normalize).sig (mk_smt_bv 0 3)))
        (mk_sign_ext (unpack (fp_val ebits sbits v) normalize).exp 2) ebits sbits
      = fp_val ebits sbits v := by
  have he : 2 ≤ ebits := two_le_ebits_of_normal ebits sbits v hsb hv hn
  obtain ⟨hx, hs, hE, hT⟩ := fp_val_eq_fields ebits sbits v (by omega) hv
  rw [hx] at hn ⊢
  generalize v / 2 ^ (ebits + (sbits - 1)) = s at *
  generalize v / 2 ^ (sbits - 1) % 2 ^ ebits = E at *
  generalize v % 2 ^ (sbits - 1) = T at *
  rw [is_normal_fields _ _ _ _ _ (by omega) hsb hE hT] at hn
  have h0 : E ≠ 0 := by intro h; simp [h] at hn
  have htop : E ≠ 2 ^ ebits - 1 := by intro h; simp [h] at hn
  rw [unpack_fields_normal _ _ _ _ _ normalize he hsb hs hE hT h0 htop]
  simp only []
  rw [round_input_sig, sign_ext_unbiased ebits E he (by omega)]
  exact round_exact_normal _ ebits sbits s E T he (by omega) hsb hs hT (by omega) (by omega)

/-- Witness for C5: the single-precision value 1.0 under round-to-nearest-even. -/
theorem C5_round_unpack_normal_witness :
    (8 + 2 ≤ 64 ∧ 2 ≤ 24 ∧ 0x3f800000 < 2 ^ (8 + 24)
      ∧ mk_smt_fpbv_is_normal (fp_val 8 24 0x3f800000) = true)
    ∧ round (mk_smt_fpbv_rm .ROUND_TO_EVEN) (unpack (fp_val 8 24 0x3f800000) true).sgn
        (mk_concat (mk_smt_bv 0 1)
          (mk_concat (unpack (fp_val 8 24 0x3f800000) true).sig (mk_smt_bv 0 3)))
        (mk_sign_ext (unpack (fp_val 8 24 0x3f800000) true).exp 2) 8 24
      = fp_val 8 24 0x3f800000 :=
  ⟨by decide, C5_round_unpack_normal 8 24 0x3f800000 .ROUND_TO_EVEN true (by decide) (by decide)
    (by decide) (by decide)⟩

/-! ## Rounding a denormal or zero operand (the TINY path) -/

/-- The exponent arithmetic of `round` on a normalized denormal: the exponent
is e_min - L held in ebits + 2 bits (L ≥ 1 the shift applied by `unpack`) and
the leading-zero count inside `round` is 1. -/
theorem arith_D (B L : Nat) (hB0 : 2 ≤ B) (hL1 : 1 ≤ L) (hL2 : L < 2 * B) :
    4 * B ≤ (((((2 + 7 * B) % (8 * B) + (8 * B - L % (8 * B))) % (8 * B) + 1) % (8 * B)
        + (8 * B - 1)) % (8 * B) + (8 * B - (2 + 7 * B) % (8 * B) % (8 * B))) % (8 * B)
    ∧ 4 * B ≤ ((2 + 7 * B) % (8 * B) + (8 * B - L % (8 * B))) % (8 * B)
    ∧ ((((2 + 7 * B) % (8 * B) + (8 * B - L % (8 * B))) % (8 * B)
        + (8 * B - (2 + 7 * B) % (8 * B) % (8 * B))) % (8 * B) + 1) % (8 * B)
        = (if L = 1 then 0 else 8 * B + 1 - L) := by
  by_cases hB : B = 2
  · subst hB
    refine ⟨by omega, by omega, ?_⟩
    split <;> omega
  · have h0 : (2 + 7 * B) % (8 * B) = 2 + 7 * B := Nat.mod_eq_of_lt (by omega)
    have hL : L % (8 * B) = L := Nat.mod_eq_of_lt (by omega)
    simp only [h0, hL, Nat.mod_mod, Nat.mod_add_mod]
    refine ⟨?_, ?_, ?_⟩
    · refine le_of_le_of_eq ?_ (mod_eq_of_decomp _ _ 2 (8 * B - L) ?_ ?_).symm <;> omega
    · refine le_of_le_of_eq ?_ (mod_eq_of_decomp _ _ 1 (7 * B + 2 - L) ?_ ?_).symm <;> omega
    · by_cases h1 : L = 1
      · rw [if_pos h1]
        refine mod_eq_of_decomp _ _ 2 _ ?_ ?_ <;> omega
      · rw [if_neg h1]
        refine mod_eq_of_decomp _ _ 1 _ ?_ ?_ <;> omega

/-- The exponent arithmetic of `round` on a zero operand: the exponent is e_min
and the leading-zero count inside `round` is the full width l0 = sbits + 4. -/
theorem arith_Z (B l0 : Nat) (hB0 : 2 ≤ B) (hl1 : 2 ≤ l0) (hl2 : l0 ≤ 4 * B + 1) :
    4 * B ≤ (((((2 + 7 * B) % (8 * B) + (8 * B - 0 % (8 * B))) % (8 * B) + 1) % (8 * B)
        + (8 * B - l0 % (8 * B))) % (8 * B) + (8 * B - (2 + 7 * B) % (8 * B) % (8 * B)))
        % (8 * B)
    ∧ (((2 + 7 * B) % (8 * B) + (8 * B - 0 % (8 * B))) % (8 * B) < B
        ∨ 4 * B ≤ ((2 + 7 * B) % (8 * B) + (8 * B - 0 % (8 * B))) % (8 * B))
    ∧ ((((2 + 7 * B) % (8 * B) + (8 * B - 0 % (8 * B))) % (8 * B)
        + (8 * B - (2 + 7 * B) % (8 * B) % (8 * B))) % (8 * B) + 1) % (8 * B) = 1 := by
  by_cases hB : B = 2
  · subst hB
    refine ⟨by omega, by omega, by omega⟩
  · have h0 : (2 + 7 * B) % (8 * B) = 2 + 7 * B := Nat.mod_eq_of_lt (by omega)
    have hL : l0 % (8 * B) = l0 := Nat.mod_eq_of_lt (by omega)
    simp only [h0, hL, Nat.mod_mod, Nat.mod_add_mod, Nat.zero_mod, Nat.sub_zero]
    refine ⟨?_, ?_, ?_⟩
    · refine le_of_le_of_eq ?_ (mod_eq_of_decomp _ _ 2 (8 * B + 1 - l0) ?_ ?_).symm <;> omega
    · right
      refine le_of_le_of_eq ?_ (mod_eq_of_decomp _ _ 1 (7 * B + 2) ?_ ?_).symm <;> omega
    · refine mod_eq_of_decomp _ _ 2 _ ?_ ?_ <;> omega

theorem round_TINY_D (ebits sbits V X L : Nat) (he : 2 ≤ ebits) (he64 : ebits ≤ 62)
    (hlz : mk_leading_zeros ⟨mk_bv_sort (sbits + 4), V⟩ (ebits + 2)
      = ⟨mk_bv_sort (ebits + 2), 1⟩)
    (hL1 : 1 ≤ L) (hL2 : L < 2 ^ ebits)
    (hX : X = ((2 + 7 * 2 ^ (ebits - 1)) % 2 ^ (ebits + 2)
      + (2 ^ (ebits + 2) - L % 2 ^ (ebits + 2))) % 2 ^ (ebits + 2)) :
    round_TINY ⟨mk_bv_sort (sbits + 4), V⟩ ⟨mk_bv_sort (ebits + 2), X⟩ ebits = true := by
  obtain ⟨hB, hB2, hB4, hB0⟩ := pow_facts ebits he
  simp only [round_TINY, hlz, sign_ext_min_exp _ he, mk_bvadd, mk_bvsub, mk_smt_bv_one,
    ullmax_eq _ (by omega : ebits + 2 ≤ 64), mk_bv_sort_data_width]
  rw [slte_all_ones _ _ (by omega) (Nat.mod_lt _ (two_pow_pos _))]
  simp only [decide_eq_true_eq, show ebits + 2 - 1 = ebits + 1 from rfl, hB2, hB4]
  rw [hB4] at hX
  rw [hB] at hL2
  generalize 2 ^ (ebits - 1) = B at *
  subst hX
  have h1 : 1 % (8 * B) = 1 := Nat.mod_eq_of_lt (by omega)
  rw [h1]
  exact (arith_D B L hB0 hL1 hL2).1

theorem round_big_sh_sig_right (ebits sbits V σ n Q : Nat) (he : 2 ≤ ebits)
    (he64 : ebits ≤ 62) (hσ1 : 2 ^ (ebits + 1) ≤ σ) (hσ2 : σ + n = 2 ^ (ebits + 2))
    (hn1 : 1 ≤ n) (hn : n ≤ sbits + 2) (hcap : sbits + 2 < 2 ^ (ebits + 2))
    (hQ : V * 2 ^ (sbits + 4) = Q * 2 ^ n) (hQlt : Q < 2 ^ (2 * (sbits + 4))) :
    round_big_sh_sig ⟨mk_bv_sort (sbits + 4), V⟩ ⟨mk_bv_sort (ebits + 2), σ⟩ ebits sbits
      = ⟨mk_bv_sort (2 * (sbits + 4)), Q⟩ := by
  obtain ⟨hB, hB2, hB4, hB0⟩ := pow_facts ebits he
  have hσ8 : σ < 2 ^ (ebits + 2) := by omega
  have hneg : 2 ^ (ebits + 2 - 1) ≤ σ := by
    rw [show ebits + 2 - 1 = ebits + 1 from rfl]; exact hσ1
  have e1 : sbits + 4 + (sbits + 4) = 2 * (sbits + 4) := by omega
  have hsn : (2 ^ (ebits + 2) - σ % 2 ^ (ebits + 2)) % 2 ^ (ebits + 2) = n := by
    rw [Nat.mod_eq_of_lt hσ8]
    have hsub : 2 ^ (ebits + 2) - σ = n := by omega
    rw [hsub]
    exact Nat.mod_eq_of_lt (by omega)
  have hc : (sbits + 2) % 2 ^ (ebits + 2) = sbits + 2 := Nat.mod_eq_of_lt hcap
  simp only [round_big_sh_sig, ullmax_eq _ (by omega : ebits + 2 ≤ 64),
    slte_all_ones _ _ (by omega : 1 ≤ ebits + 2) hσ8, hneg, decide_True, mk_ite,
    if_true, mk_bvlshr, mk_bvneg, mk_bvulte, mk_concat, mk_smt_bv_zero, mk_smt_bv_natCast,
    mk_zero_ext, mk_bv_sort_data_width, smt_sort.get_data_width, Nat.add_zero, e1, hsn, hc, hn]
  congr 1
  rw [hQ, Nat.mul_div_cancel _ (two_pow_pos n)]
  exact Nat.mod_eq_of_lt hQlt

theorem min_exp_sub_lz (ebits L : Nat) (he : 2 ≤ ebits) :
    mk_bvsub (mk_bv_sort (ebits + 2))
        (mk_sign_ext ⟨mk_bv_sort ebits, (2 + 2 ^ (ebits - 1)) % 2 ^ ebits⟩ 2)
        (mk_zero_ext ⟨mk_bv_sort ebits, L⟩ 2)
      = ⟨mk_bv_sort (ebits + 2), ((2 + 7 * 2 ^ (ebits - 1)) % 2 ^ (ebits + 2)
          + (2 ^ (ebits + 2) - L % 2 ^ (ebits + 2))) % 2 ^ (ebits + 2)⟩ := by
  rw [← mk_min_exp_eq ebits he, sign_ext_min_exp ebits he]
  simp only [mk_bvsub, mk_zero_ext, mk_bv_sort_data_width]

/-- Rounding the normalized significand T · 2^L of a denormal (exponent
e_min - L) shifts it back by L and packs exponent field 0: the tiny path
re-denormalises without losing bits. -/
theorem round_exact_denormal (rm : smt_ast) (ebits sbits s T L : Nat) (he : 2 ≤ ebits)
    (he64 : ebits ≤ 62) (hsb : 2 ≤ sbits) (hfmt : sbits < 2 ^ ebits) (hs : s < 2)
    (hL1 : 1 ≤ L) (hL2 : L ≤ sbits)
    (hS1 : 2 ^ (sbits - 1) ≤ T * 2 ^ L) (hS2 : T * 2 ^ L < 2 ^ sbits) :
    round rm ⟨mk_bv_sort 1, s⟩ ⟨mk_bv_sort (sbits + 4), 8 * (T * 2 ^ L)⟩
        ⟨mk_bv_sort (ebits + 2), ((2 + 7 * 2 ^ (ebits - 1)) % 2 ^ (ebits + 2)
          + (2 ^ (ebits + 2) - L % 2 ^ (ebits + 2))) % 2 ^ (ebits + 2)⟩ ebits sbits
      = fp_of_fields ebits sbits s 0 T := by
  obtain ⟨hB, hB2, hB4, hB0⟩ := pow_facts ebits he
  have hpow : 2 ^ sbits = 2 * 2 ^ (sbits - 1) := pow_pred_two sbits (by omega)
  have hLpow : 2 ^ L = 2 * 2 ^ (L - 1) := pow_pred_two L hL1
  have hLpos := two_pow_pos (L - 1)
  have hT : T < 2 ^ (sbits - 1) := by
    have h1 : T * 2 ≤ T * 2 ^ L := Nat.mul_le_mul_left _ (by omega)
    omega
  have hTs : T < 2 ^ sbits := by omega
  have hlz := round_lz_normalized ebits sbits _ (by omega) hS1 hS2
  have p4 : 2 ^ (sbits + 4) = 16 * 2 ^ sbits := by rw [Nat.pow_add]; ring
  have p3 : 2 ^ (sbits + 3) = 8 * 2 ^ sbits := by rw [Nat.pow_add]; ring
  have p8 : 2 ^ (sbits + 8) = 16 * 2 ^ (sbits + 4) := by
    rw [show sbits + 8 = (sbits + 4) + 4 from rfl, Nat.pow_add]; ring
  have hA := arith_D (2 ^ (ebits - 1)) L hB0 hL1 (by omega)
  rw [← hB4] at hA
  generalize hXdef : ((2 + 7 * 2 ^ (ebits - 1)) % 2 ^ (ebits + 2)
          + (2 ^ (ebits + 2) - L % 2 ^ (ebits + 2))) % 2 ^ (ebits + 2) = X at *
  have hXlt : X < 2 ^ (ebits + 2) := by rw [← hXdef]; exact Nat.mod_lt _ (two_pow_pos _)
  have hovf := round_OVF1_false ebits sbits (8 * (T * 2 ^ L)) X he (by omega) hXlt
    (Or.inr (by rw [hB2]; rw [hB4] at hA; exact hA.2.1))
  have htiny := round_TINY_D ebits sbits (8 * (T * 2 ^ L)) X L he he64 hlz hL1 (by omega)
    hXdef.symm
  have hsigma : round_sigma ⟨mk_bv_sort (sbits + 4), 8 * (T * 2 ^ L)⟩
      ⟨mk_bv_sort (ebits + 2), X⟩ ebits
      = ⟨mk_bv_sort (ebits + 2), if L = 1 then 0 else 2 ^ (ebits + 2) + 1 - L⟩ := by
    have h1 : 1 % 2 ^ (ebits + 2) = 1 := Nat.mod_eq_of_lt (by omega)
    simp only [round_sigma, htiny, mk_ite, if_true, sign_ext_min_exp _ he, mk_bvsub, mk_bvadd,
      mk_smt_bv_one, mk_bv_sort_data_width, h1]
    congr 1
    rw [hA.2.2, hB4]
  have hbig : round_big_sh_sig ⟨mk_bv_sort (sbits + 4), 8 * (T * 2 ^ L)⟩
      ⟨mk_bv_sort (ebits + 2), if L = 1 then 0 else 2 ^ (ebits + 2) + 1 - L⟩ ebits sbits
      = ⟨mk_bv_sort (2 * (sbits + 4)), T * 2 ^ (sbits + 8)⟩ := by
    by_cases h : L = 1
    · subst h
      rw [if_pos rfl, round_big_sh_sig_left ebits sbits _ 0 he he64 (two_pow_pos _)
        (by simp; omega)]
      congr 1
      rw [p8]; ring
    · rw [if_neg h]
      have hL2pow : 2 ^ (L - 1) = 2 * 2 ^ (L - 2) := by
        rw [show L - 1 = (L - 2) + 1 by omega, pow_succ_two]
      apply round_big_sh_sig_right ebits sbits _ _ (L - 1) _ he he64
      · omega
      · omega
      · omega
      · omega
      · omega
      · rw [p8, hLpow]; ring
      · have hsplit : 2 ^ (2 * (sbits + 4)) = 2 ^ sbits * 2 ^ (sbits + 8) := by
          rw [← Nat.pow_add]; congr 1; omega
        rw [hsplit]
        exact Nat.mul_lt_mul_of_pos_right hTs (two_pow_pos _)
  simp only [round, hovf, htiny, hsigma, hbig, mk_ite, if_true, smt_sort.get_data_width,
    mk_bv_sort_data_width, mk_min_exp_eq _ he, mk_zero_ext]
  rw [round_tail_exact rm ebits sbits s _ _ he hsb hs hTs]
  rw [Nat.div_eq_of_lt hT, Nat.mod_eq_of_lt hT]
  simp

/-- Rounding the all-zero significand with exponent e_min packs a zero of the
given sign. -/
theorem round_exact_zero (rm : smt_ast) (ebits sbits s : Nat) (he : 2 ≤ ebits)
    (he64 : ebits ≤ 62) (hsb : 2 ≤ sbits) (hfmt : sbits < 2 ^ ebits) (hs : s < 2) :
    round rm ⟨mk_bv_sort 1, s⟩ ⟨mk_bv_sort (sbits + 4), 8 * 0⟩
        ⟨mk_bv_sort (ebits + 2), ((2 + 7 * 2 ^ (ebits - 1)) % 2 ^ (ebits + 2)
          + (2 ^ (ebits + 2) - 0 % 2 ^ (ebits + 2))) % 2 ^ (ebits + 2)⟩ ebits sbits
      = fp_of_fields ebits sbits s 0 0 := by
  obtain ⟨hB, hB2, hB4, hB0⟩ := pow_facts ebits he
  have hlz : mk_leading_zeros ⟨mk_bv_sort (sbits + 4), 8 * 0⟩ (ebits + 2)
      = ⟨mk_bv_sort (ebits + 2), sbits + 4⟩ := by
    rw [mk_leading_zeros_eq _ _ _ (by simp)]
    congr 1
    simp only [Nat.mul_zero, Nat.size_zero, Nat.sub_zero]
    exact Nat.mod_eq_of_lt (by omega)
  have hA := arith_Z (2 ^ (ebits - 1)) (sbits + 4) hB0 (by omega) (by omega)
  rw [← hB4] at hA
  generalize hXdef : ((2 + 7 * 2 ^ (ebits - 1)) % 2 ^ (ebits + 2)
          + (2 ^ (ebits + 2) - 0 % 2 ^ (ebits + 2))) % 2 ^ (ebits + 2) = X at *
  have hXlt : X < 2 ^ (ebits + 2) := by rw [← hXdef]; exact Nat.mod_lt _ (two_pow_pos _)
  have hovf := round_OVF1_false ebits sbits (8 * 0) X he (by simp) hXlt
    (by rw [hB2]; rw [hB4] at hA; exact hA.2.1)
  have h1 : 1 % 2 ^ (ebits + 2) = 1 := Nat.mod_eq_of_lt (by omega)
  have htiny : round_TINY ⟨mk_bv_sort (sbits + 4), 8 * 0⟩ ⟨mk_bv_sort (ebits + 2), X⟩ ebits
      = true := by
    simp only [round_TINY, hlz, sign_ext_min_exp _ he, mk_bvadd, mk_bvsub, mk_smt_bv_one,
      ullmax_eq _ (by omega : ebits + 2 ≤ 64), mk_bv_sort_data_width]
    rw [slte_all_ones _ _ (by omega) (Nat.mod_lt _ (two_pow_pos _))]
    simp only [decide_eq_true_eq, show ebits + 2 - 1 = ebits + 1 from rfl, h1]
    rw [hB2]
    rw [hB4] at hA ⊢
    exact hA.1
  have hsigma : round_sigma ⟨mk_bv_sort (sbits + 4), 8 * 0⟩ ⟨mk_bv_sort (ebits + 2), X⟩ ebits
      = ⟨mk_bv_sort (ebits + 2), 1⟩ := by
    simp only [round_sigma, htiny, mk_ite, if_true, sign_ext_min_exp _ he, mk_bvsub, mk_bvadd,
      mk_smt_bv_one, mk_bv_sort_data_width, h1]
    congr 1
    exact hA.2.2
  have hbig := round_big_sh_sig_left ebits sbits (8 * 0) 1 he he64 (by omega)
    (by simp)
  have hval : 8 * 0 * 2 ^ 1 * 2 ^ (sbits + 4) = 0 * 2 ^ (sbits + 8) := by simp
  rw [hval] at hbig
  simp only [round, hovf, htiny, hsigma, hbig, mk_ite, if_true, smt_sort.get_data_width,
    mk_bv_sort_data_width, mk_min_exp_eq _ he, mk_zero_ext]
  rw [round_tail_exact rm ebits sbits s 0 _ he hsb hs (two_pow_pos _)]
  simp

/-- C10: for every rounding mode and every denormal or zero x of a format with
sbits < 2^ebits, unpack → round → pack is the identity: with (sgn, sig, exp, lz)
= unpack(x, true), round(rm, sgn, 0 ++ sig ++ 000,
sign_extend(exp, 2) - zero_extend(lz, 2), ebits, sbits) = x bit for bit.
The format is one whose exponent constants fit the 64-bit literal the source
compares against (ebits + 2 ≤ 64). -/
theorem C10_round_unpack_tiny (ebits sbits v : Nat) (rm : rounding_modet)
    (he64 : ebits + 2 ≤ 64) (hsb : 2 ≤ sbits) (hfmt : sbits < 2 ^ ebits)
    (hv : v < 2 ^ (ebits + sbits))
    (hdz : mk_is_denormal (fp_val ebits sbits v) = true
      ∨ mk_smt_fpbv_is_zero (fp_val ebits sbits v) = true) :
    round (mk_smt_fpbv_rm rm) (unpack (fp_val ebits sbits v) true).sgn
        (mk_concat (mk_smt_bv 0 1)
          (mk_concat (unpack (fp_val ebits sbits v) true).sig (mk_smt_bv 0 3)))
        (mk_bvsub (mk_bv_sort (ebits + 2))
          (mk_sign_ext (unpack (fp_val ebits sbits v) true).exp 2)
          (mk_zero_ext (unpack (fp_val ebits sbits v) true).lz 2)) ebits sbits
      = fp_val ebits sbits v := by
  have he : 2 ≤ ebits := by
    by_contra h
    have h1 : ebits = 0 ∨ ebits = 1 := by omega
    rcases h1 with rfl | rfl <;> simp at hfmt <;> omega
  obtain ⟨hx, hs, hE, hT⟩ := fp_val_eq_fields ebits sbits v (by omega) hv
  rw [hx] at hdz ⊢
  generalize v / 2 ^ (ebits + (sbits - 1)) = s at *
  generalize v / 2 ^ (sbits - 1) % 2 ^ ebits = E at *
  generalize v % 2 ^ (sbits - 1) = T at *
  rw [is_denormal_fields _ _ _ _ _ (by omega) hsb hE hT,
    is_zero_fields _ _ _ _ _ (by omega) hE hT] at hdz
  have h0 : E = 0 := by
    by_contra h
    simp [h] at hdz
  subst h0
  by_cases hT0 : T = 0
  · subst hT0
    rw [unpack_fields_zero _ _ _ he hsb hs]
    simp only []
    rw [round_input_sig, min_exp_sub_lz ebits 0 he]
    exact round_exact_zero _ ebits sbits s he (by omega) hsb hfmt hs
  · rw [unpack_fields_denormal _ _ _ _ he hsb hfmt hs hT hT0]
    simp only []
    obtain ⟨b1, b2, b3⟩ := mul_pow_size_bounds sbits T hT0 hT hsb
    rw [round_input_sig, min_exp_sub_lz ebits _ he]
    exact round_exact_denormal _ ebits sbits s T _ he (by omega) hsb hfmt hs (by omega)
      (by omega) b2 b3

/-- Witness for C10: the smallest single-precision denormal under
round-toward-plus-infinity. -/
theorem C10_round_unpack_tiny_witness :
    (8 + 2 ≤ 64 ∧ 2 ≤ 24 ∧ 24 < 2 ^ 8 ∧ 1 < 2 ^ (8 + 24)
      ∧ (mk_is_denormal (fp_val 8 24 1) = true ∨ mk_smt_fpbv_is_zero (fp_val 8 24 1) = true))
    ∧ round (mk_smt_fpbv_rm .ROUND_TO_PLUS_INF) (unpack (fp_val 8 24 1) true).sgn
        (mk_concat (mk_smt_bv 0 1) (mk_concat (unpack (fp_val 8 24 1) true).sig (mk_smt_bv 0 3)))
        (mk_bvsub (mk_bv_sort (8 + 2)) (mk_sign_ext (unpack (fp_val 8 24 1) true).exp 2)
          (mk_zero_ext (unpack (fp_val 8 24 1) true).lz 2)) 8 24
      = fp_val 8 24 1 :=
  ⟨by decide, C10_round_unpack_tiny 8 24 1 .ROUND_TO_PLUS_INF (by decide) (by decide) (by decide)
    (by decide) (by decide)⟩

/-! ## Sign operations: neg and abs -/

theorem concat_sign_expsig (ebits sbits s E T : Nat) (srt : smt_sort) :
    mk_concat (⟨srt, s⟩ : smt_ast) ⟨mk_bv_sort (ebits + (sbits - 1)), E * 2 ^ (sbits - 1) + T⟩
      = ⟨mk_bv_sort (srt.data_width + (ebits + (sbits - 1))),
          s * 2 ^ (ebits + (sbits - 1)) + E * 2 ^ (sbits - 1) + T⟩ := by
  simp only [mk_concat, mk_bv_sort_data_width, Nat.add_assoc]

theorem neg_fields (ebits sbits s E T : Nat) (he : 1 ≤ ebits) (hs : s < 2)
    (hE : E < 2 ^ ebits) (hT : T < 2 ^ (sbits - 1)) :
    mk_smt_fpbv_neg (fp_of_fields ebits sbits s E T)
      = fp_of_fields ebits sbits
          (if mk_smt_fpbv_is_nan (fp_of_fields ebits sbits s E T) then s else 1 - s) E T := by
  simp only [mk_smt_fpbv_neg, extract_exp_sig_fields ebits sbits s E T he hE hT,
    extract_signbit_fields ebits sbits s E T hs hE hT, mk_ite, mk_bvnot, mk_bv_sort_data_width,
    mk_from_bv_to_fp, sort_of_fields]
  have h2 : s % 2 ^ 1 = s := Nat.mod_eq_of_lt (by simpa using hs)
  split
  · simp only [concat_sign_expsig]; rfl
  · simp only [concat_sign_expsig, h2]; rfl

theorem abs_fields (ebits sbits s E T : Nat) (he : 1 ≤ ebits)
    (hE : E < 2 ^ ebits) (hT : T < 2 ^ (sbits - 1)) :
    mk_smt_fpbv_abs (fp_of_fields ebits sbits s E T) = fp_of_fields ebits sbits 0 E T := by
  simp only [mk_smt_fpbv_abs, extract_exp_sig_fields ebits sbits s E T he hE hT,
    mk_smt_bv_zero, mk_from_bv_to_fp, sort_of_fields, concat_sign_expsig]
  rfl

theorem xor_top_bit (k s r : Nat) (hs : s < 2) (hr : r < 2 ^ k) :
    (s * 2 ^ k + r) ^^^ 2 ^ k = (1 - s) * 2 ^ k + r := by
  apply Nat.eq_of_testBit_eq
  intro i
  have hs01 : s = 0 ∨ s = 1 := by omega
  rw [Nat.testBit_xor, Nat.testBit_two_pow, Nat.mul_comm s, Nat.mul_comm (1 - s),
    Nat.testBit_mul_pow_two_add _ hr, Nat.testBit_mul_pow_two_add _ hr]
  by_cases hi : i < k
  · have : ¬ (k = i) := by omega
    simp [hi, this]
  · simp only [hi, if_false]
    rcases hs01 with rfl | rfl
    · by_cases hi2 : k = i
      · subst hi2; simp
      · have : i - k ≠ 0 := by omega
        have h1 : Nat.testBit 1 (i - k) = false := by
          rw [← Bool.not_eq_true, Nat.testBit_one_eq_true_iff_self_eq_zero]; exact this
        simp [hi2, h1]
    · by_cases hi2 : k = i
      · subst hi2; simp
      · have : i - k ≠ 0 := by omega
        have h1 : Nat.testBit 1 (i - k) = false := by
          rw [← Bool.not_eq_true, Nat.testBit_one_eq_true_iff_self_eq_zero]; exact this
        simp [hi2, h1]

/-- C18: for every packed value x that is not NaN, neg(neg(x)) = x bit for bit,
and neg(x) differs from x in exactly the sign bit: its bits are those of x with
the top bit flipped (x xor 10…0), so exponent and trailing significand are
kept and the sign bit is complemented. -/
theorem C18_neg_involution (ebits sbits v : Nat) (he : 1 ≤ ebits) (hsb : 2 ≤ sbits)
    (hv : v < 2 ^ (ebits + sbits))
    (hn : mk_smt_fpbv_is_nan (fp_val ebits sbits v) = false) :
    mk_smt_fpbv_neg (mk_smt_fpbv_neg (fp_val ebits sbits v)) = fp_val ebits sbits v
    ∧ mk_smt_fpbv_neg (fp_val ebits sbits v)
        = fp_val ebits sbits (v ^^^ 2 ^ (ebits + (sbits - 1)))
    ∧ extract_exp_sig (mk_smt_fpbv_neg (fp_val ebits sbits v))
        = extract_exp_sig (fp_val ebits sbits v)
    ∧ (extract_signbit (mk_smt_fpbv_neg (fp_val ebits sbits v))).val
        = 1 - (extract_signbit (fp_val ebits sbits v)).val := by
  obtain ⟨hx, hs, hE, hT⟩ := fp_val_eq_fields ebits sbits v (by omega) hv
  have hxor : v ^^^ 2 ^ (ebits + (sbits - 1))
      = (1 - v / 2 ^ (ebits + (sbits - 1))) * 2 ^ (ebits + (sbits - 1))
        + v / 2 ^ (sbits - 1) % 2 ^ ebits * 2 ^ (sbits - 1) + v % 2 ^ (sbits - 1) := by
    have hdec : v = v / 2 ^ (ebits + (sbits - 1)) * 2 ^ (ebits + (sbits - 1))
        + (v / 2 ^ (sbits - 1) % 2 ^ ebits * 2 ^ (sbits - 1) + v % 2 ^ (sbits - 1)) := by
      have := congrArg smt_ast.val hx
      simpa [fp_val, fp_of_fields, Nat.add_assoc] using this
    have hlt := expsig_lt ebits (sbits - 1) _ _ hE hT
    rw [Nat.add_assoc, ← xor_top_bit _ _ _ hs hlt, ← hdec]
  rw [hxor]
  rw [hx] at hn ⊢
  generalize v / 2 ^ (ebits + (sbits - 1)) = s at *
  generalize v / 2 ^ (sbits - 1) % 2 ^ ebits = E at *
  generalize v % 2 ^ (sbits - 1) = T at *
  have hs1 : 1 - s < 2 := by omega
  have hn1 : mk_smt_fpbv_is_nan (fp_of_fields ebits sbits (1 - s) E T) = false := by
    rw [is_nan_fields _ _ _ _ _ he hsb hE hT] at hn ⊢
    exact hn
  have h1 : mk_smt_fpbv_neg (fp_of_fields ebits sbits s E T)
      = fp_of_fields ebits sbits (1 - s) E T := by
    rw [neg_fields _ _ _ _ _ he hs hE hT, hn]; rfl
  have h2 : mk_smt_fpbv_neg (fp_of_fields ebits sbits (1 - s) E T)
      = fp_of_fields ebits sbits s E T := by
    rw [neg_fields _ _ _ _ _ he hs1 hE hT, hn1]
    have : 1 - (1 - s) = s := by omega
    simp only [Bool.false_eq_true, if_false, this]
  refine ⟨by rw [h1, h2], by rw [h1]; rfl, ?_, ?_⟩
  · rw [h1, extract_exp_sig_fields _ _ _ _ _ he hE hT, extract_exp_sig_fields _ _ _ _ _ he hE hT]
  · rw [h1, extract_signbit_fields _ _ _ _ _ hs1 hE hT, extract_signbit_fields _ _ _ _ _ hs hE hT]

/-- Witness for C18: the single-precision value -1.5. -/
theorem C18_neg_involution_witness :
    (1 ≤ 8 ∧ 2 ≤ 24 ∧ 0xbfc00000 < 2 ^ (8 + 24)
      ∧ mk_smt_fpbv_is_nan (fp_val 8 24 0xbfc00000) = false)
    ∧ (mk_smt_fpbv_neg (mk_smt_fpbv_neg (fp_val 8 24 0xbfc00000)) = fp_val 8 24 0xbfc00000
      ∧ mk_smt_fpbv_neg (fp_val 8 24 0xbfc00000)
          = fp_val 8 24 (0xbfc00000 ^^^ 2 ^ (8 + (24 - 1)))
      ∧ extract_exp_sig (mk_smt_fpbv_neg (fp_val 8 24 0xbfc00000))
          = extract_exp_sig (fp_val 8 24 0xbfc00000)
      ∧ (extract_signbit (mk_smt_fpbv_neg (fp_val 8 24 0xbfc00000))).val
          = 1 - (extract_signbit (fp_val 8 24 0xbfc00000)).val) :=
  ⟨by decide, C18_neg_involution 8 24 0xbfc00000 (by decide) (by decide) (by decide)
    (by decide)⟩

/-- C19: for every packed value x that is not NaN, abs(x) has sign bit 0 and
the same exponent and trailing significand as x; hence abs(abs(x)) = abs(x)
and abs(neg(x)) = abs(x). -/
theorem C19_abs (ebits sbits v : Nat) (he : 1 ≤ ebits) (hsb : 2 ≤ sbits)
    (hv : v < 2 ^ (ebits + sbits))
    (hn : mk_smt_fpbv_is_nan (fp_val ebits sbits v) = false) :
    extract_signbit (mk_smt_fpbv_abs (fp_val ebits sbits v)) = mk_smt_bv 0 1
    ∧ extract_exponent (mk_smt_fpbv_abs (fp_val ebits sbits v))
        = extract_exponent (fp_val ebits sbits v)
    ∧ extract_significand (mk_smt_fpbv_abs (fp_val ebits sbits v))
        = extract_significand (fp_val ebits sbits v)
    ∧ mk_smt_fpbv_abs (mk_smt_fpbv_abs (fp_val ebits sbits v))
        = mk_smt_fpbv_abs (fp_val ebits sbits v)
    ∧ mk_smt_fpbv_abs (mk_smt_fpbv_neg (fp_val ebits sbits v))
        = mk_smt_fpbv_abs (fp_val ebits sbits v) := by
  obtain ⟨hx, hs, hE, hT⟩ := fp_val_eq_fields ebits sbits v (by omega) hv
  rw [hx] at hn ⊢
  generalize v / 2 ^ (ebits + (sbits - 1)) = s at *
  generalize v / 2 ^ (sbits - 1) % 2 ^ ebits = E at *
  generalize v % 2 ^ (sbits - 1) = T at *
  have h1 : mk_smt_fpbv_neg (fp_of_fields ebits sbits s E T)
      = fp_of_fields ebits sbits (1 - s) E T := by
    rw [neg_fields _ _ _ _ _ he hs hE hT, hn]; rfl
  rw [h1, abs_fields _ _ _ _ _ he hE hT, abs_fields _ _ _ _ _ he hE hT,
    abs_fields _ _ _ _ _ he hE hT,
    extract_signbit_fields _ _ _ _ _ (by omega) hE hT,
    extract_exponent_fields _ _ _ _ _ he hsb hE hT,
    extract_exponent_fields _ _ _ _ _ he hsb hE hT,
    extract_significand_fields _ _ _ _ _ hsb hT,
    extract_significand_fields _ _ _ _ _ hsb hT]
  simp

/-- Witness for C19: the single-precision value -1.5. -/
theorem C19_abs_witness :
    (1 ≤ 8 ∧ 2 ≤ 24 ∧ 0xbfc00000 < 2 ^ (8 + 24)
      ∧ mk_smt_fpbv_is_nan (fp_val 8 24 0xbfc00000) = false)
    ∧ (extract_signbit (mk_smt_fpbv_abs (fp_val 8 24 0xbfc00000)) = mk_smt_bv 0 1
      ∧ extract_exponent (mk_smt_fpbv_abs (fp_val 8 24 0xbfc00000))
          = extract_exponent (fp_val 8 24 0xbfc00000)
      ∧ extract_significand (mk_smt_fpbv_abs (fp_val 8 24 0xbfc00000))
          = extract_significand (fp_val 8 24 0xbfc00000)
      ∧ mk_smt_fpbv_abs (mk_smt_fpbv_abs (fp_val 8 24 0xbfc00000))
          = mk_smt_fpbv_abs (fp_val 8 24 0xbfc00000)
      ∧ mk_smt_fpbv_abs (mk_smt_fpbv_neg (fp_val 8 24 0xbfc00000))
          = mk_smt_fpbv_abs (fp_val 8 24 0xbfc00000)) :=
  ⟨by decide, C19_abs 8 24 0xbfc00000 (by decide) (by decide) (by decide) (by decide)⟩

/-! ## C11: the result of round on overflow -/

theorem round_finish_ovf (rm sgn sig exp : smt_ast) (OVF1 : Bool) (ebits sbits : Nat)
    (he : 1 ≤ ebits) (h : (OVF1 || round_OVF2 sig exp ebits sbits) = true) :
    round_finish rm sgn sig exp OVF1 ebits sbits
      = if rm.val = 4 ∨ (rm.val = 3 ∧ sgn.val = 0) ∨ (rm.val = 2 ∧ sgn.val ≠ 0)
        then fp_of_fields ebits sbits sgn.val (2 ^ ebits - 2) (2 ^ (sbits - 1) - 1)
        else fp_of_fields ebits sbits sgn.val (2 ^ ebits - 1) 0 := by
  simp only [round_OVF2, mk_ite] at h
  simp only [round_finish, mk_ite]
  simp only [h, if_true]
  have hmaxe : mk_concat (mk_smt_bv (power2m1 (ebits - 1) false) (ebits - 1)) (mk_smt_bv 0 1)
      = ⟨mk_bv_sort ebits, 2 ^ ebits - 2⟩ := by
    rw [power2m1_false, mk_smt_bv_natCast, mk_smt_bv_zero]
    simp only [mk_concat, mk_bv_sort_data_width]
    have h1 : (2 ^ (ebits - 1) - 1) % 2 ^ (ebits - 1) = 2 ^ (ebits - 1) - 1 :=
      Nat.mod_eq_of_lt (by have := two_pow_pos (ebits - 1); omega)
    have h2 := pow_pred_two ebits he
    have h3 : ebits - 1 + 1 = ebits := by omega
    rw [h1, h3]
    congr 1
    have := two_pow_pos (ebits - 1)
    omega
  have hmaxs : mk_smt_bv (power2m1 (sbits - 1) false) (sbits - 1)
      = ⟨mk_bv_sort (sbits - 1), 2 ^ (sbits - 1) - 1⟩ := by
    rw [power2m1_false, mk_smt_bv_natCast]
    congr 1
    exact Nat.mod_eq_of_lt (by have := two_pow_pos (sbits - 1); omega)
  rw [hmaxe, hmaxs, mk_top_exp_eq]
  simp only [mk_is_rm, mk_eq, rounding_modet.to_int, mk_smt_bv_zero, mk_smt_bv_natCast]
  have e4 : ((mk_smt_bv 4 3).val) = 4 := by decide
  have e3 : ((mk_smt_bv 3 3).val) = 3 := by decide
  have e2 : ((mk_smt_bv 2 3).val) = 2 := by decide
  simp only [e4, e3, e2]
  by_cases h4 : rm.val = 4 <;> by_cases h3 : rm.val = 3 <;> by_cases h2 : rm.val = 2 <;>
    by_cases h0 : sgn.val = 0 <;>
    simp [h4, h3, h2, h0, fp_of_fields, fp_val, mk_concat, mk_from_bv_to_fp, Nat.add_assoc]

/-- C11: whenever `round` detects overflow (its flag OVF = OVF1 ∨ OVF2 is
set), the packed result has the input sign and is the largest finite value
(exponent field 1…10, trailing significand all ones) when rm is RTZ, or RTN
with sign 0, or RTP with sign 1, and the infinity (exponent field all ones,
trailing significand 0) in every other case. -/
theorem C11_round_overflow (rm sgn sig exp : smt_ast) (ebits sbits : Nat) (he : 1 ≤ ebits)
    (hovf : round_OVF rm sgn sig exp ebits sbits = true) :
    round rm sgn sig exp ebits sbits
      = if rm.val = 4 ∨ (rm.val = 3 ∧ sgn.val = 0) ∨ (rm.val = 2 ∧ sgn.val ≠ 0)
        then fp_of_fields ebits sbits sgn.val (2 ^ ebits - 2) (2 ^ (sbits - 1) - 1)
        else fp_of_fields ebits sbits sgn.val (2 ^ ebits - 1) 0 := by
  simp only [round_OVF] at hovf
  simp only [round]
  exact round_finish_ovf _ _ _ _ _ ebits sbits he hovf

/-- Witness for C11: single precision, round to nearest even, sign 1, a
significand of all ones at the largest exponent: the increment carries out of
the significand (OVF2) and the result is the negative infinity 0xff800000. -/
theorem C11_round_overflow_witness :
    (1 ≤ 8
      ∧ round_OVF (mk_smt_fpbv_rm .ROUND_TO_EVEN) (mk_smt_bv 1 1)
          ⟨mk_bv_sort 28, 0x7ffffff⟩ ⟨mk_bv_sort 10, 127⟩ 8 24 = true)
    ∧ round (mk_smt_fpbv_rm .ROUND_TO_EVEN) (mk_smt_bv 1 1)
          ⟨mk_bv_sort 28, 0x7ffffff⟩ ⟨mk_bv_sort 10, 127⟩ 8 24
        = if (mk_smt_fpbv_rm .ROUND_TO_EVEN).val = 4
            ∨ ((mk_smt_fpbv_rm .ROUND_TO_EVEN).val = 3 ∧ (mk_smt_bv 1 1).val = 0)
            ∨ ((mk_smt_fpbv_rm .ROUND_TO_EVEN).val = 2 ∧ (mk_smt_bv 1 1).val ≠ 0)
          then fp_of_fields 8 24 (mk_smt_bv 1 1).val (2 ^ 8 - 2) (2 ^ (24 - 1) - 1)
          else fp_of_fields 8 24 (mk_smt_bv 1 1).val (2 ^ 8 - 1) 0 :=
  ⟨by decide, C11_round_overflow _ _ _ _ 8 24 (by decide) (by decide)⟩

/-! ## Special values and the width assertions of the operations -/

theorem mk_smt_fpbv_nan_eq (ebits sbits : Nat) (hsb : 2 ≤ sbits) :
    mk_smt_fpbv_nan ebits sbits = fp_of_fields ebits sbits 0 (2 ^ ebits - 1) 1 := by
  have h1 : 1 % 2 ^ (sbits - 1) = 1 :=
    Nat.mod_eq_of_lt (Nat.one_lt_two_pow (by omega))
  simp only [mk_smt_fpbv_nan, mk_top_exp_eq, mk_smt_bv_zero, mk_smt_bv_one, mk_concat,
    mk_from_bv_to_fp, mk_bv_sort_data_width, fp_of_fields, fp_val, h1, Nat.zero_mul,
    Nat.zero_add]

theorem mk_pinf_eq (ebits sbits : Nat) :
    mk_pinf ebits sbits = fp_of_fields ebits sbits 0 (2 ^ ebits - 1) 0 := by
  simp only [mk_pinf, mk_top_exp_eq, mk_smt_bv_zero, mk_concat,
    mk_from_bv_to_fp, mk_bv_sort_data_width, fp_of_fields, fp_val, Nat.zero_mul,
    Nat.zero_add, Nat.add_zero]

theorem mk_ninf_eq (ebits sbits : Nat) :
    mk_ninf ebits sbits = fp_of_fields ebits sbits 1 (2 ^ ebits - 1) 0 := by
  simp only [mk_ninf, mk_top_exp_eq, mk_smt_bv_zero, mk_smt_bv_one, mk_concat,
    mk_from_bv_to_fp, mk_bv_sort_data_width, fp_of_fields, fp_val, Nat.zero_mul,
    Nat.zero_add, Nat.add_zero, Nat.pow_one, Nat.one_mod]

theorem mk_pzero_eq (ebits sbits : Nat) :
    mk_pzero ebits sbits = fp_of_fields ebits sbits 0 0 0 := by
  simp only [mk_pzero, mk_bot_exp, mk_smt_bv_zero, mk_concat,
    mk_from_bv_to_fp, mk_bv_sort_data_width, fp_of_fields, fp_val, Nat.zero_mul,
    Nat.zero_add, Nat.add_zero]

theorem mk_nzero_eq (ebits sbits : Nat) :
    mk_nzero ebits sbits = fp_of_fields ebits sbits 1 0 0 := by
  simp only [mk_nzero, mk_bot_exp, mk_smt_bv_zero, mk_smt_bv_one, mk_concat,
    mk_from_bv_to_fp, mk_bv_sort_data_width, fp_of_fields, fp_val, Nat.zero_mul,
    Nat.zero_add, Nat.add_zero, Nat.pow_one, Nat.one_mod]

theorem is_positive_fields (ebits sbits s E T : Nat) (hs : s < 2) (hE : E < 2 ^ ebits)
    (hT : T < 2 ^ (sbits - 1)) :
    mk_smt_fpbv_is_positive (fp_of_fields ebits sbits s E T) = decide (s = 0) := by
  simp only [mk_smt_fpbv_is_positive, extract_signbit_fields ebits sbits s E T hs hE hT,
    mk_smt_bv_zero, mk_eq]

theorem is_negative_fields (ebits sbits s E T : Nat) (hs : s < 2) (hE : E < 2 ^ ebits)
    (hT : T < 2 ^ (sbits - 1)) :
    mk_smt_fpbv_is_negative (fp_of_fields ebits sbits s E T) = !decide (s = 0) := by
  simp only [mk_smt_fpbv_is_negative, extract_signbit_fields ebits sbits s E T hs hE hT,
    mk_smt_bv_zero, mk_noteq]

/-- The widths of the outputs of `unpack` and its assertions, for every packed
value of a format with ebits ≥ 2 and sbits ≥ 2. -/
theorem unpack_sorts (ebits sbits v : Nat) (normalize : Bool) (he : 2 ≤ ebits)
    (hsb : 2 ≤ sbits) :
    (unpack (fp_val ebits sbits v) normalize).sgn.sort = mk_bv_sort 1
    ∧ (unpack (fp_val ebits sbits v) normalize).sig.sort = mk_bv_sort sbits
    ∧ (unpack (fp_val ebits sbits v) normalize).exp.sort = mk_bv_sort ebits
    ∧ (unpack (fp_val ebits sbits v) normalize).lz.sort = mk_bv_sort ebits
    ∧ unpack_asserts (fp_val ebits sbits v) normalize = true := by
  have hw : (fp_val ebits sbits v).sort.get_exponent_width = ebits :=
    exponent_width_fields ebits sbits 0 0 v hsb
  have hsw : (fp_val ebits sbits v).sort.get_significand_width = sbits :=
    significand_width_fields ebits sbits 0 0 v hsb
  have hdw : (fp_val ebits sbits v).sort.get_data_width = ebits + (sbits - 1) + 1 := rfl
  have e1 : ebits + (sbits - 1) + 1 - 1 - (ebits + (sbits - 1) + 1 - 1) + 1 = 1 := by omega
  have e2 : ebits + (sbits - 1) + 1 - 2 - (sbits - 2 + 1) + 1 = ebits := by omega
  have e5 : 1 + (ebits - 2 - 0 + 1) = ebits := by omega
  have e6 : sbits - 2 - 0 + 1 = sbits - 1 := by omega
  have hsgn : (extract_signbit (fp_val ebits sbits v)).sort = mk_bv_sort 1 := by
    simp only [extract_signbit, mk_extract, hdw, e1]
  have hexp : (extract_exponent (fp_val ebits sbits v)).sort = mk_bv_sort ebits := by
    simp only [extract_exponent, mk_extract, hdw, hsw, e2]
  have hsig : (extract_significand (fp_val ebits sbits v)).sort = mk_bv_sort (sbits - 1) := by
    simp only [extract_significand, mk_extract, hsw, e6]
  have hunb : ∀ a : smt_ast, a.sort = mk_bv_sort ebits →
      (mk_unbias a).sort = mk_bv_sort ebits := by
    intro a ha
    simp only [mk_unbias, mk_concat, mk_bvnot, mk_extract, mk_bvadd, ha, smt_sort.get_data_width,
      mk_bv_sort_data_width, Nat.sub_self, Nat.zero_add, e5]
  have key : (unpack (fp_val ebits sbits v) normalize).sgn.sort = mk_bv_sort 1
      ∧ (unpack (fp_val ebits sbits v) normalize).sig.sort = mk_bv_sort sbits
      ∧ (unpack (fp_val ebits sbits v) normalize).exp.sort = mk_bv_sort ebits
      ∧ (unpack (fp_val ebits sbits v) normalize).lz.sort = mk_bv_sort ebits := by
    simp only [unpack, hw, hsw, mk_ite]
    refine ⟨hsgn, ?_, ?_, ?_⟩
    · split
      · simp only [mk_concat, mk_smt_bv_sort, hsig, mk_bv_sort_data_width]
        congr 1; omega
      · cases normalize
        · simp only [Bool.false_eq_true, if_false, mk_zero_ext, hsig, mk_bv_sort_data_width]
          congr 1
        · simp only [if_true]
          split <;>
          · simp only [mk_bvshl, mk_zero_ext, hsig, mk_bv_sort_data_width]
            congr 1
    · split
      · exact hunb _ hexp
      · exact hunb _ (mk_smt_bv_sort _ _)
    · cases normalize
      · simp only [Bool.false_eq_true, if_false, mk_smt_bv_sort]
      · simp only [if_true]
        split <;>
        · simp only []
          split
          · exact mk_smt_bv_sort _ _
          · exact mk_leading_zeros_sort _ _
  obtain ⟨k1, k2, k3, k4⟩ := key
  refine ⟨k1, k2, k3, k4, ?_⟩
  simp only [unpack_asserts, hw, hsw, k1, k2, k3, hsgn, hexp, hsig, smt_sort.get_data_width,
    mk_bv_sort_data_width, decide_True, Bool.and_true, Bool.true_and, Bool.or_eq_true,
    Bool.not_eq_true', decide_eq_true_eq, mk_ite]
  right
  split
  · rfl
  · split
    · rfl
    · rw [mk_leading_zeros_sort]; rfl

theorem mul_asserts_ok (ebits sbits vx vy : Nat) (he : 2 ≤ ebits) (hsb : 2 ≤ sbits) :
    mk_smt_fpbv_mul_asserts (fp_val ebits sbits vx) (fp_val ebits sbits vy) = true := by
  obtain ⟨_, a2, _, _, a5⟩ := unpack_sorts ebits sbits vx true he hsb
  obtain ⟨_, _, _, _, b5⟩ := unpack_sorts ebits sbits vy true he hsb
  have hsw : (fp_val ebits sbits vx).sort.get_significand_width = sbits :=
    significand_width_fields ebits sbits 0 0 vx hsb
  have hw : (fp_val ebits sbits vx).sort.get_exponent_width = ebits :=
    exponent_width_fields ebits sbits 0 0 vx hsb
  have hwy : (fp_val ebits sbits vy).sort.get_exponent_width = ebits :=
    exponent_width_fields ebits sbits 0 0 vy hsb
  have hdx : (fp_val ebits sbits vx).sort.data_width = ebits + (sbits - 1) + 1 := rfl
  have hdy : (fp_val ebits sbits vy).sort.data_width = ebits + (sbits - 1) + 1 := rfl
  have e1 : sbits + sbits = 2 * sbits := by omega
  simp only [mk_smt_fpbv_mul_asserts, hsw, hw, hwy, hdx, hdy, a5, b5, mk_bvmul, mk_zero_ext, a2,
    mk_bv_sort_data_width, smt_sort.get_data_width, Bool.and_true, Bool.true_and,
    e1, decide_True]
  split
  · have e2 : sbits - 1 - (sbits - 3) + 1 + 1 = 4 := by omega
    simp [mk_concat, mk_extract, mk_bvredor, e2]
  · simp [mk_concat, mk_extract]
    omega

theorem div_asserts_ok (ebits sbits vx vy : Nat) (he : 2 ≤ ebits) (hsb : 2 ≤ sbits)
    (hes : ebits ≤ sbits) :
    mk_smt_fpbv_div_asserts (fp_val ebits sbits vx) (fp_val ebits sbits vy) = true := by
  obtain ⟨_, a2, _, _, a5⟩ := unpack_sorts ebits sbits vx true he hsb
  obtain ⟨_, _, _, _, b5⟩ := unpack_sorts ebits sbits vy true he hsb
  have hsw : (fp_val ebits sbits vx).sort.get_significand_width = sbits :=
    significand_width_fields ebits sbits 0 0 vx hsb
  have hw : (fp_val ebits sbits vx).sort.get_exponent_width = ebits :=
    exponent_width_fields ebits sbits 0 0 vx hsb
  have hwy : (fp_val ebits sbits vy).sort.get_exponent_width = ebits :=
    exponent_width_fields ebits sbits 0 0 vy hsb
  have hdx : (fp_val ebits sbits vx).sort.data_width = ebits + (sbits - 1) + 1 := rfl
  have hdy : (fp_val ebits sbits vy).sort.data_width = ebits + (sbits - 1) + 1 := rfl
  have e2 : sbits + 2 + sbits + 1 - (sbits + 2 - 1) + 1 + 1 = sbits + 4 := by omega
  have e3 : sbits + (sbits + (sbits + 2)) = sbits + sbits + (sbits + 2) := by omega
  simp only [mk_smt_fpbv_div_asserts, hsw, hw, hwy, hdx, hdy, a5, b5, mk_bvudiv, mk_concat, a2,
    mk_smt_bv_zero, mk_bv_sort_data_width, smt_sort.get_data_width, Bool.and_true,
    Bool.true_and, hes, mk_extract, mk_bvredor, e2, e3, decide_True]

/-! ## The special-case cascades of mul, div and sqrt -/

theorem top_ne_zero (ebits : Nat) (he : 1 ≤ ebits) : 2 ^ ebits - 1 ≠ 0 := by
  have := Nat.one_lt_two_pow (n := ebits) (by omega)
  omega

/-- The cascade of `mk_smt_fpbv_mul` in terms of the fields of its operands. -/
theorem mul_fields (ebits sbits sx Ex Tx sy Ey Ty : Nat) (rm : smt_ast) (he : 1 ≤ ebits)
    (hsb : 2 ≤ sbits) (hsx : sx < 2) (hEx : Ex < 2 ^ ebits) (hTx : Tx < 2 ^ (sbits - 1))
    (hsy : sy < 2) (hEy : Ey < 2 ^ ebits) (hTy : Ty < 2 ^ (sbits - 1)) :
    mk_smt_fpbv_mul (fp_of_fields ebits sbits sx Ex Tx) (fp_of_fields ebits sbits sy Ey Ty) rm
      = if (Ex = 2 ^ ebits - 1 ∧ Tx ≠ 0) ∨ (Ey = 2 ^ ebits - 1 ∧ Ty ≠ 0)
        then fp_of_fields ebits sbits 0 (2 ^ ebits - 1) 1
        else if Ex = 2 ^ ebits - 1 then
          (if Ey = 0 ∧ Ty = 0 then fp_of_fields ebits sbits 0 (2 ^ ebits - 1) 1
           else fp_of_fields ebits sbits ((sx + sy) % 2) (2 ^ ebits - 1) 0)
        else if Ey = 2 ^ ebits - 1 then
          (if Ex = 0 ∧ Tx = 0 then fp_of_fields ebits sbits 0 (2 ^ ebits - 1) 1
           else fp_of_fields ebits sbits ((sx + sy) % 2) (2 ^ ebits - 1) 0)
        else if (Ex = 0 ∧ Tx = 0) ∨ (Ey = 0 ∧ Ty = 0)
        then fp_of_fields ebits sbits ((sx + sy) % 2) 0 0
        else mk_smt_fpbv_mul_generic (fp_of_fields ebits sbits sx Ex Tx)
          (fp_of_fields ebits sbits sy Ey Ty) rm := by
  have htop := top_ne_zero ebits he
  simp only [mk_smt_fpbv_mul, mk_is_pinf, mk_is_ninf,
    is_nan_fields _ _ _ _ _ he hsb hEx hTx, is_nan_fields _ _ _ _ _ he hsb hEy hTy,
    is_inf_fields _ _ _ _ _ he hsb hEx hTx, is_inf_fields _ _ _ _ _ he hsb hEy hTy,
    is_zero_fields _ _ _ _ _ he hEx hTx, is_zero_fields _ _ _ _ _ he hEy hTy,
    is_positive_fields _ _ _ _ _ hsx hEx hTx, is_positive_fields _ _ _ _ _ hsy hEy hTy,
    is_negative_fields _ _ _ _ _ hsx hEx hTx, is_negative_fields _ _ _ _ _ hsy hEy hTy,
    exponent_width_fields _ _ _ _ _ hsb, significand_width_fields _ _ _ _ _ hsb,
    mk_smt_fpbv_nan_eq _ _ hsb, mk_pinf_eq, mk_ninf_eq, mk_pzero_eq, mk_nzero_eq, mk_ite, mk_xor]
  generalize mk_smt_fpbv_mul_generic _ _ _ = V
  have hsx' : sx = 0 ∨ sx = 1 := by omega
  have hsy' : sy = 0 ∨ sy = 1 := by omega
  rcases hsx' with rfl | rfl <;> rcases hsy' with rfl | rfl <;>
    by_cases h1 : Ex = 2 ^ ebits - 1 <;> by_cases h2 : Ey = 2 ^ ebits - 1 <;>
    by_cases h3 : Tx = 0 <;> by_cases h4 : Ty = 0 <;>
    by_cases h5 : Ex = 0 <;> by_cases h6 : Ey = 0 <;>
    first
    | omega
    | simp [h1, h2, h3, h4, h5, h6, htop, htop.symm]

/-- The cascade of `mk_smt_fpbv_div` in terms of the fields of its operands. -/
theorem div_fields (ebits sbits sx Ex Tx sy Ey Ty : Nat) (rm : smt_ast) (he : 1 ≤ ebits)
    (hsb : 2 ≤ sbits) (hsx : sx < 2) (hEx : Ex < 2 ^ ebits) (hTx : Tx < 2 ^ (sbits - 1))
    (hsy : sy < 2) (hEy : Ey < 2 ^ ebits) (hTy : Ty < 2 ^ (sbits - 1)) :
    mk_smt_fpbv_div (fp_of_fields ebits sbits sx Ex Tx) (fp_of_fields ebits sbits sy Ey Ty) rm
      = if (Ex = 2 ^ ebits - 1 ∧ Tx ≠ 0) ∨ (Ey = 2 ^ ebits - 1 ∧ Ty ≠ 0)
        then fp_of_fields ebits sbits 0 (2 ^ ebits - 1) 1
        else if Ex = 2 ^ ebits - 1 then
          (if Ey = 2 ^ ebits - 1 then fp_of_fields ebits sbits 0 (2 ^ ebits - 1) 1
           else fp_of_fields ebits sbits ((sx + sy) % 2) (2 ^ ebits - 1) 0)
        else if Ey = 2 ^ ebits - 1 then fp_of_fields ebits sbits ((sx + sy) % 2) 0 0
        else if Ey = 0 ∧ Ty = 0 then
          (if Ex = 0 ∧ Tx = 0 then fp_of_fields ebits sbits 0 (2 ^ ebits - 1) 1
           else fp_of_fields ebits sbits ((sx + sy) % 2) (2 ^ ebits - 1) 0)
        else if Ex = 0 ∧ Tx = 0 then fp_of_fields ebits sbits ((sx + sy) % 2) 0 0
        else mk_smt_fpbv_div_generic (fp_of_fields ebits sbits sx Ex Tx)
          (fp_of_fields ebits sbits sy Ey Ty) rm := by
  have htop := top_ne_zero ebits he
  simp only [mk_smt_fpbv_div, mk_is_pinf, mk_is_ninf,
    is_nan_fields _ _ _ _ _ he hsb hEx hTx, is_nan_fields _ _ _ _ _ he hsb hEy hTy,
    is_inf_fields _ _ _ _ _ he hsb hEx hTx, is_inf_fields _ _ _ _ _ he hsb hEy hTy,
    is_zero_fields _ _ _ _ _ he hEx hTx, is_zero_fields _ _ _ _ _ he hEy hTy,
    is_positive_fields _ _ _ _ _ hsx hEx hTx, is_positive_fields _ _ _ _ _ hsy hEy hTy,
    is_negative_fields _ _ _ _ _ hsx hEx hTx, is_negative_fields _ _ _ _ _ hsy hEy hTy,
    exponent_width_fields _ _ _ _ _ hsb, significand_width_fields _ _ _ _ _ hsb,
    mk_smt_fpbv_nan_eq _ _ hsb, mk_pinf_eq, mk_ninf_eq, mk_pzero_eq, mk_nzero_eq, mk_ite, mk_xor]
  generalize mk_smt_fpbv_div_generic _ _ _ = V
  have hsx' : sx = 0 ∨ sx = 1 := by omega
  have hsy' : sy = 0 ∨ sy = 1 := by omega
  rcases hsx' with rfl | rfl <;> rcases hsy' with rfl | rfl <;>
    by_cases h1 : Ex = 2 ^ ebits - 1 <;> by_cases h2 : Ey = 2 ^ ebits - 1 <;>
    by_cases h3 : Tx = 0 <;> by_cases h4 : Ty = 0 <;>
    by_cases h5 : Ex = 0 <;> by_cases h6 : Ey = 0 <;>
    first
    | omega
    | simp [h1, h2, h3, h4, h5, h6, htop, htop.symm]

/-- The cascade of `mk_smt_fpbv_sqrt` in terms of the fields of its operand. -/
theorem sqrt_fields (ebits sbits s E T : Nat) (rm : smt_ast) (he : 1 ≤ ebits)
    (hsb : 2 ≤ sbits) (hs : s < 2) (hE : E < 2 ^ ebits) (hT : T < 2 ^ (sbits - 1)) :
    mk_smt_fpbv_sqrt (fp_of_fields ebits sbits s E T) rm
      = if E = 2 ^ ebits - 1 ∧ T ≠ 0 then fp_of_fields ebits sbits s E T
        else if E = 2 ^ ebits - 1 ∧ s = 0 then fp_of_fields ebits sbits s E T
        else if E = 0 ∧ T = 0 then fp_of_fields ebits sbits s E T
        else if s = 1 then fp_of_fields ebits sbits 0 (2 ^ ebits - 1) 1
        else mk_smt_fpbv_sqrt_generic (fp_of_fields ebits sbits s E T) rm := by
  have htop := top_ne_zero ebits he
  simp only [mk_smt_fpbv_sqrt, mk_is_pinf,
    is_nan_fields _ _ _ _ _ he hsb hE hT, is_inf_fields _ _ _ _ _ he hsb hE hT,
    is_zero_fields _ _ _ _ _ he hE hT, is_positive_fields _ _ _ _ _ hs hE hT,
    is_negative_fields _ _ _ _ _ hs hE hT,
    exponent_width_fields _ _ _ _ _ hsb, significand_width_fields _ _ _ _ _ hsb,
    mk_smt_fpbv_nan_eq _ _ hsb, mk_ite]
  generalize mk_smt_fpbv_sqrt_generic _ _ = V
  have hs' : s = 0 ∨ s = 1 := by omega
  rcases hs' with rfl | rfl <;>
    by_cases h1 : E = 2 ^ ebits - 1 <;> by_cases h3 : T = 0 <;> by_cases h5 : E = 0 <;>
    first
    | omega
    | simp [h1, h3, h5, htop, htop.symm]

/-! ## C16: NaN operands of mul and div -/

/-- C16: for mul and div, every rounding-mode term and all packed operands of a
format with ebits ≥ 2 and sbits ≥ 2: if either operand is NaN (any sign, any
payload), or, for mul, the operands are an infinity and a zero, the result is
the canonical NaN, sign 0, exponent field all ones, trailing significand
0…01; the assertions of mul hold, and those of div hold when ebits ≤ sbits. -/
theorem C16_nan_canonical (ebits sbits vx vy : Nat) (rm : smt_ast) (he : 2 ≤ ebits)
    (hsb : 2 ≤ sbits) (hvx : vx < 2 ^ (ebits + sbits)) (hvy : vy < 2 ^ (ebits + sbits)) :
    mk_smt_fpbv_mul_asserts (fp_val ebits sbits vx) (fp_val ebits sbits vy) = true
    ∧ ((mk_smt_fpbv_is_nan (fp_val ebits sbits vx) || mk_smt_fpbv_is_nan (fp_val ebits sbits vy)
          || (mk_smt_fpbv_is_inf (fp_val ebits sbits vx)
              && mk_smt_fpbv_is_zero (fp_val ebits sbits vy))
          || (mk_smt_fpbv_is_zero (fp_val ebits sbits vx)
              && mk_smt_fpbv_is_inf (fp_val ebits sbits vy))) = true →
        mk_smt_fpbv_mul (fp_val ebits sbits vx) (fp_val ebits sbits vy) rm
          = fp_of_fields ebits sbits 0 (2 ^ ebits - 1) 1)
    ∧ (ebits ≤ sbits →
        mk_smt_fpbv_div_asserts (fp_val ebits sbits vx) (fp_val ebits sbits vy) = true)
    ∧ ((mk_smt_fpbv_is_nan (fp_val ebits sbits vx)
          || mk_smt_fpbv_is_nan (fp_val ebits sbits vy)) = true →
        mk_smt_fpbv_div (fp_val ebits sbits vx) (fp_val ebits sbits vy) rm
          = fp_of_fields ebits sbits 0 (2 ^ ebits - 1) 1) := by
  refine ⟨mul_asserts_ok ebits sbits vx vy he hsb, ?_,
    fun hes => div_asserts_ok ebits sbits vx vy he hsb hes, ?_⟩
  · obtain ⟨hx, hsx, hEx, hTx⟩ := fp_val_eq_fields ebits sbits vx (by omega) hvx
    obtain ⟨hy, hsy, hEy, hTy⟩ := fp_val_eq_fields ebits sbits vy (by omega) hvy
    rw [hx, hy, mul_fields _ _ _ _ _ _ _ _ rm (by omega) hsb hsx hEx hTx hsy hEy hTy,
      is_nan_fields _ _ _ _ _ (by omega) hsb hEx hTx,
      is_nan_fields _ _ _ _ _ (by omega) hsb hEy hTy,
      is_inf_fields _ _ _ _ _ (by omega) hsb hEx hTx,
      is_inf_fields _ _ _ _ _ (by omega) hsb hEy hTy,
      is_zero_fields _ _ _ _ _ (by omega) hEx hTx, is_zero_fields _ _ _ _ _ (by omega) hEy hTy]
    have htop := top_ne_zero ebits (by omega)
    generalize vx / 2 ^ (sbits - 1) % 2 ^ ebits = Ex at *
    generalize vx % 2 ^ (sbits - 1) = Tx at *
    generalize vy / 2 ^ (sbits - 1) % 2 ^ ebits = Ey at *
    generalize vy % 2 ^ (sbits - 1) = Ty at *
    intro h
    by_cases h1 : Ex = 2 ^ ebits - 1 <;> by_cases h2 : Ey = 2 ^ ebits - 1 <;>
      by_cases h3 : Tx = 0 <;> by_cases h4 : Ty = 0 <;>
      by_cases h5 : Ex = 0 <;> by_cases h6 : Ey = 0 <;>
      first
      | omega
      | simp [h1, h2, h3, h4, h5, h6, htop, htop.symm] at h ⊢
  · obtain ⟨hx, hsx, hEx, hTx⟩ := fp_val_eq_fields ebits sbits vx (by omega) hvx
    obtain ⟨hy, hsy, hEy, hTy⟩ := fp_val_eq_fields ebits sbits vy (by omega) hvy
    rw [hx, hy, div_fields _ _ _ _ _ _ _ _ rm (by omega) hsb hsx hEx hTx hsy hEy hTy,
      is_nan_fields _ _ _ _ _ (by omega) hsb hEx hTx,
      is_nan_fields _ _ _ _ _ (by omega) hsb hEy hTy]
    intro h
    have hc : (vx / 2 ^ (sbits - 1) % 2 ^ ebits = 2 ^ ebits - 1 ∧ vx % 2 ^ (sbits - 1) ≠ 0)
        ∨ (vy / 2 ^ (sbits - 1) % 2 ^ ebits = 2 ^ ebits - 1 ∧ vy % 2 ^ (sbits - 1) ≠ 0) := by
      simpa using h
    rw [if_pos hc]

/-- Witness for C16: single precision, a negative NaN with a payload times
and over 1.0, and the infinity times zero. -/
theorem C16_nan_canonical_witness :
    (2 ≤ 8 ∧ 2 ≤ 24 ∧ 0xffc12345 < 2 ^ (8 + 24) ∧ 0x3f800000 < 2 ^ (8 + 24))
    ∧ mk_smt_fpbv_mul (fp_val 8 24 0xffc12345) (fp_val 8 24 0x3f800000)
        (mk_smt_fpbv_rm .ROUND_TO_EVEN) = fp_of_fields 8 24 0 (2 ^ 8 - 1) 1
    ∧ mk_smt_fpbv_div (fp_val 8 24 0xffc12345) (fp_val 8 24 0x3f800000)
        (mk_smt_fpbv_rm .ROUND_TO_EVEN) = fp_of_fields 8 24 0 (2 ^ 8 - 1) 1 :=
  ⟨by decide,
    (C16_nan_canonical 8 24 0xffc12345 0x3f800000 _ (by decide) (by decide) (by decide)
      (by decide)).2.1 (by decide),
    (C16_nan_canonical 8 24 0xffc12345 0x3f800000 _ (by decide) (by decide) (by decide)
      (by decide)).2.2.2 (by decide)⟩

/-! ## C15: special cases of division -/

/-- C15: special cases of division, for every rounding-mode term and every
format with 2 ≤ ebits ≤ sbits, on operands given by their fields (sign,
exponent field, trailing significand): the assertions of div hold; a finite
nonzero x over a zero is the infinity with sign sign(x) xor sign(y); zero over
zero and infinity over infinity are the canonical NaN; a finite x over an
infinity is the zero with the xor sign; a zero over a finite nonzero y is the
zero with the xor sign. -/
theorem C15_div_special (ebits sbits sx Ex Tx sy Ey Ty : Nat) (rm : smt_ast) (he : 2 ≤ ebits)
    (hsb : 2 ≤ sbits) (hes : ebits ≤ sbits) (hsx : sx < 2) (hEx : Ex < 2 ^ ebits)
    (hTx : Tx < 2 ^ (sbits - 1)) (hsy : sy < 2) (hEy : Ey < 2 ^ ebits)
    (hTy : Ty < 2 ^ (sbits - 1)) :
    mk_smt_fpbv_div_asserts (fp_of_fields ebits sbits sx Ex Tx)
        (fp_of_fields ebits sbits sy Ey Ty) = true
    ∧ (Ex ≠ 2 ^ ebits - 1 → ¬(Ex = 0 ∧ Tx = 0) → Ey = 0 ∧ Ty = 0 →
        mk_smt_fpbv_div (fp_of_fields ebits sbits sx Ex Tx)
            (fp_of_fields ebits sbits sy Ey Ty) rm
          = fp_of_fields ebits sbits ((sx + sy) % 2) (2 ^ ebits - 1) 0)
    ∧ (Ex = 0 ∧ Tx = 0 → Ey = 0 ∧ Ty = 0 →
        mk_smt_fpbv_div (fp_of_fields ebits sbits sx Ex Tx)
            (fp_of_fields ebits sbits sy Ey Ty) rm
          = fp_of_fields ebits sbits 0 (2 ^ ebits - 1) 1)
    ∧ (Ex = 2 ^ ebits - 1 ∧ Tx = 0 → Ey = 2 ^ ebits - 1 ∧ Ty = 0 →
        mk_smt_fpbv_div (fp_of_fields ebits sbits sx Ex Tx)
            (fp_of_fields ebits sbits sy Ey Ty) rm
          = fp_of_fields ebits sbits 0 (2 ^ ebits - 1) 1)
    ∧ (Ex ≠ 2 ^ ebits - 1 → Ey = 2 ^ ebits - 1 ∧ Ty = 0 →
        mk_smt_fpbv_div (fp_of_fields ebits sbits sx Ex Tx)
            (fp_of_fields ebits sbits sy Ey Ty) rm
          = fp_of_fields ebits sbits ((sx + sy) % 2) 0 0)
    ∧ (Ex = 0 ∧ Tx = 0 → Ey ≠ 2 ^ ebits - 1 → ¬(Ey = 0 ∧ Ty = 0) →
        mk_smt_fpbv_div (fp_of_fields ebits sbits sx Ex Tx)
            (fp_of_fields ebits sbits sy Ey Ty) rm
          = fp_of_fields ebits sbits ((sx + sy) % 2) 0 0) := by
  have htop := top_ne_zero ebits (by omega)
  refine ⟨div_asserts_ok ebits sbits _ _ he hsb hes, ?_, ?_, ?_, ?_, ?_⟩ <;>
    rw [div_fields _ _ _ _ _ _ _ _ rm (by omega) hsb hsx hEx hTx hsy hEy hTy]
  · rintro h1 h2 ⟨rfl, rfl⟩
    simp [h1, h2, htop.symm]
  · rintro ⟨rfl, rfl⟩ ⟨rfl, rfl⟩
    simp [htop.symm]
  · rintro ⟨h1, rfl⟩ ⟨h2, rfl⟩
    simp [h1, h2]
  · rintro h1 ⟨h2, rfl⟩
    simp [h1, h2]
  · rintro ⟨rfl, rfl⟩ h1 h2
    simp [h1, h2, htop.symm]

/-- Witness for C15: single precision, 1.0 / +0.0 is 0 1…1 0…0 (0x7f800000). -/
theorem C15_div_special_witness :
    (2 ≤ 8 ∧ 2 ≤ 24 ∧ 8 ≤ 24 ∧ 0 < 2 ∧ 127 < 2 ^ 8 ∧ 0 < 2 ^ (24 - 1))
    ∧ mk_smt_fpbv_div (fp_val 8 24 0x3f800000) (fp_val 8 24 0)
        (mk_smt_fpbv_rm .ROUND_TO_EVEN) = fp_val 8 24 0x7f800000 :=
  ⟨by decide,
    (C15_div_special 8 24 0 127 0 0 0 0 (mk_smt_fpbv_rm .ROUND_TO_EVEN) (by decide) (by decide)
      (by decide) (by decide) (by decide) (by decide) (by decide) (by decide)
      (by decide)).2.1 (by decide) (by decide) (by decide)⟩

/-! ## C17: special cases of the square root -/

theorem sqrt_step_sorts (sbits : Nat) (st : sqrt_state)
    (hQ : st.Q.sort = mk_bv_sort (sbits + 5)) (hR : st.R.sort = mk_bv_sort (sbits + 5)) :
    (sqrt_step sbits st).Q.sort = mk_bv_sort (sbits + 5)
    ∧ (sqrt_step sbits st).R.sort = mk_bv_sort (sbits + 5)
    ∧ sqrt_step_asserts sbits st = true := by
  have e1 : 1 + (sbits + 4 - 1 + 1) = sbits + 5 := by omega
  have e2 : sbits + 3 - 0 + 1 + 1 = sbits + 5 := by omega
  have e3 : sbits + 4 - 0 + 1 = sbits + 5 := by omega
  refine ⟨?_, ?_, ?_⟩
  · simp only [sqrt_step, mk_ite]
    split
    · exact hQ
    · simp only [mk_bvor, hQ]
  · simp only [sqrt_step, mk_ite]
    split
    · simp only [mk_concat, mk_extract, mk_smt_bv_zero, mk_bv_sort_data_width, e2]
    · simp only [mk_extract, e3]
  · simp only [sqrt_step_asserts, hQ, hR, mk_concat, mk_extract, mk_smt_bv_zero, mk_bvadd,
      mk_bvsub, mk_bv_sort_data_width, smt_sort.get_data_width, e1, decide_True, Bool.and_self]

theorem sqrt_loop_asserts_ok (sbits : Nat) (n : Nat) :
    ∀ st : sqrt_state, st.Q.sort = mk_bv_sort (sbits + 5) →
      st.R.sort = mk_bv_sort (sbits + 5) →
      (sqrt_loop sbits n st).Q.sort = mk_bv_sort (sbits + 5)
      ∧ (sqrt_loop sbits n st).R.sort = mk_bv_sort (sbits + 5)
      ∧ sqrt_loop_asserts sbits n st = true := by
  induction n with
  | zero => intro st hQ hR; exact ⟨hQ, hR, rfl⟩
  | succ n ih =>
    intro st hQ hR
    obtain ⟨h1, h2, h3⟩ := sqrt_step_sorts sbits st hQ hR
    obtain ⟨k1, k2, k3⟩ := ih _ h1 h2
    refine ⟨k1, k2, ?_⟩
    simp only [sqrt_loop_asserts, h3, k3, Bool.and_self]

theorem sqrt_asserts_ok (ebits sbits v : Nat) (he : 2 ≤ ebits) (hsb : 2 ≤ sbits) :
    mk_smt_fpbv_sqrt_asserts (fp_val ebits sbits v) = true := by
  obtain ⟨_, a2, a3, _, a5⟩ := unpack_sorts ebits sbits v true he hsb
  have hsw : (fp_val ebits sbits v).sort.get_significand_width = sbits :=
    significand_width_fields ebits sbits 0 0 v hsb
  have hw : (fp_val ebits sbits v).sort.get_exponent_width = ebits :=
    exponent_width_fields ebits sbits 0 0 v hsb
  have hsp : (sqrt_sig_prime (fp_val ebits sbits v)).sort = mk_bv_sort (sbits + 1) := by
    simp only [sqrt_sig_prime, mk_ite]
    split
    · simp only [mk_concat, a2, mk_smt_bv_zero, mk_bv_sort_data_width]
    · simp only [mk_concat, a2, mk_smt_bv_zero, mk_bv_sort_data_width, Nat.add_comm]
  have hQ0 : (mk_smt_bv (power2 (sbits + 3) false) (sbits + 5)).sort = mk_bv_sort (sbits + 5) :=
    rfl
  obtain ⟨k1, _, k3⟩ := sqrt_loop_asserts_ok sbits (sbits + 3)
    ⟨mk_smt_bv (power2 (sbits + 3) false) (sbits + 5),
      mk_bvsub (mk_smt_bv (power2 (sbits + 3) false) (sbits + 5)).sort
        (mk_concat (sqrt_sig_prime (fp_val ebits sbits v)) (mk_smt_bv 0 4))
        (mk_smt_bv (power2 (sbits + 3) false) (sbits + 5)),
      mk_smt_bv (power2 (sbits + 3) false) (sbits + 5)⟩ hQ0 rfl
  have e1 : sbits + 3 - 1 + 1 + 1 = sbits + 4 := by omega
  simp only [mk_smt_fpbv_sqrt_asserts, hsw, hw, a5, a2, a3, hsp, k3, mk_bvor, mk_zero_ext,
    mk_extract, mk_bv_sort_data_width, smt_sort.get_data_width, e1, decide_True, Bool.and_self]

/-- C17, the claim as stated fails: single precision, the quiet NaN 0x7fc00000
is returned as it is, not as the canonical NaN 0x7f800001. -/
theorem C17_sqrt_nan_counterexample :
    mk_smt_fpbv_is_nan (fp_val 8 24 0x7fc00000) = true
    ∧ mk_smt_fpbv_sqrt (fp_val 8 24 0x7fc00000) (mk_smt_fpbv_rm .ROUND_TO_EVEN)
        = fp_val 8 24 0x7fc00000
    ∧ mk_smt_fpbv_sqrt (fp_val 8 24 0x7fc00000) (mk_smt_fpbv_rm .ROUND_TO_EVEN)
        ≠ fp_of_fields 8 24 0 (2 ^ 8 - 1) 1 := by
  decide

/-- C17, amended: special cases of the square root, for every rounding-mode
term and every format with ebits ≥ 2 and sbits ≥ 2, on an operand given by its
fields: the assertions of sqrt hold; a NaN operand is returned unchanged (sign
and payload kept); sqrt(+inf) = +inf; sqrt(+0) = +0 and sqrt(-0) = -0; every
negative operand that is neither NaN nor zero (including -inf) gives the
canonical NaN 0 1…1 0…01. -/
theorem C17_sqrt_special (ebits sbits s E T : Nat) (rm : smt_ast) (he : 2 ≤ ebits)
    (hsb : 2 ≤ sbits) (hs : s < 2) (hE : E < 2 ^ ebits) (hT : T < 2 ^ (sbits - 1)) :
    mk_smt_fpbv_sqrt_asserts (fp_of_fields ebits sbits s E T) = true
    ∧ (E = 2 ^ ebits - 1 ∧ T ≠ 0 →
        mk_smt_fpbv_sqrt (fp_of_fields ebits sbits s E T) rm = fp_of_fields ebits sbits s E T)
    ∧ (s = 0 ∧ E = 2 ^ ebits - 1 ∧ T = 0 →
        mk_smt_fpbv_sqrt (fp_of_fields ebits sbits s E T) rm
          = fp_of_fields ebits sbits 0 (2 ^ ebits - 1) 0)
    ∧ (E = 0 ∧ T = 0 →
        mk_smt_fpbv_sqrt (fp_of_fields ebits sbits s E T) rm = fp_of_fields ebits sbits s 0 0)
    ∧ (s = 1 → ¬(E = 2 ^ ebits - 1 ∧ T ≠ 0) → ¬(E = 0 ∧ T = 0) →
        mk_smt_fpbv_sqrt (fp_of_fields ebits sbits s E T) rm
          = fp_of_fields ebits sbits 0 (2 ^ ebits - 1) 1) := by
  have htop := top_ne_zero ebits (by omega)
  refine ⟨sqrt_asserts_ok ebits sbits _ he hsb, ?_, ?_, ?_, ?_⟩ <;>
    rw [sqrt_fields _ _ _ _ _ rm (by omega) hsb hs hE hT]
  · rintro ⟨h1, h2⟩
    simp [h1, h2]
  · rintro ⟨rfl, rfl, rfl⟩
    simp
  · rintro ⟨rfl, rfl⟩
    simp [htop.symm]
  · rintro rfl h1 h2
    simp [h1, h2]

/-- Witness for C17: single precision, the square root of -inf. -/
theorem C17_sqrt_special_witness :
    (2 ≤ 8 ∧ 2 ≤ 24 ∧ 1 < 2 ∧ 255 < 2 ^ 8 ∧ 0 < 2 ^ (24 - 1))
    ∧ mk_smt_fpbv_sqrt (fp_val 8 24 0xff800000) (mk_smt_fpbv_rm .ROUND_TO_EVEN)
        = fp_val 8 24 0x7f800001 :=
  ⟨by decide,
    (C17_sqrt_special 8 24 1 255 0 (mk_smt_fpbv_rm .ROUND_TO_EVEN) (by decide) (by decide)
      (by decide) (by decide) (by decide)).2.2.2.2 rfl (by decide) (by decide)⟩

/-! ## C20: the sign of a converted signed integer -/

theorem mk_smt_bv_lt (z : Int) (w : Nat) : (mk_smt_bv z w).val < 2 ^ w := by
  simp only [mk_smt_bv]
  have h1 : (0 : Int) < 2 ^ w := by positivity
  have h2 := Int.emod_lt_of_pos z h1
  have h3 := Int.emod_nonneg z (ne_of_gt h1)
  have h4 : ((z % 2 ^ w).toNat : Int) = z % 2 ^ w := Int.toNat_of_nonneg h3
  have h5 : ((z % 2 ^ w).toNat : Int) < ((2 ^ w : Nat) : Int) := by
    rw [h4]; push_cast; exact h2
  exact_mod_cast h5

theorem mk_ite_cases (P : smt_ast → Prop) (c : Bool) (t e : smt_ast) (ht : P t) (he : P e) :
    P (mk_ite c t e) := by
  cases c
  · exact he
  · exact ht

/-- Whatever significand and exponent `round` is given, its result is a packed
value whose sign bit is the sign it was given. -/
theorem round_fields_exists (rm sig exp : smt_ast) (ebits sbits s : Nat) (he : 1 ≤ ebits)
    (hsb : 2 ≤ sbits) :
    ∃ E T, E < 2 ^ ebits ∧ T < 2 ^ (sbits - 1)
      ∧ round rm ⟨mk_bv_sort 1, s⟩ sig exp ebits sbits = fp_of_fields ebits sbits s E T := by
  have hwf : ∀ (e g : smt_ast), (e.sort = mk_bv_sort ebits ∧ e.val < 2 ^ ebits) →
      (g.sort = mk_bv_sort (sbits - 1) ∧ g.val < 2 ^ (sbits - 1)) →
      ∃ E T, E < 2 ^ ebits ∧ T < 2 ^ (sbits - 1)
        ∧ mk_from_bv_to_fp (mk_concat ⟨mk_bv_sort 1, s⟩ (mk_concat e g))
            (mk_fpbv_sort ebits (sbits - 1)) = fp_of_fields ebits sbits s E T := by
    intro e g h1 h3
    refine ⟨e.val, g.val, h1.2, h3.2, ?_⟩
    simp only [mk_from_bv_to_fp, mk_concat, h1.1, h3.1, mk_bv_sort_data_width, fp_of_fields,
      fp_val, Nat.add_assoc]
  have hbv : ∀ (z : Int) (w : Nat), (mk_smt_bv z w).sort = mk_bv_sort w
      ∧ (mk_smt_bv z w).val < 2 ^ w := fun z w => ⟨rfl, mk_smt_bv_lt z w⟩
  have hmaxe : (mk_concat (mk_smt_bv (power2m1 (ebits - 1) false) (ebits - 1))
        (mk_smt_bv 0 1)).sort = mk_bv_sort ebits
      ∧ (mk_concat (mk_smt_bv (power2m1 (ebits - 1) false) (ebits - 1))
        (mk_smt_bv 0 1)).val < 2 ^ ebits := by
    have h1 := (hbv (power2m1 (ebits - 1) false) (ebits - 1)).2
    have h2 := pow_pred_two ebits he
    have e1 : ebits - 1 + 1 = ebits := by omega
    simp only [mk_concat, mk_smt_bv_zero, mk_smt_bv_sort, mk_bv_sort_data_width, Nat.pow_one,
      Nat.add_zero, e1]
    exact ⟨trivial, by omega⟩
  have htope : (mk_top_exp ebits).sort = mk_bv_sort ebits
      ∧ (mk_top_exp ebits).val < 2 ^ ebits := by
    rw [mk_top_exp_eq]
    have := two_pow_pos ebits
    exact ⟨rfl, by show 2 ^ ebits - 1 < 2 ^ ebits; omega⟩
  have hbias : ∀ e : smt_ast, (mk_bias (mk_extract e (ebits - 1) 0)).sort = mk_bv_sort ebits
      ∧ (mk_bias (mk_extract e (ebits - 1) 0)).val < 2 ^ ebits := by
    intro e
    have e1 : ebits - 1 - 0 + 1 = ebits := by omega
    simp only [mk_bias, mk_bvadd, mk_extract, smt_sort.get_data_width, mk_bv_sort_data_width, e1]
    exact ⟨trivial, Nat.mod_lt _ (two_pow_pos _)⟩
  have hrest : ∀ g : smt_ast, (mk_extract g (sbits - 2) 0).sort = mk_bv_sort (sbits - 1)
      ∧ (mk_extract g (sbits - 2) 0).val < 2 ^ (sbits - 1) := by
    intro g
    have e1 : sbits - 2 - 0 + 1 = sbits - 1 := by omega
    simp only [mk_extract, e1]
    exact ⟨trivial, Nat.mod_lt _ (two_pow_pos _)⟩
  simp only [round, round_finish]
  apply hwf
  · apply mk_ite_cases (fun a => a.sort = mk_bv_sort ebits ∧ a.val < 2 ^ ebits)
    · apply mk_ite_cases (fun a => a.sort = mk_bv_sort ebits ∧ a.val < 2 ^ ebits)
      · exact mk_ite_cases (fun a => a.sort = mk_bv_sort ebits ∧ a.val < 2 ^ ebits) _ _ _
          hmaxe htope
      · exact mk_ite_cases (fun a => a.sort = mk_bv_sort ebits ∧ a.val < 2 ^ ebits) _ _ _
          hmaxe htope
    · apply mk_ite_cases (fun a => a.sort = mk_bv_sort ebits ∧ a.val < 2 ^ ebits)
      · exact hbv 0 ebits
      · exact mk_ite_cases (fun a => a.sort = mk_bv_sort ebits ∧ a.val < 2 ^ ebits) _ _ _
          (hbv _ _) (hbias _)
  · apply mk_ite_cases (fun a => a.sort = mk_bv_sort (sbits - 1) ∧ a.val < 2 ^ (sbits - 1))
    · apply mk_ite_cases (fun a => a.sort = mk_bv_sort (sbits - 1) ∧ a.val < 2 ^ (sbits - 1))
      · exact mk_ite_cases
          (fun a => a.sort = mk_bv_sort (sbits - 1) ∧ a.val < 2 ^ (sbits - 1)) _ _ _
          (hbv _ _) (hbv _ _)
      · exact mk_ite_cases
          (fun a => a.sort = mk_bv_sort (sbits - 1) ∧ a.val < 2 ^ (sbits - 1)) _ _ _
          (hbv _ _) (hbv _ _)
    · exact hrest _

theorem round_sign (rm sig exp : smt_ast) (ebits sbits s : Nat) (he : 1 ≤ ebits)
    (hsb : 2 ≤ sbits) (hs : s < 2) :
    extract_signbit (round rm ⟨mk_bv_sort 1, s⟩ sig exp ebits sbits) = ⟨mk_bv_sort 1, s⟩ := by
  obtain ⟨E, T, hE, hT, h⟩ := round_fields_exists rm sig exp ebits sbits s he hsb
  rw [h, extract_signbit_fields _ _ _ _ _ hs hE hT]

theorem mk_ite_sort (c : Bool) (t e : smt_ast) :
    (mk_ite c t e).sort = mk_ite c t.sort e.sort := by
  cases c <;> rfl

theorem mk_ite_same {α : Type} (c : Bool) (t : α) : mk_ite c t t = t := by
  cases c <;> rfl

theorem mk_concat_sort (a b : smt_ast) :
    (mk_concat a b).sort = mk_bv_sort (a.sort.data_width + b.sort.data_width) := rfl

theorem mk_extract_sort (a : smt_ast) (h l : Nat) :
    (mk_extract a h l).sort = mk_bv_sort (h - l + 1) := rfl

theorem sbv_asserts_ok (w xv ebits sbits : Nat) (hsb : 2 ≤ sbits) :
    mk_smt_typecast_sbv_to_fpbv_asserts ⟨mk_bv_sort w, xv⟩ (mk_fpbv_sort ebits (sbits - 1))
      = true := by
  have hw : (mk_fpbv_sort ebits (sbits - 1)).get_exponent_width = ebits :=
    exponent_width_fields ebits sbits 0 0 0 hsb
  have hsw : (mk_fpbv_sort ebits (sbits - 1)).get_significand_width = sbits :=
    significand_width_fields ebits sbits 0 0 0 hsb
  have e0 : ebits + 2 - 1 - 0 + 1 = ebits + 2 := by omega
  have hmax : (mk_max_exp (ebits + 2)).sort = mk_bv_sort (ebits + 2) := rfl
  have hred : ∀ a : smt_ast, (mk_bvredor a).sort = mk_bv_sort 1 := fun _ => rfl
  have hsub : ∀ (s : smt_sort) (a b : smt_ast), (mk_bvsub s a b).sort = s := fun _ _ _ => rfl
  have hadd : ∀ (s : smt_sort) (a b : smt_ast), (mk_bvadd s a b).sort = s := fun _ _ _ => rfl
  have hshl : ∀ (s : smt_sort) (a b : smt_ast), (mk_bvshl s a b).sort = s := fun _ _ _ => rfl
  by_cases h1 : sbits + 4 ≤ w
  · have e1 : w - 1 - (w - (sbits + 4) + 1) + 1 + 1 = sbits + 4 := by omega
    by_cases h2 : ebits + 2 < floor_log2 w + 1 <;>
    simp only [mk_smt_typecast_sbv_to_fpbv_asserts, hw, hsw, mk_leading_zeros_sort,
      mk_smt_bv_sort, mk_bv_sort_data_width, smt_sort.get_data_width, decide_True, Bool.true_and,
      Bool.and_eq_true, decide_eq_true_eq, h1, h2, if_true, if_false, mk_ite_sort, mk_concat_sort,
      mk_extract_sort, hmax, hred, hsub, hadd, hshl, e0, e1, mk_ite_same, and_self]
  · have e1 : w + (sbits + 4 - w) = sbits + 4 := by omega
    by_cases h2 : ebits + 2 < floor_log2 (sbits + 4) + 1 <;>
    simp only [mk_smt_typecast_sbv_to_fpbv_asserts, hw, hsw, mk_leading_zeros_sort,
      mk_smt_bv_sort, mk_bv_sort_data_width, smt_sort.get_data_width, decide_True, Bool.true_and,
      Bool.and_eq_true, decide_eq_true_eq, h1, h2, if_true, if_false, mk_ite_sort, mk_concat_sort,
      mk_extract_sort, hmax, hred, hsub, hadd, hshl, e0, e1, mk_ite_same, and_self]

/-- C20, as the code has it: for every signed bit-vector x, every target format
with ebits ≥ 1 and sbits ≥ 2 and every rounding-mode term, the assertions of
`mk_smt_typecast_sbv_to_fpbv` hold and the sign bit of its result is 0: the
source passes the constant 0 as the sign to `round` (line 848) and never the
top bit of x, so no negative integer converts to a negative float. -/
theorem C20_sbv_sign_always_zero (w xv ebits sbits : Nat) (rm : smt_ast) (he : 1 ≤ ebits)
    (hsb : 2 ≤ sbits) :
    mk_smt_typecast_sbv_to_fpbv_asserts ⟨mk_bv_sort w, xv⟩ (mk_fpbv_sort ebits (sbits - 1))
      = true
    ∧ extract_signbit
        (mk_smt_typecast_sbv_to_fpbv ⟨mk_bv_sort w, xv⟩ (mk_fpbv_sort ebits (sbits - 1)) rm)
      = mk_smt_bv 0 1 := by
  have hw : (mk_fpbv_sort ebits (sbits - 1)).get_exponent_width = ebits :=
    exponent_width_fields ebits sbits 0 0 0 hsb
  have hsw : (mk_fpbv_sort ebits (sbits - 1)).get_significand_width = sbits :=
    significand_width_fields ebits sbits 0 0 0 hsb
  refine ⟨sbv_asserts_ok w xv ebits sbits hsb, ?_⟩
  simp only [mk_smt_typecast_sbv_to_fpbv, hw, hsw]
  apply mk_ite_cases (fun a => extract_signbit a = mk_smt_bv 0 1)
  · rw [mk_pzero_eq, extract_signbit_fields _ _ _ _ _ (by omega) (two_pow_pos _) (two_pow_pos _),
      mk_smt_bv_zero]
  · rw [mk_smt_bv_zero]
    exact round_sign _ _ _ ebits sbits 0 he hsb (by omega)

/-- Witness for C20: the 32-bit integer -1 (all ones, top bit 1) converted to
single precision under round-to-nearest-even is +1.0 (0x3f800000), sign bit 0,
where -1.0 is 0xbf800000. -/
theorem C20_sbv_sign_always_zero_witness :
    (1 ≤ 8 ∧ 2 ≤ 24)
    ∧ (mk_extract ⟨mk_bv_sort 32, 0xffffffff⟩ 31 31).val = 1
    ∧ mk_smt_typecast_sbv_to_fpbv ⟨mk_bv_sort 32, 0xffffffff⟩ (mk_fpbv_sort 8 (24 - 1))
        (mk_smt_fpbv_rm .ROUND_TO_EVEN) = fp_val 8 24 0x3f800000
    ∧ (mk_smt_typecast_sbv_to_fpbv_asserts ⟨mk_bv_sort 32, 0xffffffff⟩
          (mk_fpbv_sort 8 (24 - 1)) = true
      ∧ extract_signbit (mk_smt_typecast_sbv_to_fpbv ⟨mk_bv_sort 32, 0xffffffff⟩
          (mk_fpbv_sort 8 (24 - 1)) (mk_smt_fpbv_rm .ROUND_TO_EVEN)) = mk_smt_bv 0 1) :=
  ⟨by decide, by decide, by decide,
    C20_sbv_sign_always_zero 32 0xffffffff 8 24 _ (by decide) (by decide)⟩

/-! ## C12: multiplication by 1.0 -/

/-- C12, as the code has it: in single precision 0.5 * 1.0 is not 0.5
(0x3f000000) under any rounding mode.  The generic path widens the unbiased
exponents with `mk_zero_ext` (lines 968-969), so the exponent -1 of 0.5 is read
as 255 and `round` reports overflow: the result is +infinity (0x7f800000), or
the largest finite value (0x7f7fffff) when rounding toward zero or toward
minus infinity.  Both operands are finite, their product 0.5 is representable,
and no assertion of mul fails. -/
theorem C12_mul_half_one (rm : rounding_modet) :
    mk_smt_fpbv_mul_asserts (fp_val 8 24 0x3f000000) (fp_val 8 24 0x3f800000) = true
    ∧ fp_denote (fp_val 8 24 0x3f000000) = .finite (1 / 2)
    ∧ fp_denote (fp_val 8 24 0x3f800000) = .finite 1
    ∧ mk_smt_fpbv_mul (fp_val 8 24 0x3f000000) (fp_val 8 24 0x3f800000) (mk_smt_fpbv_rm rm)
        ≠ fp_val 8 24 0x3f000000
    ∧ mk_smt_fpbv_mul (fp_val 8 24 0x3f000000) (fp_val 8 24 0x3f800000) (mk_smt_fpbv_rm rm)
        = (if rm = .ROUND_TO_ZERO ∨ rm = .ROUND_TO_MINUS_INF then fp_val 8 24 0x7f7fffff
            else fp_val 8 24 0x7f800000) := by
  refine ⟨by decide, ?_, ?_, ?_, ?_⟩
  · simp only [fp_denote, fp_val, mk_fpbv_sort, mk_bv_fp_sort, smt_sort.get_exponent_width,
      smt_sort.get_significand_width, smt_sort.get_data_width]
    norm_num
  · simp only [fp_denote, fp_val, mk_fpbv_sort, mk_bv_fp_sort, smt_sort.get_exponent_width,
      smt_sort.get_significand_width, smt_sort.get_data_width]
    norm_num
  · cases rm <;> decide
  · cases rm <;> decide

/-! ## Exponents as integers modulo 2^w -/

theorem mk_smt_bv_eq_of_emod (a b : Int) (w : Nat)
    (h : a % (2 : Int) ^ w = b % (2 : Int) ^ w) : mk_smt_bv a w = mk_smt_bv b w := by
  simp only [mk_smt_bv, h]

theorem mk_smt_bv_add_mul (a k : Int) (w : Nat) :
    mk_smt_bv (a + k * (2 : Int) ^ w) w = mk_smt_bv a w :=
  mk_smt_bv_eq_of_emod _ _ _ (Int.add_mul_emod_self)

theorem mk_smt_bv_val_cast (a : Int) (w : Nat) :
    ((mk_smt_bv a w).val : Int) = a % (2 : Int) ^ w := by
  simp only [mk_smt_bv]
  exact Int.toNat_of_nonneg (Int.emod_nonneg a (by positivity))

theorem bvsub_smt_bv (w : Nat) (a b : Int) :
    mk_bvsub (mk_bv_sort w) (mk_smt_bv a w) (mk_smt_bv b w) = mk_smt_bv (a - b) w := by
  have hb := mk_smt_bv_lt b w
  have hA := mk_smt_bv_val_cast a w
  have hB := mk_smt_bv_val_cast b w
  have hR := mk_smt_bv_val_cast (a - b) w
  have hs : (mk_smt_bv (a - b) w).sort = mk_bv_sort w := rfl
  generalize mk_smt_bv (a - b) w = r at *
  generalize mk_smt_bv a w = p at *
  generalize mk_smt_bv b w = q at *
  obtain ⟨rs, rv⟩ := r
  simp only at hs hR
  subst hs
  simp only [mk_bvsub, mk_bv_sort_data_width]
  congr 1
  have h1 : q.val % 2 ^ w = q.val := Nat.mod_eq_of_lt hb
  rw [h1]
  apply Int.ofNat_inj.mp
  rw [hR]
  push_cast [Nat.cast_sub (le_of_lt hb)]
  rw [hA, hB, show a % 2 ^ w + (2 ^ w - b % 2 ^ w) = (a % 2 ^ w - b % 2 ^ w) + 2 ^ w by ring,
    Int.add_emod_self, ← Int.sub_emod]

/-- The exponent of an unpacked normal operand, widened as the operations do:
E - bias modulo 2^(ebits+2). -/
theorem exp_code_normal (ebits E : Nat) (he : 2 ≤ ebits) (hE2 : E + 2 ≤ 2 ^ ebits) :
    mk_bvsub (mk_bv_sort (ebits + 2))
        (mk_sign_ext ⟨mk_bv_sort ebits, (E + 1 + 2 ^ (ebits - 1)) % 2 ^ ebits⟩ 2)
        (mk_zero_ext ⟨mk_bv_sort ebits, 0⟩ 2)
      = mk_smt_bv ((E : Int) - (2 ^ (ebits - 1) - 1)) (ebits + 2) := by
  obtain ⟨hB, hB2, hB4, hB0⟩ := pow_facts ebits he
  rw [sign_ext_unbiased ebits E he hE2]
  have h1 : (⟨mk_bv_sort (ebits + 2), (E + 1 + 7 * 2 ^ (ebits - 1)) % 2 ^ (ebits + 2)⟩ : smt_ast)
      = mk_smt_bv ((E + 1 + 7 * 2 ^ (ebits - 1) : Nat) : Int) (ebits + 2) :=
    (mk_smt_bv_natCast _ _).symm
  have h2 : mk_zero_ext ⟨mk_bv_sort ebits, 0⟩ 2 = mk_smt_bv 0 (ebits + 2) := by
    simp only [mk_zero_ext, mk_smt_bv_zero, mk_bv_sort_data_width]
  rw [h1, h2, bvsub_smt_bv, ← mk_smt_bv_add_mul ((E : Int) - (2 ^ (ebits - 1) - 1)) 1 (ebits + 2)]
  congr 1
  have : ((2 : Int) ^ (ebits + 2)) = 8 * 2 ^ (ebits - 1) := by exact_mod_cast hB4
  rw [this]
  push_cast
  ring

/-- The exponent of an unpacked and normalized denormal operand, widened as
the operations do: 1 - bias - lz modulo 2^(ebits+2). -/
theorem exp_code_denormal (ebits L : Nat) (he : 2 ≤ ebits) (hL : L < 2 ^ ebits) :
    mk_bvsub (mk_bv_sort (ebits + 2))
        (mk_sign_ext ⟨mk_bv_sort ebits, (2 + 2 ^ (ebits - 1)) % 2 ^ ebits⟩ 2)
        (mk_zero_ext ⟨mk_bv_sort ebits, L⟩ 2)
      = mk_smt_bv ((1 : Int) - (2 ^ (ebits - 1) - 1) - L) (ebits + 2) := by
  obtain ⟨hB, hB2, hB4, hB0⟩ := pow_facts ebits he
  rw [← mk_min_exp_eq ebits he, sign_ext_min_exp ebits he]
  have h1 : (⟨mk_bv_sort (ebits + 2), (2 + 7 * 2 ^ (ebits - 1)) % 2 ^ (ebits + 2)⟩ : smt_ast)
      = mk_smt_bv ((2 + 7 * 2 ^ (ebits - 1) : Nat) : Int) (ebits + 2) :=
    (mk_smt_bv_natCast _ _).symm
  have h2 : mk_zero_ext ⟨mk_bv_sort ebits, L⟩ 2 = mk_smt_bv (L : Int) (ebits + 2) := by
    rw [mk_smt_bv_natCast]
    simp only [mk_zero_ext, mk_bv_sort_data_width]
    congr 1
    exact (Nat.mod_eq_of_lt (by omega)).symm
  rw [h1, h2, bvsub_smt_bv,
    ← mk_smt_bv_add_mul ((1 : Int) - (2 ^ (ebits - 1) - 1) - L) 1 (ebits + 2)]
  congr 1
  have : ((2 : Int) ^ (ebits + 2)) = 8 * 2 ^ (ebits - 1) := by exact_mod_cast hB4
  rw [this]
  push_cast
  ring

/-! ## Finite values in normalized form -/

theorem norm_bounds (sbits E T : Nat) (hsb : 2 ≤ sbits) (hT : T < 2 ^ (sbits - 1))
    (h0 : ¬(E = 0 ∧ T = 0)) :
    2 ^ (sbits - 1) ≤ norm_sig sbits E T ∧ norm_sig sbits E T < 2 ^ sbits
    ∧ mag (sbits - 1) E T * 2 ^ (sbits - 1) = norm_sig sbits E T * 2 ^ norm_exp sbits E T := by
  have hp := pow_pred_two sbits (by omega)
  by_cases hE : E = 0
  · have hT0 : T ≠ 0 := fun h => h0 ⟨hE, h⟩
    obtain ⟨h1, h2, h3⟩ := mul_pow_size_bounds sbits T hT0 hT hsb
    have h4 : 0 < Nat.size T := Nat.size_pos.mpr (Nat.pos_of_ne_zero hT0)
    simp only [norm_sig, norm_exp, mag, hE, if_true]
    refine ⟨h2, h3, ?_⟩
    rw [Nat.mul_assoc, ← Nat.pow_add]
    congr 2
    omega
  · simp only [norm_sig, norm_exp, mag, hE, if_false]
    refine ⟨by omega, by omega, ?_⟩
    rw [Nat.mul_assoc, ← Nat.pow_add]

/-- What `unpack` with normalization returns for a finite nonzero value: the
normalized significand, and an exponent and a leading-zero count whose
difference, widened by two bits, is the normalized exponent. -/
theorem unpack_norm (ebits sbits s E T : Nat) (he : 2 ≤ ebits) (hsb : 2 ≤ sbits)
    (hfmt : sbits < 2 ^ ebits) (hs : s < 2) (hE : E < 2 ^ ebits) (hT : T < 2 ^ (sbits - 1))
    (htop : E ≠ 2 ^ ebits - 1) (h0 : ¬(E = 0 ∧ T = 0)) :
    ∃ ex lx : smt_ast, ex.sort = mk_bv_sort ebits ∧ lx.sort = mk_bv_sort ebits
      ∧ unpack (fp_of_fields ebits sbits s E T) true
          = ⟨⟨mk_bv_sort 1, s⟩, ⟨mk_bv_sort sbits, norm_sig sbits E T⟩, ex, lx⟩
      ∧ mk_bvsub (mk_bv_sort (ebits + 2)) (mk_sign_ext ex 2) (mk_zero_ext lx 2)
          = mk_smt_bv ((norm_exp sbits E T : Int) - (2 ^ (ebits - 1) + sbits - 3))
              (ebits + 2) := by
  by_cases hE0 : E = 0
  · subst hE0
    have hT0 : T ≠ 0 := fun h => h0 ⟨rfl, h⟩
    obtain ⟨h1, h2, h3⟩ := mul_pow_size_bounds sbits T hT0 hT hsb
    have h4 : 0 < Nat.size T := Nat.size_pos.mpr (Nat.pos_of_ne_zero hT0)
    refine ⟨⟨mk_bv_sort ebits, (2 + 2 ^ (ebits - 1)) % 2 ^ ebits⟩,
      ⟨mk_bv_sort ebits, sbits - Nat.size T⟩, rfl, rfl, ?_, ?_⟩
    · rw [unpack_fields_denormal ebits sbits s T he hsb hfmt hs hT hT0]
      simp only [norm_sig, if_true]
    · rw [exp_code_denormal ebits _ he (by omega)]
      congr 1
      simp only [norm_exp, if_true]
      have e1 : ((sbits - Nat.size T : Nat) : Int) = (sbits : Int) - Nat.size T := by omega
      have e2 : ((Nat.size T - 1 : Nat) : Int) = (Nat.size T : Int) - 1 := by omega
      rw [e1, e2]
      ring
  · refine ⟨⟨mk_bv_sort ebits, (E + 1 + 2 ^ (ebits - 1)) % 2 ^ ebits⟩,
      ⟨mk_bv_sort ebits, 0⟩, rfl, rfl, ?_, ?_⟩
    · rw [unpack_fields_normal ebits sbits s E T true he hsb hs hE hT hE0 htop]
      simp only [norm_sig, hE0, if_false]
    · rw [exp_code_normal ebits E he (by omega)]
      congr 1
      simp only [norm_exp, hE0, if_false]
      have e1 : ((E - 1 + (sbits - 1) : Nat) : Int) = (E : Int) - 1 + ((sbits : Int) - 1) := by
        omega
      rw [e1]
      ring

/-- Rounding the normalized form of a finite nonzero value gives the value
back: the significand with three zero rounding bits and the normalized
exponent pack to the fields (s, E, T). -/
theorem round_norm (rm : smt_ast) (ebits sbits s E T : Nat) (he : 2 ≤ ebits)
    (he64 : ebits ≤ 62) (hsb : 2 ≤ sbits) (hfmt : sbits < 2 ^ ebits) (hs : s < 2)
    (hE : E < 2 ^ ebits) (hT : T < 2 ^ (sbits - 1))
    (htop : E ≠ 2 ^ ebits - 1) (h0 : ¬(E = 0 ∧ T = 0)) :
    round rm ⟨mk_bv_sort 1, s⟩ ⟨mk_bv_sort (sbits + 4), 8 * norm_sig sbits E T⟩
        (mk_smt_bv ((norm_exp sbits E T : Int) - (2 ^ (ebits - 1) + sbits - 3)) (ebits + 2))
        ebits sbits
      = fp_of_fields ebits sbits s E T := by
  by_cases hE0 : E = 0
  · subst hE0
    have hT0 : T ≠ 0 := fun h => h0 ⟨rfl, h⟩
    obtain ⟨h1, h2, h3⟩ := mul_pow_size_bounds sbits T hT0 hT hsb
    have h4 : 0 < Nat.size T := Nat.size_pos.mpr (Nat.pos_of_ne_zero hT0)
    have hcode : mk_smt_bv ((norm_exp sbits 0 T : Int) - (2 ^ (ebits - 1) + sbits - 3))
          (ebits + 2)
        = ⟨mk_bv_sort (ebits + 2), ((2 + 7 * 2 ^ (ebits - 1)) % 2 ^ (ebits + 2)
          + (2 ^ (ebits + 2) - (sbits - Nat.size T) % 2 ^ (ebits + 2))) % 2 ^ (ebits + 2)⟩ := by
      rw [← min_exp_sub_lz ebits (sbits - Nat.size T) he,
        exp_code_denormal ebits _ he (by omega)]
      congr 1
      simp only [norm_exp, if_true]
      have e1 : ((sbits - Nat.size T : Nat) : Int) = (sbits : Int) - Nat.size T := by omega
      have e2 : ((Nat.size T - 1 : Nat) : Int) = (Nat.size T : Int) - 1 := by omega
      rw [e1, e2]
      ring
    rw [hcode]
    simp only [norm_sig, if_true]
    exact round_exact_denormal rm ebits sbits s T (sbits - Nat.size T) he he64 hsb hfmt hs
      (by omega) (by omega) h2 h3
  · have hcode : mk_smt_bv ((norm_exp sbits E T : Int) - (2 ^ (ebits - 1) + sbits - 3))
          (ebits + 2)
        = ⟨mk_bv_sort (ebits + 2), (E + 1 + 7 * 2 ^ (ebits - 1)) % 2 ^ (ebits + 2)⟩ := by
      rw [← sign_ext_unbiased ebits E he (by omega)]
      have := exp_code_normal ebits E he (by omega)
      have h2 : mk_zero_ext ⟨mk_bv_sort ebits, 0⟩ 2 = mk_smt_bv 0 (ebits + 2) := by
        simp only [mk_zero_ext, mk_smt_bv_zero, mk_bv_sort_data_width]
      rw [sign_ext_unbiased ebits E he (by omega)] at this ⊢
      rw [h2, ← mk_smt_bv_natCast, bvsub_smt_bv, sub_zero] at this
      rw [← mk_smt_bv_natCast, this]
      congr 1
      simp only [norm_exp, hE0, if_false]
      have e1 : ((E - 1 + (sbits - 1) : Nat) : Int) = (E : Int) - 1 + ((sbits : Int) - 1) := by
        omega
      rw [e1]
      ring
    rw [hcode]
    simp only [norm_sig, hE0, if_false]
    exact round_exact_normal rm ebits sbits s E T he he64 hsb hs hT (by omega) (by omega)

/-! ## The generic path of division on an exact quotient -/

/-- The quotient and the significand derived from it in `mk_smt_fpbv_div`
(lines 1094-1125) when the significands divide exactly:
Sx · 2^(sbits-1+δ) = Sz · Sy with δ = 0 (Sx ≥ Sy) or δ = 1 (Sx < Sy). -/
theorem div_res_sig_exact (sbits Sx Sy Sz δ : Nat) (hsb : 2 ≤ sbits)
    (hSy1 : 2 ^ (sbits - 1) ≤ Sy) (hSz2 : Sz < 2 ^ sbits)
    (hδ : δ ≤ 1) (hq : Sx * 2 ^ (sbits - 1 + δ) = Sz * Sy) :
    mk_concat
        (mk_extract
          (mk_bvudiv
            (mk_concat ⟨mk_bv_sort sbits, Sx⟩ (mk_smt_bv 0 (sbits + (sbits + 2)))).sort
            (mk_concat ⟨mk_bv_sort sbits, Sx⟩ (mk_smt_bv 0 (sbits + (sbits + 2))))
            (mk_zero_ext ⟨mk_bv_sort sbits, Sy⟩ (sbits + (sbits + 2))))
          (sbits + 2 + sbits + 1) (sbits + 2 - 1))
        (mk_bvredor
          (mk_extract
            (mk_bvudiv
              (mk_concat ⟨mk_bv_sort sbits, Sx⟩ (mk_smt_bv 0 (sbits + (sbits + 2)))).sort
              (mk_concat ⟨mk_bv_sort sbits, Sx⟩ (mk_smt_bv 0 (sbits + (sbits + 2))))
              (mk_zero_ext ⟨mk_bv_sort sbits, Sy⟩ (sbits + (sbits + 2))))
            (sbits + 2 - 2) 0))
      = ⟨mk_bv_sort (sbits + 4), Sz * 2 ^ (3 - δ)⟩ := by
  obtain ⟨f, rfl⟩ : ∃ f, sbits = f + 1 := ⟨sbits - 1, by omega⟩
  simp only [Nat.add_sub_cancel] at hSy1 hq
  have hP := two_pow_pos f
  have hSy0 : Sy ≠ 0 := by omega
  have hSy0' : 0 < Sy := by omega
  -- the quotient
  have hnum : Sx * 2 ^ (f + 1 + (f + 1 + 2)) = Sz * 2 ^ (f + 4 - δ) * Sy := by
    have e1 : f + 1 + (f + 1 + 2) = (f + δ) + (f + 4 - δ) := by omega
    rw [e1, Nat.pow_add, ← Nat.mul_assoc, hq]
    ring
  have hQlt : Sz * 2 ^ (f + 4 - δ) < 2 ^ (f + 1 + (f + 1 + (f + 1 + 2))) := by
    have h1 : Sz * 2 ^ (f + 4 - δ) < 2 ^ (f + 1) * 2 ^ (f + 4 - δ) :=
      Nat.mul_lt_mul_of_pos_right hSz2 (two_pow_pos _)
    rw [← Nat.pow_add] at h1
    exact lt_of_lt_of_le h1 (Nat.pow_le_pow_right (by norm_num) (by omega))
  have hQ : mk_bvudiv
      (mk_concat ⟨mk_bv_sort (f + 1), Sx⟩ (mk_smt_bv 0 (f + 1 + (f + 1 + 2)))).sort
      (mk_concat ⟨mk_bv_sort (f + 1), Sx⟩ (mk_smt_bv 0 (f + 1 + (f + 1 + 2))))
      (mk_zero_ext ⟨mk_bv_sort (f + 1), Sy⟩ (f + 1 + (f + 1 + 2)))
      = ⟨mk_bv_sort (f + 1 + (f + 1 + (f + 1 + 2))), Sz * 2 ^ (f + 4 - δ)⟩ := by
    simp only [mk_bvudiv, mk_concat, mk_zero_ext, mk_smt_bv_zero, mk_bv_sort_data_width,
      Nat.add_zero, hSy0, if_false, hnum, Nat.mul_div_cancel _ hSy0', Nat.mod_eq_of_lt hQlt]
  rw [hQ]
  have e1 : f + 1 + 2 + (f + 1) + 1 - (f + 2) + 1 = f + 4 := by omega
  have e2 : f + 1 + 2 - 1 = f + 2 := by omega
  have e3 : f + 1 + 2 - 2 - 0 + 1 = f + 2 := by omega
  have hdiv : Sz * 2 ^ (f + 4 - δ) / 2 ^ (f + 2) = Sz * 2 ^ (2 - δ) := by
    have e : f + 4 - δ = (2 - δ) + (f + 2) := by omega
    rw [e, Nat.pow_add, ← Nat.mul_assoc, Nat.mul_div_cancel _ (two_pow_pos _)]
  have hmod : Sz * 2 ^ (f + 4 - δ) % 2 ^ (f + 2) = 0 := by
    have e : f + 4 - δ = (2 - δ) + (f + 2) := by omega
    rw [e, Nat.pow_add, ← Nat.mul_assoc]
    exact Nat.mul_mod_left _ _
  have hlt : Sz * 2 ^ (2 - δ) < 2 ^ (f + 4) := by
    have h1 : Sz * 2 ^ (2 - δ) < 2 ^ (f + 1) * 2 ^ (2 - δ) :=
      Nat.mul_lt_mul_of_pos_right hSz2 (two_pow_pos _)
    rw [← Nat.pow_add] at h1
    exact lt_of_lt_of_le h1 (Nat.pow_le_pow_right (by norm_num) (by omega))
  simp only [mk_concat, mk_extract, mk_bvredor, mk_bv_sort_data_width, e2, e1, e3, hdiv, hmod,
    Nat.pow_zero, Nat.div_one, Nat.mod_eq_of_lt hlt, if_true, Nat.add_zero, Nat.pow_one]
  have e4 : f + 4 + 1 = f + 1 + 4 := by omega
  rw [e4]
  congr 1
  have e5 : 3 - δ = (2 - δ) + 1 := by omega
  rw [e5, Nat.pow_add]
  ring

theorem size_mul_pow (S a n : Nat) (h1 : 2 ^ n ≤ S) (h2 : S < 2 ^ (n + 1)) :
    Nat.size (S * 2 ^ a) = n + 1 + a := by
  have hlo : 2 ^ (n + a) ≤ S * 2 ^ a := by
    rw [Nat.pow_add]; exact Nat.mul_le_mul_right _ h1
  have hhi : S * 2 ^ a < 2 ^ (n + 1 + a) := by
    rw [Nat.pow_add]; exact Nat.mul_lt_mul_of_pos_right h2 (two_pow_pos _)
  have h3 : Nat.size (S * 2 ^ a) ≤ n + 1 + a := Nat.size_le.mpr hhi
  have h4 : n + a < Nat.size (S * 2 ^ a) := Nat.lt_size.mpr hlo
  omega

/-- The generic path of `mk_smt_fpbv_div` when the significands divide
exactly: `round` receives the sign sx xor sy, the quotient significand Sz with
three zero rounding bits, and the exponent kx - ky - δ. -/
theorem div_generic_exact (x y rm : smt_ast) (ebits sbits sx sy Sx Sy Sz δ : Nat)
    (ex lx ey ly : smt_ast) (kx ky : Int) (hsb : 2 ≤ sbits)
    (hw : x.sort.get_exponent_width = ebits) (hsw : x.sort.get_significand_width = sbits)
    (hux : unpack x true = ⟨⟨mk_bv_sort 1, sx⟩, ⟨mk_bv_sort sbits, Sx⟩, ex, lx⟩)
    (huy : unpack y true = ⟨⟨mk_bv_sort 1, sy⟩, ⟨mk_bv_sort sbits, Sy⟩, ey, ly⟩)
    (hexs : ex.sort = mk_bv_sort ebits)
    (hkx : mk_bvsub (mk_bv_sort (ebits + 2)) (mk_sign_ext ex 2) (mk_zero_ext lx 2)
      = mk_smt_bv kx (ebits + 2))
    (hky : mk_bvsub (mk_bv_sort (ebits + 2)) (mk_sign_ext ey 2) (mk_zero_ext ly 2)
      = mk_smt_bv ky (ebits + 2))
    (hSy1 : 2 ^ (sbits - 1) ≤ Sy)
    (hSz1 : 2 ^ (sbits - 1) ≤ Sz) (hSz2 : Sz < 2 ^ sbits)
    (hδ : δ ≤ 1) (hq : Sx * 2 ^ (sbits - 1 + δ) = Sz * Sy) :
    mk_smt_fpbv_div_generic x y rm
      = round rm ⟨mk_bv_sort 1, (sx ^^^ sy) % 2 ^ 1⟩ ⟨mk_bv_sort (sbits + 4), 8 * Sz⟩
          (mk_smt_bv (kx - ky - δ) (ebits + 2)) ebits sbits := by
  have hs2 : (mk_sign_ext ex 2).sort = mk_bv_sort (ebits + 2) := by
    simp only [mk_sign_ext, hexs, mk_bv_sort_data_width]
  have hlz : mk_leading_zeros ⟨mk_bv_sort (sbits + 4), Sz * 2 ^ (3 - δ)⟩ (sbits + 4)
      = ⟨mk_bv_sort (sbits + 4), 1 + δ⟩ := by
    have hlt : Sz * 2 ^ (3 - δ) < 2 ^ (sbits + 4) := by
      have h1 : Sz * 2 ^ (3 - δ) < 2 ^ sbits * 2 ^ (3 - δ) :=
        Nat.mul_lt_mul_of_pos_right hSz2 (two_pow_pos _)
      rw [← Nat.pow_add] at h1
      exact lt_of_lt_of_le h1 (Nat.pow_le_pow_right (by norm_num) (by omega))
    have hsz : Nat.size (Sz * 2 ^ (3 - δ)) = sbits - 1 + 1 + (3 - δ) :=
      size_mul_pow Sz (3 - δ) (sbits - 1) hSz1 (by rwa [Nat.sub_add_cancel (by omega)])
    rw [mk_leading_zeros_eq _ _ _ hlt, hsz]
    congr 1
    have e : sbits + 4 - (sbits - 1 + 1 + (3 - δ)) = 1 + δ := by omega
    rw [e]
    apply Nat.mod_eq_of_lt
    have : 2 ^ (sbits + 4) = 16 * 2 ^ sbits := by rw [Nat.pow_add]; ring
    have := two_pow_pos sbits
    omega
  have hone : (1 : Nat) % 2 ^ (sbits + 4) = 1 := Nat.mod_eq_of_lt (Nat.one_lt_two_pow (by omega))
  simp only [mk_smt_fpbv_div_generic, hw, hsw, hux, huy, hs2, hkx, hky, bvsub_smt_bv,
    div_res_sig_exact sbits Sx Sy Sz δ hsb hSy1 hSz2 hδ hq, hlz, mk_smt_bv_one, hone]
  have hδ' : δ = 0 ∨ δ = 1 := by omega
  rcases hδ' with rfl | rfl
  · have hc : mk_bvulte (⟨mk_bv_sort (sbits + 4), 1 + 0⟩ : smt_ast)
        ⟨mk_bv_sort (sbits + 4), 1⟩ = true := by simp [mk_bvulte]
    simp only [hc, mk_ite, if_true, mk_bvxor, mk_bv_sort_data_width]
    congr 2
    · ring
    · simp
  · have hc : mk_bvulte (⟨mk_bv_sort (sbits + 4), 1 + 1⟩ : smt_ast)
        ⟨mk_bv_sort (sbits + 4), 1⟩ = false := by simp [mk_bvulte]
    have hsub : mk_sub (mk_bv_sort (sbits + 4)) ⟨mk_bv_sort (sbits + 4), 1 + 1⟩
        ⟨mk_bv_sort (sbits + 4), 1⟩ = ⟨mk_bv_sort (sbits + 4), 1⟩ := by
      simp only [mk_sub, mk_bv_sort_data_width]
      congr 1
      have : (((1 + 1 : Nat) : Int) - ((1 : Nat) : Int)) = ((1 : Nat) : Int) := by norm_num
      rw [this]
      have h2 : (((1 : Nat) : Int) % (2 : Int) ^ (sbits + 4)) = ((1 % 2 ^ (sbits + 4) : Nat) : Int) := by
        push_cast; rfl
      rw [h2, hone, Int.toNat_natCast]
    have hext : mk_extract ⟨mk_bv_sort (sbits + 4), 1⟩ (ebits + 1) 0
        = mk_smt_bv ((1 : Nat) : Int) (ebits + 2) := by
      rw [mk_smt_bv_natCast]
      simp only [mk_extract, Nat.pow_zero, Nat.div_one, Nat.sub_zero]
    have hshl : mk_bvshl (mk_bv_sort (sbits + 4)) ⟨mk_bv_sort (sbits + 4), Sz * 2 ^ (3 - 1)⟩
        ⟨mk_bv_sort (sbits + 4), 1⟩ = ⟨mk_bv_sort (sbits + 4), 8 * Sz⟩ := by
      simp only [mk_bvshl, mk_bv_sort_data_width]
      congr 1
      have : Sz * 2 ^ (3 - 1) * 2 ^ 1 = 8 * Sz := by norm_num; ring
      rw [this]
      apply Nat.mod_eq_of_lt
      have : 2 ^ (sbits + 4) = 16 * 2 ^ sbits := by rw [Nat.pow_add]; ring
      omega
    simp only [hc, mk_ite, Bool.false_eq_true, if_false, mk_bvxor, mk_bv_sort_data_width, hsub,
      mk_concat_sort, hshl]
    rw [hext]
    have hrs : (mk_smt_bv (kx - ky) (ebits + 2)).sort = mk_bv_sort (ebits + 2) := rfl
    rw [hrs, bvsub_smt_bv]

/-! ## Exact quotients of normalized significands -/

/-- Two normalized significands whose quotient, scaled by a power of two, is a
third normalized significand: the scaling is determined up to one bit. -/
theorem pow2_ratio (f Sx Sy Sz a b : Nat)
    (hx1 : 2 ^ f ≤ Sx) (hx2 : Sx < 2 ^ (f + 1)) (hy1 : 2 ^ f ≤ Sy) (hy2 : Sy < 2 ^ (f + 1))
    (hz1 : 2 ^ f ≤ Sz) (hz2 : Sz < 2 ^ (f + 1))
    (h : Sx * 2 ^ a = Sz * Sy * 2 ^ b) :
    b + f ≤ a ∧ a ≤ b + f + 1 ∧ Sx * 2 ^ (a - b) = Sz * Sy := by
  have hzy1 : 2 ^ (f + f) ≤ Sz * Sy := by
    rw [Nat.pow_add]; exact Nat.mul_le_mul hz1 hy1
  have hzy2 : Sz * Sy < 2 ^ (f + 1 + (f + 1)) := by
    rw [Nat.pow_add]; exact Nat.mul_lt_mul'' hz2 hy2
  have h1 : b + f ≤ a := by
    by_contra hc
    have hlt : Sx * 2 ^ a < 2 ^ (f + 1 + a) := by
      rw [Nat.pow_add]; exact Nat.mul_lt_mul_of_pos_right hx2 (two_pow_pos _)
    have hle : 2 ^ (f + 1 + a) ≤ 2 ^ (f + f + b) :=
      Nat.pow_le_pow_right (by norm_num) (by omega)
    have hge : 2 ^ (f + f + b) ≤ Sz * Sy * 2 ^ b := by
      rw [Nat.pow_add]; exact Nat.mul_le_mul_right _ hzy1
    omega
  have h2 : a ≤ b + f + 1 := by
    by_contra hc
    have hge : 2 ^ (f + a) ≤ Sx * 2 ^ a := by
      rw [Nat.pow_add]; exact Nat.mul_le_mul_right _ hx1
    have hle : 2 ^ (f + 1 + (f + 1) + b) ≤ 2 ^ (f + a) :=
      Nat.pow_le_pow_right (by norm_num) (by omega)
    have hlt : Sz * Sy * 2 ^ b < 2 ^ (f + 1 + (f + 1) + b) := by
      rw [Nat.pow_add]
      exact Nat.mul_lt_mul_of_pos_right hzy2 (two_pow_pos _)
    omega
  refine ⟨h1, h2, ?_⟩
  have e : a = (a - b) + b := by omega
  rw [e, Nat.pow_add, ← Nat.mul_assoc] at h
  exact Nat.eq_of_mul_eq_mul_right (two_pow_pos b) h

/-- The scale of the denotation: 2^(1 - bias - (sbits - 1)) is the reciprocal
of 2^K with K = 2^(ebits-1) + sbits - 3. -/
theorem denote_scale (ebits sbits : Nat) (he : 2 ≤ ebits) (hsb : 2 ≤ sbits) :
    (2 : ℚ) ^ ((1 : Int) - (2 ^ (ebits - 1) - 1) - ((sbits : Int) - 1))
      = ((2 : ℚ) ^ (2 ^ (ebits - 1) + sbits - 3))⁻¹ := by
  obtain ⟨_, _, _, hB0⟩ := pow_facts ebits he
  have e : ((1 : Int) - (2 ^ (ebits - 1) - 1) - ((sbits : Int) - 1))
      = -((2 ^ (ebits - 1) + sbits - 3 : Nat) : Int) := by
    have : ((2 ^ (ebits - 1) + sbits - 3 : Nat) : Int)
        = ((2 ^ (ebits - 1) : Nat) : Int) + sbits - 3 := by omega
    rw [this]
    push_cast
    ring
  rw [e, zpow_neg, zpow_natCast]

/-- A quotient of two signed magnitudes that equals a third, all on the scale
c = 1 / 2^K: the signs add modulo 2 and the magnitudes satisfy
mz · my = mx · 2^K. -/
theorem quotient_mags (sx sy sz mx my mz K : Nat) (hsx : sx < 2) (hsy : sy < 2) (hsz : sz < 2)
    (hmx : 0 < mx) (hmy : 0 < my)
    (h : (-1 : ℚ) ^ sz * (mz : ℚ) * ((2 : ℚ) ^ K)⁻¹
      = ((-1 : ℚ) ^ sx * (mx : ℚ) * ((2 : ℚ) ^ K)⁻¹)
        / ((-1 : ℚ) ^ sy * (my : ℚ) * ((2 : ℚ) ^ K)⁻¹)) :
    sz = (sx + sy) % 2 ∧ mz * my = mx * 2 ^ K := by
  have hK : (0 : ℚ) < (2 : ℚ) ^ K := by positivity
  have hx : (0 : ℚ) < mx := by exact_mod_cast hmx
  have hy : (0 : ℚ) < my := by exact_mod_cast hmy
  have hz : (0 : ℚ) ≤ mz := Nat.cast_nonneg _
  have hden : ((-1 : ℚ) ^ sy * (my : ℚ) * ((2 : ℚ) ^ K)⁻¹) ≠ 0 := by
    have : ((-1 : ℚ) ^ sy) ≠ 0 := pow_ne_zero _ (by norm_num)
    positivity
  rw [eq_div_iff hden] at h
  have h' : (-1 : ℚ) ^ sz * (-1) ^ sy * ((mz : ℚ) * my) = (-1) ^ sx * ((mx : ℚ) * 2 ^ K) := by
    field_simp at h
    have h2 : (-1 : ℚ) ^ sz * (mz : ℚ) * ((-1) ^ sy * (my : ℚ)) * 2 ^ K
        = ((-1) ^ sx * (mx : ℚ) * 2 ^ K) * 2 ^ K := by rw [h]; ring
    have h3 := mul_right_cancel₀ (ne_of_gt hK) h2
    linear_combination h3
  have hpos1 : (0 : ℚ) < (mx : ℚ) * 2 ^ K := by positivity
  have hnn : (0 : ℚ) ≤ (mz : ℚ) * my := by positivity
  have hsx' : sx = 0 ∨ sx = 1 := by omega
  have hsy' : sy = 0 ∨ sy = 1 := by omega
  have hsz' : sz = 0 ∨ sz = 1 := by omega
  rcases hsx' with rfl | rfl <;> rcases hsy' with rfl | rfl <;> rcases hsz' with rfl | rfl <;>
    simp at h' <;>
    first
    | (refine ⟨by norm_num, ?_⟩; exact_mod_cast h')
    | (exfalso; linarith)

/-! ## C13: exact quotients -/

/-- Division of finite nonzero values, on fields: when the magnitudes (in units
of the smallest denormal) satisfy mz · my = mx · 2^K, K = 2^(ebits-1) + sbits - 3,
that is when z = x / y exactly, `mk_smt_fpbv_div` returns z with the xor of
the signs. -/
theorem div_exact_fields (ebits sbits sx Ex Tx sy Ey Ty Ez Tz : Nat) (rm : smt_ast)
    (he : 2 ≤ ebits) (he64 : ebits ≤ 62) (hsb : 2 ≤ sbits) (hfmt : sbits < 2 ^ ebits)
    (hsx : sx < 2) (hEx : Ex < 2 ^ ebits) (hTx : Tx < 2 ^ (sbits - 1))
    (hsy : sy < 2) (hEy : Ey < 2 ^ ebits) (hTy : Ty < 2 ^ (sbits - 1))
    (hEz : Ez < 2 ^ ebits) (hTz : Tz < 2 ^ (sbits - 1))
    (hxt : Ex ≠ 2 ^ ebits - 1) (hx0 : ¬(Ex = 0 ∧ Tx = 0))
    (hyt : Ey ≠ 2 ^ ebits - 1) (hy0 : ¬(Ey = 0 ∧ Ty = 0))
    (hzt : Ez ≠ 2 ^ ebits - 1)
    (hm : mag (sbits - 1) Ez Tz * mag (sbits - 1) Ey Ty
      = mag (sbits - 1) Ex Tx * 2 ^ (2 ^ (ebits - 1) + sbits - 3)) :
    mk_smt_fpbv_div (fp_of_fields ebits sbits sx Ex Tx) (fp_of_fields ebits sbits sy Ey Ty) rm
      = fp_of_fields ebits sbits ((sx + sy) % 2) Ez Tz := by
  obtain ⟨_, _, _, hB0⟩ := pow_facts ebits he
  have hmx : 0 < mag (sbits - 1) Ex Tx :=
    Nat.pos_of_ne_zero (fun h => hx0 ((mag_eq_zero_iff _ _ _).mp h))
  have hmy : 0 < mag (sbits - 1) Ey Ty :=
    Nat.pos_of_ne_zero (fun h => hy0 ((mag_eq_zero_iff _ _ _).mp h))
  have hz0 : ¬(Ez = 0 ∧ Tz = 0) := by
    intro h
    rw [(mag_eq_zero_iff _ _ _).mpr h, Nat.zero_mul] at hm
    have := Nat.mul_pos hmx (two_pow_pos (2 ^ (ebits - 1) + sbits - 3))
    omega
  obtain ⟨hx1, hx2, hxn⟩ := norm_bounds sbits Ex Tx hsb hTx hx0
  obtain ⟨hy1, hy2, hyn⟩ := norm_bounds sbits Ey Ty hsb hTy hy0
  obtain ⟨hz1, hz2, hzn⟩ := norm_bounds sbits Ez Tz hsb hTz hz0
  -- the relation between the normalized significands
  have hrel : norm_sig sbits Ex Tx
        * 2 ^ (norm_exp sbits Ex Tx + (2 ^ (ebits - 1) + sbits - 3) + (sbits - 1))
      = norm_sig sbits Ez Tz * norm_sig sbits Ey Ty
        * 2 ^ (norm_exp sbits Ez Tz + norm_exp sbits Ey Ty) := by
    have h1 : (mag (sbits - 1) Ez Tz * 2 ^ (sbits - 1)) * (mag (sbits - 1) Ey Ty * 2 ^ (sbits - 1))
        = (mag (sbits - 1) Ex Tx * 2 ^ (sbits - 1)) * 2 ^ (2 ^ (ebits - 1) + sbits - 3)
          * 2 ^ (sbits - 1) := by
      calc (mag (sbits - 1) Ez Tz * 2 ^ (sbits - 1)) * (mag (sbits - 1) Ey Ty * 2 ^ (sbits - 1))
          = (mag (sbits - 1) Ez Tz * mag (sbits - 1) Ey Ty) * 2 ^ (sbits - 1) * 2 ^ (sbits - 1) := by
            ring
        _ = _ := by rw [hm]; ring
    rw [hxn, hyn, hzn] at h1
    rw [Nat.pow_add, Nat.pow_add, Nat.pow_add]
    calc norm_sig sbits Ex Tx * (2 ^ norm_exp sbits Ex Tx * 2 ^ (2 ^ (ebits - 1) + sbits - 3)
          * 2 ^ (sbits - 1))
        = norm_sig sbits Ex Tx * 2 ^ norm_exp sbits Ex Tx * 2 ^ (2 ^ (ebits - 1) + sbits - 3)
          * 2 ^ (sbits - 1) := by ring
      _ = _ := by rw [← h1]; ring
  have hsb1 : sbits - 1 + 1 = sbits := by omega
  obtain ⟨r1, r2, r3⟩ := pow2_ratio (sbits - 1) _ _ _ _ _ hx1 (by rwa [hsb1]) hy1 (by rwa [hsb1])
    hz1 (by rwa [hsb1]) hrel
  obtain ⟨ex, lx, hexs, _, hux, hkx⟩ :=
    unpack_norm ebits sbits sx Ex Tx he hsb hfmt hsx hEx hTx hxt hx0
  obtain ⟨ey, ly, _, _, huy, hky⟩ :=
    unpack_norm ebits sbits sy Ey Ty he hsb hfmt hsy hEy hTy hyt hy0
  have htop := top_ne_zero ebits (by omega)
  rw [div_fields _ _ _ _ _ _ _ _ rm (by omega) hsb hsx hEx hTx hsy hEy hTy]
  simp only [hxt, hyt, hx0, hy0, false_and, or_self, if_false]
  have hδ : norm_exp sbits Ex Tx + (2 ^ (ebits - 1) + sbits - 3) + (sbits - 1)
        - (norm_exp sbits Ez Tz + norm_exp sbits Ey Ty) - (sbits - 1) ≤ 1 := by omega
  have hq : norm_sig sbits Ex Tx * 2 ^ (sbits - 1
        + (norm_exp sbits Ex Tx + (2 ^ (ebits - 1) + sbits - 3) + (sbits - 1)
          - (norm_exp sbits Ez Tz + norm_exp sbits Ey Ty) - (sbits - 1)))
      = norm_sig sbits Ez Tz * norm_sig sbits Ey Ty := by
    rw [← r3]
    congr 2
    omega
  rw [div_generic_exact _ _ rm ebits sbits sx sy _ _ _ _ ex lx ey ly _ _ hsb
    (exponent_width_fields _ _ _ _ _ hsb) (significand_width_fields _ _ _ _ _ hsb)
    hux huy hexs hkx hky hy1 hz1 hz2 hδ hq]
  have hsgn : (sx ^^^ sy) % 2 ^ 1 = (sx + sy) % 2 := by
    have hsx' : sx = 0 ∨ sx = 1 := by omega
    have hsy' : sy = 0 ∨ sy = 1 := by omega
    rcases hsx' with rfl | rfl <;> rcases hsy' with rfl | rfl <;> decide
  have hk : ((norm_exp sbits Ex Tx : Int) - (2 ^ (ebits - 1) + sbits - 3))
        - ((norm_exp sbits Ey Ty : Int) - (2 ^ (ebits - 1) + sbits - 3))
        - ((norm_exp sbits Ex Tx + (2 ^ (ebits - 1) + sbits - 3) + (sbits - 1)
          - (norm_exp sbits Ez Tz + norm_exp sbits Ey Ty) - (sbits - 1) : Nat) : Int)
      = (norm_exp sbits Ez Tz : Int) - (2 ^ (ebits - 1) + sbits - 3) := by
    have e1 : ((norm_exp sbits Ex Tx + (2 ^ (ebits - 1) + sbits - 3) + (sbits - 1)
          - (norm_exp sbits Ez Tz + norm_exp sbits Ey Ty) - (sbits - 1) : Nat) : Int)
        = (norm_exp sbits Ex Tx : Int) + ((2 ^ (ebits - 1) : Nat) : Int) + sbits - 3
          - norm_exp sbits Ez Tz - norm_exp sbits Ey Ty := by omega
    rw [e1]
    push_cast
    ring
  rw [hsgn, hk]
  exact round_norm rm ebits sbits _ Ez Tz he he64 hsb hfmt (Nat.mod_lt _ (by norm_num)) hEz hTz
    hzt hz0

/-- The value 1.0 of a format: sign 0, exponent field equal to the bias,
trailing significand 0; its magnitude is 2^K. -/
theorem mag_one (ebits sbits : Nat) (he : 2 ≤ ebits) (hsb : 2 ≤ sbits) :
    2 ^ (ebits - 1) - 1 < 2 ^ ebits ∧ 2 ^ (ebits - 1) - 1 ≠ 2 ^ ebits - 1
    ∧ 2 ^ (ebits - 1) - 1 ≠ 0
    ∧ mag (sbits - 1) (2 ^ (ebits - 1) - 1) 0 = 2 ^ (2 ^ (ebits - 1) + sbits - 3) := by
  obtain ⟨hB, _, _, hB0⟩ := pow_facts ebits he
  refine ⟨by omega, by omega, by omega, ?_⟩
  have h0 : 2 ^ (ebits - 1) - 1 ≠ 0 := by omega
  simp only [mag, h0, if_false, Nat.add_zero]
  rw [← Nat.pow_add]
  congr 1
  omega

/-- A finite nonzero denotation, on fields. -/
theorem finite_nonzero_fields (ebits sbits s E T : Nat) (q : ℚ) (he : 2 ≤ ebits)
    (hsb : 2 ≤ sbits) (hs : s < 2) (hE : E < 2 ^ ebits) (hT : T < 2 ^ (sbits - 1))
    (h : fp_denote (fp_of_fields ebits sbits s E T) = .finite q) :
    E ≠ 2 ^ ebits - 1
    ∧ q = (-1) ^ s * (mag (sbits - 1) E T : ℚ) * ((2 : ℚ) ^ (2 ^ (ebits - 1) + sbits - 3))⁻¹
    ∧ (q ≠ 0 → ¬(E = 0 ∧ T = 0)) := by
  rw [fp_denote_fields ebits sbits s E T (by omega) hsb hs hE hT] at h
  by_cases htop : E = 2 ^ ebits - 1
  · rw [if_pos htop] at h
    split at h <;> exact absurd h (by simp)
  · rw [if_neg htop, denote_scale ebits sbits he hsb] at h
    have hq : q = (-1) ^ s * (mag (sbits - 1) E T : ℚ)
        * ((2 : ℚ) ^ (2 ^ (ebits - 1) + sbits - 3))⁻¹ := by
      injection h with h; exact h.symm
    refine ⟨htop, hq, ?_⟩
    intro hq0 hz
    apply hq0
    rw [hq, (mag_eq_zero_iff _ _ _).mpr hz]
    simp

/-- C13: for every rounding-mode term and all finite nonzero values x, y of a
format with 2 ≤ ebits ≤ sbits < 2^ebits and ebits + 2 ≤ 64 whose exact quotient
x / y is the value of a packed z, no assertion of div fails and
`mk_smt_fpbv_div x y rm` is z; in particular x / 1.0 = x and x / x = 1.0. -/
theorem C13_div_exact (ebits sbits vx vy vz : Nat) (rm : smt_ast) (qx qy : ℚ)
    (he : 2 ≤ ebits) (he64 : ebits + 2 ≤ 64) (hsb : 2 ≤ sbits) (hes : ebits ≤ sbits)
    (hfmt : sbits < 2 ^ ebits)
    (hvx : vx < 2 ^ (ebits + sbits)) (hvy : vy < 2 ^ (ebits + sbits))
    (hvz : vz < 2 ^ (ebits + sbits))
    (hx : fp_denote (fp_val ebits sbits vx) = .finite qx) (hx0 : qx ≠ 0)
    (hy : fp_denote (fp_val ebits sbits vy) = .finite qy) (hy0 : qy ≠ 0)
    (hz : fp_denote (fp_val ebits sbits vz) = .finite (qx / qy)) :
    mk_smt_fpbv_div_asserts (fp_val ebits sbits vx) (fp_val ebits sbits vy) = true
    ∧ mk_smt_fpbv_div (fp_val ebits sbits vx) (fp_val ebits sbits vy) rm
        = fp_val ebits sbits vz
    ∧ mk_smt_fpbv_div (fp_val ebits sbits vx)
          (fp_of_fields ebits sbits 0 (2 ^ (ebits - 1) - 1) 0) rm
        = fp_val ebits sbits vx
    ∧ mk_smt_fpbv_div (fp_val ebits sbits vx) (fp_val ebits sbits vx) rm
        = fp_of_fields ebits sbits 0 (2 ^ (ebits - 1) - 1) 0 := by
  refine ⟨div_asserts_ok ebits sbits vx vy he hsb hes, ?_⟩
  obtain ⟨hfx, hsx, hEx, hTx⟩ := fp_val_eq_fields ebits sbits vx (by omega) hvx
  obtain ⟨hfy, hsy, hEy, hTy⟩ := fp_val_eq_fields ebits sbits vy (by omega) hvy
  obtain ⟨hfz, hsz, hEz, hTz⟩ := fp_val_eq_fields ebits sbits vz (by omega) hvz
  rw [hfx] at hx ⊢
  rw [hfy] at hy ⊢
  rw [hfz] at hz ⊢
  generalize vx / 2 ^ (ebits + (sbits - 1)) = sx at *
  generalize vx / 2 ^ (sbits - 1) % 2 ^ ebits = Ex at *
  generalize vx % 2 ^ (sbits - 1) = Tx at *
  generalize vy / 2 ^ (ebits + (sbits - 1)) = sy at *
  generalize vy / 2 ^ (sbits - 1) % 2 ^ ebits = Ey at *
  generalize vy % 2 ^ (sbits - 1) = Ty at *
  generalize vz / 2 ^ (ebits + (sbits - 1)) = sz at *
  generalize vz / 2 ^ (sbits - 1) % 2 ^ ebits = Ez at *
  generalize vz % 2 ^ (sbits - 1) = Tz at *
  obtain ⟨hxt, hqx, hxnz⟩ := finite_nonzero_fields ebits sbits sx Ex Tx qx he hsb hsx hEx hTx hx
  obtain ⟨hyt, hqy, hynz⟩ := finite_nonzero_fields ebits sbits sy Ey Ty qy he hsb hsy hEy hTy hy
  obtain ⟨hzt, hqz, _⟩ := finite_nonzero_fields ebits sbits sz Ez Tz _ he hsb hsz hEz hTz hz
  have hx0' := hxnz hx0
  have hy0' := hynz hy0
  have hmx : 0 < mag (sbits - 1) Ex Tx :=
    Nat.pos_of_ne_zero (fun h => hx0' ((mag_eq_zero_iff _ _ _).mp h))
  have hmy : 0 < mag (sbits - 1) Ey Ty :=
    Nat.pos_of_ne_zero (fun h => hy0' ((mag_eq_zero_iff _ _ _).mp h))
  rw [hqx, hqy] at hqz
  obtain ⟨hs, hm⟩ := quotient_mags sx sy sz _ _ _ _ hsx hsy hsz hmx hmy hqz.symm
  obtain ⟨o1, o2, o3, o4⟩ := mag_one ebits sbits he hsb
  refine ⟨?_, ?_, ?_⟩
  · rw [hs]
    exact div_exact_fields ebits sbits sx Ex Tx sy Ey Ty Ez Tz rm he (by omega) hsb hfmt
      hsx hEx hTx hsy hEy hTy hEz hTz hxt hx0' hyt hy0' hzt hm
  · have := div_exact_fields ebits sbits sx Ex Tx 0 (2 ^ (ebits - 1) - 1) 0 Ex Tx rm he
      (by omega) hsb hfmt hsx hEx hTx (by omega) o1 (two_pow_pos _) hEx hTx hxt hx0' o2
      (by intro h; exact o3 h.1) hxt (by rw [o4])
    rw [this]
    congr 1
    omega
  · have := div_exact_fields ebits sbits sx Ex Tx sx Ex Tx (2 ^ (ebits - 1) - 1) 0 rm he
      (by omega) hsb hfmt hsx hEx hTx hsx hEx hTx o1 (two_pow_pos _) hxt hx0' hxt hx0' o2
      (by rw [o4, Nat.mul_comm])
    rw [this]
    congr 1
    omega

/-- Witness for C13: single precision, 1.125 / 1.5 = 0.75 (the quotient of the
significands is below one, so the result is shifted by one bit). -/
theorem C13_div_exact_witness :
    (2 ≤ 8 ∧ 8 + 2 ≤ 64 ∧ 2 ≤ 24 ∧ 8 ≤ 24 ∧ 24 < 2 ^ 8
      ∧ 0x3f900000 < 2 ^ (8 + 24) ∧ 0x3fc00000 < 2 ^ (8 + 24) ∧ 0x3f400000 < 2 ^ (8 + 24)
      ∧ fp_denote (fp_val 8 24 0x3f900000) = .finite (9 / 8) ∧ (9 / 8 : ℚ) ≠ 0
      ∧ fp_denote (fp_val 8 24 0x3fc00000) = .finite (3 / 2) ∧ (3 / 2 : ℚ) ≠ 0
      ∧ fp_denote (fp_val 8 24 0x3f400000) = .finite ((9 / 8) / (3 / 2)))
    ∧ mk_smt_fpbv_div (fp_val 8 24 0x3f900000) (fp_val 8 24 0x3fc00000)
        (mk_smt_fpbv_rm .ROUND_TO_EVEN) = fp_val 8 24 0x3f400000 :=
  have h1 : fp_denote (fp_val 8 24 0x3f900000) = .finite (9 / 8) := by
    simp only [fp_denote, fp_val, mk_fpbv_sort, mk_bv_fp_sort, smt_sort.get_exponent_width,
      smt_sort.get_significand_width, smt_sort.get_data_width]
    norm_num
  have h2 : fp_denote (fp_val 8 24 0x3fc00000) = .finite (3 / 2) := by
    simp only [fp_denote, fp_val, mk_fpbv_sort, mk_bv_fp_sort, smt_sort.get_exponent_width,
      smt_sort.get_significand_width, smt_sort.get_data_width]
    norm_num
  have h3 : fp_denote (fp_val 8 24 0x3f400000) = .finite ((9 / 8) / (3 / 2)) := by
    simp only [fp_denote, fp_val, mk_fpbv_sort, mk_bv_fp_sort, smt_sort.get_exponent_width,
      smt_sort.get_significand_width, smt_sort.get_data_width]
    norm_num
  ⟨⟨by decide, by decide, by decide, by decide, by decide, by decide, by decide, by decide,
      h1, by norm_num, h2, by norm_num, h3⟩,
    (C13_div_exact 8 24 0x3f900000 0x3fc00000 0x3f400000 (mk_smt_fpbv_rm .ROUND_TO_EVEN)
      (9 / 8) (3 / 2) (by decide) (by decide) (by decide) (by decide) (by decide) (by decide)
      (by decide) (by decide) h1 (by norm_num) h2 (by norm_num) h3).2.1⟩

/-! ## The digit recurrence of the square root -/

theorem sqrt_step_eq (sbits Q R d : Nat)
    (hdiv : 2 ^ (d + 1) ∣ Q) (hQ : Q + 2 ^ (d + 1) ≤ 2 ^ (sbits + 4))
    (hR : R < 2 * Q + 2 ^ (d + 1)) :
    sqrt_step sbits ⟨⟨mk_bv_sort (sbits + 5), Q⟩, ⟨mk_bv_sort (sbits + 5), R⟩,
        ⟨mk_bv_sort (sbits + 5), 2 ^ (d + 1)⟩⟩
      = if 2 * Q + 2 ^ d ≤ 2 * R
        then ⟨⟨mk_bv_sort (sbits + 5), Q + 2 ^ d⟩,
          ⟨mk_bv_sort (sbits + 5), 2 * R - (2 * Q + 2 ^ d)⟩, ⟨mk_bv_sort (sbits + 5), 2 ^ d⟩⟩
        else ⟨⟨mk_bv_sort (sbits + 5), Q⟩, ⟨mk_bv_sort (sbits + 5), 2 * R⟩,
          ⟨mk_bv_sort (sbits + 5), 2 ^ d⟩⟩ := by
  have hpd : 2 ^ (d + 1) = 2 * 2 ^ d := pow_succ_two d
  have hdpos := two_pow_pos d
  have p5 : 2 ^ (sbits + 5) = 2 * 2 ^ (sbits + 4) := pow_succ_two (sbits + 4)
  have p6 : 2 ^ (sbits + 6) = 4 * 2 ^ (sbits + 4) := by
    rw [show sbits + 6 = sbits + 4 + 2 from rfl, Nat.pow_add]; ring
  have e1 : 1 + (sbits + 4 - 1 + 1) = sbits + 5 := by omega
  have hS : mk_concat (mk_smt_bv 0 1)
      (mk_extract ⟨mk_bv_sort (sbits + 5), 2 ^ (d + 1)⟩ (sbits + 4) 1)
      = ⟨mk_bv_sort (sbits + 5), 2 ^ d⟩ := by
    simp only [mk_concat, mk_extract, mk_smt_bv_zero, mk_bv_sort_data_width, e1, Nat.zero_mul,
      Nat.zero_add, Nat.pow_one]
    congr 1
    have h1 : 2 ^ (d + 1) / 2 = 2 ^ d := by omega
    have e2 : sbits + 4 - 1 + 1 = sbits + 4 := by omega
    rw [h1, e2]
    exact Nat.mod_eq_of_lt (by omega)
  have hAdd : mk_bvadd
      (mk_bv_sort ((mk_bv_sort (sbits + 5)).get_data_width + (mk_smt_bv 0 1).sort.get_data_width))
      (mk_concat ⟨mk_bv_sort (sbits + 5), Q⟩ (mk_smt_bv 0 1))
      (mk_concat (mk_smt_bv 0 1) ⟨mk_bv_sort (sbits + 5), 2 ^ d⟩)
      = ⟨mk_bv_sort (sbits + 6), 2 * Q + 2 ^ d⟩ := by
    simp only [mk_bvadd, mk_concat, mk_smt_bv_zero, mk_bv_sort_data_width,
      smt_sort.get_data_width, Nat.zero_mul, Nat.zero_add, Nat.pow_one, Nat.add_zero]
    congr 1
    rw [Nat.mul_comm Q 2]
    exact Nat.mod_eq_of_lt (by omega)
  have hT : mk_bvsub (mk_bv_sort (sbits + 6))
      (mk_concat ⟨mk_bv_sort (sbits + 5), R⟩ (mk_smt_bv 0 1))
      ⟨mk_bv_sort (sbits + 6), 2 * Q + 2 ^ d⟩
      = ⟨mk_bv_sort (sbits + 6),
          (2 * R + (2 ^ (sbits + 6) - (2 * Q + 2 ^ d))) % 2 ^ (sbits + 6)⟩ := by
    simp only [mk_bvsub, mk_concat, mk_smt_bv_zero, mk_bv_sort_data_width, Nat.pow_one,
      Nat.add_zero]
    congr 2
    rw [Nat.mul_comm R 2, Nat.mod_eq_of_lt (by omega : 2 * Q + 2 ^ d < 2 ^ (sbits + 6))]
  have hone : (mk_smt_bv 1 1).val = 1 := by decide
  have hsrt : (⟨mk_bv_sort (sbits + 6), 2 * Q + 2 ^ d⟩ : smt_ast).sort = mk_bv_sort (sbits + 6) :=
    rfl
  simp only [sqrt_step, hS, hAdd, hsrt, hT]
  have e5 : sbits + 5 - (sbits + 5) + 1 = 1 := by omega
  have e4 : sbits + 4 - 0 + 1 = sbits + 5 := by omega
  have e3 : sbits + 3 - 0 + 1 + 1 = sbits + 5 := by omega
  have e3' : sbits + 3 - 0 + 1 = sbits + 4 := by omega
  have p5' : 2 ^ (sbits + 5) * 2 = 2 ^ (sbits + 6) := by omega
  by_cases hc : 2 * Q + 2 ^ d ≤ 2 * R
  · -- T is not negative: the bit is accepted
    have hTv : (2 * R + (2 ^ (sbits + 6) - (2 * Q + 2 ^ d))) % 2 ^ (sbits + 6)
        = 2 * R - (2 * Q + 2 ^ d) := by
      apply mod_eq_of_decomp _ _ 1 _ (by omega) (by omega)
    have hbit : (2 * R - (2 * Q + 2 ^ d)) / 2 ^ (sbits + 5) % 2 ^ 1 = 0 := by
      rw [Nat.div_eq_of_lt (by omega)]; rfl
    have hor : (Q ||| 2 ^ d) = Q + 2 ^ d := by
      obtain ⟨c, rfl⟩ := hdiv
      exact (Nat.mul_add_lt_is_or (by omega : 2 ^ d < 2 ^ (d + 1)) c).symm
    simp only [hc, if_true, hTv, mk_eq, mk_extract, hone, e5, hbit, mk_ite, mk_bvor, hor,
      mk_bv_sort_data_width, e4, Nat.pow_zero, Nat.div_one]
    have h1 : (Q + 2 ^ d) % 2 ^ (sbits + 5) = Q + 2 ^ d := Nat.mod_eq_of_lt (by omega)
    have h2 : (2 * R - (2 * Q + 2 ^ d)) % 2 ^ (sbits + 5) = 2 * R - (2 * Q + 2 ^ d) :=
      Nat.mod_eq_of_lt (by omega)
    simp [h1, h2]
  · -- T is negative: the bit is rejected
    have hTv : (2 * R + (2 ^ (sbits + 6) - (2 * Q + 2 ^ d))) % 2 ^ (sbits + 6)
        = 2 * R + (2 ^ (sbits + 6) - (2 * Q + 2 ^ d)) := Nat.mod_eq_of_lt (by omega)
    have hbit : (2 * R + (2 ^ (sbits + 6) - (2 * Q + 2 ^ d))) / 2 ^ (sbits + 5) % 2 = 1 := by
      have : (2 * R + (2 ^ (sbits + 6) - (2 * Q + 2 ^ d))) / 2 ^ (sbits + 5) = 1 :=
        div_eq_of_decomp _ _ 1 (2 * R + (2 ^ (sbits + 6) - (2 * Q + 2 ^ d)) - 2 ^ (sbits + 5))
          (by omega) (by omega)
      rw [this]
    have hRm : R % 2 ^ (sbits + 4) = R := Nat.mod_eq_of_lt (by omega)
    simp only [hc, if_false, hTv, mk_eq, mk_extract, hone, e5, hbit, mk_ite, mk_concat,
      mk_smt_bv_zero, mk_bv_sort_data_width, e3, e3', Nat.pow_zero, Nat.div_one, hRm, Nat.pow_one,
      Nat.add_zero, decide_True, if_true, Nat.mul_comm R 2]

/-- The loop of the recurrence keeps R · S + Q² = N and N < (Q + S)², with S
the weight of the next root bit; when S reaches 1, Q is the integer square
root of N and R is the remainder N - Q². -/
theorem sqrt_loop_inv (sbits N : Nat) :
    ∀ (d Q R : Nat), 2 ^ d ∣ Q → Q + 2 ^ d ≤ 2 ^ (sbits + 4) → R * 2 ^ d + Q * Q = N →
      N < (Q + 2 ^ d) * (Q + 2 ^ d) →
      ∃ Q1 R1, sqrt_loop sbits d ⟨⟨mk_bv_sort (sbits + 5), Q⟩, ⟨mk_bv_sort (sbits + 5), R⟩,
            ⟨mk_bv_sort (sbits + 5), 2 ^ d⟩⟩
          = ⟨⟨mk_bv_sort (sbits + 5), Q1⟩, ⟨mk_bv_sort (sbits + 5), R1⟩,
            ⟨mk_bv_sort (sbits + 5), 1⟩⟩
        ∧ Q ≤ Q1 ∧ Q1 + 1 ≤ 2 ^ (sbits + 4) ∧ R1 + Q1 * Q1 = N
        ∧ N < (Q1 + 1) * (Q1 + 1) := by
  intro d
  induction d with
  | zero =>
    intro Q R _ hQ hN hlt
    refine ⟨Q, R, rfl, le_refl _, by simpa using hQ, by simpa using hN, by simpa using hlt⟩
  | succ d ih =>
    intro Q R hdiv hQ hN hlt
    have hpd : 2 ^ (d + 1) = 2 * 2 ^ d := pow_succ_two d
    have hs := two_pow_pos d
    have hdiv' : 2 ^ d ∣ Q := Dvd.dvd.trans ⟨2, by rw [hpd]; ring⟩ hdiv
    have hR : R < 2 * Q + 2 ^ (d + 1) := by
      by_contra hc
      have h1 : (2 * Q + 2 ^ (d + 1)) * 2 ^ (d + 1) ≤ R * 2 ^ (d + 1) :=
        Nat.mul_le_mul_right _ (by omega)
      have h2 : (Q + 2 ^ (d + 1)) * (Q + 2 ^ (d + 1))
          = (2 * Q + 2 ^ (d + 1)) * 2 ^ (d + 1) + Q * Q := by ring
      omega
    simp only [sqrt_loop]
    rw [sqrt_step_eq sbits Q R d hdiv hQ hR]
    generalize hsdef : 2 ^ d = s at *
    by_cases hc : 2 * Q + s ≤ 2 * R
    · rw [if_pos hc]
      have h2R : 2 * R = (2 * Q + s) + (2 * R - (2 * Q + s)) := by omega
      have hN1 : (2 * R - (2 * Q + s)) * s + (Q + s) * (Q + s) = N := by
        generalize 2 * R - (2 * Q + s) = R1 at *
        have h3 : R * 2 ^ (d + 1) = (2 * R) * s := by rw [hpd]; ring
        rw [h3, h2R] at hN
        rw [← hN]
        ring
      have hlt1 : N < (Q + s + s) * (Q + s + s) := by
        have : Q + s + s = Q + 2 ^ (d + 1) := by omega
        rw [this]; exact hlt
      obtain ⟨Q1, R1, h1, h2, h3, h4, h5⟩ := ih (Q + s) (2 * R - (2 * Q + s))
        ((Nat.dvd_add_right hdiv').mpr (dvd_refl s)) (by omega) hN1 hlt1
      exact ⟨Q1, R1, h1, by omega, h3, h4, h5⟩
    · rw [if_neg hc]
      have hN1 : 2 * R * s + Q * Q = N := by
        rw [← hN, hpd]; ring
      have hlt1 : N < (Q + s) * (Q + s) := by
        have h1 : 2 * R * s < (2 * Q + s) * s := Nat.mul_lt_mul_of_pos_right (by omega) hs
        have h2 : (Q + s) * (Q + s) = (2 * Q + s) * s + Q * Q := by ring
        omega
      obtain ⟨Q1, R1, h1, h2, h3, h4, h5⟩ := ih Q (2 * R) hdiv' (by omega) hN1 hlt1
      exact ⟨Q1, R1, h1, h2, h3, h4, h5⟩

/-- The recurrence of `mk_smt_fpbv_sqrt` on a prepared significand M in
[2^(sbits-1), 2^(sbits+1)): after its sbits + 3 passes Q is the integer square
root of N = M · 2^(sbits+7), in [2^(sbits+3), 2^(sbits+4)), and R = N - Q². -/
theorem sqrt_recurrence_eq (sbits M : Nat) (hsb : 1 ≤ sbits) (hM1 : 2 ^ (sbits - 1) ≤ M)
    (hM2 : M < 2 ^ (sbits + 1)) :
    ∃ Q R, sqrt_recurrence ⟨mk_bv_sort (sbits + 1), M⟩ sbits
        = ⟨⟨mk_bv_sort (sbits + 5), Q⟩, ⟨mk_bv_sort (sbits + 5), R⟩,
          ⟨mk_bv_sort (sbits + 5), 1⟩⟩
      ∧ 2 ^ (sbits + 3) ≤ Q ∧ Q < 2 ^ (sbits + 4) ∧ R + Q * Q = M * 2 ^ (sbits + 7)
      ∧ M * 2 ^ (sbits + 7) < (Q + 1) * (Q + 1) := by
  have p1 : 2 ^ (sbits + 1) = 4 * 2 ^ (sbits - 1) := by
    rw [show sbits + 1 = (sbits - 1) + 2 by omega, Nat.pow_add]; ring
  have p3 : 2 ^ (sbits + 3) = 16 * 2 ^ (sbits - 1) := by
    rw [show sbits + 3 = (sbits - 1) + 4 by omega, Nat.pow_add]; ring
  have p4 : 2 ^ (sbits + 4) = 2 * 2 ^ (sbits + 3) := pow_succ_two (sbits + 3)
  have p5 : 2 ^ (sbits + 5) = 4 * 2 ^ (sbits + 3) := by
    rw [show sbits + 5 = (sbits + 3) + 2 by omega, Nat.pow_add]; ring
  have p7 : 2 ^ (sbits + 7) = 16 * 2 ^ (sbits + 3) := by
    rw [show sbits + 7 = (sbits + 3) + 4 by omega, Nat.pow_add]; ring
  have hQ0 : mk_smt_bv (power2 (sbits + 3) false) (sbits + 5)
      = ⟨mk_bv_sort (sbits + 5), 2 ^ (sbits + 3)⟩ := by
    have : power2 (sbits + 3) false = ((2 ^ (sbits + 3) : Nat) : Int) := by
      simp [power2]
    rw [this, mk_smt_bv_natCast]
    congr 1
    exact Nat.mod_eq_of_lt (by omega)
  have hR0 : mk_bvsub (mk_bv_sort (sbits + 5))
      (mk_concat ⟨mk_bv_sort (sbits + 1), M⟩ (mk_smt_bv 0 4))
      ⟨mk_bv_sort (sbits + 5), 2 ^ (sbits + 3)⟩
      = ⟨mk_bv_sort (sbits + 5), 16 * M - 2 ^ (sbits + 3)⟩ := by
    simp only [mk_bvsub, mk_concat, mk_smt_bv_zero, mk_bv_sort_data_width, Nat.add_zero]
    congr 1
    rw [Nat.mod_eq_of_lt (by omega : 2 ^ (sbits + 3) < 2 ^ (sbits + 5))]
    apply mod_eq_of_decomp _ _ 1 _ (by norm_num; omega) (by omega)
  obtain ⟨Q, R, h1, h2, h3, h4, h5⟩ := sqrt_loop_inv sbits (M * 2 ^ (sbits + 7))
    (sbits + 3) (2 ^ (sbits + 3)) (16 * M - 2 ^ (sbits + 3)) (dvd_refl _) (by omega)
    (by
      have e : 16 * M = 2 ^ (sbits + 3) + (16 * M - 2 ^ (sbits + 3)) := by omega
      generalize 16 * M - 2 ^ (sbits + 3) = r at *
      rw [p7]
      have : M * (16 * 2 ^ (sbits + 3)) = (16 * M) * 2 ^ (sbits + 3) := by ring
      rw [this, e]
      ring)
    (by
      have : (2 ^ (sbits + 3) + 2 ^ (sbits + 3)) * (2 ^ (sbits + 3) + 2 ^ (sbits + 3))
          = (4 * 2 ^ (sbits + 3)) * 2 ^ (sbits + 3) := by ring
      rw [this, p7]
      have h : M * (16 * 2 ^ (sbits + 3)) = (16 * M) * 2 ^ (sbits + 3) := by ring
      rw [h]
      exact Nat.mul_lt_mul_of_pos_right (by omega) (two_pow_pos _))
  refine ⟨Q, R, ?_, h2, by omega, h4, h5⟩
  simp only [sqrt_recurrence, hQ0]
  rw [hR0]
  exact h1

/-! ## Exponents of the square root -/

theorem mk_smt_bv_of_nonneg (e : Int) (w : Nat) (h0 : 0 ≤ e) (h1 : e < 2 ^ w) :
    mk_smt_bv e w = ⟨mk_bv_sort w, e.toNat⟩ := by
  simp only [mk_smt_bv, Int.emod_eq_of_lt h0 h1]

theorem mk_smt_bv_of_neg (e : Int) (w : Nat) (h0 : e < 0) (h1 : -(2 ^ w) ≤ e) :
    mk_smt_bv e w = ⟨mk_bv_sort w, (e + 2 ^ w).toNat⟩ := by
  rw [← mk_smt_bv_add_mul e 1 w, one_mul]
  exact mk_smt_bv_of_nonneg _ _ (by omega) (by omega)

/-- Sign extension in terms of the two's-complement reading. -/
theorem sign_ext_eq_smt_bv (w t v : Nat) (hw : 1 ≤ w) (hv : v < 2 ^ w) :
    mk_sign_ext ⟨mk_bv_sort w, v⟩ t
      = mk_smt_bv (smt_ast.to_signed ⟨mk_bv_sort w, v⟩) (w + t) := by
  have hp : 2 ^ w = 2 * 2 ^ (w - 1) := pow_pred_two w hw
  have hpos := two_pow_pos (w - 1)
  have hwt : 2 ^ (w + t) = 2 ^ t * 2 ^ w := by rw [Nat.pow_add]; ring
  have htpos := two_pow_pos t
  simp only [mk_sign_ext, smt_ast.to_signed, mk_bv_sort_data_width]
  by_cases h : v < 2 ^ (w - 1)
  · have hd : v / 2 ^ (w - 1) = 0 := Nat.div_eq_of_lt h
    simp only [hd, h, if_true, Nat.zero_mod, Nat.zero_ne_one, if_false, mk_smt_bv_natCast]
    congr 1
    refine (Nat.mod_eq_of_lt ?_).symm
    have : 2 ^ w ≤ 2 ^ t * 2 ^ w := Nat.le_mul_of_pos_left _ htpos
    omega
  · have hd : v / 2 ^ (w - 1) = 1 := div_eq_of_decomp _ _ 1 (v - 2 ^ (w - 1)) (by omega) (by omega)
    simp only [hd, h, if_false, Nat.one_mod, if_true]
    have hle : 2 ^ w ≤ 2 ^ t * 2 ^ w := Nat.le_mul_of_pos_left _ htpos
    have hsub : (2 ^ t - 1) * 2 ^ w = 2 ^ t * 2 ^ w - 2 ^ w := by
      rw [Nat.sub_mul, Nat.one_mul]
    have e1 : ((v : Int) - 2 ^ w) + 1 * 2 ^ (w + t)
        = ((v + (2 ^ t - 1) * 2 ^ w : Nat) : Int) := by
      rw [hsub]
      have : ((v + (2 ^ t * 2 ^ w - 2 ^ w) : Nat) : Int)
          = (v : Int) + ((2 ^ t * 2 ^ w : Nat) : Int) - ((2 ^ w : Nat) : Int) := by omega
      have hwti : ((2 : Int) ^ (w + t)) = 2 ^ t * 2 ^ w := by exact_mod_cast hwt
      rw [this, hwti]
      push_cast
      ring
    rw [← mk_smt_bv_add_mul _ 1 (w + t), e1, mk_smt_bv_natCast]
    congr 1
    refine (Nat.mod_eq_of_lt ?_).symm
    rw [hsub, hwt]
    omega

theorem zero_ext_eq_smt_bv (w t v : Nat) (hv : v < 2 ^ w) :
    mk_zero_ext ⟨mk_bv_sort w, v⟩ t = mk_smt_bv (v : Int) (w + t) := by
  rw [mk_smt_bv_natCast]
  simp only [mk_zero_ext, mk_bv_sort_data_width]
  congr 1
  refine (Nat.mod_eq_of_lt ?_).symm
  exact lt_of_lt_of_le hv (Nat.pow_le_pow_right (by norm_num) (by omega))

/-- The two's-complement reading of an unbiased exponent. -/
theorem to_signed_unbias (ebits E : Nat) (he : 2 ≤ ebits) (hE : E + 2 ≤ 2 ^ ebits) :
    smt_ast.to_signed ⟨mk_bv_sort ebits, (E + 1 + 2 ^ (ebits - 1)) % 2 ^ ebits⟩
      = (E : Int) - (2 ^ (ebits - 1) - 1) := by
  obtain ⟨hB, _, _, hB0⟩ := pow_facts ebits he
  have hBi : ((2 : Int) ^ ebits) = 2 * 2 ^ (ebits - 1) := by exact_mod_cast hB
  have hBc : (((2 ^ (ebits - 1) : Nat) : Int)) = (2 : Int) ^ (ebits - 1) := by push_cast; rfl
  simp only [smt_ast.to_signed, mk_bv_sort_data_width]
  by_cases h : E + 1 < 2 ^ (ebits - 1)
  · have hm : (E + 1 + 2 ^ (ebits - 1)) % 2 ^ ebits = E + 1 + 2 ^ (ebits - 1) :=
      Nat.mod_eq_of_lt (by omega)
    rw [hm, if_neg (by omega), hBi]
    push_cast
    ring
  · have hm : (E + 1 + 2 ^ (ebits - 1)) % 2 ^ ebits = E + 1 - 2 ^ (ebits - 1) :=
      mod_eq_of_decomp _ _ 1 _ (by omega) (by omega)
    rw [hm, if_pos (by omega)]
    have : ((E + 1 - 2 ^ (ebits - 1) : Nat) : Int) = (E : Int) + 1 - ((2 ^ (ebits - 1) : Nat) : Int) := by
      omega
    rw [this, hBc]
    ring

/-- The parity bit and the halved exponent that `mk_smt_fpbv_sqrt` takes from
the real exponent e held in w + 1 bits (lines 155-158). -/
theorem half_code (w : Nat) (e : Int) (hw : 1 ≤ w) (h1 : -(2 ^ w) ≤ e) (h2 : e < 2 ^ w) :
    mk_sign_ext (mk_extract (mk_smt_bv e (w + 1)) w 1) 2 = mk_smt_bv (e / 2) (w + 2)
    ∧ mk_eq (mk_extract (mk_smt_bv e (w + 1)) 0 0) (mk_smt_bv 1 1) = decide (e % 2 = 1) := by
  have hp : 2 ^ w = 2 * 2 ^ (w - 1) := pow_pred_two w hw
  have hp1 : 2 ^ (w + 1) = 2 * 2 ^ w := pow_succ_two w
  have hpi : ((2 : Int) ^ w) = 2 * 2 ^ (w - 1) := by exact_mod_cast hp
  have hp1i : ((2 : Int) ^ (w + 1)) = 2 * 2 ^ w := by exact_mod_cast hp1
  have hpos := two_pow_pos (w - 1)
  have hposi : (0 : Int) < 2 ^ (w - 1) := by positivity
  have hc1 : (((2 ^ (w - 1) : Nat) : Int)) = (2 : Int) ^ (w - 1) := by push_cast; rfl
  have hc : (((2 ^ w : Nat) : Int)) = (2 : Int) ^ w := by push_cast; rfl
  have e1 : w - 1 + 1 = w := by omega
  have hone : (mk_smt_bv 1 1).val = 1 := by decide
  by_cases h0 : 0 ≤ e
  · rw [mk_smt_bv_of_nonneg e (w + 1) h0 (by omega)]
    have hu : e.toNat < 2 ^ w := by omega
    have hext : mk_extract ⟨mk_bv_sort (w + 1), e.toNat⟩ w 1
        = ⟨mk_bv_sort w, e.toNat / 2⟩ := by
      simp only [mk_extract, e1, Nat.pow_one]
      congr 1
      exact Nat.mod_eq_of_lt (by omega)
    refine ⟨?_, ?_⟩
    · rw [hext, sign_ext_eq_smt_bv w 2 _ hw (by omega)]
      congr 1
      simp only [smt_ast.to_signed, mk_bv_sort_data_width]
      rw [if_pos (by omega)]
      omega
    · simp only [mk_eq, mk_extract, hone, Nat.pow_zero, Nat.div_one, Nat.sub_self, Nat.zero_add,
        Nat.pow_one]
      congr 1
      apply propext
      constructor <;> intro h <;> omega
  · rw [mk_smt_bv_of_neg e (w + 1) (by omega) (by omega)]
    have hu1 : 2 ^ w ≤ (e + 2 ^ (w + 1)).toNat := by omega
    have hu2 : (e + 2 ^ (w + 1)).toNat < 2 ^ (w + 1) := by omega
    have hext : mk_extract ⟨mk_bv_sort (w + 1), (e + 2 ^ (w + 1)).toNat⟩ w 1
        = ⟨mk_bv_sort w, (e + 2 ^ (w + 1)).toNat / 2⟩ := by
      simp only [mk_extract, e1, Nat.pow_one]
      congr 1
      exact Nat.mod_eq_of_lt (by omega)
    refine ⟨?_, ?_⟩
    · rw [hext, sign_ext_eq_smt_bv w 2 _ hw (by omega)]
      congr 1
      simp only [smt_ast.to_signed, mk_bv_sort_data_width]
      rw [if_neg (by omega)]
      omega
    · simp only [mk_eq, mk_extract, hone, Nat.pow_zero, Nat.div_one, Nat.sub_self, Nat.zero_add,
        Nat.pow_one]
      congr 1
      apply propext
      constructor <;> intro h <;> omega

/-! ## The generic path of the square root -/

/-- What `unpack` with normalization returns for a finite nonzero value, with
the real exponent as `mk_smt_fpbv_sqrt` forms it (one extra bit). -/
theorem unpack_norm1 (ebits sbits s E T : Nat) (he : 2 ≤ ebits) (hsb : 2 ≤ sbits)
    (hfmt : sbits < 2 ^ ebits) (hs : s < 2) (hE : E < 2 ^ ebits) (hT : T < 2 ^ (sbits - 1))
    (htop : E ≠ 2 ^ ebits - 1) (h0 : ¬(E = 0 ∧ T = 0)) :
    ∃ ex lx : smt_ast, ex.sort = mk_bv_sort ebits
      ∧ unpack (fp_of_fields ebits sbits s E T) true
          = ⟨⟨mk_bv_sort 1, s⟩, ⟨mk_bv_sort sbits, norm_sig sbits E T⟩, ex, lx⟩
      ∧ mk_bvsub (mk_bv_sort (ebits + 1)) (mk_sign_ext ex 1) (mk_zero_ext lx 1)
          = mk_smt_bv ((norm_exp sbits E T : Int) - (2 ^ (ebits - 1) + sbits - 3))
              (ebits + 1) := by
  obtain ⟨hB, _, _, hB0⟩ := pow_facts ebits he
  by_cases hE0 : E = 0
  · subst hE0
    have hT0 : T ≠ 0 := fun h => h0 ⟨rfl, h⟩
    obtain ⟨h1, h2, h3⟩ := mul_pow_size_bounds sbits T hT0 hT hsb
    have h4 : 0 < Nat.size T := Nat.size_pos.mpr (Nat.pos_of_ne_zero hT0)
    refine ⟨⟨mk_bv_sort ebits, (2 + 2 ^ (ebits - 1)) % 2 ^ ebits⟩,
      ⟨mk_bv_sort ebits, sbits - Nat.size T⟩, rfl, ?_, ?_⟩
    · rw [unpack_fields_denormal ebits sbits s T he hsb hfmt hs hT hT0]
      simp only [norm_sig, if_true]
    · have hts := to_signed_unbias ebits 1 he (by omega)
      rw [sign_ext_eq_smt_bv ebits 1 _ (by omega) (Nat.mod_lt _ (two_pow_pos _)),
        zero_ext_eq_smt_bv ebits 1 _ (by omega : sbits - Nat.size T < 2 ^ ebits),
        bvsub_smt_bv, show 2 + 2 ^ (ebits - 1) = 1 + 1 + 2 ^ (ebits - 1) from rfl, hts]
      congr 1
      simp only [norm_exp, if_true]
      have e1 : ((sbits - Nat.size T : Nat) : Int) = (sbits : Int) - Nat.size T := by omega
      have e2 : ((Nat.size T - 1 : Nat) : Int) = (Nat.size T : Int) - 1 := by omega
      rw [e1, e2]
      push_cast
      ring
  · refine ⟨⟨mk_bv_sort ebits, (E + 1 + 2 ^ (ebits - 1)) % 2 ^ ebits⟩,
      ⟨mk_bv_sort ebits, 0⟩, rfl, ?_, ?_⟩
    · rw [unpack_fields_normal ebits sbits s E T true he hsb hs hE hT hE0 htop]
      simp only [norm_sig, hE0, if_false]
    · have hts := to_signed_unbias ebits E he (by omega)
      rw [sign_ext_eq_smt_bv ebits 1 _ (by omega) (Nat.mod_lt _ (two_pow_pos _)),
        zero_ext_eq_smt_bv ebits 1 _ (two_pow_pos _), bvsub_smt_bv, hts]
      congr 1
      simp only [norm_exp, hE0, if_false]
      have e1 : ((E - 1 + (sbits - 1) : Nat) : Int) = (E : Int) - 1 + ((sbits : Int) - 1) := by
        omega
      rw [e1]
      push_cast
      ring

/-- The integer square root found by the recurrence, when N is a square. -/
theorem sq_between (Q A : Nat) (h1 : Q * Q ≤ A * A) (h2 : A * A < (Q + 1) * (Q + 1)) : Q = A := by
  have h3 : Q ≤ A := Nat.mul_self_le_mul_self_iff.mp h1
  have h4 : A < Q + 1 := Nat.mul_self_lt_mul_self_iff.mp h2
  omega

theorem norm_exp_range (ebits sbits E T : Nat) (he : 2 ≤ ebits) (hsb : 2 ≤ sbits)
    (hfmt : sbits + 1 ≤ 2 ^ (ebits - 1)) (hE : E < 2 ^ ebits) (hT : T < 2 ^ (sbits - 1)) :
    -(2 ^ ebits : Int) ≤ (norm_exp sbits E T : Int) - (2 ^ (ebits - 1) + sbits - 3)
    ∧ (norm_exp sbits E T : Int) - (2 ^ (ebits - 1) + sbits - 3) < 2 ^ ebits := by
  obtain ⟨hB, _, _, hB0⟩ := pow_facts ebits he
  have hBi : ((2 : Int) ^ ebits) = 2 * 2 ^ (ebits - 1) := by exact_mod_cast hB
  have hc : (((2 ^ (ebits - 1) : Nat) : Int)) = (2 : Int) ^ (ebits - 1) := by push_cast; rfl
  have hs : Nat.size T ≤ sbits - 1 := Nat.size_le.mpr hT
  rw [hBi, ← hc]
  simp only [norm_exp]
  split <;> constructor <;> omega

/-- The generic path of `mk_smt_fpbv_sqrt` on a finite nonzero operand: the
recurrence runs on M, the normalized significand doubled when the real
exponent e is odd, and `round` receives sign 0, the root bits Q with the
sticky bit, and the exponent ⌊e / 2⌋. -/
theorem sqrt_generic_eval (ebits sbits s E T : Nat) (rm : smt_ast) (he : 2 ≤ ebits)
    (hsb : 2 ≤ sbits) (hfmt : sbits + 1 ≤ 2 ^ (ebits - 1)) (hs : s < 2) (hE : E < 2 ^ ebits)
    (hT : T < 2 ^ (sbits - 1)) (htop : E ≠ 2 ^ ebits - 1) (h0 : ¬(E = 0 ∧ T = 0)) :
    ∃ Q R, 2 ^ (sbits + 3) ≤ Q ∧ Q < 2 ^ (sbits + 4)
      ∧ R + Q * Q = (if ((norm_exp sbits E T : Int) - (2 ^ (ebits - 1) + sbits - 3)) % 2 = 1
          then 2 * norm_sig sbits E T else norm_sig sbits E T) * 2 ^ (sbits + 7)
      ∧ (if ((norm_exp sbits E T : Int) - (2 ^ (ebits - 1) + sbits - 3)) % 2 = 1
          then 2 * norm_sig sbits E T else norm_sig sbits E T) * 2 ^ (sbits + 7)
            < (Q + 1) * (Q + 1)
      ∧ sqrt_is_exact (sqrt_recurrence (sqrt_sig_prime (fp_of_fields ebits sbits s E T)) sbits)
          sbits = decide (R = 0)
      ∧ (sqrt_recurrence (sqrt_sig_prime (fp_of_fields ebits sbits s E T)) sbits).S
          = ⟨mk_bv_sort (sbits + 5), 1⟩
      ∧ mk_smt_fpbv_sqrt_generic (fp_of_fields ebits sbits s E T) rm
          = round rm ⟨mk_bv_sort 1, 0⟩
              ⟨mk_bv_sort (sbits + 4), (Q / 2 ||| (if R = 0 then Q % 2 else 1)) % 2 ^ (sbits + 4)⟩
              (mk_smt_bv (((norm_exp sbits E T : Int) - (2 ^ (ebits - 1) + sbits - 3)) / 2)
                (ebits + 2)) ebits sbits := by
  obtain ⟨hB, _, _, hB0⟩ := pow_facts ebits he
  have hfmt' : sbits < 2 ^ ebits := by omega
  obtain ⟨hx1, hx2, _⟩ := norm_bounds sbits E T hsb hT h0
  obtain ⟨ex, lx, hexs, hux, hkx⟩ := unpack_norm1 ebits sbits s E T he hsb hfmt' hs hE hT htop h0
  obtain ⟨hr1, hr2⟩ := norm_exp_range ebits sbits E T he hsb hfmt hE hT
  obtain ⟨hhalf, hodd⟩ := half_code ebits _ (by omega) hr1 hr2
  generalize (norm_exp sbits E T : Int) - (2 ^ (ebits - 1) + sbits - 3) = e at *
  generalize norm_sig sbits E T = Sx at *
  have hexw : ex.sort.get_data_width + 1 = ebits + 1 := by rw [hexs]; rfl
  -- the prepared significand
  have hsp : sqrt_sig_prime (fp_of_fields ebits sbits s E T)
      = ⟨mk_bv_sort (sbits + 1), if e % 2 = 1 then 2 * Sx else Sx⟩ := by
    simp only [sqrt_sig_prime, hux, hexw, hkx, hodd, mk_ite, mk_concat, mk_smt_bv_zero,
      mk_bv_sort_data_width, decide_eq_true_eq]
    split
    · simp [Nat.mul_comm]
    · simp [Nat.add_comm]
  have hM1 : 2 ^ (sbits - 1) ≤ (if e % 2 = 1 then 2 * Sx else Sx) := by split <;> omega
  have hM2 : (if e % 2 = 1 then 2 * Sx else Sx) < 2 ^ (sbits + 1) := by
    have := pow_succ_two sbits
    split <;> omega
  obtain ⟨Q, R, hrec, hQ1, hQ2, hRQ, hlt⟩ := sqrt_recurrence_eq sbits _ (by omega) hM1 hM2
  refine ⟨Q, R, hQ1, hQ2, hRQ, hlt, ?_, by rw [hsp, hrec], ?_⟩
  · rw [hsp, hrec]
    simp only [sqrt_is_exact, mk_eq, mk_smt_bv_zero]
  · have hsw := significand_width_fields ebits sbits s E T hsb
    have hw := exponent_width_fields ebits sbits s E T hsb
    simp only [mk_smt_fpbv_sqrt_generic, hw, hsw, hsp, hrec, hux, hexw, hkx, hhalf, sqrt_is_exact,
      mk_eq, mk_smt_bv_zero]
    congr 1
    have e1 : sbits + 3 - 1 + 1 + 1 = sbits + 4 := by omega
    have e2 : sbits + 3 - 1 + 1 = sbits + 3 := by omega
    have hq : Q / 2 % 2 ^ (sbits + 3) = Q / 2 := by
      have : 2 ^ (sbits + 4) = 2 * 2 ^ (sbits + 3) := pow_succ_two (sbits + 3)
      exact Nat.mod_eq_of_lt (by omega)
    have h1 : (1 : Nat) % 2 ^ (sbits + 4) = 1 := Nat.mod_eq_of_lt (Nat.one_lt_two_pow (by omega))
    simp only [mk_bvor, mk_zero_ext, mk_extract, mk_ite, mk_smt_bv_one, mk_bv_sort_data_width,
      e1, e2, hq, h1, Nat.pow_one, Nat.pow_zero, Nat.div_one, Nat.sub_self, Nat.zero_add]
    by_cases hR : R = 0 <;> simp [hR]

/-! ## C14: exact square roots -/

/-- The parity and the half of e = 2h + δ. -/
theorem int_half (e h : Int) (δ : Nat) (hδ : δ ≤ 1) (h2 : e = 2 * h + δ) :
    e / 2 = h ∧ (e % 2 = 1 ↔ δ = 1) := by
  constructor
  · omega
  · constructor <;> intro h <;> omega

/-- Square root of a positive finite value, on fields: when the magnitudes
satisfy mz · mz = mx · 2^K, K = 2^(ebits-1) + sbits - 3, that is when z is the
exact root of x, the recurrence ends with remainder 0 and
`mk_smt_fpbv_sqrt` returns z with sign 0. -/
theorem sqrt_exact_fields (ebits sbits Ex Tx Ez Tz : Nat) (rm : smt_ast)
    (he : 2 ≤ ebits) (he64 : ebits ≤ 62) (hsb : 2 ≤ sbits) (hfmt : sbits + 1 ≤ 2 ^ (ebits - 1))
    (hEx : Ex < 2 ^ ebits) (hTx : Tx < 2 ^ (sbits - 1))
    (hEz : Ez < 2 ^ ebits) (hTz : Tz < 2 ^ (sbits - 1))
    (hxt : Ex ≠ 2 ^ ebits - 1) (hx0 : ¬(Ex = 0 ∧ Tx = 0)) (hzt : Ez ≠ 2 ^ ebits - 1)
    (hm : mag (sbits - 1) Ez Tz * mag (sbits - 1) Ez Tz
      = mag (sbits - 1) Ex Tx * 2 ^ (2 ^ (ebits - 1) + sbits - 3)) :
    sqrt_is_exact (sqrt_recurrence (sqrt_sig_prime (fp_of_fields ebits sbits 0 Ex Tx)) sbits)
        sbits = true
    ∧ mk_smt_fpbv_sqrt (fp_of_fields ebits sbits 0 Ex Tx) rm
        = fp_of_fields ebits sbits 0 Ez Tz := by
  obtain ⟨hB, _, _, hB0⟩ := pow_facts ebits he
  have hfmt' : sbits < 2 ^ ebits := by omega
  have hmx : 0 < mag (sbits - 1) Ex Tx :=
    Nat.pos_of_ne_zero (fun h => hx0 ((mag_eq_zero_iff _ _ _).mp h))
  have hz0 : ¬(Ez = 0 ∧ Tz = 0) := by
    intro h
    rw [(mag_eq_zero_iff _ _ _).mpr h, Nat.zero_mul] at hm
    have := Nat.mul_pos hmx (two_pow_pos (2 ^ (ebits - 1) + sbits - 3))
    omega
  obtain ⟨hx1, hx2, hxn⟩ := norm_bounds sbits Ex Tx hsb hTx hx0
  obtain ⟨hz1, hz2, hzn⟩ := norm_bounds sbits Ez Tz hsb hTz hz0
  have hrel : norm_sig sbits Ex Tx
        * 2 ^ (norm_exp sbits Ex Tx + (2 ^ (ebits - 1) + sbits - 3) + (sbits - 1))
      = norm_sig sbits Ez Tz * norm_sig sbits Ez Tz
        * 2 ^ (norm_exp sbits Ez Tz + norm_exp sbits Ez Tz) := by
    have h1 : (mag (sbits - 1) Ez Tz * 2 ^ (sbits - 1)) * (mag (sbits - 1) Ez Tz * 2 ^ (sbits - 1))
        = (mag (sbits - 1) Ex Tx * 2 ^ (sbits - 1)) * 2 ^ (2 ^ (ebits - 1) + sbits - 3)
          * 2 ^ (sbits - 1) := by
      calc (mag (sbits - 1) Ez Tz * 2 ^ (sbits - 1)) * (mag (sbits - 1) Ez Tz * 2 ^ (sbits - 1))
          = (mag (sbits - 1) Ez Tz * mag (sbits - 1) Ez Tz) * 2 ^ (sbits - 1) * 2 ^ (sbits - 1) := by
            ring
        _ = _ := by rw [hm]; ring
    rw [hxn, hzn] at h1
    rw [Nat.pow_add, Nat.pow_add, Nat.pow_add]
    calc norm_sig sbits Ex Tx * (2 ^ norm_exp sbits Ex Tx * 2 ^ (2 ^ (ebits - 1) + sbits - 3)
          * 2 ^ (sbits - 1))
        = norm_sig sbits Ex Tx * 2 ^ norm_exp sbits Ex Tx * 2 ^ (2 ^ (ebits - 1) + sbits - 3)
          * 2 ^ (sbits - 1) := by ring
      _ = _ := by rw [← h1]; ring
  have hsb1 : sbits - 1 + 1 = sbits := by omega
  obtain ⟨r1, r2, r3⟩ := pow2_ratio (sbits - 1) _ _ _ _ _ hx1 (by rwa [hsb1]) hz1 (by rwa [hsb1])
    hz1 (by rwa [hsb1]) hrel
  obtain ⟨Q, R, hQ1, hQ2, hRQ, hlt, hex, _, hgen⟩ :=
    sqrt_generic_eval ebits sbits 0 Ex Tx rm he hsb hfmt (by omega) hEx hTx hxt hx0
  -- parity and half of the real exponent
  have hcB : (((2 ^ (ebits - 1) : Nat) : Int)) = (2 : Int) ^ (ebits - 1) := by push_cast; rfl
  obtain ⟨hhalf, hpar⟩ := int_half
    ((norm_exp sbits Ex Tx : Int) - (2 ^ (ebits - 1) + sbits - 3))
    ((norm_exp sbits Ez Tz : Int) - (2 ^ (ebits - 1) + sbits - 3))
    (norm_exp sbits Ex Tx + (2 ^ (ebits - 1) + sbits - 3) + (sbits - 1)
      - (norm_exp sbits Ez Tz + norm_exp sbits Ez Tz) - (sbits - 1))
    (by omega) (by rw [← hcB]; omega)
  -- the prepared significand times 2^(sbits-1) is the square of the root significand
  have hM : (if ((norm_exp sbits Ex Tx : Int) - (2 ^ (ebits - 1) + sbits - 3)) % 2 = 1
        then 2 * norm_sig sbits Ex Tx else norm_sig sbits Ex Tx) * 2 ^ (sbits - 1)
      = norm_sig sbits Ez Tz * norm_sig sbits Ez Tz := by
    rw [← r3]
    by_cases hp : ((norm_exp sbits Ex Tx : Int) - (2 ^ (ebits - 1) + sbits - 3)) % 2 = 1
    · have hδ := hpar.mp hp
      rw [if_pos hp]
      have e : norm_exp sbits Ex Tx + (2 ^ (ebits - 1) + sbits - 3) + (sbits - 1)
          - (norm_exp sbits Ez Tz + norm_exp sbits Ez Tz) = (sbits - 1) + 1 := by omega
      rw [e, Nat.pow_add]
      ring
    · have hδ : ¬(norm_exp sbits Ex Tx + (2 ^ (ebits - 1) + sbits - 3) + (sbits - 1)
          - (norm_exp sbits Ez Tz + norm_exp sbits Ez Tz) - (sbits - 1) = 1) :=
        fun h => hp (hpar.mpr h)
      rw [if_neg hp]
      have e : norm_exp sbits Ex Tx + (2 ^ (ebits - 1) + sbits - 3) + (sbits - 1)
          - (norm_exp sbits Ez Tz + norm_exp sbits Ez Tz) = sbits - 1 := by omega
      rw [e]
  generalize (if ((norm_exp sbits Ex Tx : Int) - (2 ^ (ebits - 1) + sbits - 3)) % 2 = 1
        then 2 * norm_sig sbits Ex Tx else norm_sig sbits Ex Tx) = M at *
  -- the recurrence finds 16 · Sz with remainder 0
  have hN : M * 2 ^ (sbits + 7) = (16 * norm_sig sbits Ez Tz) * (16 * norm_sig sbits Ez Tz) := by
    have e : sbits + 7 = (sbits - 1) + 8 := by omega
    rw [e, Nat.pow_add, ← Nat.mul_assoc, hM]
    ring
  rw [hN] at hRQ hlt
  have hQ : Q = 16 * norm_sig sbits Ez Tz := sq_between Q _ (by omega) hlt
  have hR : R = 0 := by rw [hQ] at hRQ; omega
  have hsig : (Q / 2 ||| (if R = 0 then Q % 2 else 1)) % 2 ^ (sbits + 4)
      = 8 * norm_sig sbits Ez Tz := by
    have h1 : Q / 2 = 8 * norm_sig sbits Ez Tz := by omega
    have h2 : Q % 2 = 0 := by omega
    rw [if_pos hR, h1, h2, Nat.or_zero]
    apply Nat.mod_eq_of_lt
    have : 2 ^ (sbits + 4) = 16 * 2 ^ sbits := by rw [Nat.pow_add]; ring
    omega
  refine ⟨by rw [hex, hR]; rfl, ?_⟩
  have htop := top_ne_zero ebits (by omega)
  rw [sqrt_fields _ _ _ _ _ rm (by omega) hsb (by omega) hEx hTx]
  simp only [hxt, hx0, false_and, if_false, Nat.zero_ne_one]
  rw [hgen, hsig, hhalf]
  exact round_norm rm ebits sbits 0 Ez Tz he he64 hsb hfmt' (by omega) hEz hTz hzt hz0

/-- Upper bound of the normalized exponent of a finite value. -/
theorem norm_exp_le (ebits sbits E T : Nat) (he : 2 ≤ ebits) (hsb : 2 ≤ sbits)
    (hE : E < 2 ^ ebits) (hT : T < 2 ^ (sbits - 1)) (htop : E ≠ 2 ^ ebits - 1) :
    norm_exp sbits E T + 3 ≤ 2 ^ ebits + (sbits - 1) := by
  obtain ⟨hB, _, _, hB0⟩ := pow_facts ebits he
  unfold norm_exp
  split
  · have : Nat.size T ≤ sbits - 1 := Nat.size_le.mpr hT
    omega
  · omega

/-- Converse of `sqrt_exact_fields`: when the recurrence ends with remainder 0,
a normal value z of the format has mz · mz = mx · 2^K. -/
theorem sqrt_exact_conv (ebits sbits Ex Tx : Nat)
    (he : 2 ≤ ebits) (hsb : 2 ≤ sbits) (hfmt : sbits + 1 ≤ 2 ^ (ebits - 1))
    (hEx : Ex < 2 ^ ebits) (hTx : Tx < 2 ^ (sbits - 1))
    (hxt : Ex ≠ 2 ^ ebits - 1) (hx0 : ¬(Ex = 0 ∧ Tx = 0))
    (hex : sqrt_is_exact (sqrt_recurrence (sqrt_sig_prime (fp_of_fields ebits sbits 0 Ex Tx))
      sbits) sbits = true) :
    ∃ Ez Tz, Ez < 2 ^ ebits ∧ Tz < 2 ^ (sbits - 1) ∧ Ez ≠ 2 ^ ebits - 1
      ∧ mag (sbits - 1) Ez Tz * mag (sbits - 1) Ez Tz
        = mag (sbits - 1) Ex Tx * 2 ^ (2 ^ (ebits - 1) + sbits - 3) := by
  obtain ⟨hB, _, _, hB0⟩ := pow_facts ebits he
  obtain ⟨hx1, hx2, hxn⟩ := norm_bounds sbits Ex Tx hsb hTx hx0
  have hgle := norm_exp_le ebits sbits Ex Tx he hsb hEx hTx hxt
  obtain ⟨Q, R, hQ1, hQ2, hRQ, _, hex', _, _⟩ :=
    sqrt_generic_eval ebits sbits 0 Ex Tx (mk_smt_bv 0 3) he hsb hfmt (by omega) hEx hTx hxt hx0
  rw [hex'] at hex
  have hR : R = 0 := of_decide_eq_true hex
  rw [hR, Nat.zero_add] at hRQ
  have hcB : (((2 ^ (ebits - 1) : Nat) : Int)) = (2 : Int) ^ (ebits - 1) := by push_cast; rfl
  rw [← hcB] at hRQ
  generalize hB' : 2 ^ (ebits - 1) = B at *
  generalize hg : norm_exp sbits Ex Tx = gx at *
  generalize hS : norm_sig sbits Ex Tx = Sx at *
  have hp7 : 2 ^ (sbits + 7) = 2 ^ (sbits - 1) * 256 := by
    rw [show sbits + 7 = (sbits - 1) + 8 by omega, Nat.pow_add]
  have hp3 : 2 ^ (sbits + 3) = 16 * 2 ^ (sbits - 1) := by
    rw [show sbits + 3 = (sbits - 1) + 4 by omega, Nat.pow_add]; ring
  have hp4 : 2 ^ (sbits + 4) = 32 * 2 ^ (sbits - 1) := by
    rw [show sbits + 4 = (sbits - 1) + 5 by omega, Nat.pow_add]; ring
  have hps : 2 ^ sbits = 2 * 2 ^ (sbits - 1) := pow_pred_two sbits (by omega)
  -- 16 divides Q
  have hdiv : 16 ∣ Q := by
    have h1 : 16 ^ 2 ∣ Q ^ 2 := by
      rw [pow_two Q, hRQ, hp7]
      exact ⟨(if ((gx : Int) - (B + sbits - 3)) % 2 = 1 then 2 * Sx else Sx) * 2 ^ (sbits - 1),
        by ring⟩
    exact (Nat.pow_dvd_pow_iff (by decide)).mp h1
  obtain ⟨A, hA⟩ := hdiv
  have hA2 : A * A = (if ((gx : Int) - (B + sbits - 3)) % 2 = 1 then 2 * Sx else Sx)
      * 2 ^ (sbits - 1) := by
    have h1 : (A * A) * 256 = ((if ((gx : Int) - (B + sbits - 3)) % 2 = 1 then 2 * Sx else Sx)
        * 2 ^ (sbits - 1)) * 256 := by
      calc (A * A) * 256 = Q * Q := by rw [hA]; ring
        _ = _ := hRQ
        _ = _ := by rw [hp7]; ring
    exact Nat.eq_of_mul_eq_mul_right (by decide) h1
  -- the exponent field of the root
  obtain ⟨Ez, hEz⟩ : ∃ Ez : Nat, (Ez : Int) = ((gx : Int) - (B + sbits - 3)) / 2 + B - 1
      ∧ 1 ≤ Ez ∧ Ez + 2 ≤ 2 * B := by
    refine ⟨(((gx : Int) - (B + sbits - 3)) / 2 + B - 1).toNat, ?_, ?_, ?_⟩ <;> omega
  obtain ⟨hEzi, hEz1, hEz2⟩ := hEz
  have hz0 : Ez ≠ 0 := by omega
  refine ⟨Ez, A - 2 ^ (sbits - 1), by omega, by omega, by omega, ?_⟩
  have hmz : mag (sbits - 1) Ez (A - 2 ^ (sbits - 1)) = A * 2 ^ (Ez - 1) := by
    simp only [mag, hz0, if_false]
    congr 1
    omega
  rw [hmz]
  apply Nat.eq_of_mul_eq_mul_right (two_pow_pos (sbits - 1))
  have hK : B + sbits - 3 = B + (sbits - 1) - 2 := by omega
  calc A * 2 ^ (Ez - 1) * (A * 2 ^ (Ez - 1)) * 2 ^ (sbits - 1)
      = (A * A) * (2 ^ (Ez - 1) * 2 ^ (Ez - 1) * 2 ^ (sbits - 1)) := by ring
    _ = Sx * 2 ^ gx * 2 ^ (B + sbits - 3) := by
        rw [hA2]
        by_cases hp : ((gx : Int) - (B + sbits - 3)) % 2 = 1
        · rw [if_pos hp]
          have e : gx + (B + sbits - 3)
              = 1 + (sbits - 1) + ((Ez - 1) + (Ez - 1) + (sbits - 1)) := by omega
          have e2 : 2 ^ gx * 2 ^ (B + sbits - 3)
              = 2 * 2 ^ (sbits - 1) * (2 ^ (Ez - 1) * 2 ^ (Ez - 1) * 2 ^ (sbits - 1)) := by
            rw [← Nat.pow_add, e, Nat.pow_add, Nat.pow_add, Nat.pow_add, Nat.pow_add]
          rw [Nat.mul_assoc Sx (2 ^ gx), e2]
          ring
        · rw [if_neg hp]
          have e : gx + (B + sbits - 3)
              = (sbits - 1) + ((Ez - 1) + (Ez - 1) + (sbits - 1)) := by omega
          have e2 : 2 ^ gx * 2 ^ (B + sbits - 3)
              = 2 ^ (sbits - 1) * (2 ^ (Ez - 1) * 2 ^ (Ez - 1) * 2 ^ (sbits - 1)) := by
            rw [← Nat.pow_add, e, Nat.pow_add, Nat.pow_add, Nat.pow_add]
          rw [Nat.mul_assoc Sx (2 ^ gx), e2]
          ring
    _ = mag (sbits - 1) Ex Tx * 2 ^ (B + sbits - 3) * 2 ^ (sbits - 1) := by
        rw [← hxn]; ring

/-- The fields of a nonnegative root r of a positive finite value: both signs
are 0 and the magnitudes satisfy mz · mz = mx · 2^K. -/
theorem root_mags (sx sz mx mz K : Nat) (hsx : sx < 2) (hsz : sz < 2)
    (hpos : (0 : ℚ) < (-1 : ℚ) ^ sx * (mx : ℚ) * ((2 : ℚ) ^ K)⁻¹)
    (hr : (0 : ℚ) ≤ (-1 : ℚ) ^ sz * (mz : ℚ) * ((2 : ℚ) ^ K)⁻¹)
    (h : ((-1 : ℚ) ^ sz * (mz : ℚ) * ((2 : ℚ) ^ K)⁻¹) * ((-1 : ℚ) ^ sz * (mz : ℚ) * ((2 : ℚ) ^ K)⁻¹)
      = (-1 : ℚ) ^ sx * (mx : ℚ) * ((2 : ℚ) ^ K)⁻¹) :
    sx = 0 ∧ sz = 0 ∧ mz * mz = mx * 2 ^ K := by
  have hK : (0 : ℚ) < (2 : ℚ) ^ K := by positivity
  have hKi : (0 : ℚ) < ((2 : ℚ) ^ K)⁻¹ := by positivity
  have hmx0 : (0 : ℚ) ≤ mx := Nat.cast_nonneg _
  have hmz0 : (0 : ℚ) ≤ mz := Nat.cast_nonneg _
  have hsx0 : sx = 0 := by
    rcases (by omega : sx = 0 ∨ sx = 1) with h1 | h1
    · exact h1
    · exfalso
      rw [h1] at hpos
      have : (-1 : ℚ) ^ 1 * (mx : ℚ) * ((2 : ℚ) ^ K)⁻¹ ≤ 0 := by
        have := mul_nonneg hmx0 (le_of_lt hKi)
        linarith
      linarith
  have hmzpos : (0 : ℚ) < mz := by
    rcases eq_or_lt_of_le hmz0 with h0 | h0
    · exfalso
      rw [← h0] at h
      simp only [mul_zero, zero_mul] at h
      rw [← h] at hpos
      exact lt_irrefl _ hpos
    · exact h0
  have hsz0 : sz = 0 := by
    rcases (by omega : sz = 0 ∨ sz = 1) with h1 | h1
    · exact h1
    · exfalso
      rw [h1] at hr
      have : (-1 : ℚ) ^ 1 * (mz : ℚ) * ((2 : ℚ) ^ K)⁻¹ < 0 := by
        have := mul_pos hmzpos hKi
        linarith
      linarith
  refine ⟨hsx0, hsz0, ?_⟩
  rw [hsx0, hsz0] at h
  simp only [pow_zero, one_mul] at h
  have h2 : ((mz : ℚ) * mz) * ((2 : ℚ) ^ K)⁻¹ = mx := by
    have h3 : ((mz : ℚ) * mz * ((2 : ℚ) ^ K)⁻¹) * ((2 : ℚ) ^ K)⁻¹ = mx * ((2 : ℚ) ^ K)⁻¹ := by
      rw [← h]; ring
    exact mul_right_cancel₀ (ne_of_gt hKi) h3
  have h4 : ((mz : ℚ) * mz) = mx * (2 : ℚ) ^ K := by
    rw [← h2]
    field_simp
  exact_mod_cast h4

/-- From mz · mz = mx · 2^K, the value mz · 2^(-K) is a nonnegative root of
mx · 2^(-K). -/
theorem root_of_mags (mx mz K : Nat) (h : mz * mz = mx * 2 ^ K) :
    (0 : ℚ) ≤ (-1 : ℚ) ^ 0 * (mz : ℚ) * ((2 : ℚ) ^ K)⁻¹
    ∧ ((-1 : ℚ) ^ 0 * (mz : ℚ) * ((2 : ℚ) ^ K)⁻¹) * ((-1 : ℚ) ^ 0 * (mz : ℚ) * ((2 : ℚ) ^ K)⁻¹)
      = (-1 : ℚ) ^ 0 * (mx : ℚ) * ((2 : ℚ) ^ K)⁻¹ := by
  have hK : (0 : ℚ) < (2 : ℚ) ^ K := by positivity
  have h' : ((mz : ℚ) * mz) = mx * (2 : ℚ) ^ K := by exact_mod_cast h
  refine ⟨by positivity, ?_⟩
  simp only [pow_zero, one_mul]
  field_simp
  rw [← mul_assoc, h']

/-- A positive finite denotation has sign bit 0. -/
theorem sign_of_pos (s m K : Nat) (hs : s < 2)
    (hpos : (0 : ℚ) < (-1 : ℚ) ^ s * (m : ℚ) * ((2 : ℚ) ^ K)⁻¹) : s = 0 := by
  have hKi : (0 : ℚ) < ((2 : ℚ) ^ K)⁻¹ := by positivity
  have hm0 : (0 : ℚ) ≤ m := Nat.cast_nonneg _
  rcases (by omega : s = 0 ∨ s = 1) with h1 | h1
  · exact h1
  · exfalso
    rw [h1] at hpos
    have := mul_nonneg hm0 (le_of_lt hKi)
    linarith

/-- C14: for every rounding-mode term and every positive finite value x of a
format with 2 ≤ ebits, ebits + 2 ≤ 64, 2 ≤ sbits and sbits + 1 ≤ 2^(ebits-1):
no assertion of sqrt fails; whenever a packed z of the format denotes a
nonnegative real r with r · r = x, `mk_smt_fpbv_sqrt x rm` is z (so
sqrt(4.0) = 2.0, sqrt(1.0) = 1.0, sqrt(2.25) = 1.5); the bit S of the digit
recurrence, which starts at 2^(sbits+3) and moves one place to the right in
each pass, is 1 after the loop, that is after sbits + 3 passes; and the test
`is_exact` (remainder R = 0) holds exactly when such a z exists. -/
theorem C14_sqrt_exact (ebits sbits vx : Nat) (rm : smt_ast) (qx : ℚ)
    (he : 2 ≤ ebits) (he64 : ebits + 2 ≤ 64) (hsb : 2 ≤ sbits)
    (hfmt : sbits + 1 ≤ 2 ^ (ebits - 1)) (hvx : vx < 2 ^ (ebits + sbits))
    (hx : fp_denote (fp_val ebits sbits vx) = .finite qx) (hpos : 0 < qx) :
    mk_smt_fpbv_sqrt_asserts (fp_val ebits sbits vx) = true
    ∧ (∀ vz r, vz < 2 ^ (ebits + sbits) → fp_denote (fp_val ebits sbits vz) = .finite r
        → 0 ≤ r → r * r = qx
        → mk_smt_fpbv_sqrt (fp_val ebits sbits vx) rm = fp_val ebits sbits vz)
    ∧ (sqrt_recurrence (sqrt_sig_prime (fp_val ebits sbits vx)) sbits).S
        = ⟨mk_bv_sort (sbits + 5), 1⟩
    ∧ (sqrt_is_exact (sqrt_recurrence (sqrt_sig_prime (fp_val ebits sbits vx)) sbits) sbits = true
        ↔ ∃ vz r, vz < 2 ^ (ebits + sbits) ∧ fp_denote (fp_val ebits sbits vz) = .finite r
            ∧ 0 ≤ r ∧ r * r = qx) := by
  refine ⟨sqrt_asserts_ok ebits sbits vx he hsb, ?_⟩
  obtain ⟨hfx, hsx, hEx, hTx⟩ := fp_val_eq_fields ebits sbits vx (by omega) hvx
  rw [hfx] at hx ⊢
  generalize vx / 2 ^ (ebits + (sbits - 1)) = sx at *
  generalize vx / 2 ^ (sbits - 1) % 2 ^ ebits = Ex at *
  generalize vx % 2 ^ (sbits - 1) = Tx at *
  obtain ⟨hxt, hqx, hxnz⟩ := finite_nonzero_fields ebits sbits sx Ex Tx qx he hsb hsx hEx hTx hx
  have hx0 := hxnz (ne_of_gt hpos)
  have hsx0 : sx = 0 := sign_of_pos sx _ _ hsx (by rw [← hqx]; exact hpos)
  subst hsx0
  -- the root, on fields
  have key : ∀ vz r, vz < 2 ^ (ebits + sbits) → fp_denote (fp_val ebits sbits vz) = .finite r
      → 0 ≤ r → r * r = qx
      → sqrt_is_exact (sqrt_recurrence (sqrt_sig_prime (fp_of_fields ebits sbits 0 Ex Tx)) sbits)
          sbits = true
        ∧ mk_smt_fpbv_sqrt (fp_of_fields ebits sbits 0 Ex Tx) rm = fp_val ebits sbits vz := by
    intro vz r hvz hz hr0 hrr
    obtain ⟨hfz, hsz, hEz, hTz⟩ := fp_val_eq_fields ebits sbits vz (by omega) hvz
    rw [hfz] at hz ⊢
    generalize vz / 2 ^ (ebits + (sbits - 1)) = sz at *
    generalize vz / 2 ^ (sbits - 1) % 2 ^ ebits = Ez at *
    generalize vz % 2 ^ (sbits - 1) = Tz at *
    obtain ⟨hzt, hqz, _⟩ := finite_nonzero_fields ebits sbits sz Ez Tz r he hsb hsz hEz hTz hz
    rw [hqx] at hpos hrr
    rw [hqz] at hr0 hrr
    obtain ⟨_, hsz0, hm⟩ := root_mags 0 sz _ _ _ (by omega) hsz hpos hr0 hrr
    rw [hsz0]
    exact sqrt_exact_fields ebits sbits Ex Tx Ez Tz rm he (by omega) hsb hfmt hEx hTx hEz hTz
      hxt hx0 hzt hm
  refine ⟨fun vz r h1 h2 h3 h4 => (key vz r h1 h2 h3 h4).2, ?_, ?_⟩
  · obtain ⟨Q, R, _, _, _, _, _, hS, _⟩ :=
      sqrt_generic_eval ebits sbits 0 Ex Tx rm he hsb hfmt (by omega) hEx hTx hxt hx0
    exact hS
  · constructor
    · intro hex
      obtain ⟨Ez, Tz, hEz, hTz, hzt, hm⟩ :=
        sqrt_exact_conv ebits sbits Ex Tx he hsb hfmt hEx hTx hxt hx0 hex
      obtain ⟨hr0, hrr⟩ := root_of_mags _ _ _ hm
      refine ⟨0 * 2 ^ (ebits + (sbits - 1)) + Ez * 2 ^ (sbits - 1) + Tz,
        (-1 : ℚ) ^ 0 * (mag (sbits - 1) Ez Tz : ℚ) * ((2 : ℚ) ^ (2 ^ (ebits - 1) + sbits - 3))⁻¹,
        ?_, ?_, hr0, ?_⟩
      · have h1 := expsig_lt ebits (sbits - 1) Ez Tz hEz hTz
        have h2 : 2 ^ (ebits + sbits) = 2 * 2 ^ (ebits + (sbits - 1)) := by
          rw [show ebits + sbits = (ebits + (sbits - 1)) + 1 by omega, pow_succ_two]
        omega
      · show fp_denote (fp_of_fields ebits sbits 0 Ez Tz) = _
        rw [fp_denote_fields ebits sbits 0 Ez Tz (by omega) hsb (by omega) hEz hTz, if_neg hzt,
          denote_scale ebits sbits he hsb]
      · rw [hrr, hqx]
    · rintro ⟨vz, r, h1, h2, h3, h4⟩
      exact (key vz r h1 h2 h3 h4).1

/-- Witness for C14: single precision, sqrt(4.0) = 2.0 (even exponent),
sqrt(2.25) = 1.5 (odd exponent) and sqrt(1.0) = 1.0. -/
theorem C14_sqrt_exact_witness :
    (2 ≤ 8 ∧ 8 + 2 ≤ 64 ∧ 2 ≤ 24 ∧ 24 + 1 ≤ 2 ^ (8 - 1)
      ∧ 0x40800000 < 2 ^ (8 + 24) ∧ fp_denote (fp_val 8 24 0x40800000) = .finite 4
      ∧ (0 : ℚ) < 4
      ∧ 0x40000000 < 2 ^ (8 + 24) ∧ fp_denote (fp_val 8 24 0x40000000) = .finite 2
      ∧ (0 : ℚ) ≤ 2 ∧ (2 : ℚ) * 2 = 4)
    ∧ mk_smt_fpbv_sqrt (fp_val 8 24 0x40800000) (mk_smt_fpbv_rm .ROUND_TO_EVEN)
        = fp_val 8 24 0x40000000
    ∧ mk_smt_fpbv_sqrt (fp_val 8 24 0x40100000) (mk_smt_fpbv_rm .ROUND_TO_ZERO)
        = fp_val 8 24 0x3fc00000
    ∧ mk_smt_fpbv_sqrt (fp_val 8 24 0x3f800000) (mk_smt_fpbv_rm .ROUND_TO_PLUS_INF)
        = fp_val 8 24 0x3f800000 :=
  have h4 : fp_denote (fp_val 8 24 0x40800000) = .finite 4 := by
    simp only [fp_denote, fp_val, mk_fpbv_sort, mk_bv_fp_sort, smt_sort.get_exponent_width,
      smt_sort.get_significand_width, smt_sort.get_data_width]
    norm_num
  have h2 : fp_denote (fp_val 8 24 0x40000000) = .finite 2 := by
    simp only [fp_denote, fp_val, mk_fpbv_sort, mk_bv_fp_sort, smt_sort.get_exponent_width,
      smt_sort.get_significand_width, smt_sort.get_data_width]
    norm_num
  have h94 : fp_denote (fp_val 8 24 0x40100000) = .finite (9 / 4) := by
    simp only [fp_denote, fp_val, mk_fpbv_sort, mk_bv_fp_sort, smt_sort.get_exponent_width,
      smt_sort.get_significand_width, smt_sort.get_data_width]
    norm_num
  have h32 : fp_denote (fp_val 8 24 0x3fc00000) = .finite (3 / 2) := by
    simp only [fp_denote, fp_val, mk_fpbv_sort, mk_bv_fp_sort, smt_sort.get_exponent_width,
      smt_sort.get_significand_width, smt_sort.get_data_width]
    norm_num
  have h1 : fp_denote (fp_val 8 24 0x3f800000) = .finite 1 := by
    simp only [fp_denote, fp_val, mk_fpbv_sort, mk_bv_fp_sort, smt_sort.get_exponent_width,
      smt_sort.get_significand_width, smt_sort.get_data_width]
    norm_num
  ⟨⟨by decide, by decide, by decide, by decide, by decide, h4, by norm_num, by decide, h2,
      by norm_num, by norm_num⟩,
    (C14_sqrt_exact 8 24 0x40800000 (mk_smt_fpbv_rm .ROUND_TO_EVEN) 4 (by decide) (by decide)
      (by decide) (by decide) (by decide) h4 (by norm_num)).2.1 0x40000000 2 (by decide) h2
      (by norm_num) (by norm_num),
    (C14_sqrt_exact 8 24 0x40100000 (mk_smt_fpbv_rm .ROUND_TO_ZERO) (9 / 4) (by decide)
      (by decide) (by decide) (by decide) (by decide) h94 (by norm_num)).2.1 0x3fc00000 (3 / 2)
      (by decide) h32 (by norm_num) (by norm_num),
    (C14_sqrt_exact 8 24 0x3f800000 (mk_smt_fpbv_rm .ROUND_TO_PLUS_INF) 1 (by decide)
      (by decide) (by decide) (by decide) (by decide) h1 (by norm_num)).2.1 0x3f800000 1
      (by decide) h1 (by norm_num) (by norm_num)⟩

/-! ## Conversion to an integer: the stages of `mk_to_bv` -/

theorem to_signed_smt_bv (e : Int) (w : Nat) (hw : 1 ≤ w) (h1 : -(2 ^ (w - 1) : Int) ≤ e)
    (h2 : e < 2 ^ (w - 1)) : (mk_smt_bv e w).to_signed = e := by
  have hp : (2 : Int) ^ w = 2 * 2 ^ (w - 1) := by exact_mod_cast pow_pred_two w hw
  have hpn : (2 : Nat) ^ w = 2 * 2 ^ (w - 1) := pow_pred_two w hw
  have hpos : (0 : Int) < 2 ^ (w - 1) := by positivity
  have hc : (((2 : Nat) ^ (w - 1) : Nat) : Int) = (2 : Int) ^ (w - 1) := by push_cast; rfl
  have hc2 : (((2 : Nat) ^ w : Nat) : Int) = (2 : Int) ^ w := by push_cast; rfl
  by_cases h0 : 0 ≤ e
  · rw [mk_smt_bv_of_nonneg e w h0 (by omega)]
    simp only [smt_ast.to_signed, mk_bv_sort_data_width]
    have : e.toNat < 2 ^ (w - 1) := by omega
    rw [if_pos this]
    omega
  · rw [mk_smt_bv_of_neg e w (by omega) (by omega)]
    simp only [smt_ast.to_signed, mk_bv_sort_data_width]
    have : ¬ ((e + 2 ^ w).toNat < 2 ^ (w - 1)) := by omega
    rw [if_neg this]
    omega

theorem bvneg_smt_bv (w : Nat) (a : Int) :
    mk_bvneg (mk_bv_sort w) (mk_smt_bv a w) = mk_smt_bv (-a) w := by
  have h := bvsub_smt_bv w 0 a
  rw [zero_sub] at h
  rw [← h]
  simp only [mk_bvneg, mk_bvsub, mk_smt_bv_zero, mk_bv_sort_data_width, Nat.zero_add]

theorem extract_low_smt_bv (t : Int) (W w : Nat) (hw : 1 ≤ w) (hW : w ≤ W) :
    mk_extract (mk_smt_bv t W) (w - 1) 0 = mk_smt_bv t w := by
  have hv := mk_smt_bv_val_cast t W
  have hr := mk_smt_bv_val_cast t w
  have hs : (mk_smt_bv t w).sort = mk_bv_sort w := rfl
  generalize mk_smt_bv t w = r at *
  generalize mk_smt_bv t W = p at *
  obtain ⟨rs, rv⟩ := r
  simp only at hs hr
  subst hs
  simp only [mk_extract, Nat.sub_zero, Nat.pow_zero, Nat.div_one,
    show w - 1 + 1 = w by omega]
  congr 1
  apply Int.ofNat_inj.mp
  rw [hr]
  push_cast
  rw [hv]
  exact Int.emod_emod_of_dvd t (pow_dvd_pow 2 hW)

theorem rounding_decision_rtz (sgn last round sticky : smt_ast) :
    mk_rounding_decision (mk_smt_fpbv_rm .ROUND_TO_ZERO) sgn last round sticky
      = mk_smt_bv 0 1 := by
  rfl

theorem to_bv_shift_eq (e : Int) (ebits big bv_sz : Nat) (hbig : ebits + 2 < big)
    (h1 : -(2 ^ (ebits + 1) : Int) < e) (h2 : e < 2 ^ (ebits + 1))
    (hlim : bv_sz + 2 < 2 ^ big) :
    to_bv_shift (mk_smt_bv e (ebits + 2)) ebits big bv_sz
      = (decide (e ≤ 0), ⟨mk_bv_sort big, min e.natAbs (bv_sz + 2)⟩) := by
  have hts := to_signed_smt_bv e (ebits + 2) (by omega) (by
    rw [show ebits + 2 - 1 = ebits + 1 from rfl]; omega) (by
    rw [show ebits + 2 - 1 = ebits + 1 from rfl]; omega)
  have hts0 : (⟨mk_bv_sort (ebits + 2), 0⟩ : smt_ast).to_signed = 0 := by
    simp [smt_ast.to_signed]
  have hp2 : (2 : Int) ^ (ebits + 2) = 2 * 2 ^ (ebits + 1) := by
    exact_mod_cast pow_succ_two (ebits + 1)
  have hw : ebits + 2 + (big - ebits - 2) = big := by omega
  have hlimm : (bv_sz + 2) % 2 ^ big = bv_sz + 2 := Nat.mod_eq_of_lt hlim
  have hsort : (mk_smt_bv e (ebits + 2)).sort = mk_bv_sort (ebits + 2) := rfl
  simp only [to_bv_shift, mk_bvslte, hts, hts0, mk_smt_bv_zero, hbig, if_true, hsort,
    bvneg_smt_bv]
  by_cases he : e ≤ 0
  · have hv : mk_smt_bv (-e) (ebits + 2) = ⟨mk_bv_sort (ebits + 2), e.natAbs⟩ := by
      rw [mk_smt_bv_of_nonneg (-e) (ebits + 2) (by omega) (by omega)]
      congr 1
      omega
    simp only [he, decide_True, mk_ite, if_true, hv, mk_zero_ext, mk_bv_sort_data_width, hw,
      smt_sort.get_data_width, mk_smt_bv_natCast, hlimm, mk_bvulte]
    congr 1
    by_cases hc : e.natAbs ≤ bv_sz + 2
    · simp [hc]
    · simp only [hc, decide_False, Bool.false_eq_true, if_false]
      congr 1
      omega
  · have hv : mk_smt_bv e (ebits + 2) = ⟨mk_bv_sort (ebits + 2), e.natAbs⟩ := by
      rw [mk_smt_bv_of_nonneg e (ebits + 2) (by omega) (by omega)]
      congr 1
      omega
    simp only [he, decide_False, mk_ite, Bool.false_eq_true, if_false, hv, mk_zero_ext,
      mk_bv_sort_data_width, hw, smt_sort.get_data_width, mk_smt_bv_natCast, hlimm, mk_bvulte]
    congr 1
    by_cases hc : e.natAbs ≤ bv_sz + 2
    · simp [hc]
    · simp only [hc, decide_False, Bool.false_eq_true, if_false]
      congr 1
      omega

theorem to_bv_pre_rounded_rtz (sgn : smt_ast) (V big bv_sz m : Nat) (x_is_neg : Bool)
    (hbig : bv_sz + 3 ≤ big) (hm : V / 2 ^ (big - (bv_sz + 3)) = m) (hm2 : m < 2 ^ (bv_sz + 3)) :
    to_bv_pre_rounded (mk_smt_fpbv_rm .ROUND_TO_ZERO) sgn ⟨mk_bv_sort big, V⟩ x_is_neg big bv_sz
      = mk_smt_bv (if x_is_neg then -(m : Int) else m) (bv_sz + 3) := by
  have hw : big - 1 - (big - (bv_sz + 3)) + 1 = bv_sz + 3 := by omega
  have hw2 : 1 + (bv_sz + 2) = bv_sz + 3 := by omega
  have hmm : m % 2 ^ (bv_sz + 3) = m := Nat.mod_eq_of_lt hm2
  have hpre : mk_bvadd (mk_bv_sort (bv_sz + 3)) ⟨mk_bv_sort (bv_sz + 3), m⟩
      ⟨mk_bv_sort (bv_sz + 3), 0⟩ = mk_smt_bv (m : Int) (bv_sz + 3) := by
    simp only [mk_bvadd, mk_bv_sort_data_width, Nat.add_zero, mk_smt_bv_natCast]
  simp only [to_bv_pre_rounded, rounding_decision_rtz, mk_extract, hm, hw, hmm, mk_zero_ext,
    mk_smt_bv_zero, mk_bv_sort_data_width, hw2, hpre]
  cases x_is_neg
  · simp only [mk_ite, Bool.false_eq_true, if_false]
  · simp only [mk_ite, if_true]
    exact bvneg_smt_bv (bv_sz + 3) m

theorem to_bv_result_in_range (unspec_v : smt_ast) (t : Int) (is_signed : Bool) (w : Nat)
    (hw1 : 1 ≤ w) (hw2 : w ≤ 64)
    (hr : if is_signed then -(2 ^ (w - 1) : Int) ≤ t ∧ t ≤ 2 ^ (w - 1) - 1
      else 0 ≤ t ∧ t ≤ 2 ^ w - 1) :
    to_bv_result unspec_v (mk_smt_bv t (w + 3)) is_signed w = mk_smt_bv t w := by
  have hp : (2 : Int) ^ w = 2 * 2 ^ (w - 1) := by exact_mod_cast pow_pred_two w hw1
  have hpn : (2 : Nat) ^ w = 2 * 2 ^ (w - 1) := pow_pred_two w hw1
  have hp2 : (2 : Int) ^ (w + 2) = 4 * 2 ^ w := by rw [pow_add]; ring
  have hp2n : (2 : Nat) ^ (w + 2) = 4 * 2 ^ w := by rw [Nat.pow_add]; ring
  have hp3n : (2 : Nat) ^ (w + 3) = 8 * 2 ^ w := by rw [Nat.pow_add]; ring
  have hpos : (0 : Int) < 2 ^ (w - 1) := by positivity
  have hposn := two_pow_pos (w - 1)
  have hc : (((2 : Nat) ^ (w - 1) : Nat) : Int) = (2 : Int) ^ (w - 1) := by push_cast; rfl
  have hc2 : (((2 : Nat) ^ w : Nat) : Int) = (2 : Int) ^ w := by push_cast; rfl
  have hext := extract_low_smt_bv t (w + 3) w hw1 (by omega)
  cases is_signed
  · simp only [Bool.false_eq_true, if_false] at hr
    have hts := to_signed_smt_bv t (w + 3) (by omega) (by
      rw [show w + 3 - 1 = w + 2 from rfl]; omega) (by
      rw [show w + 3 - 1 = w + 2 from rfl]; omega)
    have hll : (⟨mk_bv_sort (w + 3), 0⟩ : smt_ast).to_signed = 0 := by
      simp [smt_ast.to_signed]
    have hul : (⟨mk_bv_sort (w + 3), 2 ^ w - 1⟩ : smt_ast).to_signed = 2 ^ w - 1 := by
      simp only [smt_ast.to_signed, mk_bv_sort_data_width, show w + 3 - 1 = w + 2 from rfl]
      rw [if_pos (by omega)]
      omega
    simp only [to_bv_result, Bool.not_false, if_true, mk_smt_bv_zero,
      ullmax_eq w hw2, mk_zero_ext, mk_bv_sort_data_width, mk_bvslte, hts, hll, hul, hext,
      hr.1, hr.2, decide_True, Bool.and_self, Bool.not_true, mk_ite, Bool.false_eq_true,
      if_false]
  · simp only [if_true] at hr
    have hts := to_signed_smt_bv t (w + 3) (by omega) (by
      rw [show w + 3 - 1 = w + 2 from rfl]; omega) (by
      rw [show w + 3 - 1 = w + 2 from rfl]; omega)
    have hcat : mk_concat (mk_smt_bv 1 1) (mk_smt_bv 0 (w - 1))
        = ⟨mk_bv_sort w, 2 ^ (w - 1)⟩ := by
      simp only [mk_concat, mk_smt_bv_one, mk_smt_bv_zero, mk_bv_sort_data_width,
        show 1 + (w - 1) = w by omega, Nat.pow_one, Nat.one_mod_two_pow_eq_one, Nat.one_mul,
        Nat.add_zero]
      simp
    have hll : (mk_sign_ext (⟨mk_bv_sort w, 2 ^ (w - 1)⟩ : smt_ast) 3).to_signed
        = -(2 ^ (w - 1) : Int) := by
      rw [sign_ext_eq_smt_bv w 3 _ hw1 (by omega)]
      have h1 : (⟨mk_bv_sort w, 2 ^ (w - 1)⟩ : smt_ast).to_signed = -(2 ^ (w - 1) : Int) := by
        simp only [smt_ast.to_signed, mk_bv_sort_data_width]
        rw [if_neg (by omega)]
        omega
      rw [h1]
      exact to_signed_smt_bv _ (w + 3) (by omega) (by
        rw [show w + 3 - 1 = w + 2 from rfl]; omega) (by
        rw [show w + 3 - 1 = w + 2 from rfl]; omega)
    have hul : (⟨mk_bv_sort (w - 1 + 4), 2 ^ (w - 1) - 1⟩ : smt_ast).to_signed
        = 2 ^ (w - 1) - 1 := by
      simp only [smt_ast.to_signed, mk_bv_sort_data_width,
        show w - 1 + 4 - 1 = w + 2 by omega]
      rw [if_pos (by omega)]
      omega
    simp only [to_bv_result, Bool.not_true, Bool.false_eq_true, if_false, hcat,
      ullmax_eq (w - 1) (by omega), mk_zero_ext, mk_bv_sort_data_width, mk_bvslte, hts, hll,
      hul, hext, hr.1, hr.2, decide_True, Bool.and_self, mk_ite]

/-! ## Conversion to an integer: the integer part of a finite value -/

/-- The magnitude of a finite value in units of one: with the magnitude m in
units of 2^-K written as S · 2^g / 2^f for a normalized S, the integer part of
m / 2^K is 0 below exponent K and S · 2^(g-K) / 2^f from there on. -/
theorem floor_mag (m S f g K : Nat) (h : m * 2 ^ f = S * 2 ^ g) (hS1 : 2 ^ f ≤ S)
    (hS2 : S < 2 ^ (f + 1)) :
    (g < K → m / 2 ^ K = 0)
    ∧ (K ≤ g → m / 2 ^ K = S * 2 ^ (g - K) / 2 ^ f ∧ 2 ^ (g - K) ≤ m / 2 ^ K) := by
  have hf := two_pow_pos f
  constructor
  · intro hg
    apply Nat.div_eq_of_lt
    have h1 : S * 2 ^ g < 2 ^ f * 2 ^ K := by
      have e1 : 2 ^ K = 2 ^ (g + 1) * 2 ^ (K - (g + 1)) := by
        rw [← Nat.pow_add]; congr 1; omega
      have e2 : 2 ^ (f + 1) * 2 ^ g = 2 ^ f * 2 ^ (g + 1) := by
        rw [Nat.pow_succ, Nat.pow_succ]; ring
      have h2 : S * 2 ^ g < 2 ^ (f + 1) * 2 ^ g := Nat.mul_lt_mul_of_pos_right hS2 (two_pow_pos g)
      have h3 : 2 ^ f * 2 ^ (g + 1) ≤ 2 ^ f * 2 ^ K := by
        rw [e1, ← Nat.mul_assoc]
        exact Nat.le_mul_of_pos_right _ (two_pow_pos _)
      omega
    rw [← h, Nat.mul_comm (2 ^ f)] at h1
    exact Nat.lt_of_mul_lt_mul_right h1
  · intro hg
    have e1 : S * 2 ^ g = (S * 2 ^ (g - K)) * 2 ^ K := by
      rw [Nat.mul_assoc, ← Nat.pow_add]; congr 2; omega
    have h1 : m / 2 ^ K = S * 2 ^ (g - K) / 2 ^ f := by
      have a1 : (m * 2 ^ f) / (2 ^ K * 2 ^ f) = m / 2 ^ K :=
        Nat.mul_div_mul_right _ _ hf
      have a2 : (S * 2 ^ (g - K) * 2 ^ K) / (2 ^ f * 2 ^ K) = S * 2 ^ (g - K) / 2 ^ f :=
        Nat.mul_div_mul_right _ _ (two_pow_pos K)
      rw [← a1, ← a2, h, e1, Nat.mul_comm (2 ^ K) (2 ^ f)]
    refine ⟨h1, ?_⟩
    rw [h1, Nat.le_div_iff_mul_le hf, Nat.mul_comm]
    exact Nat.mul_le_mul_right _ hS1

/-- The integer part that `mk_to_bv` extracts after a shift to the left by k:
the significand S, padded to P bits and doubled, shifted and cut at bit P. -/
theorem int_part_left (S sbits P k : Nat) (hsb : 1 ≤ sbits) (hP : sbits ≤ P) :
    (S * 2 ^ (P - sbits) * 2 ^ 1 * 2 ^ k) / 2 ^ P = S * 2 ^ k / 2 ^ (sbits - 1) := by
  have e1 : S * 2 ^ (P - sbits) * 2 ^ 1 * 2 ^ k = (S * 2 ^ k) * 2 ^ (P - (sbits - 1)) := by
    have : 2 ^ (P - (sbits - 1)) = 2 ^ (P - sbits) * 2 ^ 1 := by
      rw [← Nat.pow_add]; congr 1; omega
    rw [this]; ring
  have e2 : 2 ^ P = 2 ^ (sbits - 1) * 2 ^ (P - (sbits - 1)) := by
    rw [← Nat.pow_add]; congr 1; omega
  rw [e1, e2]
  exact Nat.mul_div_mul_right _ _ (two_pow_pos _)

/-- The integer part that `mk_to_bv` extracts after a shift to the right by
k ≥ 1 is 0. -/
theorem int_part_right (S sbits P k : Nat) (hP : sbits ≤ P) (hS2 : S < 2 ^ sbits)
    (hk : 1 ≤ k) : (S * 2 ^ (P - sbits) * 2 ^ 1) / 2 ^ k / 2 ^ P = 0 := by
  apply Nat.div_eq_of_lt
  have h1 : S * 2 ^ (P - sbits) < 2 ^ P := by
    have e2 : 2 ^ P = 2 ^ sbits * 2 ^ (P - sbits) := by
      rw [← Nat.pow_add]; congr 1; omega
    rw [e2]
    exact Nat.mul_lt_mul_of_pos_right hS2 (two_pow_pos _)
  have e3 : 2 ^ k = 2 ^ 1 * 2 ^ (k - 1) := by rw [← Nat.pow_add]; congr 1; omega
  rw [e3, ← Nat.div_div_eq_div_mul, Nat.mul_div_cancel _ (two_pow_pos 1)]
  exact lt_of_le_of_lt (Nat.div_le_self _ _) h1

/-- The generic path of `mk_to_bv` on a finite nonzero value, down to the
shifted significand: S is the normalized significand, P the width it is padded
to, e the exponent. -/
theorem to_bv_eval (σ : String → Nat) (ebits sbits s E T w P : Nat) (is_signed : Bool)
    (he : 2 ≤ ebits) (hsb : 2 ≤ sbits) (hfmt : sbits < 2 ^ ebits) (hes : ebits ≤ sbits + w)
    (hs : s < 2) (hE : E < 2 ^ ebits) (hT : T < 2 ^ (sbits - 1))
    (htop : E ≠ 2 ^ ebits - 1) (h0 : ¬(E = 0 ∧ T = 0))
    (hP : P = if sbits < w + 3 then w + 3 else sbits) :
    mk_to_bv σ (fp_of_fields ebits sbits s E T) is_signed w
      = to_bv_result (mk_smt_symbol σ "Unspecified_FP" (fp_of_fields ebits sbits s E T).sort)
          (to_bv_pre_rounded (mk_smt_fpbv_rm .ROUND_TO_ZERO) ⟨mk_bv_sort 1, s⟩
            (mk_ite (decide ((norm_exp sbits E T : Int) - (2 ^ (ebits - 1) + sbits - 3) ≤ 0))
              (mk_bvlshr (mk_bv_sort (P + 1 + w + 2))
                ⟨mk_bv_sort (P + 1 + w + 2), norm_sig sbits E T * 2 ^ (P - sbits) * 2 ^ 1⟩
                ⟨mk_bv_sort (P + 1 + w + 2),
                  min ((norm_exp sbits E T : Int) - (2 ^ (ebits - 1) + sbits - 3)).natAbs
                    (w + 2)⟩)
              (mk_bvshl (mk_bv_sort (P + 1 + w + 2))
                ⟨mk_bv_sort (P + 1 + w + 2), norm_sig sbits E T * 2 ^ (P - sbits) * 2 ^ 1⟩
                ⟨mk_bv_sort (P + 1 + w + 2),
                  min ((norm_exp sbits E T : Int) - (2 ^ (ebits - 1) + sbits - 3)).natAbs
                    (w + 2)⟩))
            (!decide (s = 0)) (P + 1 + w + 2) w) is_signed w := by
  obtain ⟨hB, hB2, hB4, hB0⟩ := pow_facts ebits he
  obtain ⟨ex, lx, hexs, hlxs, hux, hkx⟩ :=
    unpack_norm ebits sbits s E T he hsb hfmt hs hE hT htop h0
  have hgle := norm_exp_le ebits sbits E T he hsb hE hT htop
  have hcB : (((2 ^ (ebits - 1) : Nat) : Int)) = (2 : Int) ^ (ebits - 1) := by push_cast; rfl
  have hcB2 : (((2 ^ (ebits + 1) : Nat) : Int)) = (2 : Int) ^ (ebits + 1) := by push_cast; rfl
  have hcBe : (((2 ^ ebits : Nat) : Int)) = (2 : Int) ^ ebits := by push_cast; rfl
  have hP1 : sbits ≤ P := by rw [hP]; split <;> omega
  have hP2 : w + 3 ≤ P := by rw [hP]; split <;> omega
  have hsw := significand_width_fields ebits sbits s E T hsb
  have hew := exponent_width_fields ebits sbits s E T hsb
  have hnan : mk_smt_fpbv_is_nan (fp_of_fields ebits sbits s E T) = false := by
    rw [is_nan_fields ebits sbits s E T (by omega) hsb hE hT]; simp [htop]
  have hinf : mk_smt_fpbv_is_inf (fp_of_fields ebits sbits s E T) = false := by
    rw [is_inf_fields ebits sbits s E T (by omega) hsb hE hT]; simp [htop]
  have hzero : mk_smt_fpbv_is_zero (fp_of_fields ebits sbits s E T) = false := by
    rw [is_zero_fields ebits sbits s E T (by omega) hE hT]
    by_cases h1 : E = 0
    · have : T ≠ 0 := fun h => h0 ⟨h1, h⟩
      simp [this]
    · simp [h1]
  have hneg := is_negative_fields ebits sbits s E T hs hE hT
  have hlxw : lx.sort.get_data_width + 2 = ebits + 2 := by rw [hlxs]; rfl
  have hsig : (if sbits < w + 3 then
        mk_concat (⟨mk_bv_sort sbits, norm_sig sbits E T⟩ : smt_ast)
          (mk_smt_bv 0 ((w : Int) - sbits + 3).toNat)
      else ⟨mk_bv_sort sbits, norm_sig sbits E T⟩)
      = ⟨mk_bv_sort P, norm_sig sbits E T * 2 ^ (P - sbits)⟩ := by
    by_cases h : sbits < w + 3
    · rw [if_pos h] at hP
      rw [if_pos h]
      have e1 : ((w : Int) - sbits + 3).toNat = w + 3 - sbits := by omega
      simp only [mk_concat, mk_smt_bv_zero, mk_bv_sort_data_width, e1, Nat.add_zero, hP,
        show sbits + (w + 3 - sbits) = w + 3 by omega]
    · rw [if_neg h] at hP
      rw [if_neg h, hP, Nat.sub_self, Nat.pow_zero, Nat.mul_one]
  have hshift := to_bv_shift_eq ((norm_exp sbits E T : Int) - (2 ^ (ebits - 1) + sbits - 3))
    ebits (P + 1 + w + 2) w (by omega) (by rw [← hcB2, ← hcB]; omega)
    (by rw [← hcB2, ← hcB]; omega)
    (by have := lt_two_pow_self (P + 1 + w + 2); omega)
  have hPw : (⟨mk_bv_sort P, norm_sig sbits E T * 2 ^ (P - sbits)⟩ : smt_ast).sort.get_data_width
      = P := rfl
  simp only [mk_to_bv, hsw, hew, hnan, hinf, hzero, hneg, hux, hlxw, hkx, hsig, hPw, hshift]
  simp only [Bool.or_self, mk_ite, Bool.false_eq_true, if_false, mk_concat, mk_zero_ext,
    mk_smt_bv_zero, Nat.add_zero, mk_bv_sort_data_width,
    show P + (w + 2) + 1 = P + 1 + w + 2 by omega]

/-- The value `mk_to_bv` returns for a finite nonzero operand whose integer
part, with its sign, lies within the range of the target: the encoding of that
integer.  M is the integer part of the magnitude. -/
theorem to_bv_fields (σ : String → Nat) (ebits sbits s E T w M : Nat) (t : Int)
    (is_signed : Bool)
    (he : 2 ≤ ebits) (hsb : 2 ≤ sbits) (hfmt : sbits < 2 ^ ebits) (hes : ebits ≤ sbits + w)
    (hs : s < 2) (hE : E < 2 ^ ebits) (hT : T < 2 ^ (sbits - 1))
    (htop : E ≠ 2 ^ ebits - 1) (h0 : ¬(E = 0 ∧ T = 0)) (hw1 : 1 ≤ w) (hw2 : w ≤ 64)
    (hM : M = mag (sbits - 1) E T / 2 ^ (2 ^ (ebits - 1) + sbits - 3))
    (ht : t = if s = 0 then (M : Int) else -(M : Int))
    (hr : if is_signed then -(2 ^ (w - 1) : Int) ≤ t ∧ t ≤ 2 ^ (w - 1) - 1
      else 0 ≤ t ∧ t ≤ 2 ^ w - 1) :
    mk_to_bv σ (fp_of_fields ebits sbits s E T) is_signed w = mk_smt_bv t w := by
  obtain ⟨hB, hB2, hB4, hB0⟩ := pow_facts ebits he
  obtain ⟨hS1, hS2, hmag⟩ := norm_bounds sbits E T hsb hT h0
  have hcB : (((2 ^ (ebits - 1) : Nat) : Int)) = (2 : Int) ^ (ebits - 1) := by push_cast; rfl
  have hcw : (((2 ^ w : Nat) : Int)) = (2 : Int) ^ w := by push_cast; rfl
  have hcw1 : (((2 ^ (w - 1) : Nat) : Int)) = (2 : Int) ^ (w - 1) := by push_cast; rfl
  have hpw : (2 : Nat) ^ w = 2 * 2 ^ (w - 1) := pow_pred_two w hw1
  have hpw3 : (2 : Nat) ^ (w + 3) = 8 * 2 ^ w := by rw [Nat.pow_add]; ring
  -- the integer part is at most 2^w
  have hMle : M ≤ 2 ^ w := by
    have hposw := two_pow_pos (w - 1)
    cases is_signed
    · simp only [Bool.false_eq_true, if_false] at hr
      by_cases h : s = 0
      · rw [if_pos h] at ht; omega
      · rw [if_neg h] at ht; omega
    · simp only [if_true] at hr
      by_cases h : s = 0
      · rw [if_pos h] at ht; omega
      · rw [if_neg h] at ht; omega
  rw [to_bv_eval σ ebits sbits s E T w (if sbits < w + 3 then w + 3 else sbits) is_signed he
    hsb hfmt hes hs hE hT htop h0 rfl]
  generalize hPdef : (if sbits < w + 3 then w + 3 else sbits) = P
  have hP1 : sbits ≤ P := by rw [← hPdef]; split <;> omega
  have hP2 : w + 3 ≤ P := by rw [← hPdef]; split <;> omega
  obtain ⟨fm1, fm2⟩ := floor_mag (mag (sbits - 1) E T) (norm_sig sbits E T) (sbits - 1)
    (norm_exp sbits E T) (2 ^ (ebits - 1) + sbits - 3) hmag hS1
    (by rw [show sbits - 1 + 1 = sbits by omega]; exact hS2)
  rw [← hM] at fm1 fm2
  generalize norm_sig sbits E T = S at *
  generalize norm_exp sbits E T = g at *
  have hbigw : P + 1 + w + 2 - (w + 3) = P := by omega
  -- the padded and doubled significand fits
  have hA : S * 2 ^ (P - sbits) * 2 ^ 1 < 2 ^ (P + 1) := by
    have e2 : 2 ^ P = 2 ^ sbits * 2 ^ (P - sbits) := by
      rw [← Nat.pow_add]; congr 1; omega
    have h1 : S * 2 ^ (P - sbits) < 2 ^ P := by
      rw [e2]; exact Nat.mul_lt_mul_of_pos_right hS2 (two_pow_pos _)
    have e3 : 2 ^ (P + 1) = 2 * 2 ^ P := pow_succ_two P
    rw [Nat.pow_one, e3]
    omega
  have hbig : 2 ^ (P + 1 + w + 2) = 2 ^ (P + 1) * 2 ^ (w + 2) := by
    rw [show P + 1 + w + 2 = (P + 1) + (w + 2) by omega, Nat.pow_add]
  have hneg_eq : (if (!decide (s = 0)) = true then -((M : Nat) : Int) else (M : Int)) = t := by
    rw [ht]
    by_cases h : s = 0 <;> simp [h]
  by_cases hg : g < 2 ^ (ebits - 1) + sbits - 3
  · -- below one: the shift is to the right, the integer part is 0
    have hM0 : M = 0 := fm1 hg
    have he0 : (g : Int) - (2 ^ (ebits - 1) + sbits - 3) ≤ 0 := by rw [← hcB]; omega
    have hk : 1 ≤ min ((g : Int) - (2 ^ (ebits - 1) + sbits - 3)).natAbs (w + 2) := by
      have : 1 ≤ ((g : Int) - (2 ^ (ebits - 1) + sbits - 3)).natAbs := by rw [← hcB]; omega
      exact Nat.le_min.mpr ⟨this, by omega⟩
    generalize min ((g : Int) - (2 ^ (ebits - 1) + sbits - 3)).natAbs (w + 2) = k at *
    have hV : (S * 2 ^ (P - sbits) * 2 ^ 1 / 2 ^ k) % 2 ^ (P + 1 + w + 2)
        = S * 2 ^ (P - sbits) * 2 ^ 1 / 2 ^ k := by
      apply Nat.mod_eq_of_lt
      have h1 := Nat.div_le_self (S * 2 ^ (P - sbits) * 2 ^ 1) (2 ^ k)
      have h2 : 2 ^ (P + 1) ≤ 2 ^ (P + 1 + w + 2) := by
        rw [hbig]; exact Nat.le_mul_of_pos_right _ (two_pow_pos _)
      omega
    simp only [he0, decide_True, mk_ite, if_true, mk_bvlshr, mk_bv_sort_data_width, hV]
    rw [to_bv_pre_rounded_rtz _ _ (P + 1 + w + 2) w 0 _ (by omega) (by
      rw [hbigw]; exact int_part_right S sbits P k hP1 hS2 hk) (two_pow_pos _)]
    rw [hM0] at hneg_eq
    rw [hneg_eq]
    exact to_bv_result_in_range _ t is_signed w hw1 hw2 hr
  · -- from one on: the integer part is S · 2^(g-K) / 2^(sbits-1)
    obtain ⟨fmv, fmb⟩ := fm2 (by omega)
    have hgw : g - (2 ^ (ebits - 1) + sbits - 3) ≤ w := by
      have h1 : 2 ^ (g - (2 ^ (ebits - 1) + sbits - 3)) ≤ 2 ^ w := le_trans fmb hMle
      exact (Nat.pow_le_pow_iff_right (by decide)).mp h1
    have hna : ((g : Int) - (2 ^ (ebits - 1) + sbits - 3)).natAbs
        = g - (2 ^ (ebits - 1) + sbits - 3) := by rw [← hcB]; omega
    have hk : min ((g : Int) - (2 ^ (ebits - 1) + sbits - 3)).natAbs (w + 2)
        = g - (2 ^ (ebits - 1) + sbits - 3) := by
      rw [hna]; exact Nat.min_eq_left (by omega)
    rw [hk]
    have hfit : S * 2 ^ (P - sbits) * 2 ^ 1 * 2 ^ (g - (2 ^ (ebits - 1) + sbits - 3))
        < 2 ^ (P + 1 + w + 2) := by
      rw [hbig]
      have h1 : 2 ^ (g - (2 ^ (ebits - 1) + sbits - 3)) ≤ 2 ^ (w + 2) :=
        Nat.pow_le_pow_right (by decide) (by omega)
      calc S * 2 ^ (P - sbits) * 2 ^ 1 * 2 ^ (g - (2 ^ (ebits - 1) + sbits - 3))
          < 2 ^ (P + 1) * 2 ^ (g - (2 ^ (ebits - 1) + sbits - 3)) :=
            Nat.mul_lt_mul_of_pos_right hA (two_pow_pos _)
        _ ≤ 2 ^ (P + 1) * 2 ^ (w + 2) := Nat.mul_le_mul_left _ h1
    have hsel : mk_ite (decide ((g : Int) - (2 ^ (ebits - 1) + sbits - 3) ≤ 0))
        (mk_bvlshr (mk_bv_sort (P + 1 + w + 2))
          ⟨mk_bv_sort (P + 1 + w + 2), S * 2 ^ (P - sbits) * 2 ^ 1⟩
          ⟨mk_bv_sort (P + 1 + w + 2), g - (2 ^ (ebits - 1) + sbits - 3)⟩)
        (mk_bvshl (mk_bv_sort (P + 1 + w + 2))
          ⟨mk_bv_sort (P + 1 + w + 2), S * 2 ^ (P - sbits) * 2 ^ 1⟩
          ⟨mk_bv_sort (P + 1 + w + 2), g - (2 ^ (ebits - 1) + sbits - 3)⟩)
        = ⟨mk_bv_sort (P + 1 + w + 2),
            S * 2 ^ (P - sbits) * 2 ^ 1 * 2 ^ (g - (2 ^ (ebits - 1) + sbits - 3))⟩ := by
      by_cases he0 : (g : Int) - (2 ^ (ebits - 1) + sbits - 3) ≤ 0
      · have hz : g - (2 ^ (ebits - 1) + sbits - 3) = 0 := by
          rw [← hcB] at he0; omega
        rw [hz] at hfit ⊢
        simp only [he0, decide_True, mk_ite, if_true, mk_bvlshr, mk_bv_sort_data_width,
          Nat.pow_zero, Nat.div_one, Nat.mul_one] at hfit ⊢
        rw [Nat.mod_eq_of_lt hfit]
      · simp only [he0, decide_False, mk_ite, Bool.false_eq_true, if_false, mk_bvshl,
          mk_bv_sort_data_width]
        rw [Nat.mod_eq_of_lt hfit]
    rw [hsel]
    rw [to_bv_pre_rounded_rtz _ _ (P + 1 + w + 2) w M _ (by omega) (by
      rw [hbigw, int_part_left S sbits P _ (by omega) hP1, fmv])
      (lt_of_le_of_lt hMle (by rw [hpw3]; have := two_pow_pos w; omega))]
    rw [hneg_eq]
    exact to_bv_result_in_range _ t is_signed w hw1 hw2 hr

theorem to_bv_asserts_ok (ebits sbits v w : Nat) (he : 2 ≤ ebits) (hsb : 2 ≤ sbits)
    (hes : ebits ≤ sbits + w) : mk_to_bv_asserts (fp_val ebits sbits v) w = true := by
  obtain ⟨a1, a2, a3, a4, a5⟩ := unpack_sorts ebits sbits v true he hsb
  have hsw : (fp_val ebits sbits v).sort.get_significand_width = sbits :=
    significand_width_fields ebits sbits 0 0 v hsb
  have hew : (fp_val ebits sbits v).sort.get_exponent_width = ebits :=
    exponent_width_fields ebits sbits 0 0 v hsb
  have hsub : ∀ (s : smt_sort) (a b : smt_ast), (mk_bvsub s a b).sort = s := fun _ _ _ => rfl
  have hneg : ∀ (s : smt_sort) (a : smt_ast), (mk_bvneg s a).sort = s := fun _ _ => rfl
  have hzx : ∀ (a : smt_ast) (n : Nat),
      (mk_zero_ext a n).sort = mk_bv_sort (a.sort.data_width + n) := fun _ _ => rfl
  have hshl : ∀ (s : smt_sort) (a b : smt_ast), (mk_bvshl s a b).sort = s := fun _ _ _ => rfl
  have hshr : ∀ (s : smt_sort) (a b : smt_ast), (mk_bvlshr s a b).sort = s := fun _ _ _ => rfl
  by_cases h1 : sbits < w + 3
  · have e1 : ((w : Int) - sbits + 3).toNat = w + 3 - sbits := by omega
    have e2 : sbits + (w + 3 - sbits) = w + 3 := by omega
    have e3 : ebits + 2 < w + 3 + 1 + w + 2 := by omega
    have e4 : ebits + 2 + (w + 3 + 1 + w + 2 - ebits - 2) = w + 3 + (w + 2) + 1 := by omega
    have e5 : w + 3 + 1 + w + 2 - 1 - (w + 3 + 1 + w + 2 - (w + 3)) + 1 = w + 3 := by omega
    simp only [mk_to_bv_asserts, to_bv_shift, hsw, hew, a1, a2, a3, a4, a5, h1, if_true, e1,
      rounding_decision_rtz, mk_smt_bv_sort, mk_bv_sort_data_width, smt_sort.get_data_width,
      mk_ite_sort, mk_concat_sort, mk_extract_sort, hsub, hneg, hzx, hshl, hshr, mk_ite_same,
      e2, e3, e4, e5, decide_True, Bool.and_self, Nat.le_refl]
    have e7 : w + 3 + (w + 2) + 1 = w + 3 + 1 + w + 2 := by omega
    simp only [e7, decide_True, Bool.and_self]
  · have e3 : ebits + 2 < sbits + 1 + w + 2 := by omega
    have e4 : ebits + 2 + (sbits + 1 + w + 2 - ebits - 2) = sbits + (w + 2) + 1 := by omega
    have e5 : sbits + 1 + w + 2 - 1 - (sbits + 1 + w + 2 - (w + 3)) + 1 = w + 3 := by omega
    have e6 : w + 3 ≤ sbits := by omega
    simp only [mk_to_bv_asserts, to_bv_shift, hsw, hew, a1, a2, a3, a4, a5, h1, if_false,
      rounding_decision_rtz, mk_smt_bv_sort, mk_bv_sort_data_width, smt_sort.get_data_width,
      mk_ite_sort, mk_concat_sort, mk_extract_sort, hsub, hneg, hzx, hshl, hshr, mk_ite_same,
      e3, e4, e5, e6, decide_True, Bool.and_self, if_true]
    have e7 : sbits + (w + 2) + 1 = sbits + 1 + w + 2 := by omega
    simp only [e7, decide_True, Bool.and_self]

/-- The truncation of a signed magnitude on the scale 1 / 2^K. -/
theorem trunc_scaled (s m K : Nat) (hs : s < 2) :
    trunc ((-1) ^ s * (m : ℚ) * ((2 : ℚ) ^ K)⁻¹)
      = if s = 0 then ((m / 2 ^ K : Nat) : Int) else -((m / 2 ^ K : Nat) : Int) := by
  have hfl : ⌊(m : ℚ) * ((2 : ℚ) ^ K)⁻¹⌋ = ((m / 2 ^ K : Nat) : Int) := by
    have := Rat.floor_natCast_div_natCast m (2 ^ K)
    rw [← div_eq_mul_inv]
    push_cast at this ⊢
    exact this
  have hnn : (0 : ℚ) ≤ (m : ℚ) * ((2 : ℚ) ^ K)⁻¹ := by positivity
  have hs' : s = 0 ∨ s = 1 := by omega
  rcases hs' with rfl | rfl
  · simp only [pow_zero, one_mul, if_true]
    unfold trunc
    rw [if_pos hnn, hfl]
  · simp only [pow_one, neg_mul, one_mul, Nat.one_ne_zero, if_false]
    unfold trunc
    by_cases h0 : (0 : ℚ) ≤ -((m : ℚ) * ((2 : ℚ) ^ K)⁻¹)
    · have hz : (m : ℚ) * ((2 : ℚ) ^ K)⁻¹ = 0 := le_antisymm (by linarith) hnn
      rw [if_pos h0]
      rw [hz] at hfl
      rw [hz, ← hfl]
      simp
    · rw [if_neg h0, neg_neg, hfl]

/-- On a zero of either sign `mk_to_bv` gives the zero of the width. -/
theorem to_bv_zero (σ : String → Nat) (ebits sbits s w : Nat) (is_signed : Bool)
    (he : 2 ≤ ebits) (hsb : 2 ≤ sbits) :
    mk_to_bv σ (fp_of_fields ebits sbits s 0 0) is_signed w = mk_smt_bv 0 w := by
  obtain ⟨hB, hB2, hB4, hB0⟩ := pow_facts ebits he
  have hE : 0 < 2 ^ ebits := two_pow_pos _
  have hT : 0 < 2 ^ (sbits - 1) := two_pow_pos _
  have hnan : mk_smt_fpbv_is_nan (fp_of_fields ebits sbits s 0 0) = false := by
    rw [is_nan_fields ebits sbits s 0 0 (by omega) hsb hE hT]; simp
  have hinf : mk_smt_fpbv_is_inf (fp_of_fields ebits sbits s 0 0) = false := by
    rw [is_inf_fields ebits sbits s 0 0 (by omega) hsb hE hT]
    have : (0 : Nat) ≠ 2 ^ ebits - 1 := by omega
    simp [this]
  have hzero : mk_smt_fpbv_is_zero (fp_of_fields ebits sbits s 0 0) = true := by
    rw [is_zero_fields ebits sbits s 0 0 (by omega) hE hT]; simp
  simp only [mk_to_bv, hnan, hinf, hzero, Bool.or_self, mk_ite, Bool.false_eq_true, if_false,
    if_true]

/-- Claim C23: for a format with 2 ≤ ebits, 2 ≤ sbits < 2^ebits and
ebits ≤ sbits + w, a width 1 ≤ w ≤ 64 and a packed term x that denotes a finite
value q whose truncation toward zero lies in [0, 2^w - 1] (unsigned) or in
[-2^(w-1), 2^(w-1) - 1] (signed), `mk_to_bv` returns the w-bit constant of
trunc q, that is its two's-complement encoding, whatever the value of the
unspecified symbol, and none of the assertions on the way fails. -/
theorem C23_to_bv_in_range (σ : String → Nat) (ebits sbits v w : Nat) (q : ℚ)
    (is_signed : Bool)
    (he : 2 ≤ ebits) (hsb : 2 ≤ sbits) (hfmt : sbits < 2 ^ ebits) (hes : ebits ≤ sbits + w)
    (hw1 : 1 ≤ w) (hw2 : w ≤ 64) (hv : v < 2 ^ (ebits + sbits))
    (hq : fp_denote (fp_val ebits sbits v) = .finite q)
    (hr : if is_signed then -(2 ^ (w - 1) : Int) ≤ trunc q ∧ trunc q ≤ 2 ^ (w - 1) - 1
      else 0 ≤ trunc q ∧ trunc q ≤ 2 ^ w - 1) :
    mk_to_bv σ (fp_val ebits sbits v) is_signed w = mk_smt_bv (trunc q) w
      ∧ (mk_to_bv σ (fp_val ebits sbits v) is_signed w).val
          = (trunc q % (2 : Int) ^ w).toNat
      ∧ mk_to_bv_asserts (fp_val ebits sbits v) w = true := by
  have main : mk_to_bv σ (fp_val ebits sbits v) is_signed w = mk_smt_bv (trunc q) w := by
    obtain ⟨hx, hs, hE, hT⟩ := fp_val_eq_fields ebits sbits v (by omega) hv
    rw [hx] at hq ⊢
    generalize v / 2 ^ (ebits + (sbits - 1)) = s at *
    generalize v / 2 ^ (sbits - 1) % 2 ^ ebits = E at *
    generalize v % 2 ^ (sbits - 1) = T at *
    obtain ⟨htop, hqv, _⟩ := finite_nonzero_fields ebits sbits s E T q he hsb hs hE hT hq
    have htr := trunc_scaled s (mag (sbits - 1) E T) (2 ^ (ebits - 1) + sbits - 3) hs
    rw [← hqv] at htr
    by_cases h0 : E = 0 ∧ T = 0
    · obtain ⟨rfl, rfl⟩ := h0
      have hm : mag (sbits - 1) 0 0 = 0 := (mag_eq_zero_iff _ _ _).mpr ⟨rfl, rfl⟩
      rw [hm, Nat.zero_div] at htr
      have ht0 : trunc q = 0 := by rw [htr]; split <;> simp
      rw [ht0]
      exact to_bv_zero σ ebits sbits s w is_signed he hsb
    · exact to_bv_fields σ ebits sbits s E T w _ (trunc q) is_signed he hsb hfmt hes hs hE hT
        htop h0 hw1 hw2 rfl htr hr
  refine ⟨main, ?_, to_bv_asserts_ok ebits sbits v w he hsb hes⟩
  rw [main]
  rfl

/-- Witness for C23: single precision, 123.5 as an unsigned 8-bit integer is
123. -/
theorem C23_to_bv_in_range_witness :
    (2 ≤ 8 ∧ 2 ≤ 24 ∧ 24 < 2 ^ 8 ∧ 8 ≤ 24 + 8 ∧ 1 ≤ 8 ∧ 8 ≤ 64 ∧ 0x42f70000 < 2 ^ (8 + 24)
      ∧ fp_denote (fp_val 8 24 0x42f70000) = .finite (247 / 2)
      ∧ trunc (247 / 2) = 123)
    ∧ mk_to_bv (fun _ => 0) (fp_val 8 24 0x42f70000) false 8 = mk_smt_bv 123 8 :=
  have h1 : fp_denote (fp_val 8 24 0x42f70000) = .finite (247 / 2) := by
    simp only [fp_denote, fp_val, mk_fpbv_sort, mk_bv_fp_sort, smt_sort.get_exponent_width,
      smt_sort.get_significand_width, smt_sort.get_data_width]
    norm_num
  have h2 : trunc (247 / 2) = 123 := by
    unfold trunc
    rw [if_pos (by norm_num), Int.floor_eq_iff]
    norm_num
  ⟨⟨by decide, by decide, by decide, by decide, by decide, by decide, by decide, h1, h2⟩,
    h2 ▸ (C23_to_bv_in_range (fun _ => 0) 8 24 0x42f70000 8 (247 / 2) false (by decide)
      (by decide) (by decide) (by decide) (by decide) (by decide) (by decide) h1
      (by rw [h2]; decide)).1⟩

/-- Claim C24 (divergence): the range check of `mk_to_bv` compares the
(w+3)-bit integer part as a signed number, and the shift is capped at w + 2, so
a value whose integer part has its top bit set is read as negative. In single
precision, as a signed 8-bit integer, 1920 (truncation 1920, outside
[-128, 127]) gives the constant -128 and the largest finite value gives -1; as
an unsigned 8-bit integer the most negative finite value gives 1. None of these
is the unspecified symbol, which has the sort of x. The other cases are as
described on these inputs: a NaN and an infinity give the symbol, both zeros
give 0, and 1536 as a signed 8-bit integer gives the symbol. -/
theorem C24_out_of_range_concrete :
    fp_denote (fp_val 8 24 0x44f00000) = .finite 1920 ∧ trunc 1920 = 1920
    ∧ mk_to_bv_asserts (fp_val 8 24 0x44f00000) 8 = true
    ∧ (∀ σ : String → Nat, mk_to_bv σ (fp_val 8 24 0x44f00000) true 8 = mk_smt_bv (-128) 8)
    ∧ (∀ σ : String → Nat, mk_to_bv σ (fp_val 8 24 0x7f7fffff) true 8 = mk_smt_bv (-1) 8)
    ∧ (∀ σ : String → Nat, mk_to_bv σ (fp_val 8 24 0xff7fffff) false 8 = mk_smt_bv 1 8)
    ∧ (∀ σ : String → Nat,
        (mk_smt_symbol σ "Unspecified_FP" (fp_val 8 24 0x44f00000).sort).sort
          ≠ (mk_smt_bv (-128) 8).sort)
    ∧ (∀ σ : String → Nat, mk_to_bv σ (fp_val 8 24 0x7fc00000) true 8
        = mk_smt_symbol σ "Unspecified_FP" (fp_val 8 24 0x7fc00000).sort)
    ∧ (∀ σ : String → Nat, mk_to_bv σ (fp_val 8 24 0x7f800000) true 8
        = mk_smt_symbol σ "Unspecified_FP" (fp_val 8 24 0x7f800000).sort)
    ∧ (∀ σ : String → Nat, mk_to_bv σ (fp_val 8 24 0x44c00000) true 8
        = mk_smt_symbol σ "Unspecified_FP" (fp_val 8 24 0x44c00000).sort)
    ∧ (∀ σ : String → Nat, mk_to_bv σ (fp_val 8 24 0) true 8 = mk_smt_bv 0 8)
    ∧ (∀ σ : String → Nat, mk_to_bv σ (fp_val 8 24 0x80000000) true 8 = mk_smt_bv 0 8) := by
  refine ⟨?_, ?_, by decide, fun σ => by rfl, fun σ => by rfl, fun σ => by rfl, ?_,
    fun σ => by rfl, fun σ => by rfl, fun σ => by rfl, fun σ => by rfl, fun σ => by rfl⟩
  · simp only [fp_denote, fp_val, mk_fpbv_sort, mk_bv_fp_sort, smt_sort.get_exponent_width,
      smt_sort.get_significand_width, smt_sort.get_data_width]
    norm_num
  · unfold trunc
    rw [if_pos (by norm_num), Int.floor_eq_iff]
    norm_num
  · intro σ h
    have h2 : (32 : Nat) = 8 := congrArg smt_sort.data_width h
    omega

/-! ## Conversion of an unsigned integer and back (C21) -/

/-- A significand with its leading one in the top bit has no leading zeros. -/
theorem round_lz_top (ebits sbits S : Nat) (hsb : 1 ≤ sbits)
    (hS1 : 2 ^ (sbits - 1) ≤ S) (hS2 : S < 2 ^ sbits) :
    mk_leading_zeros ⟨mk_bv_sort (sbits + 4), 16 * S⟩ (ebits + 2)
      = ⟨mk_bv_sort (ebits + 2), 0⟩ := by
  have p1 : 2 ^ (sbits + 4) = 16 * 2 ^ sbits := by rw [Nat.pow_add]; ring
  have p2 : 2 ^ (sbits + 3) = 16 * 2 ^ (sbits - 1) := by
    rw [show sbits + 3 = (sbits - 1) + 4 by omega, Nat.pow_add]; ring
  have h1 : Nat.size (16 * S) ≤ sbits + 4 := Nat.size_le.mpr (by omega)
  have h2 : sbits + 3 < Nat.size (16 * S) := Nat.lt_size.mpr (by omega)
  rw [mk_leading_zeros_eq _ _ _ (by omega)]
  congr 1
  have : sbits + 4 - Nat.size (16 * S) = 0 := by omega
  rw [this]
  exact Nat.zero_mod _

theorem arith_top (B E : Nat) (hB0 : 2 ≤ B) (hE1 : 1 ≤ E) (hE2 : E + 2 ≤ 2 * B) :
    ((E + 7 * B) % (8 * B) + 1) % (8 * B) = (E + 1 + 7 * B) % (8 * B)
    ∧ ((E + 7 * B) % (8 * B) + 1 < B ∨ 4 * B ≤ (E + 7 * B) % (8 * B))
    ∧ (((E + 7 * B) % (8 * B) + 1) % (8 * B) + 8 * B) % (8 * B)
        = (((E + 1 + 7 * B) % (8 * B) + 1) % (8 * B) + (8 * B - 1)) % (8 * B) := by
  have hB1 : 0 < B := by omega
  refine ⟨?_, ?_, ?_⟩
  · rw [Nat.mod_add_mod]
    congr 1
    omega
  · have F1 := mod_two_cases (E + 7 * B) (8 * B) (by omega)
    generalize (E + 7 * B) % (8 * B) = x1 at *
    omega
  · rw [Nat.add_mod_right, Nat.mod_mod, Nat.mod_add_mod, Nat.mod_add_mod]
    have e1 : (E + 1 + 7 * B) % (8 * B) + 1 + (8 * B - 1)
        = (E + 1 + 7 * B) % (8 * B) + 8 * B := by omega
    rw [e1, Nat.add_mod_right, Nat.mod_mod]
    congr 1
    omega

theorem round_OVF1_top (ebits sbits V X : Nat) (he : 2 ≤ ebits)
    (hX : X < 2 ^ (ebits + 2)) (hX2 : X + 1 < 2 ^ (ebits - 1) ∨ 2 ^ (ebits + 1) ≤ X) :
    round_OVF1 ⟨mk_bv_sort (sbits + 4), V⟩ ⟨mk_bv_sort (ebits + 2), X⟩ ebits sbits = false := by
  have hB : 2 ^ ebits = 2 * 2 ^ (ebits - 1) := pow_pred_two ebits (by omega)
  have hB2 : 2 ^ (ebits + 1) = 4 * 2 ^ (ebits - 1) := by rw [pow_succ_two, hB]; ring
  have hB4 : 2 ^ (ebits + 2) = 8 * 2 ^ (ebits - 1) := by
    rw [show ebits + 2 = ebits + 1 + 1 from rfl, pow_succ_two, hB2]; ring
  have hpos := two_pow_pos (ebits - 1)
  simp only [round_OVF1, mk_extract, Nat.sub_self, Nat.zero_add, Nat.pow_one, mk_eq,
    mk_smt_bv_one, show (1 : Nat) % 2 = 1 from rfl, mk_zero_ext, mk_max_exp, power2m1_false,
    mk_smt_bv_natCast]
  rw [hB2, hB]
  rw [hB4] at hX
  rw [hB2] at hX2
  generalize 2 ^ (ebits - 1) = B at *
  have hm : (B - 1) % (2 * B) = B - 1 := Nat.mod_eq_of_lt (by omega)
  rw [hm]
  rcases hX2 with h | h
  · have d1 : X / (2 * B) = 0 := Nat.div_eq_of_lt (by omega)
    have d2 : X / B = 0 := Nat.div_eq_of_lt (by omega)
    have d3 : ¬ (B - 1 = X) := by omega
    simp [d1, d2, d3]
  · have d1 : X / (4 * B) = 1 := div_eq_of_decomp _ _ 1 (X - 4 * B) (by omega) (by omega)
    have d3 : ¬ (B - 1 = X) := by omega
    simp [d1, d3]

theorem round_TINY_top (ebits sbits V X E : Nat) (he : 2 ≤ ebits) (he64 : ebits ≤ 62)
    (hlz : mk_leading_zeros ⟨mk_bv_sort (sbits + 4), V⟩ (ebits + 2)
      = ⟨mk_bv_sort (ebits + 2), 0⟩)
    (hE1 : 1 ≤ E) (hE2 : E + 2 ≤ 2 ^ ebits)
    (hX : X = (E + 7 * 2 ^ (ebits - 1)) % 2 ^ (ebits + 2)) :
    round_TINY ⟨mk_bv_sort (sbits + 4), V⟩ ⟨mk_bv_sort (ebits + 2), X⟩ ebits = false := by
  obtain ⟨hB, hB2, hB4, hB0⟩ := pow_facts ebits he
  simp only [round_TINY, hlz, sign_ext_min_exp _ he, mk_bvadd, mk_bvsub, mk_smt_bv_one,
    ullmax_eq _ (by omega : ebits + 2 ≤ 64), mk_bv_sort_data_width]
  rw [slte_all_ones _ _ (by omega) (Nat.mod_lt _ (two_pow_pos _))]
  simp only [decide_eq_false_iff_not, show ebits + 2 - 1 = ebits + 1 from rfl, hB2, hB4,
    Nat.not_le]
  rw [hB4] at hX
  rw [hB] at hE2
  generalize 2 ^ (ebits - 1) = B at *
  subst hX
  have h1 : 1 % (8 * B) = 1 := Nat.mod_eq_of_lt (by omega)
  have h0 : 0 % (8 * B) = 0 := Nat.zero_mod _
  rw [h1, h0, Nat.sub_zero, (arith_top B E hB0 hE1 hE2).2.2, (arith_N B E hB0 hE1 hE2).1]
  omega

theorem round_beta_top (ebits sbits V X E : Nat) (he : 2 ≤ ebits)
    (hlz : mk_leading_zeros ⟨mk_bv_sort (sbits + 4), V⟩ (ebits + 2)
      = ⟨mk_bv_sort (ebits + 2), 0⟩)
    (hE1 : 1 ≤ E) (hE2 : E + 2 ≤ 2 ^ ebits)
    (hX : X = (E + 7 * 2 ^ (ebits - 1)) % 2 ^ (ebits + 2)) :
    round_beta ⟨mk_bv_sort (sbits + 4), V⟩ ⟨mk_bv_sort (ebits + 2), X⟩ ebits
      = ⟨mk_bv_sort (ebits + 2), (E + 1 + 7 * 2 ^ (ebits - 1)) % 2 ^ (ebits + 2)⟩ := by
  obtain ⟨hB, hB2, hB4, hB0⟩ := pow_facts ebits he
  simp only [round_beta, hlz, mk_bvadd, mk_bvsub, mk_smt_bv_one, mk_bv_sort_data_width]
  congr 1
  rw [hB4] at hX ⊢
  rw [hB] at hE2
  generalize 2 ^ (ebits - 1) = B at *
  subst hX
  have h1 : 1 % (8 * B) = 1 := Nat.mod_eq_of_lt (by omega)
  have h0 : 0 % (8 * B) = 0 := Nat.zero_mod _
  rw [h1, h0, Nat.sub_zero, Nat.add_mod_right, Nat.mod_mod, (arith_top B E hB0 hE1 hE2).1]

/-- A significand with its leading one in the top bit and the exponent one
below that of the value is packed as it stands by `round`, in every rounding
mode. -/
theorem round_exact_top (rm : smt_ast) (ebits sbits s E T : Nat) (he : 2 ≤ ebits)
    (he64 : ebits ≤ 62) (hsb : 2 ≤ sbits) (hs : s < 2) (hT : T < 2 ^ (sbits - 1))
    (hE1 : 1 ≤ E) (hE2 : E + 2 ≤ 2 ^ ebits) :
    round rm ⟨mk_bv_sort 1, s⟩ ⟨mk_bv_sort (sbits + 4), 16 * (2 ^ (sbits - 1) + T)⟩
        ⟨mk_bv_sort (ebits + 2), (E + 7 * 2 ^ (ebits - 1)) % 2 ^ (ebits + 2)⟩ ebits sbits
      = fp_of_fields ebits sbits s E T := by
  obtain ⟨hB, hB2, hB4, hB0⟩ := pow_facts ebits he
  have hpow : 2 ^ sbits = 2 * 2 ^ (sbits - 1) := pow_pred_two sbits (by omega)
  have hS1 : 2 ^ (sbits - 1) ≤ 2 ^ (sbits - 1) + T := by omega
  have hS2 : 2 ^ (sbits - 1) + T < 2 ^ sbits := by omega
  have hlz := round_lz_top ebits sbits _ (by omega) hS1 hS2
  have p4 : 2 ^ (sbits + 4) = 16 * 2 ^ sbits := by rw [Nat.pow_add]; ring
  have p3 : 2 ^ (sbits + 3) = 8 * 2 ^ sbits := by rw [Nat.pow_add]; ring
  have hXlt : (E + 7 * 2 ^ (ebits - 1)) % 2 ^ (ebits + 2) < 2 ^ (ebits + 2) :=
    Nat.mod_lt _ (two_pow_pos _)
  have hA := arith_N (2 ^ (ebits - 1)) E hB0 hE1 (by omega)
  have hA' := arith_top (2 ^ (ebits - 1)) E hB0 hE1 (by omega)
  rw [← hB4, ← hB] at hA
  rw [← hB4] at hA'
  have hovf : round_OVF1 ⟨mk_bv_sort (sbits + 4), 16 * (2 ^ (sbits - 1) + T)⟩
      ⟨mk_bv_sort (ebits + 2), (E + 7 * 2 ^ (ebits - 1)) % 2 ^ (ebits + 2)⟩ ebits sbits
      = false :=
    round_OVF1_top ebits sbits _ _ he hXlt (by rw [hB2]; exact hA'.2.1)
  have htiny := round_TINY_top ebits sbits _ _ E he he64 hlz hE1 hE2 rfl
  have hbeta := round_beta_top ebits sbits _ _ E he hlz hE1 hE2 rfl
  have hsigma : round_sigma ⟨mk_bv_sort (sbits + 4), 16 * (2 ^ (sbits - 1) + T)⟩
      ⟨mk_bv_sort (ebits + 2), (E + 7 * 2 ^ (ebits - 1)) % 2 ^ (ebits + 2)⟩ ebits
      = ⟨mk_bv_sort (ebits + 2), 0⟩ := by
    simp only [round_sigma, htiny, mk_ite, Bool.false_eq_true, if_false, hlz]
  have hbig := round_big_sh_sig_left ebits sbits (16 * (2 ^ (sbits - 1) + T)) 0 he he64
    (two_pow_pos _) (by omega)
  have hval : 16 * (2 ^ (sbits - 1) + T) * 2 ^ 0 * 2 ^ (sbits + 4)
      = (2 ^ (sbits - 1) + T) * 2 ^ (sbits + 8) := by
    rw [show sbits + 8 = (sbits + 4) + 4 from rfl, Nat.pow_add]; ring
  rw [hval] at hbig
  simp only [round, hovf, htiny, hbeta, hsigma, hbig, mk_ite, Bool.false_eq_true, if_false,
    smt_sort.get_data_width, mk_bv_sort_data_width]
  rw [round_tail_exact rm ebits sbits s _ _ he hsb hs hS2]
  have d1 : (2 ^ (sbits - 1) + T) / 2 ^ (sbits - 1) = 1 :=
    div_eq_of_decomp _ _ 1 T (by omega) hT
  have d2 : (2 ^ (sbits - 1) + T) % 2 ^ (sbits - 1) = T :=
    mod_eq_of_decomp _ _ 1 T (by omega) hT
  rw [d1, d2, hA.2.2.2]
  simp

theorem floor_log2_fuel_le (f : Nat) : ∀ n k : Nat, n < 2 ^ (k + 1) → floor_log2_fuel f n ≤ k := by
  induction f with
  | zero => intro n k _; exact Nat.zero_le _
  | succ f ih =>
    intro n k h
    unfold floor_log2_fuel
    by_cases h2 : n < 2
    · rw [if_pos h2]; exact Nat.zero_le _
    · rw [if_neg h2]
      cases k with
      | zero => simp at h; omega
      | succ k =>
        have h3 : n / 2 < 2 ^ (k + 1) := by
          rw [pow_succ_two (k + 1)] at h
          omega
        have := ih (n / 2) k h3
        omega

theorem floor_log2_lt (n k : Nat) (hk : 1 ≤ k) (h : n < 2 ^ k) : floor_log2 n < k := by
  obtain ⟨j, rfl⟩ : ∃ j, k = j + 1 := ⟨k - 1, by omega⟩
  have := floor_log2_fuel_le n n j h
  unfold floor_log2
  omega

/-- A nonzero number shifted left until its leading one is in bit w - 1. -/
theorem shift_size_bounds (w n : Nat) (hn0 : n ≠ 0) (hn : n < 2 ^ w) :
    1 ≤ Nat.size n ∧ Nat.size n ≤ w
    ∧ 2 ^ (w - 1) ≤ n * 2 ^ (w - Nat.size n) ∧ n * 2 ^ (w - Nat.size n) < 2 ^ w := by
  have h1 : 1 ≤ Nat.size n := Nat.size_pos.mpr (Nat.pos_of_ne_zero hn0)
  have h2 : Nat.size n ≤ w := Nat.size_le.mpr hn
  have h3 : 2 ^ (Nat.size n - 1) ≤ n := Nat.lt_size.mp (by omega)
  have h4 : n < 2 ^ Nat.size n := Nat.lt_size_self n
  refine ⟨h1, h2, ?_, ?_⟩
  · have e : 2 ^ (w - 1) = 2 ^ (Nat.size n - 1) * 2 ^ (w - Nat.size n) := by
      rw [← Nat.pow_add]; congr 1; omega
    rw [e]
    exact Nat.mul_le_mul_right _ h3
  · have e : 2 ^ w = 2 ^ Nat.size n * 2 ^ (w - Nat.size n) := by
      rw [← Nat.pow_add]; congr 1; omega
    rw [e]
    exact Nat.mul_lt_mul_of_pos_right h4 (two_pow_pos _)

/-- The exponent that the conversion of an integer passes to `round`: W is
the width of the shifted integer and p the position after its leading one. -/
theorem ubv_exp_code (W p ebits : Nat) (he : 2 ≤ ebits) (hW : ebits + 2 ≤ W) (hp : 1 ≤ p)
    (hpW : p ≤ W) :
    mk_extract (mk_bvsub (mk_bv_sort W) (mk_smt_bv ((W - 2 : Nat) : Int) W)
        ⟨mk_bv_sort W, W - p⟩) (ebits + 2 - 1) 0
      = ⟨mk_bv_sort (ebits + 2),
          (p - 1 + (2 ^ (ebits - 1) - 1) + 7 * 2 ^ (ebits - 1)) % 2 ^ (ebits + 2)⟩ := by
  obtain ⟨hB, hB2, hB4, hB0⟩ := pow_facts ebits he
  have hWlt := lt_two_pow_self W
  have hk : 2 ^ W = 2 ^ (ebits + 2) * 2 ^ (W - (ebits + 2)) := by
    rw [← Nat.pow_add]; congr 1; omega
  have hkpos := two_pow_pos (W - (ebits + 2))
  have e1 : ebits + 2 - 1 - 0 + 1 = ebits + 2 := by omega
  simp only [mk_extract, mk_bvsub, mk_smt_bv_natCast, mk_bv_sort_data_width, Nat.pow_zero,
    Nat.div_one, e1]
  congr 1
  rw [Nat.mod_eq_of_lt (show W - 2 < 2 ^ W by omega),
    Nat.mod_eq_of_lt (show W - p < 2 ^ W by omega),
    Nat.mod_mod_of_dvd _ ⟨_, hk⟩]
  have e2 : W - 2 + (2 ^ W - (W - p)) = 2 ^ W + p - 2 := by omega
  rw [e2, hk, hB4]
  generalize 2 ^ (W - (ebits + 2)) = k at *
  generalize 2 ^ (ebits - 1) = B at *
  have e3 : 8 * B * k = 8 * B * (k - 1) + 8 * B := by
    obtain ⟨j, rfl⟩ : ∃ j, k = j + 1 := ⟨k - 1, by omega⟩
    simp only [Nat.add_sub_cancel]; ring
  have h3 : (8 * B * k + p - 2) % (8 * B) = (p + 8 * B - 2) % (8 * B) := by
    rw [e3]
    have : 8 * B * (k - 1) + 8 * B + p - 2 = (p + 8 * B - 2) + (8 * B) * (k - 1) := by omega
    rw [this, Nat.add_mul_mod_self_left]
  rw [h3]
  congr 1
  omega

/-- The significand that the conversion of an integer at least as wide as
sbits + 4 passes to `round`, when the integer fits sbits bits. -/
theorem ubv_sig_wide (m sbits S : Nat) (h1 : sbits + 4 ≤ m) (hS2 : S < 2 ^ sbits) :
    mk_concat (mk_extract ⟨mk_bv_sort m, S * 2 ^ (m - sbits)⟩ (m - 1) (m - (sbits + 4) + 1))
        (mk_bvredor (mk_extract ⟨mk_bv_sort m, S * 2 ^ (m - sbits)⟩ (m - (sbits + 4)) 0))
      = ⟨mk_bv_sort (sbits + 4), 16 * S⟩ := by
  have e1 : m - 1 - (m - (sbits + 4) + 1) + 1 = sbits + 3 := by omega
  have e2 : m - (sbits + 4) - 0 + 1 = m - (sbits + 4) + 1 := by omega
  have e3 : 2 ^ (m - sbits) = 8 * 2 ^ (m - (sbits + 4) + 1) := by
    rw [show m - sbits = (m - (sbits + 4) + 1) + 3 by omega, Nat.pow_add]; ring
  have hpos := two_pow_pos (m - (sbits + 4) + 1)
  have p3 : 2 ^ (sbits + 3) = 8 * 2 ^ sbits := by rw [Nat.pow_add]; ring
  have v1 : S * 2 ^ (m - sbits) / 2 ^ (m - (sbits + 4) + 1) = 8 * S := by
    rw [e3, show S * (8 * 2 ^ (m - (sbits + 4) + 1)) = 8 * S * 2 ^ (m - (sbits + 4) + 1) by ring]
    exact Nat.mul_div_cancel _ hpos
  have v2 : S * 2 ^ (m - sbits) % 2 ^ (m - (sbits + 4) + 1) = 0 := by
    rw [e3, show S * (8 * 2 ^ (m - (sbits + 4) + 1)) = 8 * S * 2 ^ (m - (sbits + 4) + 1) by ring]
    exact Nat.mul_mod_left _ _
  simp only [mk_concat, mk_extract, mk_bvredor, mk_bv_sort_data_width, e1, e2, v1, v2,
    Nat.pow_zero, Nat.div_one, if_true, Nat.pow_one, Nat.add_zero,
    Nat.mod_eq_of_lt (show 8 * S < 2 ^ (sbits + 3) by omega)]
  congr 1
  omega

/-- The conversion of a nonzero unsigned integer below 2^sbits: the fields of
the result, in every rounding mode. -/
theorem ubv_to_fp_exact (rm : smt_ast) (ebits sbits m n : Nat) (he : 2 ≤ ebits)
    (he64 : ebits ≤ 62) (hsb : 2 ≤ sbits) (hes : ebits ≤ sbits + 2) (hfmt : sbits < 2 ^ ebits)
    (hm : m ≤ 2 ^ (ebits - 1)) (hn0 : n ≠ 0) (hn : n < 2 ^ m) (hns : n < 2 ^ sbits) :
    mk_smt_typecast_ubv_to_fpbv ⟨mk_bv_sort m, n⟩ (mk_fpbv_sort ebits (sbits - 1)) rm
      = fp_of_fields ebits sbits 0 (Nat.size n - 1 + (2 ^ (ebits - 1) - 1))
          (n * 2 ^ (sbits - Nat.size n) - 2 ^ (sbits - 1)) := by
  obtain ⟨hB, hB2, hB4, hB0⟩ := pow_facts ebits he
  have hw : (mk_fpbv_sort ebits (sbits - 1)).get_exponent_width = ebits :=
    exponent_width_fields ebits sbits 0 0 0 hsb
  have hsw : (mk_fpbv_sort ebits (sbits - 1)).get_significand_width = sbits :=
    significand_width_fields ebits sbits 0 0 0 hsb
  obtain ⟨hp1, hp2, hS1, hS2⟩ := shift_size_bounds sbits n hn0 hns
  obtain ⟨_, hp3, hM1, hM2⟩ := shift_size_bounds m n hn0 hn
  have hxw : (⟨mk_bv_sort m, n⟩ : smt_ast).sort.get_data_width = m := rfl
  have hz : mk_eq ⟨mk_bv_sort m, n⟩ (mk_smt_bv 0 m) = false := by
    simp only [mk_eq, mk_smt_bv_zero, decide_eq_false_iff_not]
    exact hn0
  have hmlt := lt_two_pow_self m
  have hlz : mk_leading_zeros ⟨mk_bv_sort m, n⟩ m = ⟨mk_bv_sort m, m - Nat.size n⟩ := by
    rw [mk_leading_zeros_eq m n m hn, Nat.mod_eq_of_lt (by omega)]
  have hshl : mk_bvshl (mk_bv_sort m) ⟨mk_bv_sort m, n⟩ ⟨mk_bv_sort m, m - Nat.size n⟩
      = ⟨mk_bv_sort m, n * 2 ^ (m - Nat.size n)⟩ := by
    simp only [mk_bvshl, mk_bv_sort_data_width, Nat.mod_eq_of_lt hM2]
  by_cases h1 : sbits + 4 ≤ m
  · have hfl : ¬ (ebits + 2 < floor_log2 m + 1) := by
      have := floor_log2_lt m (ebits + 2) (by omega) (by omega)
      omega
    simp only [mk_smt_typecast_ubv_to_fpbv, hw, hsw, hxw, hz, hlz, hshl, mk_ite,
      Bool.false_eq_true, if_false, h1, if_true, hfl]
    have hv : n * 2 ^ (m - Nat.size n) = n * 2 ^ (sbits - Nat.size n) * 2 ^ (m - sbits) := by
      rw [Nat.mul_assoc, ← Nat.pow_add]; congr 2; omega
    rw [hv, ubv_sig_wide m sbits _ h1 hS2, ubv_exp_code m (Nat.size n) ebits he (by omega) hp1
      hp3, mk_smt_bv_zero]
    have hT : 16 * (n * 2 ^ (sbits - Nat.size n))
        = 16 * (2 ^ (sbits - 1) + (n * 2 ^ (sbits - Nat.size n) - 2 ^ (sbits - 1))) := by omega
    rw [hT]
    exact round_exact_top rm ebits sbits 0 _ _ he he64 hsb (by omega)
      (by rw [pow_pred_two sbits (by omega)] at hS2; omega) (by omega) (by omega)
  · have hfl : ¬ (ebits + 2 < floor_log2 (m + (sbits + 4 - m)) + 1) := by
      have := floor_log2_lt (m + (sbits + 4 - m)) (ebits + 2) (by omega) (by omega)
      omega
    simp only [mk_smt_typecast_ubv_to_fpbv, hw, hsw, hxw, hz, hlz, hshl, mk_ite,
      Bool.false_eq_true, if_false, h1, if_true, hfl]
    have hW : m + (sbits + 4 - m) = sbits + 4 := by omega
    have hsig : mk_concat (⟨mk_bv_sort m, n * 2 ^ (m - Nat.size n)⟩ : smt_ast)
        (mk_smt_bv 0 (sbits + 4 - m))
        = ⟨mk_bv_sort (sbits + 4), 16 * (n * 2 ^ (sbits - Nat.size n))⟩ := by
      simp only [mk_concat, mk_smt_bv_zero, mk_bv_sort_data_width, Nat.add_zero, hW]
      congr 1
      have : 16 * (n * 2 ^ (sbits - Nat.size n))
          = n * (2 ^ (sbits - Nat.size n) * 2 ^ 4) := by ring
      rw [this, Nat.mul_assoc, ← Nat.pow_add, ← Nat.pow_add]
      congr 2
      omega
    have hlz1 : mk_bvadd (mk_bv_sort (sbits + 4))
        (mk_concat (mk_smt_bv 0 (sbits + 4 - m)) ⟨mk_bv_sort m, m - Nat.size n⟩)
        (mk_smt_bv ((sbits + 4 - m : Nat) : Int) (sbits + 4))
        = ⟨mk_bv_sort (sbits + 4), sbits + 4 - Nat.size n⟩ := by
      have := lt_two_pow_self (sbits + 4)
      simp only [mk_bvadd, mk_concat, mk_smt_bv_zero, mk_smt_bv_natCast, mk_bv_sort_data_width,
        Nat.zero_mul, Nat.zero_add,
        Nat.mod_eq_of_lt (show sbits + 4 - m < 2 ^ (sbits + 4) by omega)]
      congr 1
      rw [Nat.mod_eq_of_lt (by omega)]
      omega
    rw [hsig, hlz1, hW, ubv_exp_code (sbits + 4) (Nat.size n) ebits he (by omega) hp1 (by omega),
      mk_smt_bv_zero]
    have hT : 16 * (n * 2 ^ (sbits - Nat.size n))
        = 16 * (2 ^ (sbits - 1) + (n * 2 ^ (sbits - Nat.size n) - 2 ^ (sbits - 1))) := by omega
    rw [hT]
    exact round_exact_top rm ebits sbits 0 _ _ he he64 hsb (by omega)
      (by rw [pow_pred_two sbits (by omega)] at hS2; omega) (by omega) (by omega)

theorem ubv_asserts_ok (w xv ebits sbits : Nat) (hsb : 2 ≤ sbits) :
    mk_smt_typecast_ubv_to_fpbv_asserts ⟨mk_bv_sort w, xv⟩ (mk_fpbv_sort ebits (sbits - 1))
      = true := by
  have hw : (mk_fpbv_sort ebits (sbits - 1)).get_exponent_width = ebits :=
    exponent_width_fields ebits sbits 0 0 0 hsb
  have hsw : (mk_fpbv_sort ebits (sbits - 1)).get_significand_width = sbits :=
    significand_width_fields ebits sbits 0 0 0 hsb
  have e0 : ebits + 2 - 1 - 0 + 1 = ebits + 2 := by omega
  have hmax : (mk_max_exp (ebits + 2)).sort = mk_bv_sort (ebits + 2) := rfl
  have hred : ∀ a : smt_ast, (mk_bvredor a).sort = mk_bv_sort 1 := fun _ => rfl
  have hsub : ∀ (s : smt_sort) (a b : smt_ast), (mk_bvsub s a b).sort = s := fun _ _ _ => rfl
  have hadd : ∀ (s : smt_sort) (a b : smt_ast), (mk_bvadd s a b).sort = s := fun _ _ _ => rfl
  have hshl : ∀ (s : smt_sort) (a b : smt_ast), (mk_bvshl s a b).sort = s := fun _ _ _ => rfl
  by_cases h1 : sbits + 4 ≤ w
  · have e1 : w - 1 - (w - (sbits + 4) + 1) + 1 + 1 = sbits + 4 := by omega
    by_cases h2 : ebits + 2 < floor_log2 w + 1 <;>
    simp only [mk_smt_typecast_ubv_to_fpbv_asserts, hw, hsw, mk_leading_zeros_sort,
      mk_smt_bv_sort, mk_bv_sort_data_width, smt_sort.get_data_width, decide_True, Bool.true_and,
      Bool.and_eq_true, decide_eq_true_eq, h1, h2, if_true, if_false, mk_ite_sort, mk_concat_sort,
      mk_extract_sort, hmax, hred, hsub, hadd, hshl, e0, e1, mk_ite_same, and_self]
  · have e1 : w + (sbits + 4 - w) = sbits + 4 := by omega
    by_cases h2 : ebits + 2 < floor_log2 (sbits + 4) + 1 <;>
    simp only [mk_smt_typecast_ubv_to_fpbv_asserts, hw, hsw, mk_leading_zeros_sort,
      mk_smt_bv_sort, mk_bv_sort_data_width, smt_sort.get_data_width, decide_True, Bool.true_and,
      Bool.and_eq_true, decide_eq_true_eq, h1, h2, if_true, if_false, mk_ite_sort, mk_concat_sort,
      mk_extract_sort, hmax, hred, hsub, hadd, hshl, e0, e1, mk_ite_same, and_self]

/-- Claim C21: for a width 1 ≤ m ≤ 64, a target format with 2 ≤ ebits ≤ 62,
ebits ≤ sbits + 1, 2 ≤ sbits < 2^ebits whose exponent range covers m
(m ≤ 2^(ebits-1)), and an m-bit unsigned integer n < 2^sbits (so in particular
every n ≤ 2^(sbits-1)), the conversion of n to floating point (in any rounding
mode, in particular RTZ) followed by the conversion to an m-bit unsigned
bit-vector returns n, whatever the value of the unspecified symbol; none of the
assertions of the two conversions fails. -/
theorem C21_ubv_fp_ubv (σ : String → Nat) (rm : smt_ast) (ebits sbits m n : Nat)
    (he : 2 ≤ ebits) (he64 : ebits ≤ 62) (hsb : 2 ≤ sbits) (hes : ebits ≤ sbits + 1)
    (hfmt : sbits < 2 ^ ebits) (hm1 : 1 ≤ m) (hm64 : m ≤ 64) (hm : m ≤ 2 ^ (ebits - 1))
    (hn : n < 2 ^ m) (hns : n < 2 ^ sbits) :
    mk_smt_typecast_from_fpbv_to_ubv σ
        (mk_smt_typecast_ubv_to_fpbv ⟨mk_bv_sort m, n⟩ (mk_fpbv_sort ebits (sbits - 1)) rm) m
      = ⟨mk_bv_sort m, n⟩
    ∧ mk_smt_typecast_ubv_to_fpbv_asserts ⟨mk_bv_sort m, n⟩ (mk_fpbv_sort ebits (sbits - 1))
      = true
    ∧ mk_to_bv_asserts
        (mk_smt_typecast_ubv_to_fpbv ⟨mk_bv_sort m, n⟩ (mk_fpbv_sort ebits (sbits - 1)) rm) m
      = true := by
  obtain ⟨hB, hB2, hB4, hB0⟩ := pow_facts ebits he
  have hw : (mk_fpbv_sort ebits (sbits - 1)).get_exponent_width = ebits :=
    exponent_width_fields ebits sbits 0 0 0 hsb
  have hsw : (mk_fpbv_sort ebits (sbits - 1)).get_significand_width = sbits :=
    significand_width_fields ebits sbits 0 0 0 hsb
  have hres : ∃ E T, mk_smt_typecast_ubv_to_fpbv ⟨mk_bv_sort m, n⟩
        (mk_fpbv_sort ebits (sbits - 1)) rm = fp_of_fields ebits sbits 0 E T
      ∧ mk_to_bv σ (fp_of_fields ebits sbits 0 E T) false m = ⟨mk_bv_sort m, n⟩ := by
    by_cases hn0 : n = 0
    · subst hn0
      refine ⟨0, 0, ?_, ?_⟩
      · have hz : mk_eq ⟨mk_bv_sort m, 0⟩ (mk_smt_bv 0 m) = true := by
          simp only [mk_eq, mk_smt_bv_zero, decide_True]
        have hxw : (⟨mk_bv_sort m, 0⟩ : smt_ast).sort.get_data_width = m := rfl
        simp only [mk_smt_typecast_ubv_to_fpbv, hw, hsw, hxw, hz, mk_ite, if_true, mk_pzero_eq]
      · rw [to_bv_zero σ ebits sbits 0 m false he hsb, mk_smt_bv_zero]
    · obtain ⟨hp1, hp2, hS1, hS2⟩ := shift_size_bounds sbits n hn0 hns
      obtain ⟨_, hp3, _, _⟩ := shift_size_bounds m n hn0 hn
      have hpow : 2 ^ sbits = 2 * 2 ^ (sbits - 1) := pow_pred_two sbits (by omega)
      refine ⟨_, _, ubv_to_fp_exact rm ebits sbits m n he he64 hsb (by omega) hfmt hm hn0 hn hns,
        ?_⟩
      have hEne : Nat.size n - 1 + (2 ^ (ebits - 1) - 1) ≠ 0 := by omega
      have hmag : mag (sbits - 1) (Nat.size n - 1 + (2 ^ (ebits - 1) - 1))
          (n * 2 ^ (sbits - Nat.size n) - 2 ^ (sbits - 1))
          = n * 2 ^ (2 ^ (ebits - 1) + sbits - 3) := by
        unfold mag
        rw [if_neg hEne, show 2 ^ (sbits - 1) + (n * 2 ^ (sbits - Nat.size n) - 2 ^ (sbits - 1))
          = n * 2 ^ (sbits - Nat.size n) by omega, Nat.mul_assoc, ← Nat.pow_add]
        congr 2
        omega
      have hM : n = mag (sbits - 1) (Nat.size n - 1 + (2 ^ (ebits - 1) - 1))
          (n * 2 ^ (sbits - Nat.size n) - 2 ^ (sbits - 1)) / 2 ^ (2 ^ (ebits - 1) + sbits - 3) := by
        rw [hmag, Nat.mul_div_cancel _ (two_pow_pos _)]
      have := to_bv_fields σ ebits sbits 0 (Nat.size n - 1 + (2 ^ (ebits - 1) - 1))
        (n * 2 ^ (sbits - Nat.size n) - 2 ^ (sbits - 1)) m n (n : Int) false he hsb hfmt
        (by omega) (by omega) (by omega) (by omega) (by omega) (by omega) hm1 hm64 hM
        (by simp)
        (by
          simp only [Bool.false_eq_true, if_false]
          have : ((2 ^ m : Nat) : Int) = (2 : Int) ^ m := by push_cast; rfl
          omega)
      rw [this, mk_smt_bv_natCast, Nat.mod_eq_of_lt hn]
  obtain ⟨E, T, h1, h2⟩ := hres
  refine ⟨?_, ubv_asserts_ok m n ebits sbits hsb, ?_⟩
  · rw [h1]
    exact h2
  · rw [h1]
    exact to_bv_asserts_ok ebits sbits _ m he hsb (by omega)

/-- Witness for C21: the 8-bit integer 200 converted to single precision under
RTZ and back is 200. -/
theorem C21_ubv_fp_ubv_witness :
    (2 ≤ 8 ∧ 8 ≤ 62 ∧ 2 ≤ 24 ∧ 8 ≤ 24 + 1 ∧ 24 < 2 ^ 8 ∧ 1 ≤ 8 ∧ 8 ≤ 64 ∧ 8 ≤ 2 ^ (8 - 1)
      ∧ 200 < 2 ^ 8 ∧ 200 < 2 ^ 24)
    ∧ mk_smt_typecast_from_fpbv_to_ubv (fun _ => 0)
        (mk_smt_typecast_ubv_to_fpbv ⟨mk_bv_sort 8, 200⟩ (mk_fpbv_sort 8 (24 - 1))
          (mk_smt_fpbv_rm .ROUND_TO_ZERO)) 8
      = ⟨mk_bv_sort 8, 200⟩ :=
  ⟨⟨by decide, by decide, by decide, by decide, by decide, by decide, by decide, by decide,
      by decide, by decide⟩,
    (C21_ubv_fp_ubv (fun _ => 0) (mk_smt_fpbv_rm .ROUND_TO_ZERO) 8 24 8 200 (by decide)
      (by decide) (by decide) (by decide) (by decide) (by decide) (by decide) (by decide)
      (by decide) (by decide)).1⟩

/-! ## Conversion between formats (C22) -/

/-- What `unpack` with normalization returns for a finite nonzero value, with
the exponent and the leading-zero count made explicit: their difference, read
as integers, is the normalized exponent. -/
theorem unpack_norm_gen (ebits sbits s E T : Nat) (he : 2 ≤ ebits) (hsb : 2 ≤ sbits)
    (hfmt : sbits < 2 ^ ebits) (hs : s < 2) (hE : E < 2 ^ ebits) (hT : T < 2 ^ (sbits - 1))
    (htop : E ≠ 2 ^ ebits - 1) (h0 : ¬(E = 0 ∧ T = 0)) :
    ∃ xe L : Nat, xe < 2 ^ ebits ∧ L ≤ sbits ∧ (E ≠ 0 → L = 0)
      ∧ unpack (fp_of_fields ebits sbits s E T) true
          = ⟨⟨mk_bv_sort 1, s⟩, ⟨mk_bv_sort sbits, norm_sig sbits E T⟩,
              ⟨mk_bv_sort ebits, xe⟩, ⟨mk_bv_sort ebits, L⟩⟩
      ∧ smt_ast.to_signed ⟨mk_bv_sort ebits, xe⟩ - (L : Int)
          = (norm_exp sbits E T : Int) - (2 ^ (ebits - 1) + sbits - 3) := by
  obtain ⟨hB, hB2, hB4, hB0⟩ := pow_facts ebits he
  by_cases hE0 : E = 0
  · subst hE0
    have hT0 : T ≠ 0 := fun h => h0 ⟨rfl, h⟩
    have h4 : 0 < Nat.size T := Nat.size_pos.mpr (Nat.pos_of_ne_zero hT0)
    have h5 : Nat.size T ≤ sbits - 1 := Nat.size_le.mpr hT
    refine ⟨(2 + 2 ^ (ebits - 1)) % 2 ^ ebits, sbits - Nat.size T,
      Nat.mod_lt _ (two_pow_pos _), by omega, fun h => absurd rfl h, ?_, ?_⟩
    · rw [unpack_fields_denormal ebits sbits s T he hsb hfmt hs hT hT0]
      simp only [norm_sig, if_true]
    · have := to_signed_unbias ebits 1 he (by omega)
      rw [show 1 + 1 + 2 ^ (ebits - 1) = 2 + 2 ^ (ebits - 1) by omega] at this
      rw [this]
      simp only [norm_exp, if_true]
      have e1 : ((sbits - Nat.size T : Nat) : Int) = (sbits : Int) - Nat.size T := by omega
      have e2 : ((Nat.size T - 1 : Nat) : Int) = (Nat.size T : Int) - 1 := by omega
      rw [e1, e2]
      push_cast
      ring
  · refine ⟨(E + 1 + 2 ^ (ebits - 1)) % 2 ^ ebits, 0, Nat.mod_lt _ (two_pow_pos _),
      Nat.zero_le _, fun _ => rfl, ?_, ?_⟩
    · rw [unpack_fields_normal ebits sbits s E T true he hsb hs hE hT hE0 htop]
      simp only [norm_sig, hE0, if_false]
    · rw [to_signed_unbias ebits E he (by omega)]
      simp only [norm_exp, hE0, if_false]
      have e1 : ((E - 1 + (sbits - 1) : Nat) : Int) = (E : Int) - 1 + ((sbits : Int) - 1) := by
        omega
      rw [e1]
      push_cast
      ring

/-- The exponent minus the leading-zero count after an extension by t bits. -/
theorem exp_sub_lz_ext (ebits t xe L : Nat) (he : 1 ≤ ebits) (hxe : xe < 2 ^ ebits)
    (hL : L < 2 ^ ebits) :
    mk_bvsub (mk_bv_sort (ebits + t)) (mk_sign_ext ⟨mk_bv_sort ebits, xe⟩ t)
        (mk_zero_ext ⟨mk_bv_sort ebits, L⟩ t)
      = mk_smt_bv (smt_ast.to_signed ⟨mk_bv_sort ebits, xe⟩ - (L : Int)) (ebits + t) := by
  rw [sign_ext_eq_smt_bv ebits t xe he hxe, zero_ext_eq_smt_bv ebits t L hL, bvsub_smt_bv]

/-- The significand that the conversion between formats passes to `round`:
the normalized significand of the target with three zero rounding bits, when
the source significand is the same number on the scale of the source. -/
theorem fp_to_fp_sig (s1 s2 S1 S2 : Nat) (hS1 : S1 < 2 ^ s1) (hS2 : S2 < 2 ^ s2)
    (hR : S1 * 2 ^ s2 = S2 * 2 ^ s1) :
    mk_zero_ext
        (if s1 < s2 + 3 then
          mk_concat (⟨mk_bv_sort s1, S1⟩ : smt_ast) (mk_smt_bv 0 (s2 + 3 - s1))
        else if s1 > s2 + 3 then
          mk_concat (mk_extract ⟨mk_bv_sort s1, S1⟩ (s1 - 1) (s1 - s2 - 2))
            (mk_bvredor (mk_extract ⟨mk_bv_sort s1, S1⟩ (s1 - s2 - 3) 0))
        else ⟨mk_bv_sort s1, S1⟩) 1
      = ⟨mk_bv_sort (s2 + 4), 8 * S2⟩ := by
  have hp1 := two_pow_pos s1
  by_cases h1 : s1 < s2 + 3
  · rw [if_pos h1]
    simp only [mk_zero_ext, mk_concat, mk_smt_bv_zero, mk_bv_sort_data_width, Nat.add_zero]
    congr 1
    · congr 1; omega
    · apply Nat.eq_of_mul_eq_mul_right hp1
      rw [Nat.mul_assoc, ← Nat.pow_add, show s2 + 3 - s1 + s1 = s2 + 3 by omega, Nat.pow_add,
        ← Nat.mul_assoc, hR]
      ring
  · rw [if_neg h1]
    by_cases h2 : s1 > s2 + 3
    · rw [if_pos h2]
      have hS : S1 = S2 * 2 ^ (s1 - s2) := by
        apply Nat.eq_of_mul_eq_mul_right (two_pow_pos s2)
        rw [hR, Nat.mul_assoc, ← Nat.pow_add]
        congr 2
        omega
      have e3 : 2 ^ (s1 - s2) = 4 * 2 ^ (s1 - s2 - 2) := by
        have h : 2 ^ ((s1 - s2 - 2) + 2) = 4 * 2 ^ (s1 - s2 - 2) := by rw [Nat.pow_add]; ring
        rwa [show s1 - s2 - 2 + 2 = s1 - s2 by omega] at h
      have hpos := two_pow_pos (s1 - s2 - 2)
      have p2 : 2 ^ (s2 + 2) = 4 * 2 ^ s2 := by rw [Nat.pow_add]; ring
      have v1 : S1 / 2 ^ (s1 - s2 - 2) = 4 * S2 := by
        rw [hS, e3, show S2 * (4 * 2 ^ (s1 - s2 - 2)) = 4 * S2 * 2 ^ (s1 - s2 - 2) by ring]
        exact Nat.mul_div_cancel _ hpos
      have v2 : S1 % 2 ^ (s1 - s2 - 2) = 0 := by
        rw [hS, e3, show S2 * (4 * 2 ^ (s1 - s2 - 2)) = 4 * S2 * 2 ^ (s1 - s2 - 2) by ring]
        exact Nat.mul_mod_left _ _
      have e1 : s1 - 1 - (s1 - s2 - 2) + 1 = s2 + 2 := by omega
      have e2 : s1 - s2 - 3 - 0 + 1 = s1 - s2 - 2 := by omega
      simp only [mk_zero_ext, mk_concat, mk_extract, mk_bvredor, mk_bv_sort_data_width, e1, e2,
        v1, v2, Nat.pow_zero, Nat.div_one, if_true, Nat.pow_one, Nat.add_zero,
        Nat.mod_eq_of_lt (show 4 * S2 < 2 ^ (s2 + 2) by omega)]
      congr 1
      omega
    · rw [if_neg h2]
      have e : s1 = s2 + 3 := by omega
      subst e
      simp only [mk_zero_ext, mk_bv_sort_data_width]
      congr 1
      apply Nat.eq_of_mul_eq_mul_right (two_pow_pos s2)
      rw [hR, Nat.pow_add]
      ring

theorem smt_bv_to_signed (w v : Nat) (hw : 1 ≤ w) (hv : v < 2 ^ w) :
    mk_smt_bv (smt_ast.to_signed ⟨mk_bv_sort w, v⟩) w = ⟨mk_bv_sort w, v⟩ := by
  have h := sign_ext_eq_smt_bv w 0 v hw hv
  rw [Nat.add_zero] at h
  rw [← h]
  simp [mk_sign_ext]

/-- The exponent that the conversion between formats passes to `round`: the
exponent e of the normalized value, when e lies in the range of both formats. -/
theorem fp_to_fp_exp (e1 e2 xe L : Nat) (e : Int) (he1 : 2 ≤ e1) (he2 : 2 ≤ e2)
    (hxe : xe < 2 ^ e1) (hL : L < 2 ^ (e1 - 1))
    (hval : smt_ast.to_signed ⟨mk_bv_sort e1, xe⟩ - (L : Int) = e)
    (hlo1 : -(2 ^ e1 : Int) ≤ e) (hhi1 : e < 2 ^ e1)
    (hlo2 : -(2 ^ e2 : Int) ≤ e) (hhi2 : e < 2 ^ e2) :
    (if e1 < e2 + 2 then
        mk_bvsub (mk_sign_ext ⟨mk_bv_sort e1, xe⟩ ((e2 : Int) - e1 + 2).toNat).sort
          (mk_sign_ext ⟨mk_bv_sort e1, xe⟩ ((e2 : Int) - e1 + 2).toNat)
          (mk_zero_ext ⟨mk_bv_sort e1, L⟩ ((e2 : Int) - e1 + 2).toNat)
      else
        if e1 > e2 + 2 then
          if
              mk_bvslte
                  (mk_bvsub (mk_bv_sort ((mk_bv_sort e1).get_data_width + 2))
                    (mk_sign_ext ⟨mk_bv_sort e1, xe⟩ 2)
                    (mk_sign_ext ⟨mk_bv_sort e1, L⟩ 2))
                  (mk_concat (mk_smt_bv (-1) (e1 - (e2 + 2) + 3)) (mk_smt_bv 1 (e2 + 1))) =
                true then
            mk_smt_bv (power2 (e2 + 1) true + 2) (e2 + 2)
          else
            if
                mk_bvslte (mk_smt_bv (power2m1 (e2 + 1) false) (e1 + 2))
                    (mk_bvsub (mk_bv_sort ((mk_bv_sort e1).get_data_width + 2))
                      (mk_sign_ext ⟨mk_bv_sort e1, xe⟩ 2)
                      (mk_sign_ext ⟨mk_bv_sort e1, L⟩ 2)) =
                  true then
              mk_concat (mk_smt_bv (power2m1 e2 false) (e2 + 1)) (mk_smt_bv 0 1)
            else
              mk_extract
                (mk_bvsub (mk_bv_sort ((mk_bv_sort e1).get_data_width + 2))
                  (mk_sign_ext ⟨mk_bv_sort e1, xe⟩ 2)
                  (mk_sign_ext ⟨mk_bv_sort e1, L⟩ 2))
                (e2 + 1) 0
        else mk_bvsub (mk_bv_sort e1) ⟨mk_bv_sort e1, xe⟩ ⟨mk_bv_sort e1, L⟩)
      = mk_smt_bv e (e2 + 2) := by
  have hp1 : 2 ^ e1 = 2 * 2 ^ (e1 - 1) := pow_pred_two e1 (by omega)
  have hLlt : L < 2 ^ e1 := by omega
  by_cases hA : e1 < e2 + 2
  · rw [if_pos hA]
    obtain ⟨t, ht, ht2⟩ : ∃ t, ((e2 : Int) - e1 + 2).toNat = t ∧ e1 + t = e2 + 2 :=
      ⟨e2 + 2 - e1, by omega, by omega⟩
    rw [ht, show (mk_sign_ext ⟨mk_bv_sort e1, xe⟩ t).sort = mk_bv_sort (e1 + t) from rfl,
      exp_sub_lz_ext e1 t xe L (by omega) hxe hLlt, hval, ht2]
  · rw [if_neg hA]
    by_cases hB : e1 > e2 + 2
    · rw [if_pos hB]
      have n1 : 2 ^ (e1 + 1) = 2 * 2 ^ e1 := pow_succ_two e1
      have n2 : 2 ^ (e1 + 2) = 4 * 2 ^ e1 := by rw [Nat.pow_add]; ring
      have n3 : 2 ^ (e2 + 1) = 2 * 2 ^ e2 := pow_succ_two e2
      have n4 : 8 * 2 ^ e2 ≤ 2 ^ e1 := by
        have : 2 ^ (e2 + 3) ≤ 2 ^ e1 := Nat.pow_le_pow_right (by decide) (by omega)
        rw [Nat.pow_add] at this
        omega
      have n5 : 4 ≤ 2 ^ e2 := by
        have : 2 ^ 2 ≤ 2 ^ e2 := Nat.pow_le_pow_right (by decide) he2
        omega
      have i1 : (2 : Int) ^ (e1 + 1) = 2 * 2 ^ e1 := by exact_mod_cast n1
      have i2 : (2 : Int) ^ (e1 + 2) = 4 * 2 ^ e1 := by exact_mod_cast n2
      have i3 : (2 : Int) ^ (e2 + 1) = 2 * 2 ^ e2 := by exact_mod_cast n3
      have i4 : 8 * (2 : Int) ^ e2 ≤ 2 ^ e1 := by exact_mod_cast n4
      have i5 : (4 : Int) ≤ 2 ^ e2 := by exact_mod_cast n5
      have hsx := sign_ext_eq_smt_bv e1 2 xe (by omega) hxe
      have hsl : mk_sign_ext ⟨mk_bv_sort e1, L⟩ 2 = mk_smt_bv (L : Int) (e1 + 2) := by
        rw [sign_ext_eq_smt_bv e1 2 L (by omega) hLlt]
        simp only [smt_ast.to_signed, mk_bv_sort_data_width, if_pos hL]
      have hsub : mk_bvsub (mk_bv_sort ((mk_bv_sort e1).get_data_width + 2))
          (mk_sign_ext ⟨mk_bv_sort e1, xe⟩ 2) (mk_sign_ext ⟨mk_bv_sort e1, L⟩ 2)
          = mk_smt_bv e (e1 + 2) := by
        rw [hsx, hsl, show (mk_bv_sort e1).get_data_width + 2 = e1 + 2 from rfl, bvsub_smt_bv,
          hval]
      have hts : (mk_smt_bv e (e1 + 2)).to_signed = e :=
        to_signed_smt_bv e (e1 + 2) (by omega)
          (by rw [show e1 + 2 - 1 = e1 + 1 from rfl, i1]; omega)
          (by rw [show e1 + 2 - 1 = e1 + 1 from rfl, i1]; omega)
      have hovf : (mk_smt_bv (power2m1 (e2 + 1) false) (e1 + 2)).to_signed
          = (2 : Int) ^ (e2 + 1) - 1 := by
        have hc : power2m1 (e2 + 1) false = (2 : Int) ^ (e2 + 1) - 1 := by simp [power2m1]
        rw [hc]
        exact to_signed_smt_bv _ (e1 + 2) (by omega)
          (by rw [show e1 + 2 - 1 = e1 + 1 from rfl, i1, i3]; omega)
          (by rw [show e1 + 2 - 1 = e1 + 1 from rfl, i1, i3]; omega)
      have hudf : (mk_concat (mk_smt_bv (-1) (e1 - (e2 + 2) + 3)) (mk_smt_bv 1 (e2 + 1))).to_signed
          = -(2 : Int) ^ (e2 + 1) + 1 := by
        obtain ⟨k, hk, hk4⟩ : ∃ k, e1 - (e2 + 2) + 3 = k + 1 ∧ 3 ≤ k :=
          ⟨e1 - (e2 + 2) + 2, by omega, by omega⟩
        have hQ : 2 ^ (k + 1) = 2 * 2 ^ k := pow_succ_two k
        have hQpos := two_pow_pos k
        have hPpos := two_pow_pos (e2 + 1)
        have a1 : mk_smt_bv (-1) (k + 1) = ⟨mk_bv_sort (k + 1), 2 ^ (k + 1) - 1⟩ := by
          have hc : (((2 : Nat) ^ (k + 1) : Nat) : Int) = (2 : Int) ^ (k + 1) := by
            push_cast; rfl
          rw [mk_smt_bv_of_neg (-1) (k + 1) (by omega) (by omega)]
          congr 1
          omega
        have b1 : mk_smt_bv 1 (e2 + 1) = ⟨mk_bv_sort (e2 + 1), 1⟩ := by
          rw [mk_smt_bv_one, Nat.mod_eq_of_lt (by omega)]
        have w1 : 2 ^ (k + 1 + (e2 + 1)) = 2 * (2 ^ k * 2 ^ (e2 + 1)) := by
          rw [Nat.pow_add, hQ]; ring
        have w2 : 2 ^ (k + 1 + (e2 + 1) - 1) = 2 ^ k * 2 ^ (e2 + 1) := by
          rw [show k + 1 + (e2 + 1) - 1 = k + (e2 + 1) by omega, Nat.pow_add]
        have v1 : (2 ^ (k + 1) - 1) * 2 ^ (e2 + 1) + 1
            = 2 * (2 ^ k * 2 ^ (e2 + 1)) - 2 ^ (e2 + 1) + 1 := by
          rw [Nat.sub_mul, hQ, Nat.one_mul, Nat.mul_assoc]
        have v2 : 2 ^ (e2 + 1) ≤ 2 ^ k * 2 ^ (e2 + 1) := Nat.le_mul_of_pos_left _ hQpos
        have hcP : (((2 : Nat) ^ (e2 + 1) : Nat) : Int) = (2 : Int) ^ (e2 + 1) := by
          push_cast; rfl
        have hcW : (2 : Int) ^ (k + 1 + (e2 + 1))
            = ((2 * (2 ^ k * 2 ^ (e2 + 1)) : Nat) : Int) := by
          rw [← w1]; push_cast; rfl
        rw [hk]
        simp only [mk_concat, a1, b1, smt_ast.to_signed, mk_bv_sort_data_width, w2, v1, hcW]
        rw [← hcP]
        generalize 2 ^ k * 2 ^ (e2 + 1) = QP at *
        generalize 2 ^ (e2 + 1) = P at *
        have hnlt : ¬ (2 * QP - P + 1 < QP) := by omega
        rw [if_neg hnlt]
        omega
      have c1 : mk_bvslte (mk_smt_bv e (e1 + 2))
          (mk_concat (mk_smt_bv (-1) (e1 - (e2 + 2) + 3)) (mk_smt_bv 1 (e2 + 1))) = false := by
        simp only [mk_bvslte, hts, hudf, decide_eq_false_iff_not]
        omega
      have c2 : mk_bvslte (mk_smt_bv (power2m1 (e2 + 1) false) (e1 + 2)) (mk_smt_bv e (e1 + 2))
          = false := by
        simp only [mk_bvslte, hts, hovf, decide_eq_false_iff_not]
        omega
      rw [hsub, c1, c2]
      simp only [Bool.false_eq_true, if_false]
      exact extract_low_smt_bv e (e1 + 2) (e2 + 2) (by omega) (by omega)
    · rw [if_neg hB]
      have hC : e1 = e2 + 2 := by omega
      have h1 := smt_bv_to_signed e1 xe (by omega) hxe
      have h2 : (⟨mk_bv_sort e1, L⟩ : smt_ast) = mk_smt_bv (L : Int) e1 := by
        rw [mk_smt_bv_natCast, Nat.mod_eq_of_lt hLlt]
      rw [← h1, h2, bvsub_smt_bv, hval, hC]

theorem fp_to_fp_exact (rm : smt_ast) (e1 s1 e2 s2 s E T E2 T2 : Nat)
    (he1 : 2 ≤ e1) (he2 : 2 ≤ e2) (he64 : e2 ≤ 62) (hsb1 : 2 ≤ s1) (hsb2 : 2 ≤ s2)
    (hfmt1 : s1 + 1 ≤ 2 ^ (e1 - 1)) (hfmt2 : s2 + 1 ≤ 2 ^ (e2 - 1))
    (hne : ¬(s1 = s2 ∧ e1 = e2))
    (hs : s < 2) (hE : E < 2 ^ e1) (hT : T < 2 ^ (s1 - 1))
    (htop : E ≠ 2 ^ e1 - 1) (h0 : ¬(E = 0 ∧ T = 0))
    (hE2 : E2 < 2 ^ e2) (hT2 : T2 < 2 ^ (s2 - 1))
    (htop2 : E2 ≠ 2 ^ e2 - 1) (h02 : ¬(E2 = 0 ∧ T2 = 0))
    (hR1 : norm_sig s1 E T * 2 ^ s2 = norm_sig s2 E2 T2 * 2 ^ s1)
    (hR2 : (norm_exp s1 E T : Int) - (2 ^ (e1 - 1) + s1 - 3)
      = (norm_exp s2 E2 T2 : Int) - (2 ^ (e2 - 1) + s2 - 3)) :
    mk_smt_typecast_from_fpbv_to_fpbv (fp_of_fields e1 s1 s E T) (mk_fpbv_sort e2 (s2 - 1)) rm
      = fp_of_fields e2 s2 s E2 T2 := by
  have hw2 : (mk_fpbv_sort e2 (s2 - 1)).get_exponent_width = e2 :=
    exponent_width_fields e2 s2 0 0 0 hsb2
  have hsw2 : (mk_fpbv_sort e2 (s2 - 1)).get_significand_width = s2 :=
    significand_width_fields e2 s2 0 0 0 hsb2
  have hsw := significand_width_fields e1 s1 s E T hsb1
  have hew := exponent_width_fields e1 s1 s E T hsb1
  have hf1 : s1 < 2 ^ e1 := by
    have := pow_pred_two e1 (by omega); omega
  have hnan : mk_smt_fpbv_is_nan (fp_of_fields e1 s1 s E T) = false := by
    rw [is_nan_fields e1 s1 s E T (by omega) hsb1 hE hT]; simp [htop]
  have hinf : mk_smt_fpbv_is_inf (fp_of_fields e1 s1 s E T) = false := by
    rw [is_inf_fields e1 s1 s E T (by omega) hsb1 hE hT]; simp [htop]
  have hzero : mk_smt_fpbv_is_zero (fp_of_fields e1 s1 s E T) = false := by
    rw [is_zero_fields e1 s1 s E T (by omega) hE hT]
    by_cases h1 : E = 0
    · have : T ≠ 0 := fun h => h0 ⟨h1, h⟩
      simp [this]
    · simp [h1]
  obtain ⟨xe, L, hxe, hL, _, hux, hkx⟩ :=
    unpack_norm_gen e1 s1 s E T he1 hsb1 hf1 hs hE hT htop h0
  obtain ⟨hn1, hn2, _⟩ := norm_bounds s1 E T hsb1 hT h0
  obtain ⟨hm1, hm2, _⟩ := norm_bounds s2 E2 T2 hsb2 hT2 h02
  have hsig := fp_to_fp_sig s1 s2 _ _ hn2 hm2 hR1
  simp only [mk_smt_typecast_from_fpbv_to_fpbv, hsw, hew, hw2, hsw2, hne, if_false, hnan,
    mk_is_pzero, mk_is_nzero, mk_is_pinf, mk_is_ninf, hinf, hzero, Bool.false_and, mk_ite,
    Bool.false_eq_true, hux, hsig]
  have hr1 := norm_exp_range e1 s1 E T he1 hsb1 hfmt1 hE hT
  have hr2 := norm_exp_range e2 s2 E2 T2 he2 hsb2 hfmt2 hE2 hT2
  rw [fp_to_fp_exp e1 e2 xe L _ he1 he2 hxe (by omega) hkx hr1.1 hr1.2
    (by rw [hR2]; exact hr2.1) (by rw [hR2]; exact hr2.2), hR2]
  exact round_norm rm e2 s2 s E2 T2 he2 he64 hsb2
    (by have := pow_pred_two e2 (by omega); omega) hs hE2 hT2 htop2 h02

theorem fp_to_fp_asserts_ok (e1 s1 e2 s2 v : Nat) (he1 : 2 ≤ e1) (hsb1 : 2 ≤ s1)
    (hsb2 : 2 ≤ s2) :
    mk_smt_typecast_from_fpbv_to_fpbv_asserts (fp_val e1 s1 v) (mk_fpbv_sort e2 (s2 - 1))
      = true := by
  obtain ⟨a1, a2, a3, a4, a5⟩ := unpack_sorts e1 s1 v true he1 hsb1
  have hw2 : (mk_fpbv_sort e2 (s2 - 1)).get_exponent_width = e2 :=
    exponent_width_fields e2 s2 0 0 0 hsb2
  have hsw2 : (mk_fpbv_sort e2 (s2 - 1)).get_significand_width = s2 :=
    significand_width_fields e2 s2 0 0 0 hsb2
  have hsw : (fp_val e1 s1 v).sort.get_significand_width = s1 :=
    significand_width_fields e1 s1 0 0 v hsb1
  have hew : (fp_val e1 s1 v).sort.get_exponent_width = e1 :=
    exponent_width_fields e1 s1 0 0 v hsb1
  have hred : ∀ a : smt_ast, (mk_bvredor a).sort = mk_bv_sort 1 := fun _ => rfl
  have hsub : ∀ (s : smt_sort) (a b : smt_ast), (mk_bvsub s a b).sort = s := fun _ _ _ => rfl
  have hzx : ∀ (a : smt_ast) (n : Nat),
      (mk_zero_ext a n).sort = mk_bv_sort (a.sort.data_width + n) := fun _ _ => rfl
  have hsx : ∀ (a : smt_ast) (n : Nat),
      (mk_sign_ext a n).sort = mk_bv_sort (a.sort.data_width + n) := fun _ _ => rfl
  have hadd : ∀ (s : smt_sort) (a b : smt_ast), (mk_bvadd s a b).sort = s := fun _ _ _ => rfl
  have hx1 : e2 + 1 - 0 + 1 = e2 + 2 := by omega
  have hx2 : e2 + 1 + 1 = e2 + 2 := by omega
  by_cases h0 : s1 = s2 ∧ e1 = e2
  · obtain ⟨rfl, rfl⟩ := h0
    simp only [mk_smt_typecast_from_fpbv_to_fpbv_asserts, hsw, hew, hw2, hsw2, and_self,
      if_true]
  · by_cases c1 : s1 < s2 + 3 <;> by_cases c2 : s1 > s2 + 3 <;>
      by_cases d1 : e1 < e2 + 2 <;> by_cases d2 : e1 > e2 + 2 <;>
      simp only [mk_smt_typecast_from_fpbv_to_fpbv_asserts, hsw, hew, hw2, hsw2, h0, if_false,
        c1, c2, d1, d2, if_true, a1, a2, a3, a4, a5, mk_smt_bv_sort, mk_bv_sort_data_width,
        smt_sort.get_data_width, mk_ite_sort, mk_concat_sort, mk_extract_sort, hred, hsub, hzx,
        hsx, hadd, hx1, hx2, mk_ite_same, Bool.and_eq_true, decide_eq_true_eq, and_true,
        true_and] <;>
      omega

theorem norm_sig_normal (sbits E T : Nat) (hE : E ≠ 0) :
    norm_sig sbits E T = 2 ^ (sbits - 1) + T := by
  simp only [norm_sig, hE, if_false]

theorem norm_exp_normal (sbits E T : Nat) (hE : E ≠ 0) :
    norm_exp sbits E T = E - 1 + (sbits - 1) := by
  simp only [norm_exp, hE, if_false]

/-- A zero of either sign is converted to the zero of the same sign. -/
theorem fp_to_fp_zero (rm : smt_ast) (e1 s1 e2 s2 s : Nat) (he1 : 2 ≤ e1) (hsb1 : 2 ≤ s1)
    (hsb2 : 2 ≤ s2) (hne : ¬(s1 = s2 ∧ e1 = e2)) (hs : s < 2) :
    mk_smt_typecast_from_fpbv_to_fpbv (fp_of_fields e1 s1 s 0 0) (mk_fpbv_sort e2 (s2 - 1)) rm
      = fp_of_fields e2 s2 s 0 0 := by
  obtain ⟨hB, hB2, hB4, hB0⟩ := pow_facts e1 he1
  have hw2 : (mk_fpbv_sort e2 (s2 - 1)).get_exponent_width = e2 :=
    exponent_width_fields e2 s2 0 0 0 hsb2
  have hsw2 : (mk_fpbv_sort e2 (s2 - 1)).get_significand_width = s2 :=
    significand_width_fields e2 s2 0 0 0 hsb2
  have hsw := significand_width_fields e1 s1 s 0 0 hsb1
  have hew := exponent_width_fields e1 s1 s 0 0 hsb1
  have hE : 0 < 2 ^ e1 := two_pow_pos _
  have hT : 0 < 2 ^ (s1 - 1) := two_pow_pos _
  have hnan : mk_smt_fpbv_is_nan (fp_of_fields e1 s1 s 0 0) = false := by
    rw [is_nan_fields e1 s1 s 0 0 (by omega) hsb1 hE hT]; simp
  have hzero : mk_smt_fpbv_is_zero (fp_of_fields e1 s1 s 0 0) = true := by
    rw [is_zero_fields e1 s1 s 0 0 (by omega) hE hT]; simp
  have hpos := is_positive_fields e1 s1 s 0 0 hs hE hT
  have hneg := is_negative_fields e1 s1 s 0 0 hs hE hT
  have hs' : s = 0 ∨ s = 1 := by omega
  rcases hs' with rfl | rfl
  · simp only [mk_smt_typecast_from_fpbv_to_fpbv, hsw, hew, hw2, hsw2, hne, if_false, hnan,
      mk_is_pzero, hzero, hpos, decide_True, Bool.and_self, mk_ite, Bool.false_eq_true, if_true,
      mk_pzero_eq]
  · simp only [mk_smt_typecast_from_fpbv_to_fpbv, hsw, hew, hw2, hsw2, hne, if_false, hnan,
      mk_is_pzero, mk_is_nzero, hzero, hpos, hneg, Nat.one_ne_zero, decide_False, Bool.and_false,
      Bool.not_false, Bool.and_self, mk_ite, Bool.false_eq_true, if_true, mk_nzero_eq]

/-- Claim C22: for formats with 2 ≤ e1 < e2 ≤ 62, 2 ≤ s1 < s2 and
s + 1 ≤ 2^(e-1) in both (the source format and a format wider in exponent and
significand), every packed term x of the source format that denotes a finite
value, and rounding modes rm1 and rm2: converting x to the wide format and back
returns x bit for bit, and none of the assertions of the two conversions
fails. -/
theorem C22_fp_widen_narrow (rm1 rm2 : smt_ast) (e1 s1 e2 s2 v : Nat) (q : ℚ)
    (he1 : 2 ≤ e1) (he12 : e1 < e2) (he64 : e2 ≤ 62) (hsb1 : 2 ≤ s1) (hs12 : s1 < s2)
    (hfmt1 : s1 + 1 ≤ 2 ^ (e1 - 1)) (hfmt2 : s2 + 1 ≤ 2 ^ (e2 - 1))
    (hv : v < 2 ^ (e1 + s1))
    (hq : fp_denote (fp_val e1 s1 v) = .finite q) :
    mk_smt_typecast_from_fpbv_to_fpbv
        (mk_smt_typecast_from_fpbv_to_fpbv (fp_val e1 s1 v) (mk_fpbv_sort e2 (s2 - 1)) rm1)
        (mk_fpbv_sort e1 (s1 - 1)) rm2
      = fp_val e1 s1 v
    ∧ mk_smt_typecast_from_fpbv_to_fpbv_asserts (fp_val e1 s1 v) (mk_fpbv_sort e2 (s2 - 1))
      = true
    ∧ mk_smt_typecast_from_fpbv_to_fpbv_asserts
        (mk_smt_typecast_from_fpbv_to_fpbv (fp_val e1 s1 v) (mk_fpbv_sort e2 (s2 - 1)) rm1)
        (mk_fpbv_sort e1 (s1 - 1))
      = true := by
  have hne12 : ¬(s1 = s2 ∧ e1 = e2) := by omega
  have hne21 : ¬(s2 = s1 ∧ e2 = e1) := by omega
  have hres : ∃ s E2 T2, mk_smt_typecast_from_fpbv_to_fpbv (fp_val e1 s1 v)
        (mk_fpbv_sort e2 (s2 - 1)) rm1 = fp_of_fields e2 s2 s E2 T2
      ∧ mk_smt_typecast_from_fpbv_to_fpbv (fp_of_fields e2 s2 s E2 T2)
        (mk_fpbv_sort e1 (s1 - 1)) rm2 = fp_val e1 s1 v := by
    obtain ⟨hx, hs, hE, hT⟩ := fp_val_eq_fields e1 s1 v (by omega) hv
    rw [hx] at hq ⊢
    generalize v / 2 ^ (e1 + (s1 - 1)) = s at *
    generalize v / 2 ^ (s1 - 1) % 2 ^ e1 = E at *
    generalize v % 2 ^ (s1 - 1) = T at *
    obtain ⟨htop, _, _⟩ := finite_nonzero_fields e1 s1 s E T q he1 hsb1 hs hE hT hq
    by_cases h0 : E = 0 ∧ T = 0
    · obtain ⟨rfl, rfl⟩ := h0
      exact ⟨s, 0, 0, fp_to_fp_zero rm1 e1 s1 e2 s2 s he1 hsb1 (by omega) hne12 hs,
        fp_to_fp_zero rm2 e2 s2 e1 s1 s (by omega) (by omega) hsb1 hne21 hs⟩
    · obtain ⟨hn1, hn2, _⟩ := norm_bounds s1 E T hsb1 hT h0
      have hle := norm_exp_le e1 s1 E T he1 hsb1 hE hT htop
      have hB1 : 2 ^ e1 = 2 * 2 ^ (e1 - 1) := pow_pred_two e1 (by omega)
      have hB2 : 2 ^ e2 = 2 * 2 ^ (e2 - 1) := pow_pred_two e2 (by omega)
      have hBB : 2 ^ e1 ≤ 2 ^ (e2 - 1) := Nat.pow_le_pow_right (by decide) (by omega)
      have hP2 : 2 ^ s2 = 2 * 2 ^ (s2 - 1) := pow_pred_two s2 (by omega)
      have hP1 : 2 ^ s1 = 2 * 2 ^ (s1 - 1) := pow_pred_two s1 (by omega)
      have hS2 : 2 ^ s2 = 2 ^ s1 * 2 ^ (s2 - s1) := by
        rw [← Nat.pow_add]; congr 1; omega
      have hlow : 2 ^ (s2 - 1) ≤ norm_sig s1 E T * 2 ^ (s2 - s1) := by
        have : 2 ^ (s2 - 1) = 2 ^ (s1 - 1) * 2 ^ (s2 - s1) := by
          rw [← Nat.pow_add]; congr 1; omega
        rw [this]
        exact Nat.mul_le_mul_right _ hn1
      have hup : norm_sig s1 E T * 2 ^ (s2 - s1) < 2 ^ s2 := by
        rw [hS2]
        exact Nat.mul_lt_mul_of_pos_right hn2 (two_pow_pos _)
      have hc1 : (2 : Int) ^ (e1 - 1) = ((2 ^ (e1 - 1) : Nat) : Int) := by push_cast; rfl
      have hc2 : (2 : Int) ^ (e2 - 1) = ((2 ^ (e2 - 1) : Nat) : Int) := by push_cast; rfl
      have hE2ne : norm_exp s1 E T + 2 ^ (e2 - 1) + 2 - 2 ^ (e1 - 1) - s1 ≠ 0 := by omega
      have hns : norm_sig s2 (norm_exp s1 E T + 2 ^ (e2 - 1) + 2 - 2 ^ (e1 - 1) - s1)
          (norm_sig s1 E T * 2 ^ (s2 - s1) - 2 ^ (s2 - 1))
          = norm_sig s1 E T * 2 ^ (s2 - s1) := by
        rw [norm_sig_normal _ _ _ hE2ne]
        omega
      have hR1 : norm_sig s1 E T * 2 ^ s2
          = norm_sig s2 (norm_exp s1 E T + 2 ^ (e2 - 1) + 2 - 2 ^ (e1 - 1) - s1)
            (norm_sig s1 E T * 2 ^ (s2 - s1) - 2 ^ (s2 - 1)) * 2 ^ s1 := by
        rw [hns, hS2]; ring
      have hR2 : (norm_exp s1 E T : Int) - (2 ^ (e1 - 1) + s1 - 3)
          = (norm_exp s2 (norm_exp s1 E T + 2 ^ (e2 - 1) + 2 - 2 ^ (e1 - 1) - s1)
            (norm_sig s1 E T * 2 ^ (s2 - s1) - 2 ^ (s2 - 1)) : Int)
            - (2 ^ (e2 - 1) + s2 - 3) := by
        rw [norm_exp_normal _ _ _ hE2ne, hc1, hc2]
        omega
      refine ⟨s, _, _, fp_to_fp_exact rm1 e1 s1 e2 s2 s E T _ _ he1 (by omega) he64 hsb1
          (by omega) hfmt1 hfmt2 hne12 hs hE hT htop h0 (by omega) (by omega) (by omega)
          (by omega) hR1 hR2,
        fp_to_fp_exact rm2 e2 s2 e1 s1 s _ _ E T (by omega) he1 (by omega) (by omega) hsb1
          hfmt2 hfmt1 hne21 hs (by omega) (by omega) (by omega) (by omega) hE hT htop h0
          hR1.symm hR2.symm⟩
  obtain ⟨s, E2, T2, h1, h2⟩ := hres
  refine ⟨?_, fp_to_fp_asserts_ok e1 s1 e2 s2 v he1 hsb1 (by omega), ?_⟩
  · rw [h1]
    exact h2
  · rw [h1]
    exact fp_to_fp_asserts_ok e2 s2 e1 s1 _ (by omega) (by omega) hsb1

/-- Witness for C22: the single-precision value 1.5 converted to double
precision under RNE and back under RTZ is the same bit pattern. -/
theorem C22_fp_widen_narrow_witness :
    (2 ≤ 8 ∧ 8 < 11 ∧ 11 ≤ 62 ∧ 2 ≤ 24 ∧ 24 < 53 ∧ 24 + 1 ≤ 2 ^ (8 - 1)
      ∧ 53 + 1 ≤ 2 ^ (11 - 1) ∧ 0x3fc00000 < 2 ^ (8 + 24)
      ∧ fp_denote (fp_val 8 24 0x3fc00000) = .finite (3 / 2))
    ∧ mk_smt_typecast_from_fpbv_to_fpbv
        (mk_smt_typecast_from_fpbv_to_fpbv (fp_val 8 24 0x3fc00000) (mk_fpbv_sort 11 (53 - 1))
          (mk_smt_fpbv_rm .ROUND_TO_EVEN))
        (mk_fpbv_sort 8 (24 - 1)) (mk_smt_fpbv_rm .ROUND_TO_ZERO)
      = fp_val 8 24 0x3fc00000 :=
  have h1 : fp_denote (fp_val 8 24 0x3fc00000) = .finite (3 / 2) := by
    simp only [fp_denote, fp_val, mk_fpbv_sort, mk_bv_fp_sort, smt_sort.get_exponent_width,
      smt_sort.get_significand_width, smt_sort.get_data_width]
    norm_num
  ⟨⟨by decide, by decide, by decide, by decide, by decide, by decide, by decide, by decide, h1⟩,
    (C22_fp_widen_narrow (mk_smt_fpbv_rm .ROUND_TO_EVEN) (mk_smt_fpbv_rm .ROUND_TO_ZERO)
      8 24 11 53 0x3fc00000 (3 / 2) (by decide) (by decide) (by decide) (by decide) (by decide)
      (by decide) (by decide) (by decide) h1).1⟩

/-! ## C25: rounding modes -/

/-- C25: `mk_smt_fpbv_rm` is the 3-bit constant with the value of the mode
(RNE = 0, RTA = 1, RTP = 2, RTN = 3, RTZ = 4) and `mk_is_rm` compares with
that constant, but the sort that `yices_convt::mk_bv_fp_rm_sort` creates has
width 2, not 3: the value 4 of RTZ does not fit it, and a 2-bit constant for
RTZ is the constant for RNE. -/
theorem C25_rm_sort_width :
    (∀ rm : rounding_modet, mk_smt_fpbv_rm rm = ⟨mk_bv_sort 3, rm.to_int.toNat⟩)
    ∧ (∀ (r : smt_ast) (rm : rounding_modet),
        mk_is_rm r rm = decide (r.val = rm.to_int.toNat))
    ∧ (∀ rm1 rm2 : rounding_modet, mk_smt_fpbv_rm rm1 = mk_smt_fpbv_rm rm2 ↔ rm1 = rm2)
    ∧ mk_bv_fp_rm_sort.get_data_width = 2
    ∧ ¬ ((mk_smt_fpbv_rm .ROUND_TO_ZERO).val < 2 ^ mk_bv_fp_rm_sort.get_data_width)
    ∧ mk_smt_bv (rounding_modet.to_int .ROUND_TO_ZERO) mk_bv_fp_rm_sort.get_data_width
        = mk_smt_bv (rounding_modet.to_int .ROUND_TO_EVEN) mk_bv_fp_rm_sort.get_data_width := by
  refine ⟨?_, ?_, ?_, rfl, by decide, by decide⟩
  · intro rm
    cases rm <;> rfl
  · intro r rm
    cases rm <;> rfl
  · intro rm1 rm2
    cases rm1 <;> cases rm2 <;> decide

/-! ## C26: subtraction -/

/-- C26: `mk_smt_fpbv_sub` negates its right operand and calls
`mk_smt_fpbv_add`, whose body is `abort()`: for no operands and no rounding
mode does it return a term, so there is no difference whose equality with +0
could be compared with the equality of the operands; this includes the test
input 1.0 - 1.2 in double precision. -/
theorem C26_sub_aborts :
    (∀ x y rm : smt_ast, mk_smt_fpbv_sub x y rm = none)
    ∧ (mk_smt_fpbv_sub (fp_val 11 53 0x3ff0000000000000) (fp_val 11 53 0x3ff3333333333333)
        (mk_smt_fpbv_rm .ROUND_TO_EVEN)).map (fun d => mk_smt_fpbv_eq d (mk_pzero 11 53))
        = none
    ∧ mk_smt_fpbv_eq (fp_val 11 53 0x3ff0000000000000) (fp_val 11 53 0x3ff3333333333333)
        = false := by
  refine ⟨fun _ _ _ => rfl, rfl, by decide⟩

/-! ## C30: the exponent width of a floatbv type -/

/-- C30: for a floatbv type of width 1 + e + f with f fraction bits, `get_e`
returns e + 1, the width minus the fraction bits: the sign bit is counted with
the exponent, so for width 32 and f = 23 the result is 9, not 8. -/
theorem C30_get_e (e f : Nat) (h : 1 + e + f < 2 ^ 32) :
    floatbv_typet.get_e ⟨1 + e + f, f⟩ = e + 1
    ∧ (mk_bv_fp_sort e f).get_data_width = floatbv_typet.get_e ⟨1 + e + f, f⟩ + f := by
  have h1 : (1 + e + f) % 2 ^ 32 = 1 + e + f := Nat.mod_eq_of_lt h
  have h2 : f % 2 ^ 32 = f := Nat.mod_eq_of_lt (by omega)
  have h3 : floatbv_typet.get_e ⟨1 + e + f, f⟩ = e + 1 := by
    simp only [floatbv_typet.get_e, floatbv_typet.get_width, floatbv_typet.get_f, h1, h2]
    omega
  refine ⟨h3, ?_⟩
  rw [h3]
  simp only [mk_bv_fp_sort, smt_sort.get_data_width]
  omega

/-- Witness for C30: width 32 with 23 fraction bits (single precision). -/
theorem C30_get_e_witness :
    1 + 8 + 23 < 2 ^ 32 ∧ floatbv_typet.get_e ⟨32, 23⟩ = 9 :=
  ⟨by decide, (C30_get_e 8 23 (by decide)).1⟩

/-! ## C29: detached goto-states -/

theorem l2_read_clone_new (h : l2_store) (p : Nat) (t : level2t) (hp : h.read p = some t) :
    (level2t_clone h p).1.read (level2t_clone h p).2 = some t := by
  simp only [l2_store.read] at hp
  simp only [level2t_clone, l2_store.read, hp, Option.getD_some]
  rw [List.get?_eq_getElem?, List.getElem?_append_right (Nat.le_refl _)]
  simp

theorem l2_read_clone_old (h : l2_store) (p q : Nat) (t : level2t) (hq : h.read q = some t) :
    (level2t_clone h p).1.read q = some t := by
  simp only [l2_store.read, List.get?_eq_getElem?] at hq
  have hlt : q < h.cells.length := by
    by_contra hc
    rw [List.getElem?_eq_none (by omega)] at hq
    exact absurd hq (by simp)
  simp only [level2t_clone, l2_store.read, List.get?_eq_getElem?]
  rw [List.getElem?_append_left hlt]
  exact hq

theorem l2_clone_fresh (h : l2_store) (p q : Nat) (t : level2t) (hq : h.read q = some t) :
    (level2t_clone h p).2 ≠ q := by
  simp only [l2_store.read, List.get?_eq_getElem?] at hq
  have hlt : q < h.cells.length := by
    by_contra hc
    rw [List.getElem?_eq_none (by omega)] at hq
    exact absurd hq (by simp)
  simp only [level2t_clone]
  omega

theorem l2_read_write_other (h : l2_store) (p q : Nat) (t : level2t) (hpq : p ≠ q) :
    (h.write p t).read q = h.read q := by
  simp only [l2_store.write, l2_store.read, List.get?_eq_getElem?]
  exact List.getElem?_set_ne hpq

/-- C29: a goto-state g built from a thread state s whose L2 reference names
the table t has the depth, guard, value set and thread id of s, and an L2
table of its own, at a new address, equal to t; a copy c of g again has the
fields of g and a table of its own equal to t.  Writing any table u through
the reference of s, or through the pointer of the copy, leaves the table of g
equal to t. -/
theorem C29_goto_state_snapshot (h : l2_store) (s : goto_symex_statet) (t u : level2t)
    (hs : h.read s.level2 = some t) :
    let r := goto_statet.of_state h s
    let g := r.2
    let rc := goto_statet.copy r.1 g
    let c := rc.2
    g.depth = s.depth ∧ g.guard = s.guard ∧ g.value_set = s.value_set
    ∧ g.thread_id = s.source.thread_nr
    ∧ g.level2_ptr ≠ s.level2 ∧ r.1.read g.level2_ptr = some t
    ∧ r.1.read s.level2 = some t
    ∧ (r.1.write s.level2 u).read g.level2_ptr = some t
    ∧ c.depth = g.depth ∧ c.guard = g.guard ∧ c.value_set = g.value_set
    ∧ c.thread_id = g.thread_id
    ∧ c.level2_ptr ≠ g.level2_ptr ∧ c.level2_ptr ≠ s.level2
    ∧ rc.1.read c.level2_ptr = some t ∧ rc.1.read g.level2_ptr = some t
    ∧ (rc.1.write c.level2_ptr u).read g.level2_ptr = some t
    ∧ (rc.1.write s.level2 u).read g.level2_ptr = some t
    ∧ (rc.1.write s.level2 u).read c.level2_ptr = some t := by
  intro r g rc c
  have hg : r.1.read g.level2_ptr = some t := l2_read_clone_new h s.level2 t hs
  have hs1 : r.1.read s.level2 = some t := l2_read_clone_old h s.level2 s.level2 t hs
  have hne : g.level2_ptr ≠ s.level2 := l2_clone_fresh h s.level2 s.level2 t hs
  have hc : rc.1.read c.level2_ptr = some t := l2_read_clone_new r.1 g.level2_ptr t hg
  have hg2 : rc.1.read g.level2_ptr = some t :=
    l2_read_clone_old r.1 g.level2_ptr g.level2_ptr t hg
  have hcg : c.level2_ptr ≠ g.level2_ptr := l2_clone_fresh r.1 g.level2_ptr g.level2_ptr t hg
  have hcs : c.level2_ptr ≠ s.level2 := l2_clone_fresh r.1 g.level2_ptr s.level2 t hs1
  refine ⟨rfl, rfl, rfl, rfl, hne, hg, hs1, ?_, rfl, rfl, rfl, rfl, hcg, hcs, hc, hg2, ?_, ?_, ?_⟩
  · rw [l2_read_write_other _ _ _ _ (Ne.symm hne)]; exact hg
  · rw [l2_read_write_other _ _ _ _ hcg]; exact hg2
  · rw [l2_read_write_other _ _ _ _ (Ne.symm hne)]; exact hg2
  · rw [l2_read_write_other _ _ _ _ (Ne.symm hcs)]; exact hc

/-- Witness for C29: a thread state at depth 3 on thread 1 whose L2 table, at
address 0, holds version 2 of x. -/
theorem C29_goto_state_snapshot_witness :
    (⟨[⟨[("x", 2)]⟩]⟩ : l2_store).read 0 = some ⟨[("x", 2)]⟩
    ∧ ((goto_statet.of_state ⟨[⟨[("x", 2)]⟩]⟩ ⟨3, 0, ⟨[]⟩, ⟨["c"]⟩, ⟨1⟩⟩).1.write 0
        ⟨[("x", 5)]⟩).read
          (goto_statet.of_state ⟨[⟨[("x", 2)]⟩]⟩ ⟨3, 0, ⟨[]⟩, ⟨["c"]⟩, ⟨1⟩⟩).2.level2_ptr
        = some ⟨[("x", 2)]⟩ :=
  ⟨rfl, (C29_goto_state_snapshot ⟨[⟨[("x", 2)]⟩]⟩ ⟨3, 0, ⟨[]⟩, ⟨["c"]⟩, ⟨1⟩⟩ ⟨[("x", 2)]⟩
    ⟨[("x", 5)]⟩ rfl).2.2.2.2.2.2.2.1⟩

/-! ## The search for contained symbols -/

theorem is_in_list_iff (l : List String) (a : String) : is_in_list l a = true ↔ a ∈ l := by
  induction l with
  | nil => simp [is_in_list]
  | cons x xs ih =>
    simp only [is_in_list, List.mem_cons]
    by_cases h : x = a
    · simp [h]
    · rw [if_neg h, ih]
      constructor
      · intro h1; exact Or.inr h1
      · intro h1
        rcases h1 with h1 | h1
        · exact absurd h1.symm h
        · exact h1

theorem fetch_eff_refl (l : fetch_lists) : fetch_eff [] 0 l l := by
  refine ⟨[], by simp, by simp, List.nodup_nil, by simp, by simp⟩

theorem fetch_eff_push (ident : String) (l : fetch_lists) :
    fetch_eff [ident] 1 l (fetch_push ident l) := by
  unfold fetch_push
  by_cases h : is_in_list l.moved ident = true
  · have hm := (is_in_list_iff _ _).mp h
    simp only [h, Bool.not_true, Bool.false_eq_true, if_false]
    refine ⟨[], by simp, by simp, List.nodup_nil, ?_, by simp⟩
    intro n hn
    rw [List.mem_singleton] at hn
    exact Or.inl (hn ▸ hm)
  · have hm : ident ∉ l.moved := fun hc => h ((is_in_list_iff _ _).mpr hc)
    have h2 : is_in_list l.moved ident = false := by simpa using h
    simp only [h2, Bool.not_false, if_true]
    refine ⟨[ident], rfl, ?_, List.nodup_singleton _, ?_, by simp⟩
    · intro n hn
      rw [List.mem_singleton] at hn
      subst hn
      exact ⟨List.mem_singleton.mpr rfl, hm⟩
    · intro n hn
      exact Or.inr hn

theorem fetch_eff_trans (R1 R2 : List String) (s1 s2 : Nat) (l l1 l2 : fetch_lists)
    (h1 : fetch_eff R1 s1 l l1) (h2 : fetch_eff R2 s2 l1 l2) :
    fetch_eff (R1 ++ R2) (s1 + s2) l l2 := by
  obtain ⟨a1, e1, m1, n1, c1, z1⟩ := h1
  obtain ⟨a2, e2, m2, n2, c2, z2⟩ := h2
  subst e1
  refine ⟨a1 ++ a2, ?_, ?_, ?_, ?_, ?_⟩
  · rw [e2]; simp [List.append_assoc]
  · intro n hn
    rcases List.mem_append.mp hn with h | h
    · exact ⟨List.mem_append.mpr (Or.inl (m1 n h).1), (m1 n h).2⟩
    · refine ⟨List.mem_append.mpr (Or.inr (m2 n h).1), ?_⟩
      intro hc
      exact (m2 n h).2 (List.mem_append.mpr (Or.inl hc))
  · rw [List.nodup_append]
    refine ⟨n1, n2, ?_⟩
    intro x hx1 hx2
    exact (m2 x hx2).2 (List.mem_append.mpr (Or.inr hx1))
  · intro n hn
    rcases List.mem_append.mp hn with h | h
    · rcases c1 n h with h' | h'
      · exact Or.inl h'
      · exact Or.inr (List.mem_append.mpr (Or.inl h'))
    · rcases c2 n h with h' | h'
      · rcases List.mem_append.mp h' with h'' | h''
        · exact Or.inl h''
        · exact Or.inr (List.mem_append.mpr (Or.inl h''))
      · exact Or.inr (List.mem_append.mpr (Or.inr h'))
  · rw [List.length_append]; omega

theorem fetch_eff_mono (R : List String) (s1 s2 : Nat) (l l1 : fetch_lists) (hs : s1 ≤ s2)
    (h : fetch_eff R s1 l l1) : fetch_eff R s2 l l1 := by
  obtain ⟨a, e, m, n, c, z⟩ := h
  exact ⟨a, e, m, n, c, by omega⟩

mutual
theorem fetch_node_eff : ∀ (t : irept) (l : fetch_lists),
    fetch_eff (refs_node t) t.size l (fetch_node t l)
  | .mk id sub named_sub comments, l => by
    rw [fetch_node, refs_node, irept.size]
    by_cases h1 : id = "symbol"
    · rw [if_pos h1, if_pos h1]
      exact fetch_eff_mono _ 1 _ _ _ (by omega) (fetch_eff_push _ l)
    · rw [if_neg h1, if_neg h1]
      by_cases h2 : id = "argument"
      · rw [if_pos h2, if_pos h2]
        exact fetch_eff_mono _ 1 _ _ _ (by omega) (fetch_eff_push _ l)
      · rw [if_neg h2, if_neg h2]
        exact fetch_eff_mono _ (sub.size + named_sub.size) _ _ _ (by omega)
          (fetch_eff_trans _ _ _ _ _ _ _ (fetch_sub_eff sub l)
            (fetch_named_eff named_sub (fetch_sub sub l)))
theorem fetch_sub_eff : ∀ (t : irep_list) (l : fetch_lists),
    fetch_eff (refs_sub t) t.size l (fetch_sub t l)
  | .nil, l => by
    rw [fetch_sub, refs_sub, irep_list.size]
    exact fetch_eff_refl l
  | .cons h t, l => by
    rw [fetch_sub, refs_sub, irep_list.size]
    exact fetch_eff_trans _ _ _ _ _ _ _ (fetch_node_eff h l) (fetch_sub_eff t (fetch_node h l))
theorem fetch_named_eff : ∀ (t : named_irep_list) (l : fetch_lists),
    fetch_eff (refs_named t) t.size l (fetch_named t l)
  | .nil, l => by
    rw [fetch_named, refs_named, named_irep_list.size]
    exact fetch_eff_refl l
  | .cons _ h t, l => by
    rw [fetch_named, refs_named, named_irep_list.size]
    exact fetch_eff_trans _ _ _ _ _ _ _ (fetch_node_eff h l) (fetch_named_eff t (fetch_node h l))
end

theorem fetch_list_eff (t : irept) (l : fetch_lists) :
    fetch_eff t.refs t.size l (fetch_list_of_contained_symbols t l) := by
  cases t with
  | mk id sub named_sub comments =>
    unfold fetch_list_of_contained_symbols irept.refs
    simp only [irept.get_sub, irept.get_named_sub]
    rw [irept.size]
    exact fetch_eff_mono _ (sub.size + named_sub.size) _ _ _ (by omega)
      (fetch_eff_trans _ _ _ _ _ _ _ (fetch_sub_eff sub l)
        (fetch_named_eff named_sub (fetch_sub sub l)))

/-- The search of the value and then of the type of a symbol. -/
theorem fetch_symbol_eff (s : symbolt) (l : fetch_lists) :
    fetch_eff (s.value.refs ++ s.type.refs) (s.value.size + s.type.size) l
      (fetch_list_of_contained_symbols s.type (fetch_list_of_contained_symbols s.value l)) :=
  fetch_eff_trans _ _ _ _ _ _ _ (fetch_list_eff s.value l)
    (fetch_list_eff s.type (fetch_list_of_contained_symbols s.value l))

/-! ## Contexts -/

theorem find_some_mem (c : contextt) (n : String) (s : symbolt) (h : c.find n = some s) :
    s ∈ c.symbols ∧ s.name = n := by
  unfold contextt.find at h
  exact ⟨List.mem_of_find?_eq_some h, by simpa using List.find?_some h⟩

theorem find_none_iff (c : contextt) (n : String) :
    c.find n = none ↔ ∀ s ∈ c.symbols, s.name ≠ n := by
  unfold contextt.find
  rw [List.find?_eq_none]
  simp

theorem find_isSome_iff (c : contextt) (n : String) :
    (c.find n).isSome = true ↔ ∃ s ∈ c.symbols, s.name = n := by
  constructor
  · intro h
    obtain ⟨s, hs⟩ := Option.isSome_iff_exists.mp h
    exact ⟨s, find_some_mem c n s hs⟩
  · intro h
    by_contra hc
    have hn : c.find n = none := by
      cases hf : c.find n with
      | none => rfl
      | some s => rw [hf] at hc; exact absurd rfl hc
    obtain ⟨s, hs, he⟩ := h
    exact (find_none_iff c n).mp hn s hs he

theorem add_symbols (c : contextt) (x : symbolt) :
    (c.add x).symbols = if (c.find x.name).isSome then c.symbols else c.symbols ++ [x] := by
  unfold contextt.add
  split <;> rfl

theorem mem_add_of_mem (c : contextt) (x s : symbolt) (h : s ∈ c.symbols) :
    s ∈ (c.add x).symbols := by
  rw [add_symbols]
  split
  · exact h
  · exact List.mem_append.mpr (Or.inl h)

theorem mem_add (c : contextt) (x s : symbolt) (h : s ∈ (c.add x).symbols) :
    s ∈ c.symbols ∨ s = x := by
  rw [add_symbols] at h
  split at h
  · exact Or.inl h
  · rcases List.mem_append.mp h with h | h
    · exact Or.inl h
    · exact Or.inr (List.mem_singleton.mp h)

theorem add_find_isSome (c : contextt) (x : symbolt) (n : String) :
    ((c.add x).find n).isSome = true ↔ ((c.find n).isSome = true ∨ n = x.name) := by
  rw [find_isSome_iff, find_isSome_iff]
  constructor
  · rintro ⟨s, hs, he⟩
    rcases mem_add c x s hs with h | h
    · exact Or.inl ⟨s, h, he⟩
    · exact Or.inr (by rw [← he, h])
  · rintro (⟨s, hs, he⟩ | h)
    · exact ⟨s, mem_add_of_mem c x s hs, he⟩
    · by_cases hx : (c.find x.name).isSome = true
      · obtain ⟨s, hs, he⟩ := (find_isSome_iff c x.name).mp hx
        exact ⟨s, mem_add_of_mem c x s hs, by rw [he, h]⟩
      · refine ⟨x, ?_, h.symm⟩
        rw [add_symbols, if_neg hx]
        exact List.mem_append.mpr (Or.inr (List.mem_singleton.mpr rfl))

theorem symbols_size_append (l1 l2 : List symbolt) :
    symbols_size (l1 ++ l2) = symbols_size l1 + symbols_size l2 := by
  induction l1 with
  | nil => simp [symbols_size]
  | cons s r ih =>
    rw [List.cons_append]
    simp only [symbols_size]
    rw [ih]
    omega

theorem unfetched_add_le (c : contextt) (x : symbolt) (L : List symbolt) :
    unfetched (c.add x) L ≤ unfetched c L := by
  induction L with
  | nil => simp [unfetched]
  | cons s r ih =>
    simp only [unfetched]
    by_cases h : (c.find s.name).isSome = true
    · have h2 : ((c.add x).find s.name).isSome = true :=
        (add_find_isSome c x s.name).mpr (Or.inl h)
      rw [if_pos h, if_pos h2]
      omega
    · rw [if_neg h]
      split <;> omega

theorem unfetched_add_mem (c : contextt) (x : symbolt) (L : List symbolt) (hx : x ∈ L)
    (hn : c.find x.name = none) :
    unfetched (c.add x) L + (x.value.size + x.type.size) ≤ unfetched c L := by
  induction L with
  | nil => exact absurd hx (List.not_mem_nil _)
  | cons s r ih =>
    simp only [unfetched]
    have hle := unfetched_add_le c x r
    by_cases hs : s.name = x.name
    · have h1 : ¬ ((c.find s.name).isSome = true) := by rw [hs, hn]; simp
      have h2 : ((c.add x).find s.name).isSome = true :=
        (add_find_isSome c x s.name).mpr (Or.inr hs)
      rw [if_neg h1, if_pos h2]
      rcases List.mem_cons.mp hx with h | h
      · subst h
        omega
      · have := ih h
        omega
    · rcases List.mem_cons.mp hx with h | h
      · exact absurd (by rw [h]) hs
      · have := ih h
        by_cases h1 : (c.find s.name).isSome = true
        · have h2 : ((c.add x).find s.name).isSome = true :=
            (add_find_isSome c x s.name).mpr (Or.inl h1)
          rw [if_pos h1, if_pos h2]
          omega
        · rw [if_neg h1]
          split <;> omega

theorem unfetched_empty (L : List symbolt) : unfetched ⟨[]⟩ L = symbols_size L := by
  induction L with
  | nil => rfl
  | cons s r ih =>
    simp only [unfetched, symbols_size, ih, contextt.find, List.find?_nil, Option.isSome_none,
      Bool.false_eq_true, if_false]

/-! ## The first and the second loop -/

theorem first_pass_spec (context : contextt) (L : List symbolt) :
    ∀ (rest : List symbolt) (acc : List String × contextt),
      (∀ s ∈ rest, s ∈ L) →
      (∀ s ∈ acc.2.symbols, s ∈ L ∧ declared_bodyless context s.name = true) →
      (∀ s ∈ acc.2.symbols, s.name ∈ acc.1) →
      symbols_size acc.2.symbols + unfetched acc.2 L ≤ symbols_size L →
      (∀ n ∈ acc.1, (acc.2.find n).isSome = true) →
      (∀ s ∈ (first_pass context rest acc).2.symbols,
          s ∈ L ∧ declared_bodyless context s.name = true)
      ∧ (∀ s ∈ (first_pass context rest acc).2.symbols,
          s.name ∈ (first_pass context rest acc).1)
      ∧ symbols_size (first_pass context rest acc).2.symbols
          + unfetched (first_pass context rest acc).2 L ≤ symbols_size L
      ∧ (∀ n, (acc.2.find n).isSome = true →
          ((first_pass context rest acc).2.find n).isSome = true)
      ∧ (∀ s ∈ rest, declared_bodyless context s.name = true →
          ((first_pass context rest acc).2.find s.name).isSome = true)
      ∧ (∀ n ∈ (first_pass context rest acc).1,
          ((first_pass context rest acc).2.find n).isSome = true) := by
  intro rest
  induction rest with
  | nil =>
    intro acc _ h2 h3 h4 h5
    simp only [first_pass]
    exact ⟨h2, h3, h4, fun _ h => h, fun s hs => absurd hs (List.not_mem_nil _), h5⟩
  | cons it rest ih =>
    intro acc h1 h2 h3 h4 h5
    have hrest : ∀ s ∈ rest, s ∈ L := fun s hs => h1 s (List.mem_cons_of_mem _ hs)
    have hit : it ∈ L := h1 it (List.mem_cons_self _ _)
    by_cases hb : declared_bodyless context it.name = true
    · -- the symbol is moved to store_ctx
      have hstep : first_pass context (it :: rest) acc
          = first_pass context rest (acc.1 ++ [it.name], acc.2.add it) := by
        unfold declared_bodyless at hb
        rw [first_pass]
        cases hf : context.find it.name with
        | none => rw [hf] at hb; exact absurd hb (by simp)
        | some u =>
          rw [hf] at hb
          simp only [] at hb
          simp only [hb, if_true]
      rw [hstep]
      have a2 : ∀ s ∈ (acc.2.add it).symbols, s ∈ L ∧ declared_bodyless context s.name = true := by
        intro s hs
        rcases mem_add _ _ _ hs with h | h
        · exact h2 s h
        · rw [h]; exact ⟨hit, hb⟩
      have a3 : ∀ s ∈ (acc.2.add it).symbols, s.name ∈ acc.1 ++ [it.name] := by
        intro s hs
        rcases mem_add _ _ _ hs with h | h
        · exact List.mem_append.mpr (Or.inl (h3 s h))
        · rw [h]; exact List.mem_append.mpr (Or.inr (List.mem_singleton.mpr rfl))
      have a4 : symbols_size (acc.2.add it).symbols + unfetched (acc.2.add it) L
          ≤ symbols_size L := by
        rw [add_symbols]
        by_cases hx : (acc.2.find it.name).isSome = true
        · rw [if_pos hx]
          have := unfetched_add_le acc.2 it L
          omega
        · rw [if_neg hx, symbols_size_append]
          have hn : acc.2.find it.name = none := by
            cases hf : acc.2.find it.name with
            | none => rfl
            | some u => rw [hf] at hx; exact absurd rfl hx
          have := unfetched_add_mem acc.2 it L hit hn
          simp only [symbols_size]
          omega
      have a5 : ∀ n ∈ acc.1 ++ [it.name], ((acc.2.add it).find n).isSome = true := by
        intro n hn
        rcases List.mem_append.mp hn with h | h
        · exact (add_find_isSome acc.2 it n).mpr (Or.inl (h5 n h))
        · exact (add_find_isSome acc.2 it n).mpr (Or.inr (List.mem_singleton.mp h))
      obtain ⟨r1, r2, r3, r4, r5, r6⟩ :=
        ih (acc.1 ++ [it.name], acc.2.add it) hrest a2 a3 a4 a5
      refine ⟨r1, r2, r3, ?_, ?_, r6⟩
      · intro n hn
        exact r4 n ((add_find_isSome acc.2 it n).mpr (Or.inl hn))
      · intro s hs hsb
        rcases List.mem_cons.mp hs with h | h
        · rw [h]
          exact r4 it.name ((add_find_isSome acc.2 it it.name).mpr (Or.inr rfl))
        · exact r5 s h hsb
    · have hstep : first_pass context (it :: rest) acc = first_pass context rest acc := by
        unfold declared_bodyless at hb
        rw [first_pass]
        cases hf : context.find it.name with
        | none => rfl
        | some u =>
          rw [hf] at hb
          simp only [] at hb
          simp only [hb, if_false, Bool.false_eq_true]
      rw [hstep]
      obtain ⟨r1, r2, r3, r4, r5, r6⟩ := ih acc hrest h2 h3 h4 h5
      refine ⟨r1, r2, r3, r4, ?_, r6⟩
      intro s hs hsb
      rcases List.mem_cons.mp hs with h | h
      · rw [h] at hsb; exact absurd hsb hb
      · exact r5 s h hsb

theorem second_pass_spec : ∀ (S : List symbolt) (l : fetch_lists),
    ∃ a : List String, second_pass S l = ⟨l.names ++ a, l.moved ++ a⟩
      ∧ (∀ n ∈ a, (∃ s ∈ S, n ∈ s.value.refs ∨ n ∈ s.type.refs) ∧ n ∉ l.moved)
      ∧ a.Nodup ∧ a.length ≤ symbols_size S
      ∧ (∀ s ∈ S, ∀ n, (n ∈ s.value.refs ∨ n ∈ s.type.refs) → n ∈ l.moved ∨ n ∈ a) := by
  intro S
  induction S with
  | nil =>
    intro l
    exact ⟨[], by simp [second_pass], by simp, List.nodup_nil, by simp,
      fun s hs => absurd hs (List.not_mem_nil _)⟩
  | cons it rest ih =>
    intro l
    obtain ⟨a1, e1, m1, n1, c1, z1⟩ := fetch_symbol_eff it l
    obtain ⟨a2, e2, m2, n2, z2, c2⟩ := ih
      (fetch_list_of_contained_symbols it.type (fetch_list_of_contained_symbols it.value l))
    rw [e1] at e2 m2 c2
    refine ⟨a1 ++ a2, ?_, ?_, ?_, ?_, ?_⟩
    · rw [second_pass, e1, e2]; simp [List.append_assoc]
    · intro n hn
      rcases List.mem_append.mp hn with h | h
      · exact ⟨⟨it, List.mem_cons_self _ _, List.mem_append.mp (m1 n h).1⟩, (m1 n h).2⟩
      · obtain ⟨⟨s, hs, hr⟩, hnm⟩ := m2 n h
        exact ⟨⟨s, List.mem_cons_of_mem _ hs, hr⟩,
          fun hc => hnm (List.mem_append.mpr (Or.inl hc))⟩
    · rw [List.nodup_append]
      refine ⟨n1, n2, ?_⟩
      intro x hx1 hx2
      exact (m2 x hx2).2 (List.mem_append.mpr (Or.inr hx1))
    · rw [List.length_append]
      simp only [symbols_size]
      omega
    · intro s hs n hn
      rcases List.mem_cons.mp hs with h | h
      · rw [h] at hn
        rcases c1 n (List.mem_append.mpr hn) with h1 | h1
        · exact Or.inl h1
        · exact Or.inr (List.mem_append.mpr (Or.inl h1))
      · rcases c2 s h n hn with h1 | h1
        · rcases List.mem_append.mp h1 with h2 | h2
          · exact Or.inl h2
          · exact Or.inr (List.mem_append.mpr (Or.inl h2))
        · exact Or.inr (List.mem_append.mpr (Or.inr h1))

/-! ## The third loop -/

theorem nodup_get_not_mem_drop (l : List String) (i : Nat) (x : String) (hn : l.Nodup)
    (hi : l.get? i = some x) : x ∉ l.drop (i + 1) ∧ l.drop i = x :: l.drop (i + 1) := by
  rw [List.get?_eq_getElem?] at hi
  obtain ⟨hlt, hx⟩ := List.getElem?_eq_some.mp hi
  have hd : l.drop i = x :: l.drop (i + 1) := by
    rw [← hx]
    exact List.drop_eq_getElem_cons hlt
  have hnd : (l.drop i).Nodup := List.Nodup.sublist (List.drop_sublist i l) hn
  rw [hd] at hnd
  exact ⟨(List.nodup_cons.mp hnd).1, hd⟩

theorem third_pass_ok (context new_ctx : contextt) :
    ∀ (fuel i : Nat) (st : link_state), link_inv context new_ctx i st →
      (st.names.length - i) + unfetched st.store_ctx new_ctx.symbols < fuel →
      ∃ st1, third_pass new_ctx fuel i st = some st1
        ∧ (∀ s ∈ st1.store_ctx.symbols, s ∈ new_ctx.symbols ∧ lib_reach context new_ctx s.name)
        ∧ (∀ n, (st.store_ctx.find n).isSome = true → (st1.store_ctx.find n).isSome = true)
        ∧ (∀ s ∈ st1.store_ctx.symbols, ∀ n, (n ∈ s.value.refs ∨ n ∈ s.type.refs) →
            (new_ctx.find n).isSome = true → (st1.store_ctx.find n).isSome = true) := by
  intro fuel
  induction fuel with
  | zero => intro i st _ h; exact absurd h (Nat.not_lt_zero _)
  | succ fuel ih =>
    intro i st hinv hfuel
    obtain ⟨i1, i2, i3, i4, i5, i6, i7, i8, i9⟩ := hinv
    rw [third_pass]
    cases hg : st.names.get? i with
    | none =>
      refine ⟨st, rfl, i5, fun _ h => h, ?_⟩
      intro s hs n hn hlib
      have hlen : st.names.length ≤ i := by
        rw [List.get?_eq_getElem?] at hg
        exact List.getElem?_eq_none_iff.mp hg
      rcases i8 n (i7 s hs n hn) with h | h
      · exact i9 n (by rw [List.take_of_length_le hlen]; exact h) hlib
      · exact h
    | some nameit =>
      simp only []
      have hlt : i < st.names.length := by
        rw [List.get?_eq_getElem?] at hg
        exact (List.getElem?_eq_some.mp hg).1
      obtain ⟨hnd, hdrop⟩ := nodup_get_not_mem_drop st.names i nameit i1 hg
      have hmem : nameit ∈ st.names := by
        have : nameit ∈ st.names.drop i := by rw [hdrop]; exact List.mem_cons_self _ _
        exact List.mem_of_mem_drop this
      cases hf : new_ctx.find nameit with
      | none =>
        simp only []
        have htake : st.names.take (i + 1) = st.names.take i ++ [nameit] := by
          rw [List.take_succ, ← List.get?_eq_getElem?, hg]; rfl
        have hinv1 : link_inv context new_ctx (i + 1) st := by
          refine ⟨i1, i2, i3, ?_, i5, i6, i7, i8, ?_⟩
          · intro n hn
            exact i4 n (by rw [hdrop]; exact List.mem_cons_of_mem _ hn)
          · intro n hn hlib
            rw [htake] at hn
            rcases List.mem_append.mp hn with h | h
            · exact i9 n h hlib
            · rw [List.mem_singleton.mp h, hf] at hlib
              exact absurd hlib (by simp)
        obtain ⟨st1, e1, p1, p2, p3⟩ := ih (i + 1) st hinv1 (by omega)
        exact ⟨st1, e1, p1, p2, p3⟩
      | some used_sym =>
        simp only []
        obtain ⟨hum, hun⟩ := find_some_mem new_ctx nameit used_sym hf
        obtain ⟨a, ea, ma, na, ca, za⟩ :=
          fetch_symbol_eff used_sym ⟨st.names, st.moved ++ [used_sym.name]⟩
        simp only [] at ea ma ca
        have htake : (st.names ++ a).take (i + 1) = st.names.take i ++ [nameit] := by
          rw [List.take_append_of_le_length (by omega), List.take_succ,
            ← List.get?_eq_getElem?, hg]
          rfl
        rw [ea]
        simp only []
        have hfresh : st.store_ctx.find used_sym.name = none := by
          rw [hun]
          exact i4 nameit (by rw [hdrop]; exact List.mem_cons_self _ _)
        have hreach : lib_reach context new_ctx used_sym.name := by rw [hun]; exact i6 nameit hmem
        have hinv1 : link_inv context new_ctx (i + 1)
            ⟨st.names ++ a, st.moved ++ [used_sym.name] ++ a, st.store_ctx.add used_sym⟩ := by
          refine ⟨?_, ?_, ?_, ?_, ?_, ?_, ?_, ?_, ?_⟩
          · rw [List.nodup_append]
            refine ⟨i1, na, ?_⟩
            intro x hx1 hx2
            exact (ma x hx2).2 (List.mem_append.mpr (Or.inl (i2 x hx1)))
          · intro n hn
            rcases List.mem_append.mp hn with h | h
            · exact List.mem_append.mpr (Or.inl (List.mem_append.mpr (Or.inl (i2 n h))))
            · exact List.mem_append.mpr (Or.inr h)
          · intro s hs
            rcases mem_add _ _ _ hs with h | h
            · exact List.mem_append.mpr (Or.inl (List.mem_append.mpr (Or.inl (i3 s h))))
            · rw [h]
              exact List.mem_append.mpr
                (Or.inl (List.mem_append.mpr (Or.inr (List.mem_singleton.mpr rfl))))
          · intro n hn
            simp only [] at hn
            rw [List.drop_append_of_le_length (by omega)] at hn
            have hne : n ≠ used_sym.name ∧ st.store_ctx.find n = none := by
              rcases List.mem_append.mp hn with h | h
              · refine ⟨?_, i4 n (by rw [hdrop]; exact List.mem_cons_of_mem _ h)⟩
                intro hc
                rw [hc, hun] at h
                exact hnd h
              · have hnm := (ma n h).2
                refine ⟨?_, ?_⟩
                · intro hc
                  exact hnm (List.mem_append.mpr (Or.inr (List.mem_singleton.mpr hc)))
                · rw [find_none_iff]
                  intro s hs hsn
                  exact hnm (List.mem_append.mpr (Or.inl (hsn ▸ i3 s hs)))
            cases hfn : (st.store_ctx.add used_sym).find n with
            | none => rfl
            | some u =>
              exfalso
              have h1 : ((st.store_ctx.add used_sym).find n).isSome = true := by rw [hfn]; rfl
              rcases (add_find_isSome _ _ _).mp h1 with h | h
              · rw [hne.2] at h; exact absurd h (by simp)
              · exact hne.1 h
          · intro s hs
            rcases mem_add _ _ _ hs with h | h
            · exact i5 s h
            · rw [h]; exact ⟨hum, hreach⟩
          · intro n hn
            rcases List.mem_append.mp hn with h | h
            · exact i6 n h
            · exact lib_reach.step used_sym n hum hreach (List.mem_append.mp (ma n h).1)
          · intro s hs n hn
            rcases mem_add _ _ _ hs with h | h
            · exact List.mem_append.mpr
                (Or.inl (List.mem_append.mpr (Or.inl (i7 s h n hn))))
            · rw [h] at hn
              rcases ca n (List.mem_append.mpr hn) with h1 | h1
              · exact List.mem_append.mpr (Or.inl h1)
              · exact List.mem_append.mpr (Or.inr h1)
          · intro n hn
            simp only [] at hn ⊢
            rcases List.mem_append.mp hn with h | h
            · rcases List.mem_append.mp h with h1 | h1
              · rcases i8 n h1 with h2 | h2
                · exact Or.inl (List.mem_append.mpr (Or.inl h2))
                · exact Or.inr ((add_find_isSome _ _ _).mpr (Or.inl h2))
              · exact Or.inr ((add_find_isSome _ _ _).mpr (Or.inr (List.mem_singleton.mp h1)))
            · exact Or.inl (List.mem_append.mpr (Or.inr h))
          · intro n hn hlib
            simp only [] at hn ⊢
            rw [htake] at hn
            rcases List.mem_append.mp hn with h | h
            · exact (add_find_isSome _ _ _).mpr (Or.inl (i9 n h hlib))
            · exact (add_find_isSome _ _ _).mpr
                (Or.inr (by rw [List.mem_singleton.mp h, hun]))
        have hsz := unfetched_add_mem st.store_ctx used_sym new_ctx.symbols hum hfresh
        obtain ⟨st1, e1, p1, p2, p3⟩ := ih (i + 1) _ hinv1 (by
          simp only [List.length_append]
          omega)
        refine ⟨st1, e1, p1, ?_, p3⟩
        intro n hn
        exact p2 n ((add_find_isSome _ _ _).mpr (Or.inl hn))

/-- The third loop ends within the passes allowed, and what `merge_context`
receives is made of reached library symbols, holds every library symbol the
user context declares with a nil value, and holds every library symbol whose
name `fetch_list_of_contained_symbols` reads in one of its members. -/
theorem add_cprover_library_spec (context new_ctx : contextt) :
    ∃ st, add_cprover_library context new_ctx = some st
      ∧ (∀ s ∈ st.store_ctx.symbols, s ∈ new_ctx.symbols ∧ lib_reach context new_ctx s.name)
      ∧ (∀ s ∈ new_ctx.symbols, declared_bodyless context s.name = true →
          (st.store_ctx.find s.name).isSome = true)
      ∧ (∀ s ∈ st.store_ctx.symbols, ∀ n, (n ∈ s.value.refs ∨ n ∈ s.type.refs) →
          (new_ctx.find n).isSome = true → (st.store_ctx.find n).isSome = true) := by
  unfold add_cprover_library
  simp only []
  obtain ⟨f1, f2, f3, _, f5, f6⟩ := first_pass_spec context new_ctx.symbols new_ctx.symbols
    ([], ⟨[]⟩) (fun _ h => h) (fun s hs => absurd hs (List.not_mem_nil _))
    (fun s hs => absurd hs (List.not_mem_nil _))
    (by rw [unfetched_empty]; simp [symbols_size])
    (fun n hn => absurd hn (List.not_mem_nil _))
  obtain ⟨a, ea, ma, na, za, ca⟩ :=
    second_pass_spec (first_pass context new_ctx.symbols ([], ⟨[]⟩)).2.symbols
      ⟨[], (first_pass context new_ctx.symbols ([], ⟨[]⟩)).1⟩
  rw [ea]
  simp only [List.nil_append] at ma ⊢
  have hinv : link_inv context new_ctx 0
      ⟨a, (first_pass context new_ctx.symbols ([], ⟨[]⟩)).1 ++ a,
        (first_pass context new_ctx.symbols ([], ⟨[]⟩)).2⟩ := by
    refine ⟨na, ?_, ?_, ?_, ?_, ?_, ?_, ?_, ?_⟩
    · intro n hn
      exact List.mem_append.mpr (Or.inr hn)
    · intro s hs
      exact List.mem_append.mpr (Or.inl (f2 s hs))
    · intro n hn
      rw [List.drop_zero] at hn
      rw [find_none_iff]
      intro s hs hsn
      exact (ma n hn).2 (hsn ▸ f2 s hs)
    · intro s hs
      exact ⟨(f1 s hs).1, lib_reach.base s (f1 s hs).1 (f1 s hs).2⟩
    · intro n hn
      obtain ⟨⟨s, hs, hr⟩, _⟩ := ma n hn
      exact lib_reach.step s n (f1 s hs).1 (lib_reach.base s (f1 s hs).1 (f1 s hs).2) hr
    · intro s hs n hn
      exact List.mem_append.mpr (ca s hs n hn)
    · intro n hn
      rcases List.mem_append.mp hn with h | h
      · exact Or.inr (f6 n h)
      · exact Or.inl h
    · intro n hn
      rw [List.take_zero] at hn
      exact absurd hn (List.not_mem_nil _)
  obtain ⟨st1, e1, p1, p2, p3⟩ := third_pass_ok context new_ctx
    (symbols_size new_ctx.symbols + 1) 0 _ hinv (by simp only []; omega)
  exact ⟨st1, e1, p1, fun s hs hb => p2 s.name (f5 s hs hb), p3⟩

/-! ## C27: the linkage contract -/

/-- C27 (as stated): a symbol that the user program defines with a body is
imported all the same when an imported symbol refers to it.  The user context
declares `bar` without a body and defines `foo`; the library defines both, and
its `bar` refers to `foo`: `store_ctx` holds `bar` and `foo`. -/
theorem C27_defined_symbol_imported :
    (add_cprover_library
        ⟨[⟨"bar", irept.leaf "nil", irept.leaf "code"⟩,
          ⟨"foo", irept.unary "code" (irept.leaf "skip"), irept.leaf "code"⟩]⟩
        ⟨[⟨"bar", irept.unary "code" (irept.symbol "foo" (irept.leaf "code")),
            irept.leaf "code"⟩,
          ⟨"foo", irept.unary "code" (irept.leaf "skip"), irept.leaf "code"⟩]⟩).map
      (fun st => st.store_ctx.symbols.map (fun s => s.name)) = some ["bar", "foo"]
    ∧ ((contextt.find
        ⟨[⟨"bar", irept.leaf "nil", irept.leaf "code"⟩,
          ⟨"foo", irept.unary "code" (irept.leaf "skip"), irept.leaf "code"⟩]⟩ "foo").map
      (fun s => s.value.is_nil)) = some false := by
  constructor <;> decide

/-- C27 (amended): `add_cprover_library` reaches `merge_context`, and every
symbol of `store_ctx` is a library symbol whose name is reached from the
library symbols that the user context declares with a nil value, through the
identifiers `fetch_list_of_contained_symbols` reads; every library symbol
that the user context declares with a nil value is imported. -/
theorem C27_linkage (context new_ctx : contextt) :
    ∃ st, add_cprover_library context new_ctx = some st
      ∧ (∀ s ∈ st.store_ctx.symbols, s ∈ new_ctx.symbols ∧ lib_reach context new_ctx s.name)
      ∧ (∀ s ∈ new_ctx.symbols, declared_bodyless context s.name = true →
          (st.store_ctx.find s.name).isSome = true) := by
  obtain ⟨st, h1, h2, h3, _⟩ := add_cprover_library_spec context new_ctx
  exact ⟨st, h1, h2, h3⟩

/-- Witness for C27: the user context declares `bar` without a body, the
library defines it: it is imported. -/
theorem C27_linkage_witness :
    ∃ st, add_cprover_library ⟨[⟨"bar", irept.leaf "nil", irept.leaf "code"⟩]⟩
        ⟨[⟨"bar", irept.unary "code" (irept.leaf "skip"), irept.leaf "code"⟩]⟩ = some st
      ∧ (st.store_ctx.find "bar").isSome = true :=
  match C27_linkage ⟨[⟨"bar", irept.leaf "nil", irept.leaf "code"⟩]⟩
      ⟨[⟨"bar", irept.unary "code" (irept.leaf "skip"), irept.leaf "code"⟩]⟩ with
  | ⟨st, h1, _, h3⟩ =>
    ⟨st, h1, h3 ⟨"bar", irept.unary "code" (irept.leaf "skip"), irept.leaf "code"⟩
      (List.mem_singleton.mpr rfl) (by decide)⟩

/-! ## C28: closure of the imported set -/

/-- C28: the imported set is closed under the identifiers that
`fetch_list_of_contained_symbols` reads, which are not all "symbol" and
"argument" nodes: the root of a value or of a type is not inspected, and
nothing below a "symbol" or "argument" node is.  The library variable `v` has
the type `tag_v` (a "symbol" node at the root) and the value `&w`, where the
node for `w` carries the type `tag_w`; the user context declares `v`:
`store_ctx` holds `v` and `w`, and neither of the library symbols `tag_v`,
`tag_w`. -/
theorem C28_closure_misses_root_and_nested :
    (∀ context new_ctx : contextt, ∃ st, add_cprover_library context new_ctx = some st
      ∧ ∀ s ∈ st.store_ctx.symbols, ∀ n, (n ∈ s.value.refs ∨ n ∈ s.type.refs) →
          (new_ctx.find n).isSome = true → (st.store_ctx.find n).isSome = true)
    ∧ (add_cprover_library
        ⟨[⟨"v", irept.leaf "nil", irept.symbol "tag_v" (irept.leaf "nil")⟩]⟩
        ⟨[⟨"v", irept.unary "address_of" (irept.symbol "w" (irept.symbol "tag_w" (irept.leaf "nil"))),
            irept.symbol "tag_v" (irept.leaf "nil")⟩,
          ⟨"w", irept.leaf "nil", irept.symbol "tag_w" (irept.leaf "nil")⟩,
          ⟨"tag_v", irept.leaf "nil", irept.leaf "struct"⟩,
          ⟨"tag_w", irept.leaf "nil", irept.leaf "struct"⟩]⟩).map
      (fun st => st.store_ctx.symbols.map (fun s => s.name)) = some ["v", "w"]
    ∧ (irept.symbol "tag_v" (irept.leaf "nil")).all_refs = ["tag_v"]
    ∧ (irept.unary "address_of"
        (irept.symbol "w" (irept.symbol "tag_w" (irept.leaf "nil")))).all_refs = ["w", "tag_w"] := by
  refine ⟨?_, by decide, by decide, by decide⟩
  intro context new_ctx
  obtain ⟨st, h1, _, _, h4⟩ := add_cprover_library_spec context new_ctx
  exact ⟨st, h1, h4⟩

/-! ## C31: trichotomy of the comparisons -/

/-- Claim C31 (divergence): for x = -1.0 and y = 1.0 in single precision,
neither a NaN, none of lt, eq, gt holds: `mk_smt_fpbv_lt` reads both signs from
its left operand, so the operands' equal exponent-significand slices are
compared unsigned in both directions.  For the negative values x = -2.0 and
y = -1.0 exactly one holds, but it is gt. -/
theorem C31_trichotomy_fails :
    mk_smt_fpbv_is_nan (fp_val 8 24 0xbf800000) = false
    ∧ mk_smt_fpbv_is_nan (fp_val 8 24 0x3f800000) = false
    ∧ mk_smt_fpbv_lt (fp_val 8 24 0xbf800000) (fp_val 8 24 0x3f800000) = false
    ∧ mk_smt_fpbv_eq (fp_val 8 24 0xbf800000) (fp_val 8 24 0x3f800000) = false
    ∧ mk_smt_fpbv_gt (fp_val 8 24 0xbf800000) (fp_val 8 24 0x3f800000) = false
    ∧ mk_smt_fpbv_lt (fp_val 8 24 0xc0000000) (fp_val 8 24 0xbf800000) = false
    ∧ mk_smt_fpbv_eq (fp_val 8 24 0xc0000000) (fp_val 8 24 0xbf800000) = false
    ∧ mk_smt_fpbv_gt (fp_val 8 24 0xc0000000) (fp_val 8 24 0xbf800000) = true := by
  decide

/-! ## C32: comparisons with a NaN -/

/-- Claim C32 (divergence in gte): when x or y is a NaN, eq, lt, gt and lte
are false, and gte, the negation of lt, is true. -/
theorem C32_nan_comparisons (x y : smt_ast)
    (h : mk_smt_fpbv_is_nan x = true ∨ mk_smt_fpbv_is_nan y = true) :
    mk_smt_fpbv_eq x y = false ∧ mk_smt_fpbv_lt x y = false ∧ mk_smt_fpbv_gt x y = false
    ∧ mk_smt_fpbv_lte x y = false ∧ mk_smt_fpbv_gte x y = true := by
  have hor : (mk_smt_fpbv_is_nan x || mk_smt_fpbv_is_nan y) = true := by
    rcases h with h | h <;> simp [h]
  have hor' : (mk_smt_fpbv_is_nan y || mk_smt_fpbv_is_nan x) = true := by
    rcases h with h | h <;> simp [h]
  have heq : mk_smt_fpbv_eq x y = false := by
    simp only [mk_smt_fpbv_eq, hor, Bool.not_true, Bool.and_false]
  have hlt : mk_smt_fpbv_lt x y = false := by
    simp only [mk_smt_fpbv_lt, hor, Bool.not_true, Bool.and_false, Bool.false_and]
  have hgt : mk_smt_fpbv_gt x y = false := by
    simp only [mk_smt_fpbv_gt, mk_smt_fpbv_lt, hor', Bool.not_true, Bool.and_false,
      Bool.false_and]
  refine ⟨heq, hlt, hgt, ?_, ?_⟩
  · simp only [mk_smt_fpbv_lte, hlt, heq, Bool.or_self]
  · simp only [mk_smt_fpbv_gte, hlt, Bool.not_false]

/-- Witness for C32: the single-precision quiet NaN against 1.0. -/
theorem C32_nan_comparisons_witness :
    mk_smt_fpbv_is_nan (fp_val 8 24 0x7fc00000) = true
    ∧ mk_smt_fpbv_gte (fp_val 8 24 0x7fc00000) (fp_val 8 24 0x3f800000) = true :=
  ⟨by decide, (C32_nan_comparisons (fp_val 8 24 0x7fc00000) (fp_val 8 24 0x3f800000)
    (Or.inl (by decide))).2.2.2.2⟩

/-! ## C40: the arithmetic sorts of the Yices adapter -/

/-- Claim C40 (divergence): `mk_int_sort` builds the sort of kind SMT_SORT_INT
from the solver's real type and `mk_real_sort` the sort of kind SMT_SORT_REAL
from the solver's integer type: the two solver types are exchanged. -/
theorem C40_arith_sorts_swapped :
    mk_int_sort.id = .SMT_SORT_INT ∧ mk_int_sort.s = .yices_real_type
    ∧ mk_real_sort.id = .SMT_SORT_REAL ∧ mk_real_sort.s = .yices_int_type
    ∧ mk_int_sort.s ≠ .yices_int_type ∧ mk_real_sort.s ≠ .yices_real_type := by
  decide

/-! ## C33: the classifiers partition the packed values -/

/-- Claim C33: for every format with ebits ≥ 1 and sbits ≥ 2, every packed
value satisfies exactly one of is_zero, mk_is_denormal, is_normal, is_inf,
is_nan (the number of classifiers that hold is 1), and exactly one of
is_positive, is_negative. -/
theorem C33_classifier_partition (ebits sbits v : Nat) (he : 1 ≤ ebits) (hsb : 2 ≤ sbits)
    (hv : v < 2 ^ (ebits + sbits)) :
    (mk_smt_fpbv_is_zero (fp_val ebits sbits v)).toNat
        + (mk_is_denormal (fp_val ebits sbits v)).toNat
        + (mk_smt_fpbv_is_normal (fp_val ebits sbits v)).toNat
        + (mk_smt_fpbv_is_inf (fp_val ebits sbits v)).toNat
        + (mk_smt_fpbv_is_nan (fp_val ebits sbits v)).toNat = 1
    ∧ (mk_smt_fpbv_is_positive (fp_val ebits sbits v)).toNat
        + (mk_smt_fpbv_is_negative (fp_val ebits sbits v)).toNat = 1 := by
  obtain ⟨hx, hs, hE, hT⟩ := fp_val_eq_fields ebits sbits v (by omega) hv
  rw [hx]
  generalize v / 2 ^ (ebits + (sbits - 1)) = s at *
  generalize v / 2 ^ (sbits - 1) % 2 ^ ebits = E at *
  generalize v % 2 ^ (sbits - 1) = T at *
  have htop : (0 : Nat) ≠ 2 ^ ebits - 1 := by
    have : 2 ^ 1 ≤ 2 ^ ebits := Nat.pow_le_pow_right (by decide) he
    omega
  simp only [is_nan_fields _ _ _ _ _ he hsb hE hT, is_inf_fields _ _ _ _ _ he hsb hE hT,
    is_zero_fields _ _ _ _ _ he hE hT, is_denormal_fields _ _ _ _ _ he hsb hE hT,
    is_normal_fields _ _ _ _ _ he hsb hE hT, is_positive_fields _ _ _ _ _ hs hE hT,
    is_negative_fields _ _ _ _ _ hs hE hT]
  constructor
  · by_cases h1 : E = 0
    · subst h1
      by_cases h2 : T = 0 <;> simp [h2, htop]
    · by_cases h3 : E = 2 ^ ebits - 1
      · subst h3
        by_cases h2 : T = 0 <;> simp [h2, Ne.symm htop]
      · by_cases h2 : T = 0 <;> simp [h1, h2, h3]
  · by_cases h : s = 0 <;> simp [h]

/-- Witness for C33: the single-precision value 1.0. -/
theorem C33_classifier_partition_witness :
    (1 ≤ 8 ∧ 2 ≤ 24 ∧ 0x3f800000 < 2 ^ (8 + 24))
    ∧ (mk_smt_fpbv_is_positive (fp_val 8 24 0x3f800000)).toNat
        + (mk_smt_fpbv_is_negative (fp_val 8 24 0x3f800000)).toNat = 1 :=
  ⟨⟨by decide, by decide, by decide⟩,
    (C33_classifier_partition 8 24 0x3f800000 (by decide) (by decide) (by decide)).2⟩

/-! ## C38: reading a bit-vector from the model -/

theorem two_mul_lor_one (k : Nat) : (2 * k) ||| 1 = 2 * k + 1 := by
  have := Nat.lor_bit false k true 0
  simpa [Nat.bit_val] using this

theorem bits_value_lt (data : Nat → Bool) (w : Nat) : bits_value data w < 2 ^ w := by
  induction w with
  | zero => simp [bits_value]
  | succ w ih =>
    simp only [bits_value]
    rw [pow_succ_two]
    split <;> omega

/-- The loop of `get_bv` shifts the bits in, modulo 2^64. -/
theorem get_bv_loop_eq (data : Nat → Bool) (i : Nat) :
    ∀ val : Nat, val < 2 ^ 64 →
      get_bv_loop data i val = (val * 2 ^ i + bits_value data i) % 2 ^ 64 := by
  induction i with
  | zero =>
    intro val hval
    simp only [get_bv_loop, bits_value, Nat.pow_zero, Nat.mul_one, Nat.add_zero]
    exact (Nat.mod_eq_of_lt hval).symm
  | succ i ih =>
    intro val hval
    have hx : val * 2 % 2 ^ 64 = 2 * (val % 2 ^ 63) := by
      rw [Nat.mul_comm val 2, show (2 : Nat) ^ 64 = 2 * 2 ^ 63 from rfl, Nat.mul_mod_mul_left]
    have hk : val % 2 ^ 63 < 2 ^ 63 := Nat.mod_lt _ (two_pow_pos _)
    have hlor : (val * 2 % 2 ^ 64) ||| (if data i then 1 else 0)
        = val * 2 % 2 ^ 64 + (if data i then 1 else 0) := by
      rw [hx]
      split
      · exact two_mul_lor_one _
      · exact Nat.or_zero _
    have hlt : val * 2 % 2 ^ 64 + (if data i then 1 else 0) < 2 ^ 64 := by
      rw [hx, show (2 : Nat) ^ 64 = 2 * 2 ^ 63 from rfl]
      split <;> omega
    simp only [get_bv_loop, bits_value]
    rw [hlor, ih _ hlt]
    have h1 : (val * 2 % 2 ^ 64) ≡ val * 2 [MOD 2 ^ 64] := Nat.mod_modEq _ _
    have h2 : (val * 2 % 2 ^ 64 + (if data i then 1 else 0)) * 2 ^ i + bits_value data i
        ≡ (val * 2 + (if data i then 1 else 0)) * 2 ^ i + bits_value data i [MOD 2 ^ 64] :=
      ((h1.add_right _).mul_right _).add_right _
    have h3 : (val * 2 + (if data i then 1 else 0)) * 2 ^ i + bits_value data i
        = val * 2 ^ (i + 1) + (bits_value data i + if data i then 2 ^ i else 0) := by
      rw [pow_succ_two]
      split <;> ring
    rw [← h3]
    exact h2

/-- Claim C38 (divergence at width 64): in bit-vector mode, for every width
w ≤ 64 and all bits b, `get_bv` returns the unsigned integer with these bits
when w ≤ 63 or the top bit b[63] is 0; for w = 64 with b[63] = 1 it returns
that integer minus 2^64, a negative number, since the bits are collected in an
`int64_t`. -/
theorem C38_get_bv (w : Nat) (data : Nat → Bool) (hw : w ≤ 64) :
    get_bv w data
      = some (if w = 64 ∧ data 63 = true then (bits_value data w : Int) - 2 ^ 64
          else (bits_value data w : Int))
    ∧ (w = 64 → data 63 = true → get_bv w data = some ((bits_value data w : Int) - 2 ^ 64)
        ∧ (bits_value data w : Int) - 2 ^ 64 < 0) := by
  have hlt := bits_value_lt data w
  have hle : 2 ^ w ≤ 2 ^ 64 := Nat.pow_le_pow_right (by decide) hw
  have hloop : get_bv_loop data w 0 = bits_value data w := by
    rw [get_bv_loop_eq data w 0 (by decide), Nat.zero_mul, Nat.zero_add,
      Nat.mod_eq_of_lt (by omega)]
  have hmain : get_bv w data
      = some (if w = 64 ∧ data 63 = true then (bits_value data w : Int) - 2 ^ 64
          else (bits_value data w : Int)) := by
    simp only [get_bv, hw, if_true, hloop, int64_of_bits]
    congr 1
    by_cases h64 : w = 64
    · subst h64
      have hb : bits_value data 64 = bits_value data 63 + (if data 63 then 2 ^ 63 else 0) := rfl
      have h63 := bits_value_lt data 63
      by_cases hd : data 63 = true
      · rw [hd] at hb
        simp only [if_true] at hb
        rw [if_neg (by omega), if_pos ⟨rfl, hd⟩]
      · have hd' : data 63 = false := by simpa using hd
        rw [hd'] at hb
        simp only [Bool.false_eq_true, if_false, Nat.add_zero] at hb
        rw [if_pos (by omega), if_neg (by simp [hd'])]
    · have h63 : 2 ^ w ≤ 2 ^ 63 := Nat.pow_le_pow_right (by decide) (by omega)
      rw [if_pos (by omega), if_neg (by simp [h64])]
  refine ⟨hmain, ?_⟩
  intro h64 hd
  rw [hmain, if_pos ⟨h64, hd⟩]
  refine ⟨rfl, ?_⟩
  have : ((2 ^ 64 : Nat) : Int) = (2 : Int) ^ 64 := by norm_num
  omega

/-- Witness for C38: width 64, every bit 1: the unsigned value is 2^64 - 1 and
`get_bv` returns -1. -/
theorem C38_get_bv_witness :
    64 ≤ 64
    ∧ get_bv 64 (fun _ => true) = some ((bits_value (fun _ => true) 64 : Int) - 2 ^ 64)
    ∧ (bits_value (fun _ => true) 64 : Int) - 2 ^ 64 = -1 :=
  ⟨by decide, ((C38_get_bv 64 (fun _ => true) (by decide)).2 rfl rfl).1, by decide⟩

/-! ## C39: leading zeros -/

theorem leading_zero_bits_eq (n : Nat) : ∀ v : Nat, v < 2 ^ n →
    leading_zero_bits n v = n - Nat.size v := by
  induction n with
  | zero => intro v _; simp [leading_zero_bits]
  | succ n ih =>
    intro v hv
    simp only [leading_zero_bits]
    have hp := pow_succ_two n
    by_cases h : 2 ^ n ≤ v
    · have hd : v / 2 ^ n = 1 := div_eq_of_decomp v (2 ^ n) 1 (v - 2 ^ n) (by omega) (by omega)
      have hs : n < Nat.size v := Nat.lt_size.mpr h
      rw [hd, if_pos rfl]
      omega
    · have hlt : v < 2 ^ n := by omega
      have hd : v / 2 ^ n = 0 := Nat.div_eq_of_lt hlt
      have hs : Nat.size v ≤ n := Nat.size_le.mpr hlt
      rw [hd, if_neg (by decide), ih v hlt]
      omega

/-- Claim C39: for a bit-vector of width n ≥ 1 with value v and every max_bits
with n < 2^max_bits, `mk_leading_zeros` returns the max_bits-wide constant of
the number of leading zero bits of v (n when v = 0); the halving recursion is
finished at every depth bound of at least n, with the same result; and for
v ≠ 0 the vector shifted left by that amount has its top bit set. -/
theorem C39_leading_zeros (n v m : Nat) (hn : 1 ≤ n) (hv : v < 2 ^ n) (hm : n < 2 ^ m) :
    mk_leading_zeros ⟨mk_bv_sort n, v⟩ m = ⟨mk_bv_sort m, leading_zero_bits n v⟩
    ∧ mk_leading_zeros ⟨mk_bv_sort n, v⟩ m = mk_smt_bv (leading_zero_bits n v : Nat) m
    ∧ (∀ fuel, n ≤ fuel → mk_leading_zeros_fuel fuel ⟨mk_bv_sort n, v⟩ m
        = mk_leading_zeros ⟨mk_bv_sort n, v⟩ m)
    ∧ (v = 0 → leading_zero_bits n v = n)
    ∧ (v ≠ 0 →
        (mk_bvshl (mk_bv_sort n) ⟨mk_bv_sort n, v⟩ (mk_leading_zeros ⟨mk_bv_sort n, v⟩ m)).val
          / 2 ^ (n - 1) % 2 = 1) := by
  have hlz := leading_zero_bits_eq n v hv
  have hle : n - Nat.size v < 2 ^ m := by omega
  have h1 : mk_leading_zeros ⟨mk_bv_sort n, v⟩ m = ⟨mk_bv_sort m, leading_zero_bits n v⟩ := by
    rw [mk_leading_zeros_eq n v m hv, hlz, Nat.mod_eq_of_lt hle]
  refine ⟨h1, ?_, ?_, ?_, ?_⟩
  · rw [h1, mk_smt_bv_natCast, Nat.mod_eq_of_lt (by omega)]
  · intro fuel hf
    rw [mk_leading_zeros_fuel_eq fuel n v m hf hv, mk_leading_zeros_eq n v m hv]
  · intro h0
    rw [hlz, h0]
    simp
  · intro h0
    obtain ⟨_, _, hS1, hS2⟩ := shift_size_bounds n v h0 hv
    rw [h1, hlz]
    simp only [mk_bvshl, mk_bv_sort_data_width, Nat.mod_eq_of_lt hS2]
    have hp := pow_pred_two n hn
    have hd : v * 2 ^ (n - Nat.size v) / 2 ^ (n - 1) = 1 :=
      div_eq_of_decomp _ _ 1 (v * 2 ^ (n - Nat.size v) - 2 ^ (n - 1)) (by omega) (by omega)
    rw [hd]

/-- Witness for C39: the 8-bit vector 00010110 has three leading zeros. -/
theorem C39_leading_zeros_witness :
    (1 ≤ 8 ∧ 0x16 < 2 ^ 8 ∧ 8 < 2 ^ 8)
    ∧ mk_leading_zeros ⟨mk_bv_sort 8, 0x16⟩ 8 = ⟨mk_bv_sort 8, leading_zero_bits 8 0x16⟩
    ∧ leading_zero_bits 8 0x16 = 3 :=
  ⟨⟨by decide, by decide, by decide⟩,
    (C39_leading_zeros 8 0x16 8 (by decide) (by decide) (by decide)).1, by decide⟩

/-! ## C37: termination of the closure loop -/

/-- The third loop keeps `names` free of duplicates and inside `moved`, and
only extends the two lists. -/
theorem third_pass_lists (new_ctx : contextt) :
    ∀ (fuel i : Nat) (st st1 : link_state), st.names.Nodup → (∀ n ∈ st.names, n ∈ st.moved) →
      third_pass new_ctx fuel i st = some st1 →
      st1.names.Nodup ∧ (∀ n ∈ st1.names, n ∈ st1.moved)
        ∧ st.names <+: st1.names ∧ st.moved <+: st1.moved := by
  intro fuel
  induction fuel with
  | zero =>
    intro i st st1 _ _ h
    simp [third_pass] at h
  | succ fuel ih =>
    intro i st st1 hnd hsub h
    rw [third_pass] at h
    cases hg : st.names.get? i with
    | none =>
      rw [hg] at h
      simp only [Option.some.injEq] at h
      subst h
      exact ⟨hnd, hsub, List.prefix_refl _, List.prefix_refl _⟩
    | some nameit =>
      rw [hg] at h
      simp only [] at h
      cases hf : new_ctx.find nameit with
      | none =>
        rw [hf] at h
        exact ih (i + 1) st st1 hnd hsub h
      | some used_sym =>
        rw [hf] at h
        simp only [] at h
        obtain ⟨a, ea, ma, na, _, _⟩ :=
          fetch_symbol_eff used_sym ⟨st.names, st.moved ++ [used_sym.name]⟩
        simp only [] at ea ma
        rw [ea] at h
        simp only [] at h
        have hnd1 : (st.names ++ a).Nodup := by
          rw [List.nodup_append]
          refine ⟨hnd, na, ?_⟩
          intro x hx1 hx2
          exact (ma x hx2).2 (List.mem_append.mpr (Or.inl (hsub x hx1)))
        have hsub1 : ∀ n ∈ st.names ++ a, n ∈ st.moved ++ [used_sym.name] ++ a := by
          intro n hn
          rcases List.mem_append.mp hn with h1 | h1
          · exact List.mem_append.mpr (Or.inl (List.mem_append.mpr (Or.inl (hsub n h1))))
          · exact List.mem_append.mpr (Or.inr h1)
        obtain ⟨r1, r2, r3, r4⟩ := ih (i + 1) _ st1 hnd1 hsub1 h
        refine ⟨r1, r2, ?_, ?_⟩
        · exact List.IsPrefix.trans (List.prefix_append _ _) r3
        · refine List.IsPrefix.trans ?_ r4
          simp only [List.append_assoc]
          exact List.prefix_append _ _

/-- Claim C37: for every user context and every library, the closure loop of
`add_cprover_library` comes to an end (the function reaches `merge_context`
with a state st).  `fetch_list_of_contained_symbols` appends to `names` and to
`moved` the same identifiers, none of which was in `moved` and no two of which
are equal; so at the end no identifier occurs twice in `names`, every element
of `names` is in `moved`, and the lists at the start of the loop are prefixes
of the lists at its end. -/
theorem C37_closure_terminates (context new_ctx : contextt) :
    (∃ st, add_cprover_library context new_ctx = some st
      ∧ st.names.Nodup ∧ (∀ n ∈ st.names, n ∈ st.moved)
      ∧ (second_pass (first_pass context new_ctx.symbols ([], ⟨[]⟩)).2.symbols
          ⟨[], (first_pass context new_ctx.symbols ([], ⟨[]⟩)).1⟩).names <+: st.names
      ∧ (first_pass context new_ctx.symbols ([], ⟨[]⟩)).1 <+: st.moved)
    ∧ (∀ (t : irept) (l : fetch_lists), ∃ a : List String,
        fetch_list_of_contained_symbols t l = ⟨l.names ++ a, l.moved ++ a⟩
        ∧ a.Nodup ∧ ∀ n ∈ a, n ∉ l.moved) := by
  constructor
  · obtain ⟨st, hst, _⟩ := add_cprover_library_spec context new_ctx
    refine ⟨st, hst, ?_⟩
    unfold add_cprover_library at hst
    simp only [] at hst
    obtain ⟨a, ea, ma, na, _, _⟩ :=
      second_pass_spec (first_pass context new_ctx.symbols ([], ⟨[]⟩)).2.symbols
        ⟨[], (first_pass context new_ctx.symbols ([], ⟨[]⟩)).1⟩
    rw [ea] at hst ⊢
    simp only [List.nil_append] at hst ma ⊢
    obtain ⟨r1, r2, r3, r4⟩ := third_pass_lists new_ctx _ 0 _ st na
      (fun n hn => List.mem_append.mpr (Or.inr hn)) hst
    exact ⟨r1, r2, r3, List.IsPrefix.trans (List.prefix_append _ _) r4⟩
  · intro t l
    obtain ⟨a, ea, ma, na, _, _⟩ := fetch_list_eff t l
    exact ⟨a, ea, na, fun n hn => (ma n hn).2⟩

/-! ## C35: unpacking with normalization keeps the value -/

/-- Claim C35: for a format with 2 ≤ sbits < 2^ebits and every packed x that
denotes a finite nonzero value q (normal or denormal), the outputs
(sgn, sig, exp, lz) of `unpack x true` have the widths 1, sbits, ebits, ebits,
the top bit of sig is 1, and q = (-1)^sgn · sig · 2^(exp - lz - (sbits - 1)),
with exp read as a signed and lz as an unsigned integer. -/
theorem C35_unpack_value (ebits sbits v : Nat) (q : ℚ) (hsb : 2 ≤ sbits)
    (hfmt : sbits < 2 ^ ebits) (hv : v < 2 ^ (ebits + sbits))
    (hq : fp_denote (fp_val ebits sbits v) = .finite q) (hq0 : q ≠ 0) :
    (unpack (fp_val ebits sbits v) true).sgn.sort = mk_bv_sort 1
    ∧ (unpack (fp_val ebits sbits v) true).sig.sort = mk_bv_sort sbits
    ∧ (unpack (fp_val ebits sbits v) true).exp.sort = mk_bv_sort ebits
    ∧ (unpack (fp_val ebits sbits v) true).lz.sort = mk_bv_sort ebits
    ∧ (unpack (fp_val ebits sbits v) true).sig.val < 2 ^ sbits
    ∧ (unpack (fp_val ebits sbits v) true).sig.val / 2 ^ (sbits - 1) % 2 = 1
    ∧ q = (-1) ^ (unpack (fp_val ebits sbits v) true).sgn.val
        * ((unpack (fp_val ebits sbits v) true).sig.val : ℚ)
        * (2 : ℚ) ^ ((unpack (fp_val ebits sbits v) true).exp.to_signed
            - ((unpack (fp_val ebits sbits v) true).lz.val : Int) - ((sbits : Int) - 1)) := by
  have he : 2 ≤ ebits := by
    rcases Nat.lt_or_ge ebits 2 with h | h
    · interval_cases ebits <;> simp at hfmt <;> omega
    · exact h
  obtain ⟨hB, hB2, hB4, hB0⟩ := pow_facts ebits he
  obtain ⟨hx, hs, hE, hT⟩ := fp_val_eq_fields ebits sbits v (by omega) hv
  rw [hx] at hq ⊢
  generalize v / 2 ^ (ebits + (sbits - 1)) = s at *
  generalize v / 2 ^ (sbits - 1) % 2 ^ ebits = E at *
  generalize v % 2 ^ (sbits - 1) = T at *
  obtain ⟨htop, hqv, hnz⟩ := finite_nonzero_fields ebits sbits s E T q he hsb hs hE hT hq
  have h0 := hnz hq0
  obtain ⟨xe, L, hxe, hL, _, hux, hkx⟩ :=
    unpack_norm_gen ebits sbits s E T he hsb hfmt hs hE hT htop h0
  obtain ⟨hn1, hn2, hmag⟩ := norm_bounds sbits E T hsb hT h0
  rw [hux]
  simp only []
  refine ⟨trivial, trivial, trivial, trivial, hn2, ?_, ?_⟩
  · have hp := pow_pred_two sbits (by omega)
    have hd : norm_sig sbits E T / 2 ^ (sbits - 1) = 1 :=
      div_eq_of_decomp _ _ 1 (norm_sig sbits E T - 2 ^ (sbits - 1)) (by omega) (by omega)
    rw [hd]
  · rw [hkx, hqv]
    have hK : ((2 : Int) ^ (ebits - 1) + sbits - 3)
        = ((2 ^ (ebits - 1) + sbits - 3 : Nat) : Int) := by
      have : ((2 ^ (ebits - 1) + sbits - 3 : Nat) : Int)
          = ((2 ^ (ebits - 1) : Nat) : Int) + sbits - 3 := by omega
      rw [this]
      push_cast
      ring
    have hS : ((sbits : Int) - 1) = ((sbits - 1 : Nat) : Int) := by omega
    rw [hK, hS, zpow_sub₀ (by norm_num : (2 : ℚ) ≠ 0), zpow_sub₀ (by norm_num : (2 : ℚ) ≠ 0),
      zpow_natCast, zpow_natCast, zpow_natCast]
    have hm : (mag (sbits - 1) E T : ℚ) * 2 ^ (sbits - 1)
        = (norm_sig sbits E T : ℚ) * 2 ^ norm_exp sbits E T := by exact_mod_cast hmag
    have hp1 : (2 : ℚ) ^ (sbits - 1) ≠ 0 := by positivity
    have hp2 : (2 : ℚ) ^ (2 ^ (ebits - 1) + sbits - 3) ≠ 0 := by positivity
    field_simp
    linear_combination ((-1 : ℚ) ^ s * 2 ^ (2 ^ (ebits - 1) + sbits - 3)) * hm

/-- Witness for C35: the smallest single-precision denormal, 2^(-149). -/
theorem C35_unpack_value_witness :
    (2 ≤ 24 ∧ 24 < 2 ^ 8 ∧ 1 < 2 ^ (8 + 24)
      ∧ fp_denote (fp_val 8 24 1) = .finite ((2 : ℚ) ^ (-149 : Int))
      ∧ ((2 : ℚ) ^ (-149 : Int)) ≠ 0)
    ∧ (unpack (fp_val 8 24 1) true).sig.val / 2 ^ (24 - 1) % 2 = 1 :=
  have h1 : fp_denote (fp_val 8 24 1) = .finite ((2 : ℚ) ^ (-149 : Int)) := by
    simp only [fp_denote, fp_val, mk_fpbv_sort, mk_bv_fp_sort, smt_sort.get_exponent_width,
      smt_sort.get_significand_width, smt_sort.get_data_width]
    norm_num
  have h2 : ((2 : ℚ) ^ (-149 : Int)) ≠ 0 := by positivity
  ⟨⟨by decide, by decide, by decide, h1, h2⟩,
    (C35_unpack_value 8 24 1 _ (by decide) (by decide) (by decide) h1 h2).2.2.2.2.2.1⟩

/-! ## C34: multiplication is commutative -/

theorem mk_bvadd_comm (s : smt_sort) (a b : smt_ast) : mk_bvadd s a b = mk_bvadd s b a := by
  simp only [mk_bvadd, Nat.add_comm]

theorem mk_bvmul_comm (s : smt_sort) (a b : smt_ast) : mk_bvmul s a b = mk_bvmul s b a := by
  simp only [mk_bvmul, Nat.mul_comm]

theorem mk_bvxor_comm (s : smt_sort) (a b : smt_ast) : mk_bvxor s a b = mk_bvxor s b a := by
  simp only [mk_bvxor, Nat.xor_comm]

/-- The generic path of the multiplication does not depend on the order of
the operands. -/
theorem mul_generic_comm (ebits sbits vx vy : Nat) (rm : smt_ast) (he : 2 ≤ ebits)
    (hsb : 2 ≤ sbits) :
    mk_smt_fpbv_mul_generic (fp_val ebits sbits vx) (fp_val ebits sbits vy) rm
      = mk_smt_fpbv_mul_generic (fp_val ebits sbits vy) (fp_val ebits sbits vx) rm := by
  obtain ⟨a1, a2, a3, a4, _⟩ := unpack_sorts ebits sbits vx true he hsb
  obtain ⟨b1, b2, b3, b4, _⟩ := unpack_sorts ebits sbits vy true he hsb
  have hzx : ∀ (a : smt_ast) (n : Nat),
      (mk_zero_ext a n).sort = mk_bv_sort (a.sort.data_width + n) := fun _ _ => rfl
  have hwx : (fp_val ebits sbits vx).sort = (fp_val ebits sbits vy).sort := rfl
  simp only [mk_smt_fpbv_mul_generic, hzx, a1, a2, a3, a4, b1, b2, b3, b4, hwx]
  rw [mk_bvxor_comm, mk_bvmul_comm, mk_bvadd_comm]

/-- Claim C34: for every format with ebits ≥ 2 and sbits ≥ 2, all packed x, y
of the format and every rounding mode, `mk_smt_fpbv_mul x y rm` and
`mk_smt_fpbv_mul y x rm` are the same bit-vector, in the special cases (NaN,
infinities, zeros) and on the generic path. -/
theorem C34_mul_comm (ebits sbits vx vy : Nat) (rm : smt_ast) (he : 2 ≤ ebits)
    (hsb : 2 ≤ sbits) (hx : vx < 2 ^ (ebits + sbits)) (hy : vy < 2 ^ (ebits + sbits)) :
    mk_smt_fpbv_mul (fp_val ebits sbits vx) (fp_val ebits sbits vy) rm
      = mk_smt_fpbv_mul (fp_val ebits sbits vy) (fp_val ebits sbits vx) rm := by
  have hg := mul_generic_comm ebits sbits vx vy rm he hsb
  obtain ⟨hxf, hsx, hEx, hTx⟩ := fp_val_eq_fields ebits sbits vx (by omega) hx
  obtain ⟨hyf, hsy, hEy, hTy⟩ := fp_val_eq_fields ebits sbits vy (by omega) hy
  rw [hxf, hyf] at hg ⊢
  generalize vx / 2 ^ (ebits + (sbits - 1)) = sx at *
  generalize vx / 2 ^ (sbits - 1) % 2 ^ ebits = Ex at *
  generalize vx % 2 ^ (sbits - 1) = Tx at *
  generalize vy / 2 ^ (ebits + (sbits - 1)) = sy at *
  generalize vy / 2 ^ (sbits - 1) % 2 ^ ebits = Ey at *
  generalize vy % 2 ^ (sbits - 1) = Ty at *
  have htop := top_ne_zero ebits (by omega)
  rw [mul_fields ebits sbits sx Ex Tx sy Ey Ty rm (by omega) hsb hsx hEx hTx hsy hEy hTy,
    mul_fields ebits sbits sy Ey Ty sx Ex Tx rm (by omega) hsb hsy hEy hTy hsx hEx hTx, hg,
    Nat.add_comm sy sx]
  generalize mk_smt_fpbv_mul_generic _ _ _ = V
  by_cases h1 : Ex = 2 ^ ebits - 1 <;> by_cases h2 : Ey = 2 ^ ebits - 1 <;>
    by_cases h3 : Tx = 0 <;> by_cases h4 : Ty = 0 <;>
    by_cases h5 : Ex = 0 <;> by_cases h6 : Ey = 0 <;>
    first
    | omega
    | simp [h1, h2, h3, h4, h5, h6, htop, htop.symm]

/-- Witness for C34: single precision, 1.5 * (-2.0) and (-2.0) * 1.5. -/
theorem C34_mul_comm_witness :
    (2 ≤ 8 ∧ 2 ≤ 24 ∧ 0x3fc00000 < 2 ^ (8 + 24) ∧ 0xc0000000 < 2 ^ (8 + 24))
    ∧ mk_smt_fpbv_mul (fp_val 8 24 0x3fc00000) (fp_val 8 24 0xc0000000)
        (mk_smt_fpbv_rm .ROUND_TO_EVEN)
      = mk_smt_fpbv_mul (fp_val 8 24 0xc0000000) (fp_val 8 24 0x3fc00000)
        (mk_smt_fpbv_rm .ROUND_TO_EVEN) :=
  ⟨⟨by decide, by decide, by decide, by decide⟩,
    C34_mul_comm 8 24 0x3fc00000 0xc0000000 (mk_smt_fpbv_rm .ROUND_TO_EVEN) (by decide)
      (by decide) (by decide) (by decide)⟩

/-! ## C36: round and NaN -/

theorem concat_fields (ebits sbits s : Nat) (e g : smt_ast) (h1 : e.sort = mk_bv_sort ebits)
    (h3 : g.sort = mk_bv_sort (sbits - 1)) :
    mk_from_bv_to_fp (mk_concat ⟨mk_bv_sort 1, s⟩ (mk_concat e g))
        (mk_fpbv_sort ebits (sbits - 1)) = fp_of_fields ebits sbits s e.val g.val := by
  simp only [mk_from_bv_to_fp, mk_concat, h1, h3, mk_bv_sort_data_width, fp_of_fields,
    fp_val, Nat.add_assoc]

/-- When the significand increment carries out and OVF is not raised, the
exponent field that `round_finish` packs is not all ones. -/
theorem round_finish_carry (rm sig exp : smt_ast) (ebits sbits s : Nat) (he : 2 ≤ ebits)
    (hsb : 2 ≤ sbits)
    (hso : mk_eq (mk_extract sig sbits sbits) (mk_smt_bv 1 1) = true)
    (h2 : round_OVF2 sig exp ebits sbits = false) :
    ∃ E T, E < 2 ^ ebits ∧ T < 2 ^ (sbits - 1) ∧ E ≠ 2 ^ ebits - 1
      ∧ round_finish rm ⟨mk_bv_sort 1, s⟩ sig exp false ebits sbits
          = fp_of_fields ebits sbits s E T := by
  have e1 : ebits - 1 - 0 + 1 = ebits := by omega
  have e3 : sbits - 2 - 0 + 1 = sbits - 1 := by omega
  have htop := top_ne_zero ebits (by omega)
  simp only [round_OVF2, hso, Bool.true_and, mk_ite, if_true] at h2
  simp only [round_finish, hso, h2, mk_ite, if_true, Bool.true_and, Bool.false_or,
    Bool.false_eq_true, if_false]
  generalize hb : mk_bias (mk_extract (mk_bvadd exp.sort exp (mk_smt_bv 1 (ebits + 2)))
    (ebits - 1) 0) = b at h2 ⊢
  have hbs : b.sort = mk_bv_sort ebits := by
    rw [← hb]
    simp only [mk_bias, mk_bvadd, mk_extract, e1]
  have hbv : b.val < 2 ^ ebits := by
    rw [← hb]
    simp only [mk_bias, mk_bvadd, mk_extract, e1, mk_bv_sort_data_width,
      smt_sort.get_data_width]
    exact Nat.mod_lt _ (two_pow_pos _)
  have hbt : b.val ≠ 2 ^ ebits - 1 := by
    intro h
    simp [mk_eq, mk_bvredand, hbs, mk_bv_sort_data_width, h] at h2
  split
  · refine ⟨_, _, ?_, ?_, ?_, concat_fields ebits sbits s _ _ rfl ?_⟩
    · exact mk_smt_bv_lt _ _
    · simp only [mk_extract, e3]
      exact Nat.mod_lt _ (two_pow_pos _)
    · simp only [mk_bot_exp, mk_smt_bv_zero]
      exact htop.symm
    · simp only [mk_extract, e3]
  · refine ⟨_, _, ?_, ?_, ?_, concat_fields ebits sbits s _ _ hbs ?_⟩
    · exact hbv
    · simp only [mk_extract, e3]
      exact Nat.mod_lt _ (two_pow_pos _)
    · exact hbt
    · simp only [mk_extract, e3]

/-- The rounding decision is a single bit. -/
theorem rounding_decision_le_one (rm sgn last round sticky : smt_ast)
    (h1 : sgn.sort = mk_bv_sort 1) (h2 : round.sort = mk_bv_sort 1) (h3 : round.val ≤ 1) :
    (mk_rounding_decision rm sgn last round sticky).val ≤ 1 := by
  have hnot : ∀ a : smt_ast, (mk_bvnot (mk_bv_sort 1) a).val ≤ 1 := by
    intro a
    simp only [mk_bvnot, mk_bv_sort_data_width, Nat.pow_one]
    omega
  simp only [mk_rounding_decision, h1, h2]
  apply mk_ite_cases (fun a => a.val ≤ 1)
  · exact hnot _
  · apply mk_ite_cases (fun a => a.val ≤ 1)
    · exact h3
    · apply mk_ite_cases (fun a => a.val ≤ 1)
      · exact hnot _
      · apply mk_ite_cases (fun a => a.val ≤ 1)
        · exact hnot _
        · simp [mk_smt_bv_zero]

/-- The incremented significand of `round`: the sbits bits above the round bit
plus a one-bit increment. -/
theorem round_sig_inc_form (rm st : smt_ast) (sbits s : Nat) (hsb : 2 ≤ sbits) :
    ∃ i, i ≤ 1 ∧ round_sig_inc rm ⟨mk_bv_sort 1, s⟩ st sbits
      = ⟨mk_bv_sort (sbits + 1), st.val / 4 % 2 ^ sbits + i⟩ := by
  have e1 : sbits + 1 - 2 + 1 = sbits := by omega
  have hi := rounding_decision_le_one rm ⟨mk_bv_sort 1, s⟩ (mk_extract st 2 2)
    (mk_extract st 1 1) (mk_extract st 0 0) rfl rfl (by
      simp only [mk_extract, Nat.sub_self, Nat.zero_add, Nat.pow_one]
      omega)
  refine ⟨_, hi, ?_⟩
  have hlt := Nat.mod_lt (st.val / 4) (two_pow_pos sbits)
  have hp := pow_succ_two sbits
  simp only [round_sig_inc, mk_bvadd, mk_zero_ext, mk_extract_sort, mk_bv_sort_data_width,
    smt_sort.get_data_width, e1]
  generalize mk_rounding_decision _ _ _ _ _ = d at hi ⊢
  congr 1
  simp only [mk_extract, e1, show (2 : Nat) ^ 2 = 4 from rfl]
  exact Nat.mod_eq_of_lt (by omega)

/-- The constant that `round` compares against to test for a negative value
reads as -1 or as a non-negative number. -/
theorem ullmax_signed (w : Nat) (hw : 1 ≤ w) :
    -1 ≤ (mk_smt_bv ULONG_LONG_MAX w).to_signed := by
  by_cases h : w ≤ 64
  · rw [ullmax_eq w h]
    simp only [smt_ast.to_signed, mk_bv_sort_data_width]
    have := two_pow_pos w
    split
    · omega
    · push_cast [Nat.cast_sub this]
      omega
  · have hv : ULONG_LONG_MAX = ((2 ^ 64 - 1 : Nat) : Int) := by
      unfold ULONG_LONG_MAX
      norm_num
    have h1 : (2 : Nat) ^ 64 ≤ 2 ^ (w - 1) := Nat.pow_le_pow_right (by decide) (by omega)
    have h2 := pow_pred_two w hw
    rw [hv, mk_smt_bv_natCast]
    simp only [smt_ast.to_signed, mk_bv_sort_data_width]
    have h3 : (2 ^ 64 - 1) % 2 ^ w = 2 ^ 64 - 1 := Nat.mod_eq_of_lt (by omega)
    rw [h3, if_pos (by omega)]
    omega

theorem bvadd_smt_bv (w : Nat) (a b : Int) :
    mk_bvadd (mk_bv_sort w) (mk_smt_bv a w) (mk_smt_bv b w) = mk_smt_bv (a + b) w := by
  have hA := mk_smt_bv_val_cast a w
  have hB := mk_smt_bv_val_cast b w
  have hR := mk_smt_bv_val_cast (a + b) w
  have hs : (mk_smt_bv (a + b) w).sort = mk_bv_sort w := rfl
  generalize mk_smt_bv (a + b) w = r at *
  generalize mk_smt_bv a w = p at *
  generalize mk_smt_bv b w = q at *
  obtain ⟨rs, rv⟩ := r
  simp only at hs hR
  subst hs
  simp only [mk_bvadd, mk_bv_sort_data_width]
  congr 1
  apply Int.ofNat_inj.mp
  rw [hR]
  push_cast
  rw [hA, hB, ← Int.add_emod]

theorem emod_shift (x m : Int) (h0 : 0 ≤ x + m) (h1 : x < 0) : x % m = x + m := by
  rw [← Int.add_emod_self, Int.emod_eq_of_lt h0 (by omega)]

/-- The exponent arithmetic behind a packed exponent field of all ones: when
the exponent beta = e - lz + 1 lies above -5·B (B = 2^(ebits-1)), is congruent
to B modulo 2·B, and the test TINY fails, beta is B itself. -/
theorem round_wrap_arith (B e L : Int) (hB : 2 ≤ B) (he : e < B)
    (hL : 0 ≤ L) (hlow : -(5 * B) < e - L + 1)
    (hbm : (e - L + 1) % (8 * B) % (2 * B) = B)
    (ht : (e + 1 - L - (2 - B)) % (8 * B) < 4 * B) :
    e - L + 1 = B := by
  obtain ⟨β, hβ⟩ : ∃ β, β = e - L + 1 := ⟨_, rfl⟩
  have hx : e + 1 - L - (2 - B) = β - 2 + B := by omega
  rw [hx] at ht
  rw [← hβ] at hbm hlow ⊢
  have hβB : β ≤ B := by omega
  rw [Int.emod_emod_of_dvd β (⟨4, by ring⟩ : (2 * B) ∣ (8 * B))] at hbm
  have h2 := Int.emod_add_ediv β (2 * B)
  rw [hbm] at h2
  generalize β / (2 * B) = q at h2
  have hq1 : -3 < q := by
    by_contra hc
    have : 2 * B * q ≤ 2 * B * (-3) := mul_le_mul_of_nonneg_left (by omega) (by omega)
    omega
  have hq2 : q ≤ 0 := by
    by_contra hc
    have : 2 * B * 1 ≤ 2 * B * q := mul_le_mul_of_nonneg_left (by omega) (by omega)
    omega
  have hq : q = 0 ∨ q = -1 ∨ q = -2 := by omega
  rcases hq with rfl | rfl | rfl
  · omega
  · rw [emod_shift _ _ (by omega) (by omega)] at ht
    omega
  · rw [emod_shift _ _ (by omega) (by omega)] at ht
    omega

/-- What a cleared OVF1 says about the exponent and the top significand bit. -/
theorem round_OVF1_false_facts (ebits sbits V e : Nat) (he : 2 ≤ ebits)
    (h : round_OVF1 ⟨mk_bv_sort (sbits + 4), V⟩ ⟨mk_bv_sort (ebits + 2), e⟩ ebits sbits
      = false) :
    (2 ^ (ebits + 1) ≤ e ∨ e < 2 ^ (ebits - 1))
    ∧ (e = 2 ^ (ebits - 1) - 1 → V / 2 ^ (sbits + 3) % 2 = 0) := by
  obtain ⟨hB, hB2, hB4, hB0⟩ := pow_facts ebits he
  simp only [round_OVF1, mk_extract, Nat.sub_self, Nat.zero_add, Nat.pow_one, mk_eq,
    mk_smt_bv_one, show (1 : Nat) % 2 = 1 from rfl, mk_zero_ext, mk_max_exp, power2m1_false,
    mk_smt_bv_natCast] at h
  rw [hB2, hB] at h
  rw [hB2]
  generalize 2 ^ (ebits - 1) = B at *
  have hm : (B - 1) % (2 * B) = B - 1 := Nat.mod_eq_of_lt (by omega)
  rw [hm, Bool.or_eq_false_iff] at h
  obtain ⟨h1, h2⟩ := h
  constructor
  · by_contra hc
    have d1 : e / (4 * B) = 0 := Nat.div_eq_of_lt (by omega)
    by_cases h3 : e < 2 * B
    · have d2 : e / B = 1 := div_eq_of_decomp _ _ 1 (e - B) (by omega) (by omega)
      simp [d1, d2] at h1
    · have d3 : e / (2 * B) = 1 := div_eq_of_decomp _ _ 1 (e - 2 * B) (by omega) (by omega)
      simp [d1, d3] at h1
  · intro hE
    have hb : V / 2 ^ (sbits + 3) % 2 = 0 ∨ V / 2 ^ (sbits + 3) % 2 = 1 := by omega
    rcases hb with hb | hb
    · exact hb
    · simp [hE, hb] at h2

/-- The exponent terms of `round` in two's-complement reading: the leading
zero count L, beta = e - L + 1 and the value e + 1 - L - e_min that TINY tests,
all modulo 2^(ebits+2). -/
theorem round_exp_terms (ebits sbits V e : Nat) (he : 2 ≤ ebits) (hV : V < 2 ^ (sbits + 4))
    (hX : e < 2 ^ (ebits + 2)) :
    ∃ L : Nat, L ≤ sbits + 4
      ∧ mk_leading_zeros ⟨mk_bv_sort (sbits + 4), V⟩ (ebits + 2) = ⟨mk_bv_sort (ebits + 2), L⟩
      ∧ round_beta ⟨mk_bv_sort (sbits + 4), V⟩ ⟨mk_bv_sort (ebits + 2), e⟩ ebits
          = mk_smt_bv (smt_ast.to_signed ⟨mk_bv_sort (ebits + 2), e⟩ - (L : Int) + 1)
              (ebits + 2)
      ∧ round_TINY ⟨mk_bv_sort (sbits + 4), V⟩ ⟨mk_bv_sort (ebits + 2), e⟩ ebits
          = decide ((mk_smt_bv (smt_ast.to_signed ⟨mk_bv_sort (ebits + 2), e⟩ + 1 - (L : Int)
                - (2 - (2 : Int) ^ (ebits - 1))) (ebits + 2)).to_signed
              ≤ (mk_smt_bv ULONG_LONG_MAX (ebits + 2)).to_signed) := by
  obtain ⟨hB, hB2, hB4, hB0⟩ := pow_facts ebits he
  have hlz := mk_leading_zeros_eq (sbits + 4) V (ebits + 2) hV
  have hLlt := Nat.mod_lt (sbits + 4 - Nat.size V) (two_pow_pos (ebits + 2))
  have hLle : (sbits + 4 - Nat.size V) % 2 ^ (ebits + 2) ≤ sbits + 4 :=
    le_trans (Nat.mod_le _ _) (Nat.sub_le _ _)
  generalize (sbits + 4 - Nat.size V) % 2 ^ (ebits + 2) = L at hlz hLlt hLle
  have hexp := smt_bv_to_signed (ebits + 2) e (by omega) hX
  have hL : (⟨mk_bv_sort (ebits + 2), L⟩ : smt_ast) = mk_smt_bv (L : Int) (ebits + 2) := by
    rw [mk_smt_bv_natCast, Nat.mod_eq_of_lt hLlt]
  have hmin : mk_sign_ext (mk_min_exp ebits) 2
      = mk_smt_bv (2 - (2 : Int) ^ (ebits - 1)) (ebits + 2) := by
    rw [sign_ext_min_exp ebits he, ← mk_smt_bv_add_mul _ 1 (ebits + 2), one_mul,
      ← mk_smt_bv_natCast]
    congr 1
    have c1 : ((2 : Int) ^ (ebits + 2)) = ((2 ^ (ebits + 2) : Nat) : Int) := by simp
    have c2 : ((2 : Int) ^ (ebits - 1)) = ((2 ^ (ebits - 1) : Nat) : Int) := by simp
    rw [c1, c2, hB4]
    push_cast
    ring
  refine ⟨L, hLle, hlz, ?_, ?_⟩
  · simp only [round_beta, hlz]
    rw [← hexp, hL]
    rw [bvsub_smt_bv, bvadd_smt_bv, hexp]
  · simp only [round_TINY, hlz, hmin]
    rw [← hexp, hL]
    rw [bvadd_smt_bv, bvsub_smt_bv, bvsub_smt_bv, hexp]
    rfl

/-- With a zero shift the doubled significand is the significand followed by
sbits + 4 zero bits. -/
theorem round_big_sh_sig_zero (ebits sbits V : Nat) (hV : V < 2 ^ (sbits + 4)) :
    (round_big_sh_sig ⟨mk_bv_sort (sbits + 4), V⟩ ⟨mk_bv_sort (ebits + 2), 0⟩ ebits sbits).val
      = V * 2 ^ (sbits + 4) := by
  have hlt : V * 2 ^ (sbits + 4) < 2 ^ (sbits + 4 + (sbits + 4)) := by
    rw [Nat.pow_add 2 (sbits + 4) (sbits + 4)]
    exact Nat.mul_lt_mul_of_pos_right hV (two_pow_pos _)
  simp only [round_big_sh_sig, mk_bvneg, mk_bv_sort_data_width, Nat.zero_mod, Nat.sub_zero,
    Nat.mod_self, mk_bvulte, Nat.zero_le, decide_True, mk_ite, if_true, mk_zero_ext,
    mk_bvlshr, mk_bvshl, mk_concat, mk_smt_bv_zero, smt_sort.get_data_width, Nat.pow_zero,
    Nat.div_one, Nat.mul_one, Nat.add_zero, Nat.mod_eq_of_lt hlt]
  split <;> rfl

/-- A significand whose top bit is clear, left unshifted, has a clear top bit
after the sticky stage as well. -/
theorem round_sig_sticky_small (big : smt_ast) (sbits V : Nat) (hsb : 2 ≤ sbits)
    (hV : V < 2 ^ (sbits + 3)) (hb : big.val = V * 2 ^ (sbits + 4)) :
    (round_sig_sticky big (sbits + 4) sbits).val / 4 % 2 ^ sbits < 2 ^ (sbits - 1) := by
  have e1 : 2 * (sbits + 4) - 1 - (sbits + 2) + 1 = sbits + 6 := by omega
  have e2 : 2 * (sbits + 4) - 1 - (sbits + 6) + 1 = sbits + 2 := by omega
  have p1 : 2 ^ (sbits + 6) = 4 * 2 ^ (sbits + 4) := by
    rw [show sbits + 6 = sbits + 4 + 2 from rfl, Nat.pow_add]; ring
  have p2 : 2 ^ (sbits + 3) = 4 * 2 ^ (sbits + 1) := by
    rw [show sbits + 3 = sbits + 1 + 2 from rfl, Nat.pow_add]; ring
  have p3 : 2 ^ (sbits + 1) = 4 * 2 ^ (sbits - 1) := by
    rw [show sbits + 1 = sbits - 1 + 2 by omega, Nat.pow_add]; ring
  have p4 : 2 ^ (sbits + 2) = 2 * 2 ^ (sbits + 1) := pow_succ_two (sbits + 1)
  have d1 : V * 2 ^ (sbits + 4) / 2 ^ (sbits + 6) = V / 4 := by
    rw [p1, Nat.mul_comm 4, ← Nat.div_div_eq_div_mul, Nat.mul_div_cancel _ (two_pow_pos _)]
  have hx : V / 4 % 2 ^ (sbits + 2) < 2 ^ (sbits + 1) :=
    lt_of_le_of_lt (Nat.mod_le _ _) (by omega)
  have hk : ∀ a : smt_ast, (mk_bvredor a).val < 2 ^ (sbits + 1) := by
    intro a
    have := Nat.one_lt_two_pow (n := sbits + 1) (by omega)
    simp only [mk_bvredor]
    split <;> omega
  have hor := Nat.or_lt_two_pow hx (hk (mk_extract big (sbits + 6 - 1) 0))
  simp only [round_sig_sticky, e1, mk_extract, e2, hb, d1, mk_zero_ext, mk_bvor,
    mk_bv_sort_data_width]
  simp only [mk_extract, hb] at hor
  have h1 := Nat.mod_le
    (V / 4 % 2 ^ (sbits + 2) |||
      (mk_bvredor ⟨mk_bv_sort (sbits + 6 - 1 - 0 + 1),
        V * 2 ^ (sbits + 4) / 2 ^ 0 % 2 ^ (sbits + 6 - 1 - 0 + 1)⟩).val) (2 ^ (sbits + 2))
  refine lt_of_le_of_lt (Nat.mod_le _ _) ?_
  omega

/-- The last stage of `round` on an incremented significand R ≤ 2^sbits: the
result is a packed value with the given sign, and its fields can only be those
of a NaN when OVF1 is clear, the exponent is congruent to 2^(ebits-1) modulo
2^ebits and the significand has its leading bit set. -/
theorem round_finish_nan_cases (rm : smt_ast) (ovf1 : Bool) (ebits sbits s R Xe : Nat)
    (he : 2 ≤ ebits) (hsb : 2 ≤ sbits) (hR : R ≤ 2 ^ sbits) :
    ∃ E T, E < 2 ^ ebits ∧ T < 2 ^ (sbits - 1)
      ∧ round_finish rm ⟨mk_bv_sort 1, s⟩ ⟨mk_bv_sort (sbits + 1), R⟩
          ⟨mk_bv_sort (ebits + 2), Xe⟩ ovf1 ebits sbits = fp_of_fields ebits sbits s E T
      ∧ (E = 2 ^ ebits - 1 → T ≠ 0 →
          ovf1 = false ∧ Xe % 2 ^ ebits = 2 ^ (ebits - 1) ∧ 2 ^ (sbits - 1) < R) := by
  obtain ⟨hB, hB2, hB4, hB0⟩ := pow_facts ebits he
  have hP : 2 ^ sbits = 2 * 2 ^ (sbits - 1) := pow_pred_two sbits (by omega)
  have hPpos := two_pow_pos (sbits - 1)
  by_cases hovf : (ovf1 || round_OVF2 ⟨mk_bv_sort (sbits + 1), R⟩
      ⟨mk_bv_sort (ebits + 2), Xe⟩ ebits sbits) = true
  · rw [round_finish_ovf rm _ _ _ ovf1 ebits sbits (by omega) hovf]
    split
    · exact ⟨2 ^ ebits - 2, 2 ^ (sbits - 1) - 1, by omega, by omega, rfl, fun h => by omega⟩
    · exact ⟨2 ^ ebits - 1, 0, by omega, hPpos, rfl, fun _ h => absurd rfl h⟩
  · rw [Bool.not_eq_true, Bool.or_eq_false_iff] at hovf
    obtain ⟨h1, h2⟩ := hovf
    subst h1
    by_cases hlt : R < 2 ^ sbits
    · rw [round_finish_exact rm ebits sbits s R Xe he hsb hlt]
      refine ⟨_, _, ?_, Nat.mod_lt _ hPpos, rfl, ?_⟩
      · split
        · omega
        · exact Nat.mod_lt _ (two_pow_pos _)
      · intro hE hT
        by_cases hd : R / 2 ^ (sbits - 1) = 0
        · rw [if_pos hd] at hE
          omega
        · rw [if_neg hd] at hE
          refine ⟨rfl, ?_, ?_⟩
          · have hx := Nat.mod_lt Xe (two_pow_pos ebits)
            rw [hB] at hE hx ⊢
            generalize Xe % (2 * 2 ^ (ebits - 1)) = x at *
            generalize 2 ^ (ebits - 1) = B at *
            rcases mod_two_cases (x + (B - 1)) (2 * B) (by omega) with ⟨h, _⟩ | ⟨h, _⟩ <;>
              omega
          · have h3 : 2 ^ (sbits - 1) ≤ R := by
              by_contra hc
              exact hd (Nat.div_eq_of_lt (by omega))
            by_contra hc
            have h4 : R = 2 ^ (sbits - 1) := by omega
            rw [h4, Nat.mod_self] at hT
            exact hT rfl
    · have hReq : R = 2 ^ sbits := by omega
      have hso : mk_eq (mk_extract ⟨mk_bv_sort (sbits + 1), R⟩ sbits sbits) (mk_smt_bv 1 1)
          = true := by
        simp [mk_eq, mk_extract, hReq, Nat.div_self (two_pow_pos sbits)]
      obtain ⟨E, T, hE, hT, hne, heq⟩ := round_finish_carry rm _ _ ebits sbits s he hsb hso h2
      exact ⟨E, T, hE, hT, heq, fun h => absurd h hne⟩

/-- The exponent arithmetic of `round` when TINY fails and the biased exponent
is all ones: without wrap-around this happens only for e = e_max with no
leading zero. -/
theorem round_beta_is_top (ebits L e : Nat) (he : 2 ≤ ebits) (hX : e < 2 ^ (ebits + 2))
    (hrange : 2 ^ (ebits + 1) ≤ e ∨ e < 2 ^ (ebits - 1))
    (hwrap : L ≤ 2 ^ (ebits - 1)
      ∨ -(2 ^ (ebits + 1) : Int) ≤ smt_ast.to_signed ⟨mk_bv_sort (ebits + 2), e⟩ - (L : Int) + 1)
    (hXm : (smt_ast.to_signed ⟨mk_bv_sort (ebits + 2), e⟩ - (L : Int) + 1) % 2 ^ (ebits + 2)
      % ((2 ^ ebits : Nat) : Int) = ((2 ^ (ebits - 1) : Nat) : Int))
    (ht : (smt_ast.to_signed ⟨mk_bv_sort (ebits + 2), e⟩ + 1 - (L : Int)
      - (2 - (2 : Int) ^ (ebits - 1))) % 2 ^ (ebits + 2) < ((2 ^ (ebits + 1) : Nat) : Int)) :
    e = 2 ^ (ebits - 1) - 1 ∧ L = 0 := by
  obtain ⟨hB, hB2, hB4, hB0⟩ := pow_facts ebits he
  have c0 : ((2 : Int) ^ (ebits - 1)) = ((2 ^ (ebits - 1) : Nat) : Int) := by simp
  have c1 : ((2 : Int) ^ (ebits + 1)) = ((2 ^ (ebits + 1) : Nat) : Int) := by simp
  have c2 : ((2 : Int) ^ (ebits + 2)) = ((2 ^ (ebits + 2) : Nat) : Int) := by simp
  have hes : smt_ast.to_signed ⟨mk_bv_sort (ebits + 2), e⟩
      = if e < 2 ^ (ebits + 1) then (e : Int) else (e : Int) - 2 ^ (ebits + 2) := rfl
  generalize smt_ast.to_signed ⟨mk_bv_sort (ebits + 2), e⟩ = es at hwrap hXm ht hes
  rw [c0, c2, hB4, hB2] at ht
  rw [c1, hB2] at hwrap
  rw [c2, hB4, hB] at hXm
  rw [c2, hB4, hB2] at hes
  rw [hB4] at hX
  rw [hB2] at hrange
  generalize 2 ^ (ebits - 1) = B at hX hrange hwrap hXm ht hes hB0 ⊢
  push_cast at hwrap hXm ht hes
  have hes1 : es < B ∧ -(4 * (B : Int)) ≤ es := by
    split at hes <;> omega
  have hkey := round_wrap_arith (B : Int) es (L : Int) (by omega) hes1.1 (by omega)
    (by omega) hXm ht
  split at hes <;> omega

theorem to_signed_nonneg_lt (a : smt_ast) (w : Nat) (hs : a.sort = mk_bv_sort w)
    (hv : a.val < 2 ^ w) (h0 : 0 ≤ a.to_signed) : a.val < 2 ^ (w - 1) := by
  simp only [smt_ast.to_signed, hs, mk_bv_sort_data_width] at h0
  split at h0
  · assumption
  · have h1 : (a.val : Int) < ((2 ^ w : Nat) : Int) := by exact_mod_cast hv
    push_cast at h1
    omega

/-- The fields of the result of `round` when the exponent arithmetic does not
wrap: the sign given, and never an all-ones exponent field with a nonzero
trailing significand. -/
theorem round_no_nan_fields (rm : smt_ast) (ebits sbits s V e : Nat) (he : 2 ≤ ebits)
    (hsb : 2 ≤ sbits) (hV : V < 2 ^ (sbits + 4)) (hX : e < 2 ^ (ebits + 2))
    (hwrap : sbits + 4 ≤ 2 ^ (ebits - 1)
      ∨ -(2 ^ (ebits + 1) : Int) ≤ smt_ast.to_signed ⟨mk_bv_sort (ebits + 2), e⟩
          - ((mk_leading_zeros ⟨mk_bv_sort (sbits + 4), V⟩ (ebits + 2)).val : Int) + 1) :
    ∃ E T, E < 2 ^ ebits ∧ T < 2 ^ (sbits - 1)
      ∧ round rm ⟨mk_bv_sort 1, s⟩ ⟨mk_bv_sort (sbits + 4), V⟩ ⟨mk_bv_sort (ebits + 2), e⟩
          ebits sbits = fp_of_fields ebits sbits s E T
      ∧ (E = 2 ^ ebits - 1 → T = 0) := by
  obtain ⟨hB, hB2, hB4, hB0⟩ := pow_facts ebits he
  have hP : 2 ^ sbits = 2 * 2 ^ (sbits - 1) := pow_pred_two sbits (by omega)
  have hP4 : 2 ^ (sbits + 4) = 2 * 2 ^ (sbits + 3) := pow_succ_two (sbits + 3)
  have c0 : ((2 : Int) ^ (ebits - 1)) = ((2 ^ (ebits - 1) : Nat) : Int) := by simp
  have c1 : ((2 : Int) ^ (ebits + 1)) = ((2 ^ (ebits + 1) : Nat) : Int) := by simp
  have c2 : ((2 : Int) ^ (ebits + 2)) = ((2 ^ (ebits + 2) : Nat) : Int) := by simp
  obtain ⟨L, hLle, hlz, hbeta, htiny⟩ := round_exp_terms ebits sbits V e he hV hX
  rw [hlz] at hwrap
  simp only [round, smt_sort.get_data_width, mk_bv_sort_data_width]
  obtain ⟨i, hi, hinc⟩ := round_sig_inc_form rm
    (round_sig_sticky (round_big_sh_sig ⟨mk_bv_sort (sbits + 4), V⟩
      (round_sigma ⟨mk_bv_sort (sbits + 4), V⟩ ⟨mk_bv_sort (ebits + 2), e⟩ ebits) ebits sbits)
      (sbits + 4) sbits) sbits s hsb
  rw [hinc]
  generalize hs0 : (round_sig_sticky (round_big_sh_sig ⟨mk_bv_sort (sbits + 4), V⟩
      (round_sigma ⟨mk_bv_sort (sbits + 4), V⟩ ⟨mk_bv_sort (ebits + 2), e⟩ ebits) ebits sbits)
      (sbits + 4) sbits).val / 4 % 2 ^ sbits = s0
  have hs0lt : s0 < 2 ^ sbits := by
    rw [← hs0]
    exact Nat.mod_lt _ (two_pow_pos _)
  have hxs : (mk_ite (round_TINY ⟨mk_bv_sort (sbits + 4), V⟩ ⟨mk_bv_sort (ebits + 2), e⟩ ebits)
      (mk_zero_ext (mk_min_exp ebits) 2)
      (round_beta ⟨mk_bv_sort (sbits + 4), V⟩ ⟨mk_bv_sort (ebits + 2), e⟩ ebits)).sort
        = mk_bv_sort (ebits + 2) := by
    rw [mk_ite_sort]
    exact mk_ite_same _ _
  generalize hxe : mk_ite (round_TINY ⟨mk_bv_sort (sbits + 4), V⟩
      ⟨mk_bv_sort (ebits + 2), e⟩ ebits) (mk_zero_ext (mk_min_exp ebits) 2)
      (round_beta ⟨mk_bv_sort (sbits + 4), V⟩ ⟨mk_bv_sort (ebits + 2), e⟩ ebits) = x at hxs ⊢
  obtain ⟨xs, Xe⟩ := x
  simp only at hxs
  subst hxs
  obtain ⟨E, T, hE, hT, heq, hnan⟩ := round_finish_nan_cases rm
    (round_OVF1 ⟨mk_bv_sort (sbits + 4), V⟩ ⟨mk_bv_sort (ebits + 2), e⟩ ebits sbits)
    ebits sbits s (s0 + i) Xe he hsb (by omega)
  refine ⟨E, T, hE, hT, heq, ?_⟩
  intro hEt
  by_contra hT0
  obtain ⟨hO1, hXm, hRgt⟩ := hnan hEt hT0
  obtain ⟨hrange, htopbit⟩ := round_OVF1_false_facts ebits sbits V e he hO1
  have hs0ge : 2 ^ (sbits - 1) ≤ s0 := by omega
  cases hTY : round_TINY ⟨mk_bv_sort (sbits + 4), V⟩ ⟨mk_bv_sort (ebits + 2), e⟩ ebits
  · -- TINY is false: the exponent is beta
    rw [hTY] at hxe htiny
    simp only [mk_ite, Bool.false_eq_true, if_false] at hxe
    rw [hbeta] at hxe
    have hXc := mk_smt_bv_val_cast
      (smt_ast.to_signed ⟨mk_bv_sort (ebits + 2), e⟩ - (L : Int) + 1) (ebits + 2)
    rw [hxe] at hXc
    simp only at hXc
    have ht := of_decide_eq_false htiny.symm
    have hc := ullmax_signed (ebits + 2) (by omega)
    have htv := mk_smt_bv_val_cast (smt_ast.to_signed ⟨mk_bv_sort (ebits + 2), e⟩ + 1 - (L : Int)
      - (2 - (2 : Int) ^ (ebits - 1))) (ebits + 2)
    have htlt := mk_smt_bv_lt (smt_ast.to_signed ⟨mk_bv_sort (ebits + 2), e⟩ + 1 - (L : Int)
      - (2 - (2 : Int) ^ (ebits - 1))) (ebits + 2)
    have ht0 : 0 ≤ (mk_smt_bv (smt_ast.to_signed ⟨mk_bv_sort (ebits + 2), e⟩ + 1 - (L : Int)
      - (2 - (2 : Int) ^ (ebits - 1))) (ebits + 2)).to_signed := by omega
    have htn := to_signed_nonneg_lt _ (ebits + 2) rfl htlt ht0
    rw [show ebits + 2 - 1 = ebits + 1 from rfl] at htn
    have htsmall : ((mk_smt_bv (smt_ast.to_signed ⟨mk_bv_sort (ebits + 2), e⟩ + 1 - (L : Int)
        - (2 - (2 : Int) ^ (ebits - 1))) (ebits + 2)).val : Int)
        < ((2 ^ (ebits + 1) : Nat) : Int) := by
      exact_mod_cast htn
    rw [htv] at htsmall
    have hXm2 : ((Xe : Int)) % ((2 ^ ebits : Nat) : Int) = ((2 ^ (ebits - 1) : Nat) : Int) := by
      rw [← Int.natCast_mod, hXm]
    rw [hXc] at hXm2
    have hkey := round_beta_is_top ebits L e he hX hrange (by
      rcases hwrap with h | h
      · left
        omega
      · right
        exact h) hXm2 htsmall
    obtain ⟨hee, hL0⟩ := hkey
    subst hL0
    have hVs : V < 2 ^ (sbits + 3) := by
      have h1 := htopbit hee
      have h2 : V / 2 ^ (sbits + 3) < 2 := by
        rw [Nat.div_lt_iff_lt_mul (two_pow_pos _)]
        omega
      have h3 : V / 2 ^ (sbits + 3) = 0 := by
        generalize V / 2 ^ (sbits + 3) = x at h1 h2 ⊢
        omega
      by_contra hc
      have h4 := Nat.div_pos (Nat.le_of_not_lt hc) (two_pow_pos (sbits + 3))
      omega
    have hsg : round_sigma ⟨mk_bv_sort (sbits + 4), V⟩ ⟨mk_bv_sort (ebits + 2), e⟩ ebits
        = ⟨mk_bv_sort (ebits + 2), 0⟩ := by
      simp only [round_sigma, hTY, mk_ite, Bool.false_eq_true, if_false, hlz]
    rw [hsg] at hs0
    have hsm := round_sig_sticky_small
      (round_big_sh_sig ⟨mk_bv_sort (sbits + 4), V⟩ ⟨mk_bv_sort (ebits + 2), 0⟩ ebits sbits)
      sbits V hsb hVs (round_big_sh_sig_zero ebits sbits V hV)
    rw [hs0] at hsm
    omega
  · -- TINY is true: the exponent is e_min
    rw [hTY] at hxe
    simp only [mk_ite, if_true, mk_zero_ext, mk_min_exp_eq ebits he] at hxe
    have hv := congrArg smt_ast.val hxe
    simp only at hv
    rw [← hv, Nat.mod_mod, hB] at hXm
    generalize 2 ^ (ebits - 1) = B at hXm hB0
    by_cases h2 : B = 2
    · subst h2
      simp at hXm
    · rw [Nat.mod_eq_of_lt (by omega)] at hXm
      omega

set_option maxRecDepth 4000 in
/-- Claim C36 fails as stated: in the format ebits = 3, sbits = 3, with rm =
round-to-nearest-even, sign 0, the 7-bit significand 0000011 (five leading
zeros) and the 5-bit exponent 10000 (-16), the difference e - lz + 1 = -20 wraps
around to 12, and `round` packs 0 111 10: an exponent field of all ones with a
nonzero trailing significand, a NaN. -/
theorem C36_round_nan_on_wrap :
    (2 ≤ 3 ∧ 3 < 2 ^ (3 + 4) ∧ 16 < 2 ^ (3 + 2))
    ∧ round (mk_smt_fpbv_rm .ROUND_TO_EVEN) ⟨mk_bv_sort 1, 0⟩ ⟨mk_bv_sort (3 + 4), 3⟩
        ⟨mk_bv_sort (3 + 2), 16⟩ 3 3 = fp_of_fields 3 3 0 7 2
    ∧ (extract_exponent (round (mk_smt_fpbv_rm .ROUND_TO_EVEN) ⟨mk_bv_sort 1, 0⟩
        ⟨mk_bv_sort (3 + 4), 3⟩ ⟨mk_bv_sort (3 + 2), 16⟩ 3 3)).val = 2 ^ 3 - 1
    ∧ (extract_significand (round (mk_smt_fpbv_rm .ROUND_TO_EVEN) ⟨mk_bv_sort 1, 0⟩
        ⟨mk_bv_sort (3 + 4), 3⟩ ⟨mk_bv_sort (3 + 2), 16⟩ 3 3)).val ≠ 0
    ∧ mk_smt_fpbv_is_nan (round (mk_smt_fpbv_rm .ROUND_TO_EVEN) ⟨mk_bv_sort 1, 0⟩
        ⟨mk_bv_sort (3 + 4), 3⟩ ⟨mk_bv_sort (3 + 2), 16⟩ 3 3) = true := by
  decide

/-- Claim C36, amended: `round` never produces a NaN when its exponent
arithmetic does not wrap around. For every format (ebits ≥ 2, sbits ≥ 2), every
rounding-mode term rm (so every 3-bit value, the unused encodings 5..7
included), every sign bit s, every (sbits+4)-bit significand and every
(ebits+2)-bit exponent e, the packed result has the sort of the format, of width
1 + ebits + (sbits - 1), and keeps the input sign bit; and if
sbits + 4 ≤ 2^(ebits-1) or e - lz + 1 ≥ -2^(ebits+1), where e is read in two's
complement and lz is the leading-zero count of the significand as `round`
computes it in ebits + 2 bits, then whenever the exponent field of the result is
all ones its trailing significand is zero, so that the NaN classifier rejects
it. -/
theorem C36_round_no_nan (rm : smt_ast) (ebits sbits s V e : Nat) (he : 2 ≤ ebits)
    (hsb : 2 ≤ sbits) (hs : s < 2) (hV : V < 2 ^ (sbits + 4)) (hX : e < 2 ^ (ebits + 2)) :
    (round rm ⟨mk_bv_sort 1, s⟩ ⟨mk_bv_sort (sbits + 4), V⟩ ⟨mk_bv_sort (ebits + 2), e⟩
        ebits sbits).sort = mk_fpbv_sort ebits (sbits - 1)
    ∧ (round rm ⟨mk_bv_sort 1, s⟩ ⟨mk_bv_sort (sbits + 4), V⟩ ⟨mk_bv_sort (ebits + 2), e⟩
        ebits sbits).sort.get_data_width = 1 + ebits + (sbits - 1)
    ∧ extract_signbit (round rm ⟨mk_bv_sort 1, s⟩ ⟨mk_bv_sort (sbits + 4), V⟩
        ⟨mk_bv_sort (ebits + 2), e⟩ ebits sbits) = ⟨mk_bv_sort 1, s⟩
    ∧ (sbits + 4 ≤ 2 ^ (ebits - 1)
        ∨ -(2 ^ (ebits + 1) : Int) ≤ smt_ast.to_signed ⟨mk_bv_sort (ebits + 2), e⟩
          - ((mk_leading_zeros ⟨mk_bv_sort (sbits + 4), V⟩ (ebits + 2)).val : Int) + 1 →
        ((extract_exponent (round rm ⟨mk_bv_sort 1, s⟩ ⟨mk_bv_sort (sbits + 4), V⟩
            ⟨mk_bv_sort (ebits + 2), e⟩ ebits sbits)).val = 2 ^ ebits - 1 →
          (extract_significand (round rm ⟨mk_bv_sort 1, s⟩ ⟨mk_bv_sort (sbits + 4), V⟩
            ⟨mk_bv_sort (ebits + 2), e⟩ ebits sbits)).val = 0)
        ∧ mk_smt_fpbv_is_nan (round rm ⟨mk_bv_sort 1, s⟩ ⟨mk_bv_sort (sbits + 4), V⟩
            ⟨mk_bv_sort (ebits + 2), e⟩ ebits sbits) = false) := by
  refine ⟨?_, ?_, round_sign rm _ _ ebits sbits s (by omega) hsb hs, ?_⟩
  · obtain ⟨E, T, _, _, heq⟩ := round_fields_exists rm ⟨mk_bv_sort (sbits + 4), V⟩
      ⟨mk_bv_sort (ebits + 2), e⟩ ebits sbits s (by omega) hsb
    rw [heq]
    rfl
  · obtain ⟨E, T, _, _, heq⟩ := round_fields_exists rm ⟨mk_bv_sort (sbits + 4), V⟩
      ⟨mk_bv_sort (ebits + 2), e⟩ ebits sbits s (by omega) hsb
    rw [heq]
    simp only [fp_of_fields, fp_val, mk_fpbv_sort, mk_bv_fp_sort, smt_sort.get_data_width]
    omega
  · intro hwrap
    obtain ⟨E, T, hE, hT, heq, hnn⟩ :=
      round_no_nan_fields rm ebits sbits s V e he hsb hV hX hwrap
    rw [heq, extract_exponent_fields ebits sbits s E T (by omega) hsb hE hT,
      extract_significand_fields ebits sbits s E T hsb hT,
      is_nan_fields ebits sbits s E T (by omega) hsb hE hT]
    refine ⟨hnn, ?_⟩
    by_cases h : E = 2 ^ ebits - 1
    · simp [hnn h]
    · simp [h]

/-- Witness for C36: single precision, round to nearest even, sign 0, a
significand with its top bit set at the largest exponent 127: the result is the
infinity, not a NaN. -/
theorem C36_round_no_nan_witness :
    (2 ≤ 8 ∧ 2 ≤ 24 ∧ 0 < 2 ∧ 0xf000000 < 2 ^ (24 + 4) ∧ 127 < 2 ^ (8 + 2)
      ∧ 24 + 4 ≤ 2 ^ (8 - 1))
    ∧ extract_signbit (round (mk_smt_fpbv_rm .ROUND_TO_EVEN) ⟨mk_bv_sort 1, 0⟩
        ⟨mk_bv_sort (24 + 4), 0xf000000⟩ ⟨mk_bv_sort (8 + 2), 127⟩ 8 24) = ⟨mk_bv_sort 1, 0⟩
    ∧ mk_smt_fpbv_is_nan (round (mk_smt_fpbv_rm .ROUND_TO_EVEN) ⟨mk_bv_sort 1, 0⟩
        ⟨mk_bv_sort (24 + 4), 0xf000000⟩ ⟨mk_bv_sort (8 + 2), 127⟩ 8 24) = false :=
  ⟨by decide,
    (C36_round_no_nan (mk_smt_fpbv_rm .ROUND_TO_EVEN) 8 24 0 0xf000000 127 (by decide)
      (by decide) (by decide) (by decide) (by decide)).2.2.1,
    ((C36_round_no_nan (mk_smt_fpbv_rm .ROUND_TO_EVEN) 8 24 0 0xf000000 127 (by decide)
      (by decide) (by decide) (by decide) (by decide)).2.2.2 (Or.inl (by decide))).2⟩

end esbmc
